import Mathlib

/-!
# Disk based B-tree (`src/utec/disk/btree.h`)

Shallow embedding of `utec::disk::btree<T, BTREE_ORDER>` and a verification
development about its insertion algorithm.

Modelling conventions.

* `BTREE_ORDER` is the parameter `M : Nat` of every definition.
* The template parameter `T` is instantiated with `long`; keys (`long`) and
  values are `Int`.  No arithmetic is performed on keys or values, they are
  only copied and compared.
* `node::count`, loop counters and array indices are `Nat`: in the source they
  start at `0` and are only incremented (or set to `1`).
* The fixed size arrays `keys[M+1]`, `data[M+1]`, `children[M+2]` are lists of
  exactly that length.  An array write is `List.set`, an array read is
  `List.getD _ _ 0`.
* Page identifiers and `Metadata::count` are `Int` (`long`); `read_node`
  builds the temporary `node{-1}`.
* The page manager (`pagemanager.h`) is not part of the sources.  It is
  modelled as the map from page ids to the record last saved there.
* The recursive `insert(node&, const T&, long)` descends through page ids read
  from the store, so it takes a fuel argument and returns an `Option`.
-/

namespace utec.disk

/-! ## Data model -/

/-- The record `btree::node`. -/
structure node where
  page_id : Int
  count : Nat
  keys : List Int
  data : List Int
  children : List Int
deriving DecidableEq, Repr

/-- The record `btree::Metadata`; the member initialisers give `root_id{1}`,
`count{0}`. -/
structure Metadata where
  root_id : Int
  count : Int
deriving DecidableEq, Repr

/-- The enumeration `btree::state`. -/
inductive state where
  | BT_OVERFLOW
  | BT_UNDERFLOW
  | NORMAL
deriving DecidableEq, Repr

/-- A record held by the page store: the header record or a node record. -/
inductive Page where
  | header (h : Metadata)
  | node (n : node)
deriving DecidableEq, Repr

/-- Modelled from the spec: the page manager of `pagemanager.h`, which is not
part of the sources.  The spec asks of it two operations, "persist a
fixed-size record under a page id" and "retrieve the fixed-size record stored
under a page id"; the store is the map from page ids to the record last
saved there. -/
def pagemanager : Type := Int → Option Page

/-- Modelled from the spec: a page store in which nothing was saved yet. -/
def pagemanager.empty : pagemanager := fun _ => none

/-- Modelled from the spec: `pagemanager::save(page_id, record)` persists or
overwrites the record stored under `page_id`. -/
def pagemanager.save (pm : pagemanager) (page_id : Int) (p : Page) : pagemanager :=
  fun i => if i = page_id then some p else pm i

/-- Modelled from the spec: `pagemanager::recover(page_id, n)` retrieves the
node record saved under `page_id`; when no node record is stored there the
destination is left as it was. -/
def pagemanager.recover (pm : pagemanager) (page_id : Int) (n : node) : node :=
  match pm page_id with
  | some (Page.node m) => m
  | _ => n

/-- The class `btree`: the member `header` and the shared page manager `pm`. -/
structure btree where
  header : Metadata
  pm : pagemanager

/-- Constructor `node(long page_id)`: `count = 0`, every child and key slot is
zeroed.  (The loop also runs over index `M+1` of `keys`, one past its end;
that write falls outside the array and is not modelled.  `data` is not
initialised by the source; its slots are modelled as `0`.) -/
def node.new (M : Nat) (page_id : Int) : node :=
  { page_id := page_id
    count := 0
    keys := List.replicate (M + 1) 0
    data := List.replicate (M + 1) 0
    children := List.replicate (M + 2) 0 }

/-- The shifting `while (j > pos)` loop of `insert_in_node`, started at
`j`; it returns the node and the final value of `j`. -/
def node.shift (pos : Nat) : Nat → node → node × Nat
  | 0, n => (n, 0)
  | j + 1, n =>
    if pos < j + 1 then
      node.shift pos j
        { n with
          data := n.data.set (j + 1) (n.data.getD j 0)
          keys := n.keys.set (j + 1) (n.keys.getD j 0)
          children := n.children.set (j + 2) (n.children.getD (j + 1) 0) }
    else (n, j + 1)

/-- Method `node::insert_in_node(pos, value, key, isLeaf)`. -/
def node.insert_in_node (n : node) (pos : Nat) (value : Int) (key : Int)
    (isLeaf : Bool) : node :=
  let r := node.shift pos n.count n
  let m := r.1
  let j := r.2
  let m := { m with keys := m.keys.set j key }
  let m := if isLeaf then { m with data := m.data.set j value } else m
  let m := { m with children := m.children.set (j + 1) (m.children.getD j 0) }
  { m with count := m.count + 1 }

/-- Method `node::is_overflow()`. -/
def node.is_overflow (M : Nat) (n : node) : Bool := decide (M < n.count)

/-! ## The engine -/

/-- Constructor `btree(pm)`: saves an empty root under `header.root_id`,
increments `header.count` and saves the header under page `0`. -/
def btree.new (M : Nat) (pm : pagemanager) : btree :=
  let header : Metadata := { root_id := 1, count := 0 }
  let root := node.new M header.root_id
  let pm := pm.save root.page_id (Page.node root)
  let header := { header with count := header.count + 1 }
  { header := header, pm := pm.save 0 (Page.header header) }

/-- Method `btree::new_node()`. -/
def btree.new_node (M : Nat) (bt : btree) : btree × node :=
  let header := { bt.header with count := bt.header.count + 1 }
  let ret := node.new M header.count
  ({ header := header, pm := bt.pm.save 0 (Page.header header) }, ret)

/-- Method `btree::read_node(page_id)`. -/
def btree.read_node (M : Nat) (bt : btree) (page_id : Int) : node :=
  bt.pm.recover page_id (node.new M (-1))

/-- Method `btree::write_node(page_id, n)`. -/
def btree.write_node (bt : btree) (page_id : Int) (n : node) : btree :=
  { bt with pm := bt.pm.save page_id (Page.node n) }

/-- The position scan of `insert(node&, value, key)`:
`while (pos < ptr.count && ptr.keys[pos] < value) pos++`.
The stored keys are compared with `value`. -/
def scan (ptr : node) (value : Int) : Nat → Nat → Nat
  | 0, pos => pos
  | fuel + 1, pos =>
    if pos < ptr.count ∧ ptr.keys.getD pos 0 < value then scan ptr value fuel (pos + 1)
    else pos

/-- The body of the copy loops of `split` and `split_root`:
`dst.children[i] = ptr.children[iter]; dst.keys[i] = ptr.keys[iter];
if (ptr.children[0]==0) std::swap(dst.data[i], ptr.data[iter]); dst.count++;`
(`split_root` performs the swap before the key assignment; the statements
touch different arrays).  The result is `(dst, ptr)`. -/
def copy_body (dst ptr : node) (i iter : Nat) : node × node :=
  let dst := { dst with children := dst.children.set i (ptr.children.getD iter 0) }
  let dst := { dst with keys := dst.keys.set i (ptr.keys.getD iter 0) }
  let a := dst.data.getD i 0
  let b := ptr.data.getD iter 0
  let r : node × node :=
    if ptr.children.getD 0 0 = 0 then
      ({ dst with data := dst.data.set i b }, { ptr with data := ptr.data.set iter a })
    else (dst, ptr)
  ({ r.1 with count := r.1.count + 1 }, r.2)

/-- The copy loops of `split` and `split_root`:
`for (i = 0; iter < bound; i++) { body; iter++; }`.
The first argument counts the iterations left; the result is
`(dst, ptr, i, iter)`. -/
def copy_loop (bound : Nat) : Nat → node → node → Nat → Nat → node × node × Nat × Nat
  | 0, dst, ptr, i, iter => (dst, ptr, i, iter)
  | fuel + 1, dst, ptr, i, iter =>
    if iter < bound then
      let r := copy_body dst ptr i iter
      copy_loop bound fuel r.1 r.2 (i + 1) (iter + 1)
    else (dst, ptr, i, iter)

/-- Method `btree::split(parent, pos)`; `parent` is passed by reference, so the
updated parent is returned together with the engine. -/
def btree.split (M : Nat) (bt : btree) (parent : node) (pos : Nat) : btree × node :=
  let ptr := bt.read_node M (parent.children.getD pos 0)
  let (bt, left) := bt.new_node M
  let (bt, right) := bt.new_node M
  let (left, ptr, i, iter) := copy_loop (M / 2) (M / 2) left ptr 0 0
  let left := { left with children := left.children.set i (ptr.children.getD iter 0) }
  let parent := parent.insert_in_node pos (ptr.data.getD iter 0) (ptr.keys.getD iter 0) false
  let iter := if ptr.children.getD 0 0 ≠ 0 then iter + 1 else iter
  let (right, ptr, i, iter) := copy_loop (M + 1) (M + 1 - iter) right ptr 0 iter
  let right := { right with children := right.children.set i (ptr.children.getD iter 0) }
  let parent := { parent with children := parent.children.set pos left.page_id }
  let parent := { parent with children := parent.children.set (pos + 1) right.page_id }
  let bt := bt.write_node parent.page_id parent
  let bt := bt.write_node left.page_id left
  let bt := bt.write_node right.page_id right
  (bt, parent)

/-- Method `btree::split_root()`. -/
def btree.split_root (M : Nat) (bt : btree) : btree :=
  let ptr := bt.read_node M bt.header.root_id
  let (bt, left) := bt.new_node M
  let (bt, right) := bt.new_node M
  let pos := 0
  let (left, ptr, i, iter) := copy_loop (M / 2) (M / 2) left ptr 0 0
  let left := { left with children := left.children.set i (ptr.children.getD iter 0) }
  let iter := if ptr.children.getD 0 0 ≠ 0 then iter + 1 else iter
  let (right, ptr, i, iter) := copy_loop (M + 1) (M + 1 - iter) right ptr 0 iter
  let right := { right with children := right.children.set i (ptr.children.getD iter 0) }
  let ptr := { ptr with children := ptr.children.set pos left.page_id }
  let ptr := { ptr with keys := ptr.keys.set 0 (ptr.keys.getD (M / 2) 0) }
  let ptr := { ptr with children := ptr.children.set (pos + 1) right.page_id }
  let ptr := { ptr with count := 1 }
  let bt := bt.write_node ptr.page_id ptr
  let bt := bt.write_node left.page_id left
  let bt := bt.write_node right.page_id right
  bt

/-- Method `btree::insert(node& ptr, value, key)`.  The first argument bounds
the depth of the recursion; `none` means the bound was reached.  The result
holds the engine, the updated `ptr` and the returned state. -/
def btree.insert_node (M : Nat) : Nat → btree → node → Int → Int → Option (btree × node × state)
  | 0, _, _, _, _ => none
  | fuel + 1, bt, ptr, value, key =>
    let pos := scan ptr value ptr.count 0
    if ptr.children.getD pos 0 ≠ 0 then
      let page_id := ptr.children.getD pos 0
      let child := bt.read_node M page_id
      match btree.insert_node M fuel bt child value key with
      | none => none
      | some (bt, _, st) =>
        let r := if st = state.BT_OVERFLOW then bt.split M ptr pos else (bt, ptr)
        some (r.1, r.2, if r.2.is_overflow M then state.BT_OVERFLOW else state.NORMAL)
    else
      let ptr := ptr.insert_in_node pos value key (decide (ptr.children.getD pos 0 = 0))
      let bt := bt.write_node ptr.page_id ptr
      some (bt, ptr, if ptr.is_overflow M then state.BT_OVERFLOW else state.NORMAL)

/-- Method `btree::insert(value, key)`. -/
def btree.insert (M : Nat) (fuel : Nat) (bt : btree) (value : Int) (key : Int) : Option btree :=
  let root := bt.read_node M bt.header.root_id
  match bt.insert_node M fuel root value key with
  | none => none
  | some (bt, _, st) =>
    if st = state.BT_OVERFLOW then some (bt.split_root M) else some bt

/-- Method `btree::find(value)`: the body is `return false;`. -/
def btree.find (_bt : btree) (_value : Int) : Bool := false

/-- A sequence of `insert(value, key)` calls, each given as the pair
`(value, key)`. -/
def btree.insert_all (M : Nat) (fuel : Nat) : btree → List (Int × Int) → Option btree
  | bt, [] => some bt
  | bt, op :: ops =>
    match bt.insert M fuel op.1 op.2 with
    | none => none
    | some bt => btree.insert_all M fuel bt ops

/-- The populated keys `keys[0..count)` of a node. -/
def node.keyList (n : node) : List Int := n.keys.take n.count

/-- The populated child slots `children[0..count]` of a node. -/
def node.kids (n : node) : List Int := n.children.take (n.count + 1)

/-- The node record stored under a page id, if any. -/
def pagemanager.nodeAt (pm : pagemanager) (page_id : Int) : Option node :=
  match pm page_id with
  | some (Page.node n) => some n
  | _ => none


/-! ## Auxiliary definitions for the proofs -/

/-- The effect of the shifting loop of `insert_in_node` on one array:
`a[j] = a[j-1]` for `j` running down to `pos + 1`. -/
def shiftList (pos : Nat) : Nat → List Int → List Int
  | 0, a => a
  | j + 1, a => if pos < j + 1 then shiftList pos j (a.set (j + 1) (a.getD j 0)) else a

/-- The effect of a copy loop of `split` on one array of the destination:
`dst[i] = src[iter]` for `n` consecutive pairs of indices. -/
def copyList (src : List Int) : Nat → List Int → Nat → Nat → List Int
  | 0, dst, _, _ => dst
  | n + 1, dst, i, iter => copyList src n (dst.set i (src.getD iter 0)) (i + 1) (iter + 1)

/-- The arrays of a node have the sizes declared in the source. -/
def node.sized (M : Nat) (n : node) : Prop :=
  n.keys.length = M + 1 ∧ n.data.length = M + 1 ∧ n.children.length = M + 2

/-- A copy loop of `split` started at `i = 0`, followed by the store of the
last child `dst.children[i] = ptr.children[iter]`.  The result is
`(dst, ptr, iter)`. -/
def fill (bound : Nat) (dst ptr : node) (iter : Nat) : node × node × Nat :=
  let r := copy_loop bound (bound - iter) dst ptr 0 iter
  ({ r.1 with children := r.1.children.set r.2.2.1 (r.2.1.children.getD r.2.2.2 0) },
    r.2.1, r.2.2.2)

/-- The part of `split` and `split_root` that fills the fresh nodes `left` and
`right` from the overflowed node `ptr`: the first copy loop with its last
child, the skip of the middle entry of an intermediate node, the second copy
loop with its last child.  The result is `(left, right, ptr)`. -/
def halves (M : Nat) (left right ptr : node) : node × node × node :=
  let a := fill (M / 2) left ptr 0
  let iter := if a.2.1.children.getD 0 0 ≠ 0 then a.2.2 + 1 else a.2.2
  let b := fill (M + 1) right a.2.1 iter
  (a.1, b.1, b.2.1)


/-! ## The stored tree -/

/-- The page ids of the subtree of height `h` stored under `id`, the root of
the subtree first. -/
def pagesOf (pm : pagemanager) : Nat → Int → List Int
  | 0, id => [id]
  | h + 1, id =>
    id :: (match pm.nodeAt id with
      | some n => n.kids.flatMap (fun c => pagesOf pm h c)
      | none => [])

/-- The populated keys of the leaves of the subtree of height `h` stored under
`id`, from left to right. -/
def leafKeys (pm : pagemanager) : Nat → Int → List Int
  | 0, id =>
    match pm.nodeAt id with
    | some n => n.keyList
    | none => []
  | h + 1, id =>
    match pm.nodeAt id with
    | some n => n.kids.flatMap (fun c => leafKeys pm h c)
    | none => []

/-- The page `id` holds the root of a subtree of height `h`: the root holds at
most `b` keys and every node below it at most `M`; every node is stored under
its own page id with arrays of the declared sizes; the nodes at depth `h` have
only sentinel children, the nodes above have only non-sentinel children. -/
def Sub (M : Nat) (pm : pagemanager) : Nat → Nat → Int → Prop
  | 0, b, id => ∃ n, pm.nodeAt id = some n ∧ n.page_id = id ∧ n.sized M ∧ n.count ≤ b ∧
      ∀ c ∈ n.kids, c = 0
  | h + 1, b, id => ∃ n, pm.nodeAt id = some n ∧ n.page_id = id ∧ n.sized M ∧ n.count ≤ b ∧
      ∀ c ∈ n.kids, c ≠ 0 ∧ Sub M pm h M c

/-- A subtree in the sense of `Sub` whose pages are pairwise distinct and lie
in `1 .. hc`. -/
def Tree (M : Nat) (pm : pagemanager) (hc : Int) (h b : Nat) (id : Int) : Prop :=
  Sub M pm h b id ∧ (pagesOf pm h id).Nodup ∧ ∀ p ∈ pagesOf pm h id, 1 ≤ p ∧ p ≤ hc

/-- Every stored node record holds at most `b` keys. -/
def AllLe (b : Nat) (pm : pagemanager) : Prop :=
  ∀ p n, pm.nodeAt p = some n → n.count ≤ b

/-- The invariant of the engine between two calls of `insert`: the root is
page `1` and holds a tree of height `h`. -/
def Inv (M : Nat) (bt : btree) (h : Nat) : Prop :=
  bt.header.root_id = 1 ∧ bt.pm 0 = some (Page.header bt.header) ∧
  Tree M bt.pm bt.header.count h M 1 ∧ AllLe (M + 1) bt.pm

/-- What a call of `insert(node&, value, key)` on the subtree of height `h`
under `id` does to the engine. -/
def Post (M : Nat) (bt bt1 : btree) (h : Nat) (id : Int) (key : Int) : Prop :=
  bt1.header.root_id = bt.header.root_id ∧ bt.header.count ≤ bt1.header.count ∧
  (bt.pm 0 = some (Page.header bt.header) → bt1.pm 0 = some (Page.header bt1.header)) ∧
  Tree M bt1.pm bt1.header.count h (M + 1) id ∧
  (∀ p, p ∉ pagesOf bt.pm h id → 1 ≤ p → p ≤ bt.header.count → bt1.pm p = bt.pm p) ∧
  (∀ p ∈ pagesOf bt1.pm h id, p ∈ pagesOf bt.pm h id ∨ bt.header.count < p) ∧
  (∃ l1 l2, leafKeys bt.pm h id = l1 ++ l2 ∧ leafKeys bt1.pm h id = l1 ++ key :: l2) ∧
  AllLe (M + 1) bt1.pm

/-- Page `p` is reachable from page `r` in `d` steps through populated,
non-sentinel child slots. -/
inductive Reach (pm : pagemanager) (r : Int) : Nat → Int → Prop where
  | root : Reach pm r 0 r
  | child {d : Nat} {p c : Int} {n : node} : Reach pm r d p → pm.nodeAt p = some n →
      c ∈ n.kids → c ≠ 0 → Reach pm r (d + 1) c


/-- The node is a leaf in the sense of the source: `children[0] == 0`. -/
def node.is_leaf (n : node) : Prop := n.children.getD 0 0 = 0

/-- Page `p` holds a leaf that is reachable from the root at depth `d`. -/
def btree.LeafAt (bt : btree) (d : Nat) (p : Int) : Prop :=
  Reach bt.pm bt.header.root_id d p ∧ ∃ n, bt.pm.nodeAt p = some n ∧ n.is_leaf

/-- All leaves reachable from the root lie at the same depth. -/
def btree.Balanced (bt : btree) : Prop :=
  ∀ d1 d2 p1 p2, bt.LeafAt d1 p1 → bt.LeafAt d2 p2 → d1 = d2

/-- The populated keys of the leaves reachable from page `id`, from left to
right; a node is taken for a leaf when `children[0] == 0`.  The first argument
bounds the depth of the traversal. -/
def leaf_keys (pm : pagemanager) : Nat → Int → List Int
  | 0, _ => []
  | fuel + 1, id =>
    match pm.nodeAt id with
    | none => []
    | some n =>
      if n.children.getD 0 0 = 0 then n.keyList
      else n.kids.flatMap (fun c => leaf_keys pm fuel c)

/-- A freshly constructed tree: the constructor run on an empty page store. -/
def btree.fresh (M : Nat) : btree := btree.new M pagemanager.empty

/-- An example parent for `split` with order 3: the root page 1 with the key
20 over the pages 2 and 3. -/
def example_parent : node :=
  { page_id := 1, count := 1, keys := [20, 20, 30, 40], data := [0, 0, 0, 0],
    children := [2, 3, 0, 0, 0] }

/-- An example state for `split` with order 3: the tree built from the keys 10,
20, 30, 40 after the key 50 was put into the right leaf (page 3), which now
holds 4 keys and waits for its split. -/
def example_overflow : btree :=
  { header := { root_id := 1, count := 3 }
    pm := (((pagemanager.empty.save 0 (Page.header { root_id := 1, count := 3 })).save 1
        (Page.node example_parent)).save 2
        (Page.node { page_id := 2, count := 1, keys := [10, 0, 0, 0], data := [10, 0, 0, 0],
                     children := [0, 0, 0, 0, 0] })).save 3
        (Page.node { page_id := 3, count := 4, keys := [20, 30, 40, 50],
                     data := [20, 30, 40, 50], children := [0, 0, 0, 0, 0] }) }


/-- The populated values `data[0..count)` of a node. -/
def node.dataList (n : node) : List Int := n.data.take n.count

/-- The populated `(key, value)` entries of a node, in slot order. -/
def node.entries (n : node) : List (Int × Int) := n.keyList.zip n.dataList

/-- Every record of the store lies under a page id between `0` and the page
counter of the header. -/
def InRange (bt : btree) : Prop := ∀ p, bt.pm p ≠ none → 0 ≤ p ∧ p ≤ bt.header.count

/-- What one page allocation `new_node` does in the state `s`, and why the id
it hands out is new: the counter grows by one, the root id stays, the header
is saved under page 0, the returned node carries the new counter value as its
page id, that id is greater than the id of every stored record and than every
value the counter had so far, it is neither the sentinel 0 nor the root id,
and no record is stored under it. -/
def AllocOK (M : Nat) (s : btree) : Prop :=
  (s.new_node M).1.header.count = s.header.count + 1 ∧
  (s.new_node M).1.header.root_id = s.header.root_id ∧
  (s.new_node M).1.pm 0 = some (Page.header (s.new_node M).1.header) ∧
  (s.new_node M).2.page_id = (s.new_node M).1.header.count ∧
  (∀ p, s.pm p ≠ none → p < (s.new_node M).2.page_id) ∧
  (∀ p, p ≤ s.header.count → p < (s.new_node M).2.page_id) ∧
  (s.new_node M).2.page_id ≠ 0 ∧
  (s.new_node M).2.page_id ≠ s.header.root_id ∧
  s.pm (s.new_node M).2.page_id = none

/-- The tree built from a fresh one by a sequence of `insert(value, key)`
calls (the fresh tree when the fuel does not suffice). -/
def btree.run (M fuel : Nat) (ops : List (Int × Int)) : btree :=
  (btree.insert_all M fuel (btree.fresh M) ops).getD (btree.fresh M)

/-- The engine inside a call `insert(value, key)`, at the moment the recursive
`insert(node&, value, key)` on the node stored under `page` has returned (the
engine itself when the fuel does not suffice). -/
def btree.inside_insert (M fuel : Nat) (bt : btree) (page : Int) (value key : Int) : btree :=
  ((bt.insert_node M fuel (bt.read_node M page) value key).map (fun r => r.1)).getD bt

/-- Order 3: the engine inside `insert(40, 40)` after the inserts of 10, 20, 30;
the root is a leaf that holds the 4 keys 10, 20, 30, 40. -/
def example_leaf_root : btree :=
  (btree.run 3 3 [(10, 10), (20, 20), (30, 30)]).inside_insert 3 1 1 40 40

/-- Order 3: the engine inside `insert(70, 70)` after the inserts of 10 to 60;
the root is an intermediate node that holds the 4 keys 20, 30, 40, 50 over the
pages 2, 4, 6, 8, 9. -/
def example_inner_root : btree :=
  (btree.run 3 6 [(10, 10), (20, 20), (30, 30), (40, 40), (50, 50), (60, 60)]).inside_insert
    3 2 1 70 70

/-- Order 3: the engine inside `insert(90, 90)` after the inserts of 10 to 80,
when the recursive insert on page 11 has returned; page 11, the child in slot 1
of the root, is an intermediate node that holds the 4 keys 40, 50, 60, 70. -/
def example_inner_child : btree :=
  (btree.run 3 8 [(10, 10), (20, 20), (30, 30), (40, 40), (50, 50), (60, 60), (70, 70),
    (80, 80)]).inside_insert 3 2 11 90 90


/-- The page reached from page `r` by following the populated, non-sentinel
child slots `slots` one after the other, if each of them exists. -/
def follow (pm : pagemanager) : Int → List Nat → Option Int
  | r, [] => some r
  | r, i :: slots =>
    match pm.nodeAt r with
    | some n =>
      if i ≤ n.count ∧ n.children.getD i 0 ≠ 0 then follow pm (n.children.getD i 0) slots
      else none
    | none => none


/-! ## The in-order walk of the stored tree -/

/-- An item met by the in-order walk of a stored tree: an entry `(key, value)`
of a leaf, or a key of an intermediate node. -/
inductive Item where
  | entry (key value : Int)
  | sep (key : Int)
deriving DecidableEq, Repr

/-- The key of an item. -/
def Item.key : Item → Int
  | Item.entry k _ => k
  | Item.sep k => k

/-- The place of an item in the order of the walk: the key `k` of an
intermediate node stands right before a leaf entry with the same key. -/
def Item.rank : Item → Int
  | Item.entry k _ => 2 * k + 1
  | Item.sep k => 2 * k

/-- The leaf entry carried by an item, if it is one. -/
def Item.toEntry : Item → Option (Int × Int)
  | Item.entry k v => some (k, v)
  | Item.sep _ => none

/-- The walk of the child slots `cs` that follow the keys `ks`: each key,
then the walk `f` of the child to its right. -/
def sufWalk (f : Int → List Item) (ks cs : List Int) : List Item :=
  (ks.zip cs).flatMap (fun kc => Item.sep kc.1 :: f kc.2)

/-- The walk of the child slots `cs` that precede the keys `ks`: the walk `f`
of each child, then the key to its right. -/
def preWalk (f : Int → List Item) (cs ks : List Int) : List Item :=
  (cs.zip ks).flatMap (fun ck => f ck.1 ++ [Item.sep ck.2])

/-- The walk of a node with the populated child slots `kids` and the populated
keys `keys`: the walk `f` of `children[0]`, then each key followed by the walk
of the child to its right. -/
def walk (f : Int → List Item) (kids keys : List Int) : List Item :=
  match kids with
  | [] => []
  | c :: cs => f c ++ sufWalk f keys cs

/-- The in-order walk of the subtree of height `h` stored under `id`: the
entries of the leaves from left to right, with the key `keys[i]` of an
intermediate node between the walks of `children[i]` and `children[i+1]`. -/
def inorder (pm : pagemanager) : Nat → Int → List Item
  | 0, id =>
    match pm.nodeAt id with
    | some n => n.entries.map (fun e => Item.entry e.1 e.2)
    | none => []
  | h + 1, id =>
    match pm.nodeAt id with
    | some n => walk (fun c => inorder pm h c) n.kids n.keyList
    | none => []

/-- The `(key, value)` entries of the leaves reachable from page `id`, from
left to right; a node is taken for a leaf when `children[0] == 0`.  The first
argument bounds the depth of the traversal. -/
def leaf_entries (pm : pagemanager) : Nat → Int → List (Int × Int)
  | 0, _ => []
  | fuel + 1, id =>
    match pm.nodeAt id with
    | none => []
    | some n =>
      if n.children.getD 0 0 = 0 then n.entries
      else n.kids.flatMap (fun c => leaf_entries pm fuel c)

/-- All populated keys held in the subtree stored under page `id`: the keys of
the node itself and those of the subtrees under its populated child slots.
The first argument bounds the depth of the traversal. -/
def subtree_keys (pm : pagemanager) : Nat → Int → List Int
  | 0, _ => []
  | fuel + 1, id =>
    match pm.nodeAt id with
    | none => []
    | some n =>
      if n.children.getD 0 0 = 0 then n.keyList
      else n.keyList ++ n.kids.flatMap (fun c => subtree_keys pm fuel c)

/-- The leaf entries `(key, value)` met by a walk, in the order of the walk. -/
def entriesOf (l : List Item) : List (Int × Int) := l.filterMap Item.toEntry

/-- The items of a walk stand in ascending order: leaf entries by key, and the
key `k` of an intermediate node after every leaf key below `k` and before the
leaf key `k` and every leaf key above it. -/
def Ordered (l : List Item) : Prop := l.Pairwise (fun a b => a.rank < b.rank)

/-- Every key of an intermediate node met by the walk is also the key of a leaf
entry met by the walk. -/
def SepClosed (l : List Item) : Prop := ∀ s, Item.sep s ∈ l → ∃ v, Item.entry s v ∈ l

/-- The walk `y` of a subtree of height `h` after an insert, compared with the
walk `x` before the splits of that insert: the same walk, or, above a leaf
that was split, the walk with the key of the first entry of the right leaf put
between the two leaves. -/
def Grown (h : Nat) (x y : List Item) : Prop :=
  y = x ∨ (0 < h ∧ ∃ m1 s0 v0 s sv m2,
    x = m1 ++ Item.entry s0 v0 :: Item.entry s sv :: m2 ∧
    y = m1 ++ Item.entry s0 v0 :: Item.sep s :: Item.entry s sv :: m2)

/-- What a call of `insert(node&, value, key)` on the subtree of height `h`
under `id` does to the in-order walk: the entry `(key, value)` is put at the
place found by comparing `value` with the keys. -/
def PostWalk (bt bt1 : btree) (h : Nat) (id : Int) (value key : Int) : Prop :=
  ∃ l1 l2, inorder bt.pm h id = l1 ++ l2 ∧
    (∀ a ∈ l1, a.rank < 2 * value) ∧ (∀ b ∈ l2, 2 * value ≤ b.rank) ∧
    Grown h (l1 ++ Item.entry key value :: l2) (inorder bt1.pm h id)


/-! ## Separator keys -/

/-- The key of an intermediate node carried by an item, if it is one. -/
def Item.toSep : Item → Option Int
  | Item.entry _ _ => none
  | Item.sep k => some k

/-- The keys of intermediate nodes met by a walk, in the order of the walk. -/
def sepsOf (l : List Item) : List Int := l.filterMap Item.toSep

/-- In a walk every key of an intermediate node is directly followed by a leaf
entry with the same key: the first entry of the leftmost leaf to its right. -/
def Adj : List Item → Prop
  | [] => True
  | Item.entry _ _ :: rest => Adj rest
  | Item.sep s :: rest => (∃ v, rest.head? = some (Item.entry s v)) ∧ Adj rest

/-- What a call of `insert(node&, value, key)` on the subtree of height `h`
under `id` does to the in-order walk, whatever the values are: the entry
`(key, value)` is put somewhere in the walk, never directly after a key of an
intermediate node, and not in front of a first entry whose key is below
`value`. -/
def PostShape (bt bt1 : btree) (h : Nat) (id : Int) (value key : Int) : Prop :=
  ∃ l1 l2, inorder bt.pm h id = l1 ++ l2 ∧
    Grown h (l1 ++ Item.entry key value :: l2) (inorder bt1.pm h id) ∧
    (∀ a, l1.getLast? = some a → ∃ k1 v1, a = Item.entry k1 v1) ∧
    (∀ s w, (inorder bt.pm h id).head? = some (Item.entry s w) → s < value → l1 ≠ [])

/-- The populated keys of the intermediate nodes reachable from page `id`; a
node is taken for a leaf when `children[0] == 0`.  The first argument bounds
the depth of the traversal. -/
def sep_keys (pm : pagemanager) : Nat → Int → List Int
  | 0, _ => []
  | fuel + 1, id =>
    match pm.nodeAt id with
    | none => []
    | some n =>
      if n.children.getD 0 0 = 0 then []
      else n.keyList ++ n.kids.flatMap (fun c => sep_keys pm fuel c)


/-! ## Construction over a store that already holds records -/

/-- Two engines with the same header whose stores hold the same record under
every page id from `0` to the page counter. -/
def SameUpTo (bt btf : btree) : Prop :=
  btf.header = bt.header ∧ ∀ p, 0 ≤ p → p ≤ bt.header.count → btf.pm p = bt.pm p

/-- What one page allocation `new_node` does in the state `s`, whatever the
store holds: the counter grows by one, the root id stays, the header is saved
under page 0, the returned node carries the new counter value as its page id,
that id is greater than every value the counter had so far, and it is neither
the sentinel 0 nor the root id. -/
def AllocNext (M : Nat) (s : btree) : Prop :=
  (s.new_node M).1.header.count = s.header.count + 1 ∧
  (s.new_node M).1.header.root_id = s.header.root_id ∧
  (s.new_node M).1.pm 0 = some (Page.header (s.new_node M).1.header) ∧
  (s.new_node M).2.page_id = (s.new_node M).1.header.count ∧
  (∀ p, p ≤ s.header.count → p < (s.new_node M).2.page_id) ∧
  (s.new_node M).2.page_id ≠ 0 ∧
  (s.new_node M).2.page_id ≠ s.header.root_id

/-- An example of an engine constructed over a store that is in use: the store
left by the inserts of 10, 20, 30, 40 with order 3, which holds the header
under page 0, the root under page 1 and the two leaves under the pages 2 and
3. -/
def example_reopened : btree :=
  btree.new 3 (btree.run 3 4 [(10, 10), (20, 20), (30, 30), (40, 40)]).pm

/-- The engine `example_reopened` after one further call `insert(50, 50)`. -/
def example_reopened_after : btree :=
  (btree.insert_all 3 1 example_reopened [(50, 50)]).getD example_reopened


/-! ## Lists -/

theorem getD_zero_eq (a : List Int) (j : Nat) (h : j < a.length) : some (a.getD j 0) = a[j]? := by
  simp [List.getD_eq_getElem?_getD, List.getElem?_eq_getElem h]

theorem shiftList_length (pos : Nat) : ∀ (j : Nat) (a : List Int), (shiftList pos j a).length = a.length
  | 0, a => rfl
  | j + 1, a => by
    unfold shiftList
    split
    · rw [shiftList_length pos j]; simp
    · rfl

theorem shiftList_getElem? (pos : Nat) : ∀ (j : Nat) (a : List Int), j < a.length → ∀ k,
    (shiftList pos j a)[k]? = if pos < k ∧ k ≤ j then a[k - 1]? else a[k]?
  | 0, a, _, k => by
    have h0 : ¬ (pos < k ∧ k ≤ 0) := by omega
    simp only [shiftList, h0, if_false]
  | j + 1, a, h, k => by
    unfold shiftList
    split
    · rename_i hp
      rw [shiftList_getElem? pos j _ (by simp; omega) k]
      simp only [List.getElem?_set]
      by_cases h1 : pos < k ∧ k ≤ j
      · have h2 : pos < k ∧ k ≤ j + 1 := ⟨h1.1, by omega⟩
        have h3 : ¬ (j + 1 = k - 1) := by omega
        simp [h1, h2, h3]
      · by_cases h4 : k = j + 1
        · subst h4
          have h5 : pos < j + 1 ∧ j + 1 ≤ j + 1 := ⟨hp, le_refl _⟩
          rw [if_neg h1, if_pos rfl, if_pos h, if_pos h5]
          simpa using getD_zero_eq a j (by omega)
        · have h6 : ¬ (pos < k ∧ k ≤ j + 1) := by omega
          have h7 : ¬ (j + 1 = k) := by omega
          simp [h1, h6, h7]
    · rename_i hp
      have h6 : ¬ (pos < k ∧ k ≤ j + 1) := by omega
      simp [h6]

/-- After the shift and the store at `pos`, the first `c + 1` slots are the
first `c` old slots with `x` inserted at `pos`. -/
theorem shiftList_set_take (a : List Int) (pos c : Nat) (x : Int) (hp : pos ≤ c)
    (hc : c < a.length) :
    ((shiftList pos c a).set pos x).take (c + 1) = a.take pos ++ x :: (a.take c).drop pos := by
  apply List.ext_getElem?
  intro k
  simp only [List.getElem?_take, List.getElem?_set, shiftList_getElem? pos c a hc,
    shiftList_length, List.getElem?_append, List.length_take, List.getElem?_cons,
    List.getElem?_drop]
  have hm : min pos a.length = pos := by omega
  rw [hm]
  by_cases h1 : k < pos
  · have : ¬ pos = k := by omega
    have : k < c + 1 := by omega
    have : ¬ (pos < k ∧ k ≤ c) := by omega
    simp [*]
  · by_cases h2 : k = pos
    · subst h2
      have : k < c + 1 := by omega
      have : k < a.length := by omega
      simp [*]
    · by_cases h3 : k < c + 1
      · have : ¬ pos = k := by omega
        have : pos < k ∧ k ≤ c := by omega
        have h5 : ¬ (k - pos = 0) := by omega
        have h6 : pos + (k - pos - 1) = k - 1 := by omega
        have h7 : k - 1 < c := by omega
        simp [*]
      · have h5 : ¬ (k - pos = 0) := by omega
        have h6 : pos + (k - pos - 1) = k - 1 := by omega
        have h7 : ¬ (k - 1 < c) := by omega
        simp [*]

theorem copyList_length (src : List Int) : ∀ (n : Nat) (dst : List Int) (i iter : Nat),
    (copyList src n dst i iter).length = dst.length
  | 0, _, _, _ => rfl
  | n + 1, dst, i, iter => by
    unfold copyList
    rw [copyList_length src n]; simp

theorem take_set_self (l : List Int) (i : Nat) (v : Int) (h : i < l.length) :
    (l.set i v).take (i + 1) = l.take i ++ [v] := by
  apply List.ext_getElem?
  intro k
  simp only [List.getElem?_take, List.getElem?_set, List.getElem?_append, List.length_take,
    List.getElem?_cons]
  have hm : min i l.length = i := by omega
  rw [hm]
  by_cases h1 : k < i
  · have : k < i + 1 := by omega
    have : ¬ i = k := by omega
    simp [*]
  · by_cases h2 : k = i
    · subst h2; simp [*]
    · have : ¬ k < i + 1 := by omega
      have : ¬ (k - i = 0) := by omega
      simp [*]

theorem copyList_take (src : List Int) : ∀ (n : Nat) (dst : List Int) (i iter : Nat),
    i + n ≤ dst.length → iter + n ≤ src.length →
    (copyList src n dst i iter).take (i + n) = dst.take i ++ (src.drop iter).take n
  | 0, dst, i, iter, _, _ => by simp [copyList]
  | n + 1, dst, i, iter, h1, h2 => by
    unfold copyList
    have ih := copyList_take src n (dst.set i (src.getD iter 0)) (i + 1) (iter + 1)
      (by simp; omega) (by omega)
    have e : i + (n + 1) = i + 1 + n := by omega
    rw [e, ih, take_set_self dst i _ (by omega)]
    have h3 : src.drop iter = src.getD iter 0 :: src.drop (iter + 1) := by
      have hlt : iter < src.length := by omega
      rw [List.drop_eq_getElem_cons hlt]
      simp [List.getD_eq_getElem?_getD, List.getElem?_eq_getElem hlt]
    rw [h3]
    simp


/-! ## Node operations -/

theorem node.new_sized (M : Nat) (id : Int) : (node.new M id).sized M := by
  simp [node.new, node.sized]

theorem node.shift_eq (pos : Nat) : ∀ (j : Nat) (n : node),
    node.shift pos j n =
      ({ n with data := shiftList pos j n.data, keys := shiftList pos j n.keys,
                children := shiftList (pos + 1) (j + 1) n.children }, min pos j)
  | 0, n => by
    simp [node.shift, shiftList]
  | j + 1, n => by
    unfold node.shift
    by_cases h : pos < j + 1
    · have h' : pos + 1 < j + 1 + 1 := by omega
      have hm : min pos (j + 1) = pos := by omega
      have hm' : min pos j = pos := by omega
      rw [if_pos h, node.shift_eq pos j]
      simp only [hm, hm']
      conv => rhs; unfold shiftList
      simp only [if_pos h, if_pos h']
    · have hm : min pos (j + 1) = j + 1 := by omega
      rw [if_neg h]
      conv => rhs; unfold shiftList
      have h' : ¬ pos + 1 < j + 1 + 1 := by omega
      simp only [if_neg h, if_neg h', hm]

theorem node.insert_in_node_page_id (n : node) (pos : Nat) (v k : Int) (b : Bool) :
    (n.insert_in_node pos v k b).page_id = n.page_id := by
  simp only [node.insert_in_node, node.shift_eq]
  split <;> rfl

theorem node.insert_in_node_count (n : node) (pos : Nat) (v k : Int) (b : Bool) :
    (n.insert_in_node pos v k b).count = n.count + 1 := by
  simp only [node.insert_in_node, node.shift_eq]
  split <;> rfl

theorem node.insert_in_node_sized (M : Nat) (n : node) (pos : Nat) (v k : Int) (b : Bool)
    (h : n.sized M) : (n.insert_in_node pos v k b).sized M := by
  obtain ⟨h1, h2, h3⟩ := h
  simp only [node.insert_in_node, node.shift_eq, node.sized]
  split <;> simp [shiftList_length, h1, h2, h3]

theorem node.insert_in_node_keys (n : node) (pos : Nat) (v k : Int) (b : Bool)
    (hp : pos ≤ n.count) :
    (n.insert_in_node pos v k b).keys = (shiftList pos n.count n.keys).set pos k := by
  have hm : min pos n.count = pos := by omega
  simp only [node.insert_in_node, node.shift_eq, hm]
  split <;> rfl

theorem node.insert_in_node_children (n : node) (pos : Nat) (v k : Int) (b : Bool)
    (hp : pos ≤ n.count) (hl : n.count + 1 < n.children.length) :
    (n.insert_in_node pos v k b).children =
      (shiftList (pos + 1) (n.count + 1) n.children).set (pos + 1) (n.children.getD pos 0) := by
  have hm : min pos n.count = pos := by omega
  have hg : (shiftList (pos + 1) (n.count + 1) n.children).getD pos 0 = n.children.getD pos 0 := by
    have hn : ¬ (pos + 1 < pos ∧ pos ≤ n.count + 1) := by omega
    simp only [List.getD_eq_getElem?_getD, shiftList_getElem? (pos + 1) (n.count + 1) _ hl, hn,
      if_false]
  simp only [node.insert_in_node, node.shift_eq, hm]
  split <;> simp only [hg]

/-- The populated keys after `insert_in_node`: `key` is inserted at `pos`. -/
theorem node.insert_in_node_keyList (M : Nat) (n : node) (pos : Nat) (v k : Int) (b : Bool)
    (hs : n.sized M) (hp : pos ≤ n.count) (hc : n.count ≤ M) :
    (n.insert_in_node pos v k b).keyList = n.keyList.take pos ++ k :: n.keyList.drop pos := by
  obtain ⟨h1, _, _⟩ := hs
  simp only [node.keyList, node.insert_in_node_count, node.insert_in_node_keys n pos v k b hp]
  rw [shiftList_set_take n.keys pos n.count k hp (by omega), List.take_take]
  have hm : min pos n.count = pos := by omega
  rw [hm]

/-- The populated child slots after `insert_in_node`: slot `pos` is duplicated. -/
theorem node.insert_in_node_kids (M : Nat) (n : node) (pos : Nat) (v k : Int) (b : Bool)
    (hs : n.sized M) (hp : pos ≤ n.count) (hc : n.count ≤ M) :
    (n.insert_in_node pos v k b).kids =
      n.kids.take (pos + 1) ++ n.children.getD pos 0 :: n.kids.drop (pos + 1) := by
  obtain ⟨_, _, h3⟩ := hs
  simp only [node.kids, node.insert_in_node_count,
    node.insert_in_node_children n pos v k b hp (by omega)]
  rw [shiftList_set_take n.children (pos + 1) (n.count + 1) _ (by omega) (by omega),
    List.take_take]
  have hm : min (pos + 1) (n.count + 1) = pos + 1 := by omega
  rw [hm]

/-! ## The copy loops -/

theorem copy_body_fields (dst ptr : node) (i iter : Nat) :
    (copy_body dst ptr i iter).1.page_id = dst.page_id ∧
    (copy_body dst ptr i iter).1.count = dst.count + 1 ∧
    (copy_body dst ptr i iter).1.keys = dst.keys.set i (ptr.keys.getD iter 0) ∧
    (copy_body dst ptr i iter).1.children = dst.children.set i (ptr.children.getD iter 0) ∧
    (copy_body dst ptr i iter).1.data.length = dst.data.length ∧
    (copy_body dst ptr i iter).2.page_id = ptr.page_id ∧
    (copy_body dst ptr i iter).2.count = ptr.count ∧
    (copy_body dst ptr i iter).2.keys = ptr.keys ∧
    (copy_body dst ptr i iter).2.children = ptr.children ∧
    (copy_body dst ptr i iter).2.data.length = ptr.data.length := by
  unfold copy_body
  by_cases h : ptr.children.getD 0 0 = 0
  · simp only [if_pos h, List.length_set, and_self]
  · simp only [if_neg h, List.length_set, and_self]

theorem copy_loop_fields (bound : Nat) : ∀ (f : Nat) (dst ptr : node) (i iter : Nat),
    iter + f ≤ bound →
    (copy_loop bound f dst ptr i iter).1.page_id = dst.page_id ∧
    (copy_loop bound f dst ptr i iter).1.count = dst.count + f ∧
    (copy_loop bound f dst ptr i iter).1.keys = copyList ptr.keys f dst.keys i iter ∧
    (copy_loop bound f dst ptr i iter).1.children = copyList ptr.children f dst.children i iter ∧
    (copy_loop bound f dst ptr i iter).1.data.length = dst.data.length ∧
    (copy_loop bound f dst ptr i iter).2.1.page_id = ptr.page_id ∧
    (copy_loop bound f dst ptr i iter).2.1.count = ptr.count ∧
    (copy_loop bound f dst ptr i iter).2.1.keys = ptr.keys ∧
    (copy_loop bound f dst ptr i iter).2.1.children = ptr.children ∧
    (copy_loop bound f dst ptr i iter).2.1.data.length = ptr.data.length ∧
    (copy_loop bound f dst ptr i iter).2.2.1 = i + f ∧
    (copy_loop bound f dst ptr i iter).2.2.2 = iter + f
  | 0, dst, ptr, i, iter, _ => by simp [copy_loop, copyList]
  | f + 1, dst, ptr, i, iter, h => by
    have hlt : iter < bound := by omega
    unfold copy_loop
    simp only [if_pos hlt]
    obtain ⟨a1, a2, a3, a4, a5, a6, a7, a8, a9, a10⟩ := copy_body_fields dst ptr i iter
    obtain ⟨b1, b2, b3, b4, b5, b6, b7, b8, b9, b10, b11, b12⟩ :=
      copy_loop_fields bound f (copy_body dst ptr i iter).1 (copy_body dst ptr i iter).2
        (i + 1) (iter + 1) (by omega)
    refine ⟨by rw [b1, a1], by rw [b2, a2]; omega, ?_, ?_, by rw [b5, a5], by rw [b6, a6],
      by rw [b7, a7], by rw [b8, a8], by rw [b9, a9], by rw [b10, a10], by rw [b11]; omega,
      by rw [b12]; omega⟩
    · rw [b3, a3, a8]; rfl
    · rw [b4, a4, a9]; rfl


/-! ## The two halves of a split -/

theorem take_append_getD (l : List Int) (n : Nat) (h : n < l.length) :
    l.take n ++ [l.getD n 0] = l.take (n + 1) := by
  rw [List.take_succ]
  simp [List.getD_eq_getElem?_getD, List.getElem?_eq_getElem h]

theorem fill_spec (M bound : Nat) (C : node) (id : Int) (iter : Nat) (hs : C.sized M)
    (hb : bound ≤ M + 1) (hi : iter ≤ bound) :
    (fill bound (node.new M id) C iter).1.page_id = id ∧
    (fill bound (node.new M id) C iter).1.sized M ∧
    (fill bound (node.new M id) C iter).1.count = bound - iter ∧
    (fill bound (node.new M id) C iter).1.keyList = (C.keys.drop iter).take (bound - iter) ∧
    (fill bound (node.new M id) C iter).1.kids = (C.children.drop iter).take (bound - iter + 1) ∧
    (fill bound (node.new M id) C iter).2.1.page_id = C.page_id ∧
    (fill bound (node.new M id) C iter).2.1.count = C.count ∧
    (fill bound (node.new M id) C iter).2.1.keys = C.keys ∧
    (fill bound (node.new M id) C iter).2.1.children = C.children ∧
    (fill bound (node.new M id) C iter).2.1.sized M ∧
    (fill bound (node.new M id) C iter).2.2 = bound := by
  obtain ⟨hk, hd, hc⟩ := hs
  obtain ⟨n1, n2, n3⟩ := node.new_sized M id
  obtain ⟨a1, a2, a3, a4, a5, a6, a7, a8, a9, a10, a11, a12⟩ :=
    copy_loop_fields bound (bound - iter) (node.new M id) C 0 iter (by omega)
  have e12 : iter + (bound - iter) = bound := by omega
  rw [Nat.zero_add] at a11
  rw [e12] at a12
  have hcnt : (node.new M id).count = 0 := rfl
  simp only [fill, node.sized, node.keyList, node.kids]
  rw [a1, a2, a3, a4, a5, a6, a7, a8, a9, a10, a11, a12, hcnt, Nat.zero_add]
  refine ⟨rfl, ⟨?_, n2, ?_⟩, rfl, ?_, ?_, rfl, rfl, rfl, rfl, ⟨hk, hd, hc⟩, rfl⟩
  · rw [copyList_length]; exact n1
  · rw [List.length_set, copyList_length]; exact n3
  · have h := copyList_take C.keys (bound - iter) (node.new M id).keys 0 iter
      (by rw [n1]; omega) (by omega)
    rw [Nat.zero_add] at h
    rw [h]; simp
  · have h := copyList_take C.children (bound - iter) (node.new M id).children 0 iter
      (by rw [n3]; omega) (by omega)
    rw [Nat.zero_add] at h
    rw [take_set_self _ _ _ (by rw [copyList_length, n3]; omega), h]
    have h1 : (C.children.drop iter).getD (bound - iter) 0 = C.children.getD bound 0 := by
      simp only [List.getD_eq_getElem?_getD, List.getElem?_drop, e12]
    rw [← h1, List.take_zero, List.nil_append,
      ← take_append_getD (C.children.drop iter) (bound - iter) (by simp; omega)]

theorem halves_spec (M : Nat) (C : node) (idL idR : Int) (hs : C.sized M) :
    (halves M (node.new M idL) (node.new M idR) C).1.page_id = idL ∧
    (halves M (node.new M idL) (node.new M idR) C).2.1.page_id = idR ∧
    (halves M (node.new M idL) (node.new M idR) C).1.sized M ∧
    (halves M (node.new M idL) (node.new M idR) C).2.1.sized M ∧
    (halves M (node.new M idL) (node.new M idR) C).2.2.sized M ∧
    (halves M (node.new M idL) (node.new M idR) C).2.2.page_id = C.page_id ∧
    (halves M (node.new M idL) (node.new M idR) C).2.2.keys = C.keys ∧
    (halves M (node.new M idL) (node.new M idR) C).2.2.children = C.children ∧
    (halves M (node.new M idL) (node.new M idR) C).1.count = M / 2 ∧
    (halves M (node.new M idL) (node.new M idR) C).1.keyList = C.keys.take (M / 2) ∧
    (halves M (node.new M idL) (node.new M idR) C).1.kids = C.children.take (M / 2 + 1) ∧
    (C.children.getD 0 0 = 0 →
      (halves M (node.new M idL) (node.new M idR) C).2.1.count = M + 1 - M / 2 ∧
      (halves M (node.new M idL) (node.new M idR) C).2.1.keyList = C.keys.drop (M / 2) ∧
      (halves M (node.new M idL) (node.new M idR) C).2.1.kids = C.children.drop (M / 2)) ∧
    (C.children.getD 0 0 ≠ 0 →
      (halves M (node.new M idL) (node.new M idR) C).2.1.count = M - M / 2 ∧
      (halves M (node.new M idL) (node.new M idR) C).2.1.keyList = C.keys.drop (M / 2 + 1) ∧
      (halves M (node.new M idL) (node.new M idR) C).2.1.kids = C.children.drop (M / 2 + 1)) := by
  have hdiv : M / 2 ≤ M := Nat.div_le_self M 2
  obtain ⟨a1, a2, a3, a4, a5, a6, a7, a8, a9, a10, a11⟩ :=
    fill_spec M (M / 2) C idL 0 hs (by omega) (by omega)
  have hR : ∀ it, it ≤ M + 1 →
      (fill (M + 1) (node.new M idR) (fill (M / 2) (node.new M idL) C 0).2.1 it).1.page_id = idR ∧
      (fill (M + 1) (node.new M idR) (fill (M / 2) (node.new M idL) C 0).2.1 it).1.sized M ∧
      (fill (M + 1) (node.new M idR) (fill (M / 2) (node.new M idL) C 0).2.1 it).1.count
          = M + 1 - it ∧
      (fill (M + 1) (node.new M idR) (fill (M / 2) (node.new M idL) C 0).2.1 it).1.keyList
          = C.keys.drop it ∧
      (fill (M + 1) (node.new M idR) (fill (M / 2) (node.new M idL) C 0).2.1 it).1.kids
          = C.children.drop it ∧
      (fill (M + 1) (node.new M idR) (fill (M / 2) (node.new M idL) C 0).2.1 it).2.1.page_id
          = C.page_id ∧
      (fill (M + 1) (node.new M idR) (fill (M / 2) (node.new M idL) C 0).2.1 it).2.1.keys
          = C.keys ∧
      (fill (M + 1) (node.new M idR) (fill (M / 2) (node.new M idL) C 0).2.1 it).2.1.children
          = C.children ∧
      (fill (M + 1) (node.new M idR) (fill (M / 2) (node.new M idL) C 0).2.1 it).2.1.sized M := by
    intro it hit
    obtain ⟨b1, b2, b3, b4, b5, b6, b7, b8, b9, b10, b11⟩ :=
      fill_spec M (M + 1) (fill (M / 2) (node.new M idL) C 0).2.1 idR it a10 (by omega) hit
    refine ⟨b1, b2, b3, ?_, ?_, by rw [b6, a6], by rw [b8, a8], by rw [b9, a9], b10⟩
    · rw [b4, a8]
      exact List.take_of_length_le (by rw [List.length_drop, hs.1])
    · rw [b5, a9]
      exact List.take_of_length_le (by rw [List.length_drop, hs.2.2]; omega)
  simp only [halves]
  rw [a11, a9]
  refine ⟨a1, ?_, a2, ?_, ?_, ?_, ?_, ?_, by rw [a3]; rfl, by rw [a4]; simp, by rw [a5]; simp,
    ?_, ?_⟩
  · by_cases hl : C.children.getD 0 0 = 0
    · simp only [hl, ne_eq, not_true, if_false]; exact (hR _ (by omega)).1
    · simp only [hl, ne_eq, not_false_eq_true, if_true]; exact (hR _ (by omega)).1
  · by_cases hl : C.children.getD 0 0 = 0
    · simp only [hl, ne_eq, not_true, if_false]; exact (hR _ (by omega)).2.1
    · simp only [hl, ne_eq, not_false_eq_true, if_true]; exact (hR _ (by omega)).2.1
  · by_cases hl : C.children.getD 0 0 = 0
    · simp only [hl, ne_eq, not_true, if_false]; exact (hR _ (by omega)).2.2.2.2.2.2.2.2
    · simp only [hl, ne_eq, not_false_eq_true, if_true]; exact (hR _ (by omega)).2.2.2.2.2.2.2.2
  · by_cases hl : C.children.getD 0 0 = 0
    · simp only [hl, ne_eq, not_true, if_false]; exact (hR _ (by omega)).2.2.2.2.2.1
    · simp only [hl, ne_eq, not_false_eq_true, if_true]; exact (hR _ (by omega)).2.2.2.2.2.1
  · by_cases hl : C.children.getD 0 0 = 0
    · simp only [hl, ne_eq, not_true, if_false]; exact (hR _ (by omega)).2.2.2.2.2.2.1
    · simp only [hl, ne_eq, not_false_eq_true, if_true]; exact (hR _ (by omega)).2.2.2.2.2.2.1
  · by_cases hl : C.children.getD 0 0 = 0
    · simp only [hl, ne_eq, not_true, if_false]; exact (hR _ (by omega)).2.2.2.2.2.2.2.1
    · simp only [hl, ne_eq, not_false_eq_true, if_true]; exact (hR _ (by omega)).2.2.2.2.2.2.2.1
  · intro hl
    simp only [hl, ne_eq, not_true, if_false]
    exact ⟨(hR _ (by omega)).2.2.1, (hR _ (by omega)).2.2.2.1, (hR _ (by omega)).2.2.2.2.1⟩
  · intro hl
    simp only [hl, ne_eq, not_false_eq_true, if_true]
    exact ⟨by rw [(hR _ (by omega)).2.2.1]; omega, (hR _ (by omega)).2.2.2.1,
      (hR _ (by omega)).2.2.2.2.1⟩


/-! ## The page store -/

theorem nodeAt_save_node (pm : pagemanager) (id : Int) (n : node) :
    (pm.save id (Page.node n)).nodeAt id = some n := by
  simp [pagemanager.nodeAt, pagemanager.save]

theorem nodeAt_save_ne (pm : pagemanager) (id p : Int) (x : Page) (h : p ≠ id) :
    (pm.save id x).nodeAt p = pm.nodeAt p := by
  simp [pagemanager.nodeAt, pagemanager.save, h]

theorem nodeAt_save_header (pm : pagemanager) (id p : Int) (x : Metadata) :
    (pm.save id (Page.header x)).nodeAt p = none ∨
    (pm.save id (Page.header x)).nodeAt p = pm.nodeAt p := by
  by_cases h : p = id
  · left; subst h; simp [pagemanager.nodeAt, pagemanager.save]
  · right; exact nodeAt_save_ne pm id p _ h

theorem nodeAt_congr (pm pm' : pagemanager) (p : Int) (h : pm' p = pm p) :
    pm'.nodeAt p = pm.nodeAt p := by
  simp [pagemanager.nodeAt, h]

theorem read_node_of_nodeAt (M : Nat) (bt : btree) (id : Int) (n : node)
    (h : bt.pm.nodeAt id = some n) : bt.read_node M id = n := by
  cases hx : bt.pm id with
  | none => simp [pagemanager.nodeAt, hx] at h
  | some pg =>
    cases pg with
    | header x => simp [pagemanager.nodeAt, hx] at h
    | node m =>
      simp only [pagemanager.nodeAt, hx, Option.some.injEq] at h
      simp only [btree.read_node, pagemanager.recover, hx, h]

theorem AllLe.save_node {b : Nat} {pm : pagemanager} (h : AllLe b pm) (id : Int) (n : node)
    (hn : n.count ≤ b) : AllLe b (pm.save id (Page.node n)) := by
  intro p m hm
  by_cases hp : p = id
  · subst hp
    rw [nodeAt_save_node] at hm
    simp only [Option.some.injEq] at hm
    subst hm; exact hn
  · rw [nodeAt_save_ne pm id p _ hp] at hm
    exact h p m hm

theorem AllLe.save_header {b : Nat} {pm : pagemanager} (h : AllLe b pm) (id : Int)
    (x : Metadata) : AllLe b (pm.save id (Page.header x)) := by
  intro p m hm
  rcases nodeAt_save_header pm id p x with h1 | h1
  · rw [h1] at hm; exact absurd hm (by simp)
  · rw [h1] at hm; exact h p m hm

/-! ## Subtrees -/

theorem pagesOf_head (pm : pagemanager) (h : Nat) (id : Int) : id ∈ pagesOf pm h id := by
  cases h <;> simp [pagesOf]

theorem pagesOf_kid (pm : pagemanager) (h : Nat) (id : Int) (n : node) (c : Int)
    (hn : pm.nodeAt id = some n) (hc : c ∈ n.kids) (p : Int) (hp : p ∈ pagesOf pm h c) :
    p ∈ pagesOf pm (h + 1) id := by
  simp only [pagesOf, hn, List.mem_cons, List.mem_flatMap]
  exact Or.inr ⟨c, hc, hp⟩

/-- A subtree only depends on the pages it consists of. -/
theorem frame (M : Nat) (pm pm' : pagemanager) : ∀ (h : Nat) (id : Int),
    (∀ p ∈ pagesOf pm h id, pm' p = pm p) →
    pagesOf pm' h id = pagesOf pm h id ∧ leafKeys pm' h id = leafKeys pm h id ∧
    ∀ b, Sub M pm h b id → Sub M pm' h b id
  | 0, id, hag => by
    have e : pm'.nodeAt id = pm.nodeAt id := nodeAt_congr pm pm' id (hag id (pagesOf_head pm 0 id))
    refine ⟨rfl, by simp only [leafKeys, e], ?_⟩
    intro b hs
    simpa only [Sub, e] using hs
  | h + 1, id, hag => by
    have e : pm'.nodeAt id = pm.nodeAt id :=
      nodeAt_congr pm pm' id (hag id (pagesOf_head pm (h + 1) id))
    cases hn : pm.nodeAt id with
    | none =>
      refine ⟨by simp only [pagesOf, e, hn], by simp only [leafKeys, e, hn], ?_⟩
      intro b hs
      simp only [Sub, hn] at hs
      obtain ⟨n, h1, _⟩ := hs
      exact absurd h1 (by simp)
    | some n =>
      have ih : ∀ c ∈ n.kids, pagesOf pm' h c = pagesOf pm h c ∧
          leafKeys pm' h c = leafKeys pm h c ∧ ∀ b, Sub M pm h b c → Sub M pm' h b c := by
        intro c hc
        exact frame M pm pm' h c (fun p hp => hag p (pagesOf_kid pm h id n c hn hc p hp))
      refine ⟨?_, ?_, ?_⟩
      · simp only [pagesOf, e, hn]
        congr 1
        exact List.flatMap_congr (fun c hc => (ih c hc).1)
      · simp only [leafKeys, e, hn]
        exact List.flatMap_congr (fun c hc => (ih c hc).2.1)
      · intro b hs
        simp only [Sub, hn, e, Option.some.injEq, exists_eq_left'] at hs ⊢
        obtain ⟨h1, h2, h3, h4⟩ := hs
        exact ⟨h1, h2, h3, fun c hc => ⟨(h4 c hc).1, (ih c hc).2.2 M (h4 c hc).2⟩⟩

theorem Sub.mono {M : Nat} {pm : pagemanager} {h b b' : Nat} {id : Int} (hs : Sub M pm h b id)
    (n : node) (hn : pm.nodeAt id = some n) (hb : n.count ≤ b') : Sub M pm h b' id := by
  cases h with
  | zero =>
    simp only [Sub, hn, Option.some.injEq, exists_eq_left'] at hs ⊢
    exact ⟨hs.1, hs.2.1, hb, hs.2.2.2⟩
  | succ h =>
    simp only [Sub, hn, Option.some.injEq, exists_eq_left'] at hs ⊢
    exact ⟨hs.1, hs.2.1, hb, hs.2.2.2⟩

theorem Sub.node {M : Nat} {pm : pagemanager} {h b : Nat} {id : Int} (hs : Sub M pm h b id) :
    ∃ n, pm.nodeAt id = some n ∧ n.page_id = id ∧ n.sized M ∧ n.count ≤ b := by
  cases h with
  | zero => obtain ⟨n, h1, h2, h3, h4, _⟩ := hs; exact ⟨n, h1, h2, h3, h4⟩
  | succ h => obtain ⟨n, h1, h2, h3, h4, _⟩ := hs; exact ⟨n, h1, h2, h3, h4⟩


/-! ## Unfolding `split` and `split_root` -/

theorem scan_le (ptr : node) (v : Int) : ∀ (f pos : Nat), pos ≤ ptr.count →
    scan ptr v f pos ≤ ptr.count
  | 0, pos, h => h
  | f + 1, pos, h => by
    unfold scan
    split
    · rename_i hc
      exact scan_le ptr v f (pos + 1) hc.1
    · exact h

theorem kids_length (n : node) (h : n.count + 1 ≤ n.children.length) :
    n.kids.length = n.count + 1 := by
  simp [node.kids, h]

theorem kids_getD (n : node) (i : Nat) (hi : i ≤ n.count) :
    n.kids.getD i 0 = n.children.getD i 0 := by
  simp only [node.kids, List.getD_eq_getElem?_getD, List.getElem?_take]
  rw [if_pos (by omega)]

theorem getD_mem (l : List Int) (i : Nat) (h : i < l.length) : l.getD i 0 ∈ l := by
  simp only [List.getD_eq_getElem?_getD, List.getElem?_eq_getElem h, Option.getD_some]
  exact List.getElem_mem h

theorem kids_getD_mem (n : node) (i : Nat) (hi : i ≤ n.count)
    (h : n.count + 1 ≤ n.children.length) : n.children.getD i 0 ∈ n.kids := by
  rw [← kids_getD n i hi]
  exact getD_mem _ _ (by rw [kids_length n h]; omega)

theorem split_at (l : List Int) (i : Nat) (h : i < l.length) :
    l = l.take i ++ l.getD i 0 :: l.drop (i + 1) := by
  have e : l.getD i 0 = l[i] := by
    simp [List.getD_eq_getElem?_getD, List.getElem?_eq_getElem h]
  rw [e, List.getElem_cons_drop, List.take_append_drop]

theorem kids_split_at (n : node) (i : Nat) (hi : i ≤ n.count)
    (h : n.count + 1 ≤ n.children.length) :
    n.kids = n.kids.take i ++ n.children.getD i 0 :: n.kids.drop (i + 1) := by
  rw [← kids_getD n i hi]
  exact split_at _ _ (by rw [kids_length n h]; omega)

theorem btree.split_snd (M : Nat) (bt : btree) (parent : node) (pos : Nat) :
    ∃ d, (bt.split M parent pos).2 =
      { parent.insert_in_node pos d
          ((fill (M / 2) (node.new M (bt.header.count + 1))
            (bt.read_node M (parent.children.getD pos 0)) 0).2.1.keys.getD
            (fill (M / 2) (node.new M (bt.header.count + 1))
              (bt.read_node M (parent.children.getD pos 0)) 0).2.2 0) false with
        children := ((parent.insert_in_node pos d
          ((fill (M / 2) (node.new M (bt.header.count + 1))
            (bt.read_node M (parent.children.getD pos 0)) 0).2.1.keys.getD
            (fill (M / 2) (node.new M (bt.header.count + 1))
              (bt.read_node M (parent.children.getD pos 0)) 0).2.2 0) false).children.set pos
            (halves M (node.new M (bt.header.count + 1)) (node.new M (bt.header.count + 1 + 1))
              (bt.read_node M (parent.children.getD pos 0))).1.page_id).set (pos + 1)
            (halves M (node.new M (bt.header.count + 1)) (node.new M (bt.header.count + 1 + 1))
              (bt.read_node M (parent.children.getD pos 0))).2.1.page_id } :=
  ⟨_, rfl⟩

theorem btree.split_header (M : Nat) (bt : btree) (parent : node) (pos : Nat) :
    (bt.split M parent pos).1.header =
      { root_id := bt.header.root_id, count := bt.header.count + 1 + 1 } := rfl

theorem btree.split_pm (M : Nat) (bt : btree) (parent : node) (pos : Nat) :
    (bt.split M parent pos).1.pm =
      ((((bt.pm.save 0 (Page.header
          { root_id := bt.header.root_id, count := bt.header.count + 1 })).save 0
          (Page.header { root_id := bt.header.root_id, count := bt.header.count + 1 + 1 })).save
        (bt.split M parent pos).2.page_id (Page.node (bt.split M parent pos).2)).save
        (halves M (node.new M (bt.header.count + 1)) (node.new M (bt.header.count + 1 + 1))
          (bt.read_node M (parent.children.getD pos 0))).1.page_id
        (Page.node (halves M (node.new M (bt.header.count + 1))
          (node.new M (bt.header.count + 1 + 1))
          (bt.read_node M (parent.children.getD pos 0))).1)).save
        (halves M (node.new M (bt.header.count + 1)) (node.new M (bt.header.count + 1 + 1))
          (bt.read_node M (parent.children.getD pos 0))).2.1.page_id
        (Page.node (halves M (node.new M (bt.header.count + 1))
          (node.new M (bt.header.count + 1 + 1))
          (bt.read_node M (parent.children.getD pos 0))).2.1) := rfl

theorem btree.split_root_header (M : Nat) (bt : btree) :
    (bt.split_root M).header =
      { root_id := bt.header.root_id, count := bt.header.count + 1 + 1 } := rfl

theorem btree.split_root_pm (M : Nat) (bt : btree) :
    (bt.split_root M).pm =
      ((((bt.pm.save 0 (Page.header
          { root_id := bt.header.root_id, count := bt.header.count + 1 })).save 0
          (Page.header { root_id := bt.header.root_id, count := bt.header.count + 1 + 1 })).save
        (halves M (node.new M (bt.header.count + 1)) (node.new M (bt.header.count + 1 + 1))
          (bt.read_node M bt.header.root_id)).2.2.page_id
        (Page.node
          { (halves M (node.new M (bt.header.count + 1)) (node.new M (bt.header.count + 1 + 1))
              (bt.read_node M bt.header.root_id)).2.2 with
            count := 1
            keys := (halves M (node.new M (bt.header.count + 1))
              (node.new M (bt.header.count + 1 + 1))
              (bt.read_node M bt.header.root_id)).2.2.keys.set 0
                ((halves M (node.new M (bt.header.count + 1))
                  (node.new M (bt.header.count + 1 + 1))
                  (bt.read_node M bt.header.root_id)).2.2.keys.getD (M / 2) 0)
            children := (((halves M (node.new M (bt.header.count + 1))
              (node.new M (bt.header.count + 1 + 1))
              (bt.read_node M bt.header.root_id)).2.2.children.set 0
                (halves M (node.new M (bt.header.count + 1))
                  (node.new M (bt.header.count + 1 + 1))
                  (bt.read_node M bt.header.root_id)).1.page_id).set 1
                (halves M (node.new M (bt.header.count + 1))
                  (node.new M (bt.header.count + 1 + 1))
                  (bt.read_node M bt.header.root_id)).2.1.page_id) })).save
        (halves M (node.new M (bt.header.count + 1)) (node.new M (bt.header.count + 1 + 1))
          (bt.read_node M bt.header.root_id)).1.page_id
        (Page.node (halves M (node.new M (bt.header.count + 1))
          (node.new M (bt.header.count + 1 + 1))
          (bt.read_node M bt.header.root_id)).1)).save
        (halves M (node.new M (bt.header.count + 1)) (node.new M (bt.header.count + 1 + 1))
          (bt.read_node M bt.header.root_id)).2.1.page_id
        (Page.node (halves M (node.new M (bt.header.count + 1))
          (node.new M (bt.header.count + 1 + 1))
          (bt.read_node M bt.header.root_id)).2.1) := rfl


/-! ## The halves of an overflowed node as subtrees -/

theorem kids_full (M : Nat) (C : node) (hs : C.sized M) (hc : C.count = M + 1) :
    C.kids = C.children := by
  unfold node.kids
  exact List.take_of_length_le (by rw [hs.2.2, hc])

theorem keyList_full (M : Nat) (C : node) (hs : C.sized M) (hc : C.count = M + 1) :
    C.keyList = C.keys := by
  unfold node.keyList
  exact List.take_of_length_le (by rw [hs.1, hc])

theorem halves_tree (M : Nat) (hM : 2 ≤ M) (pm1 pm2 : pagemanager) (h : Nat) (c : Int)
    (C : node) (idL idR : Int)
    (hC : pm1.nodeAt c = some C) (hs : Sub M pm1 h (M + 1) c) (hcnt : C.count = M + 1)
    (hL : pm2.nodeAt idL = some (halves M (node.new M idL) (node.new M idR) C).1)
    (hR : pm2.nodeAt idR = some (halves M (node.new M idL) (node.new M idR) C).2.1)
    (hag : ∀ p ∈ (pagesOf pm1 h c).tail, pm2 p = pm1 p) :
    Sub M pm2 h M idL ∧ Sub M pm2 h M idR ∧
    (∃ X Y, pagesOf pm2 h idL = idL :: X ∧ pagesOf pm2 h idR = idR :: Y ∧
      X ++ Y = (pagesOf pm1 h c).tail) ∧
    leafKeys pm2 h idL ++ leafKeys pm2 h idR = leafKeys pm1 h c := by
  have hdiv : M / 2 ≤ M := Nat.div_le_self M 2
  have hdiv1 : 1 ≤ M / 2 := by omega
  cases h with
  | zero =>
    simp only [Sub, hC, Option.some.injEq, exists_eq_left'] at hs
    obtain ⟨_, hsz, _, hkids⟩ := hs
    obtain ⟨a1, a2, a3, a4, a5, a6, a7, a8, a9, a10, a11, a12, _⟩ := halves_spec M C idL idR hsz
    have hfull := kids_full M C hsz hcnt
    have hleaf : C.children.getD 0 0 = 0 :=
      hkids _ (kids_getD_mem C 0 (by omega) (by rw [hsz.2.2, hcnt]))
    obtain ⟨b1, b2, b3⟩ := a12 hleaf
    refine ⟨?_, ?_, ⟨[], [], ?_, ?_, ?_⟩, ?_⟩
    · simp only [Sub, hL, Option.some.injEq, exists_eq_left']
      refine ⟨a1, a3, by rw [a9]; omega, ?_⟩
      intro x hx
      rw [a11] at hx
      exact hkids x (by rw [hfull]; exact List.mem_of_mem_take hx)
    · simp only [Sub, hR, Option.some.injEq, exists_eq_left']
      refine ⟨a2, a4, by rw [b1]; omega, ?_⟩
      intro x hx
      rw [b3] at hx
      exact hkids x (by rw [hfull]; exact List.mem_of_mem_drop hx)
    · simp [pagesOf]
    · simp [pagesOf]
    · simp [pagesOf]
    · simp only [leafKeys, hL, hR, hC, a10, b2, keyList_full M C hsz hcnt, List.take_append_drop]
  | succ h =>
    simp only [Sub, hC, Option.some.injEq, exists_eq_left'] at hs
    obtain ⟨_, hsz, _, hkids⟩ := hs
    obtain ⟨a1, a2, a3, a4, a5, a6, a7, a8, a9, a10, a11, _, a13⟩ := halves_spec M C idL idR hsz
    have hfull := kids_full M C hsz hcnt
    have hint : C.children.getD 0 0 ≠ 0 :=
      (hkids _ (kids_getD_mem C 0 (by omega) (by rw [hsz.2.2, hcnt]))).1
    obtain ⟨b1, b2, b3⟩ := a13 hint
    have hfr : ∀ g ∈ C.kids, pagesOf pm2 h g = pagesOf pm1 h g ∧
        leafKeys pm2 h g = leafKeys pm1 h g ∧ ∀ b, Sub M pm1 h b g → Sub M pm2 h b g := by
      intro g hg
      apply frame M pm1 pm2 h g
      intro p hp
      apply hag
      simp only [pagesOf, hC, List.tail_cons, List.mem_flatMap]
      exact ⟨g, hg, hp⟩
    have hLk : ∀ g ∈ (halves M (node.new M idL) (node.new M idR) C).1.kids, g ∈ C.kids := by
      intro g hg; rw [a11] at hg; rw [hfull]; exact List.mem_of_mem_take hg
    have hRk : ∀ g ∈ (halves M (node.new M idL) (node.new M idR) C).2.1.kids, g ∈ C.kids := by
      intro g hg; rw [b3] at hg; rw [hfull]; exact List.mem_of_mem_drop hg
    refine ⟨?_, ?_, ⟨(halves M (node.new M idL) (node.new M idR) C).1.kids.flatMap
        (fun g => pagesOf pm2 h g), (halves M (node.new M idL) (node.new M idR) C).2.1.kids.flatMap
        (fun g => pagesOf pm2 h g), ?_, ?_, ?_⟩, ?_⟩
    · simp only [Sub, hL, Option.some.injEq, exists_eq_left']
      refine ⟨a1, a3, by rw [a9]; omega, ?_⟩
      intro x hx
      exact ⟨(hkids x (hLk x hx)).1, (hfr x (hLk x hx)).2.2 M (hkids x (hLk x hx)).2⟩
    · simp only [Sub, hR, Option.some.injEq, exists_eq_left']
      refine ⟨a2, a4, by rw [b1]; omega, ?_⟩
      intro x hx
      exact ⟨(hkids x (hRk x hx)).1, (hfr x (hRk x hx)).2.2 M (hkids x (hRk x hx)).2⟩
    · simp only [pagesOf, hL]
    · simp only [pagesOf, hR]
    · simp only [pagesOf, hC, List.tail_cons]
      rw [List.flatMap_congr (fun g hg => (hfr g (hLk g hg)).1),
        List.flatMap_congr (fun g hg => (hfr g (hRk g hg)).1), a11, b3, ← List.flatMap_append,
        hfull, List.take_append_drop]
    · simp only [leafKeys, hL, hR, hC]
      rw [List.flatMap_congr (fun g hg => (hfr g (hLk g hg)).2.1),
        List.flatMap_congr (fun g hg => (hfr g (hRk g hg)).2.1), a11, b3, ← List.flatMap_append,
        hfull, List.take_append_drop]


/-! ## The recursive insert -/

theorem st_iff (M : Nat) (n : node) :
    (if n.is_overflow M = true then state.BT_OVERFLOW else state.NORMAL) = state.BT_OVERFLOW ↔
      M < n.count := by
  unfold node.is_overflow
  by_cases h : M < n.count <;> simp [h]

theorem nodup_mid (x : Int) (P S S' Q : List Int) (hc : Int)
    (h : (x :: (P ++ (S ++ Q))).Nodup) (hb : ∀ p ∈ x :: (P ++ (S ++ Q)), p ≤ hc)
    (hS' : S'.Nodup) (hsub : ∀ p ∈ S', p ∈ S ∨ hc < p) :
    (x :: (P ++ (S' ++ Q))).Nodup := by
  simp only [List.nodup_cons, List.nodup_append, List.mem_append, List.disjoint_left,
    List.mem_cons, not_or] at h hb ⊢
  obtain ⟨⟨h1, h2, h3⟩, h4, ⟨h5, h6, h7⟩, h8⟩ := h
  refine ⟨⟨h1, ?_, h3⟩, h4, ⟨hS', h6, ?_⟩, ?_⟩
  · intro hx
    rcases hsub x hx with h9 | h9
    · exact h2 h9
    · have := hb x (Or.inl rfl); omega
  · intro a ha haq
    rcases hsub a ha with h9 | h9
    · exact h7 h9 haq
    · have := hb a (Or.inr (Or.inr (Or.inr haq))); omega
  · intro a ha
    refine ⟨?_, (h8 ha).2⟩
    intro h10
    rcases hsub a h10 with h9 | h9
    · exact (h8 ha).1 h9
    · have := hb a (Or.inr (Or.inl ha)); omega

theorem insert_node_leaf (M : Nat) (fuel : Nat) (bt : btree) (ptr : node) (v k : Int)
    (hf : 0 < fuel) (hT : Tree M bt.pm bt.header.count 0 M ptr.page_id)
    (hptr : bt.pm.nodeAt ptr.page_id = some ptr) (hA : AllLe (M + 1) bt.pm) :
    ∃ bt1 ptr1 st, bt.insert_node M fuel ptr v k = some (bt1, ptr1, st) ∧
      ptr1.page_id = ptr.page_id ∧ bt1.pm.nodeAt ptr.page_id = some ptr1 ∧
      (st = state.BT_OVERFLOW ↔ M < ptr1.count) ∧ Post M bt bt1 0 ptr.page_id k := by
  obtain ⟨f, rfl⟩ : ∃ f, fuel = f + 1 := ⟨fuel - 1, by omega⟩
  obtain ⟨hS, hN, hB⟩ := hT
  simp only [Sub, hptr, Option.some.injEq, exists_eq_left'] at hS
  obtain ⟨_, hsz, hcnt, hkids⟩ := hS
  have hpos : scan ptr v ptr.count 0 ≤ ptr.count := scan_le ptr v _ 0 (Nat.zero_le _)
  have hlen : ptr.count + 1 ≤ ptr.children.length := by rw [hsz.2.2]; omega
  have hz : ptr.children.getD (scan ptr v ptr.count 0) 0 = 0 :=
    hkids _ (kids_getD_mem ptr _ hpos hlen)
  have hid : 1 ≤ ptr.page_id := (hB _ (pagesOf_head _ 0 _)).1
  unfold btree.insert_node
  simp only [hz, ne_eq, not_true, if_false]
  refine ⟨_, _, _, rfl, node.insert_in_node_page_id _ _ _ _ _, ?_, st_iff M _, ?_⟩
  · simp only [btree.write_node, node.insert_in_node_page_id]
    exact nodeAt_save_node _ _ _
  · unfold Post
    simp only [btree.write_node, node.insert_in_node_page_id]
    refine ⟨trivial, le_refl _, ?_, ⟨?_, ?_, ?_⟩, ?_, ?_, ?_, ?_⟩
    · intro h0
      simp only [pagemanager.save]
      rw [if_neg (by omega)]; exact h0
    · simp only [Sub, nodeAt_save_node, Option.some.injEq, exists_eq_left']
      refine ⟨node.insert_in_node_page_id _ _ _ _ _, node.insert_in_node_sized M _ _ _ _ _ hsz,
        by rw [node.insert_in_node_count]; omega, ?_⟩
      intro c hc
      rw [node.insert_in_node_kids M ptr _ v k _ hsz hpos hcnt] at hc
      simp only [List.mem_append, List.mem_cons] at hc
      rcases hc with hc | hc | hc
      · exact hkids c (List.mem_of_mem_take hc)
      · rw [hc]; exact hz
      · exact hkids c (List.mem_of_mem_drop hc)
    · simp [pagesOf]
    · intro p hp
      simp only [pagesOf, List.mem_singleton] at hp
      subst hp
      exact hB _ (pagesOf_head _ 0 _)
    · intro p hp _ _
      simp only [pagesOf, List.mem_singleton] at hp
      simp only [pagemanager.save, if_neg hp]
    · intro p hp
      left; simpa only [pagesOf] using hp
    · refine ⟨ptr.keyList.take (scan ptr v ptr.count 0), ptr.keyList.drop (scan ptr v ptr.count 0),
        ?_, ?_⟩
      · simp only [leafKeys, hptr, List.take_append_drop]
      · simp only [leafKeys, nodeAt_save_node]
        exact node.insert_in_node_keyList M ptr _ v k _ hsz hpos hcnt
    · exact hA.save_node _ _ (by rw [node.insert_in_node_count]; omega)


theorem set_two (A B : List Int) (x y u v : Int) :
    ((A ++ x :: y :: B).set A.length u).set (A.length + 1) v = A ++ u :: v :: B := by
  induction A with
  | nil => simp
  | cons a A ih => simp [ih]

/-- The parent returned by `split`: the key `keys[M/2]` of the overflowed child
is inserted at `pos`, and the child slot `pos` is replaced by the two fresh
pages. -/
theorem btree.split_snd_spec (M : Nat) (bt : btree) (parent : node) (pos : Nat)
    (hs : parent.sized M) (hp : pos ≤ parent.count) (hc : parent.count ≤ M)
    (hC : (bt.read_node M (parent.children.getD pos 0)).sized M) :
    (bt.split M parent pos).2.page_id = parent.page_id ∧
    (bt.split M parent pos).2.count = parent.count + 1 ∧
    (bt.split M parent pos).2.sized M ∧
    (bt.split M parent pos).2.kids =
      parent.kids.take pos ++ (bt.header.count + 1) :: (bt.header.count + 1 + 1) ::
        parent.kids.drop (pos + 1) ∧
    (bt.split M parent pos).2.keyList =
      parent.keyList.take pos ++
        (bt.read_node M (parent.children.getD pos 0)).keys.getD (M / 2) 0 ::
        parent.keyList.drop pos := by
  have hdiv : M / 2 ≤ M := Nat.div_le_self M 2
  obtain ⟨d, hd⟩ := btree.split_snd M bt parent pos
  obtain ⟨a1, a2, _⟩ := halves_spec M _ (bt.header.count + 1) (bt.header.count + 1 + 1) hC
  obtain ⟨_, _, _, _, _, _, _, f8, _, _, f11⟩ :=
    fill_spec M (M / 2) _ (bt.header.count + 1) 0 hC (by omega) (by omega)
  rw [hd, a1, a2, f8, f11]
  have hlen : parent.count + 1 ≤ parent.children.length := by rw [hs.2.2]; omega
  have hkl : parent.kids.length = parent.count + 1 := kids_length parent hlen
  refine ⟨node.insert_in_node_page_id _ _ _ _ _, node.insert_in_node_count _ _ _ _ _, ?_, ?_, ?_⟩
  · have h1 := node.insert_in_node_sized M parent pos d
      ((bt.read_node M (parent.children.getD pos 0)).keys.getD (M / 2) 0) false hs
    exact ⟨h1.1, h1.2.1, by simp only [List.length_set]; exact h1.2.2⟩
  · have h1 := node.insert_in_node_kids M parent pos d
      ((bt.read_node M (parent.children.getD pos 0)).keys.getD (M / 2) 0) false hs hp hc
    simp only [node.kids, node.insert_in_node_count] at h1 ⊢
    rw [List.set_take, List.set_take, h1]
    have h2 : List.take (pos + 1) (List.take (parent.count + 1) parent.children) =
        List.take pos (List.take (parent.count + 1) parent.children) ++
          [parent.children.getD pos 0] := by
      rw [← kids_getD parent pos hp]
      exact (take_append_getD _ pos (by simp only [node.kids] at hkl; rw [hkl]; omega)).symm
    rw [h2, List.append_assoc, List.singleton_append]
    have h3 : (List.take pos (List.take (parent.count + 1) parent.children)).length = pos := by
      simp only [node.kids] at hkl
      rw [List.length_take, hkl]; omega
    have h4 := set_two (List.take pos (List.take (parent.count + 1) parent.children))
      (List.drop (pos + 1) (List.take (parent.count + 1) parent.children))
      (parent.children.getD pos 0) (parent.children.getD pos 0)
      (bt.header.count + 1) (bt.header.count + 1 + 1)
    rw [h3] at h4
    exact h4
  · have h1 := node.insert_in_node_keyList M parent pos d
      ((bt.read_node M (parent.children.getD pos 0)).keys.getD (M / 2) 0) false hs hp hc
    simp only [node.keyList, node.insert_in_node_count] at h1 ⊢
    exact h1

/-- What `split` leaves in the page store. -/
theorem btree.split_store (M : Nat) (bt : btree) (parent : node) (pos : Nat)
    (hC : (bt.read_node M (parent.children.getD pos 0)).sized M)
    (h1 : 1 ≤ parent.page_id) (h2 : parent.page_id ≤ bt.header.count) :
    (bt.split M parent pos).1.pm.nodeAt parent.page_id = some (bt.split M parent pos).2 ∧
    (bt.split M parent pos).1.pm.nodeAt (bt.header.count + 1) =
      some (halves M (node.new M (bt.header.count + 1)) (node.new M (bt.header.count + 1 + 1))
        (bt.read_node M (parent.children.getD pos 0))).1 ∧
    (bt.split M parent pos).1.pm.nodeAt (bt.header.count + 1 + 1) =
      some (halves M (node.new M (bt.header.count + 1)) (node.new M (bt.header.count + 1 + 1))
        (bt.read_node M (parent.children.getD pos 0))).2.1 ∧
    (bt.split M parent pos).1.pm 0 = some (Page.header (bt.split M parent pos).1.header) ∧
    (∀ p, p ≠ 0 → p ≠ parent.page_id → p ≠ bt.header.count + 1 → p ≠ bt.header.count + 1 + 1 →
      (bt.split M parent pos).1.pm p = bt.pm p) ∧
    (AllLe (M + 1) bt.pm → (bt.split M parent pos).2.count ≤ M + 1 →
      (halves M (node.new M (bt.header.count + 1)) (node.new M (bt.header.count + 1 + 1))
        (bt.read_node M (parent.children.getD pos 0))).1.count ≤ M + 1 →
      (halves M (node.new M (bt.header.count + 1)) (node.new M (bt.header.count + 1 + 1))
        (bt.read_node M (parent.children.getD pos 0))).2.1.count ≤ M + 1 →
      AllLe (M + 1) (bt.split M parent pos).1.pm) := by
  obtain ⟨a1, a2, _⟩ := halves_spec M _ (bt.header.count + 1) (bt.header.count + 1 + 1) hC
  obtain ⟨d, hd⟩ := btree.split_snd M bt parent pos
  have hpid : (bt.split M parent pos).2.page_id = parent.page_id := by
    rw [hd]; exact node.insert_in_node_page_id _ _ _ _ _
  rw [btree.split_pm, btree.split_header, a1, a2, hpid]
  refine ⟨?_, ?_, ?_, ?_, ?_, ?_⟩
  · rw [nodeAt_save_ne _ _ _ _ (by omega), nodeAt_save_ne _ _ _ _ (by omega), nodeAt_save_node]
  · rw [nodeAt_save_ne _ _ _ _ (by omega), nodeAt_save_node]
  · rw [nodeAt_save_node]
  · simp only [pagemanager.save]
    rw [if_neg (by omega), if_neg (by omega), if_neg (by omega), if_pos trivial]
  · intro p p0 p1 p2 p3
    simp only [pagemanager.save]
    rw [if_neg p3, if_neg p2, if_neg p1, if_neg p0, if_neg p0]
  · intro hA c1 c2 c3
    exact ((((hA.save_header _ _).save_header _ _).save_node _ _ c1).save_node _ _ c2).save_node
      _ _ c3


theorem nodup_fresh (X Y : List Int) (u v hc : Int) (hXY : (X ++ Y).Nodup)
    (hb : ∀ p ∈ X ++ Y, p ≤ hc) (hu : hc < u) (hv : hc < v) (huv : u ≠ v) :
    (u :: (X ++ v :: Y)).Nodup := by
  simp only [List.nodup_cons, List.nodup_append, List.mem_append, List.disjoint_left,
    List.mem_cons, not_or] at hXY hb ⊢
  obtain ⟨h1, h2, h3⟩ := hXY
  refine ⟨⟨?_, huv, ?_⟩, h1, ⟨?_, h2⟩, ?_⟩
  · intro hx; have := hb u (Or.inl hx); omega
  · intro hx; have := hb u (Or.inr hx); omega
  · intro hx; have := hb v (Or.inr hx); omega
  · intro a ha
    refine ⟨?_, h3 ha⟩
    intro hav; have := hb a (Or.inl ha); omega

theorem btree.insert_node_step (M f : Nat) (bt : btree) (ptr : node) (v k : Int)
    (bt1 : btree) (c1 : node) (st : state)
    (hne : ptr.children.getD (scan ptr v ptr.count 0) 0 ≠ 0)
    (hres : bt.insert_node M f (bt.read_node M (ptr.children.getD (scan ptr v ptr.count 0) 0))
      v k = some (bt1, c1, st)) :
    bt.insert_node M (f + 1) ptr v k =
      some ((if st = state.BT_OVERFLOW then bt1.split M ptr (scan ptr v ptr.count 0)
          else (bt1, ptr)).1,
        (if st = state.BT_OVERFLOW then bt1.split M ptr (scan ptr v ptr.count 0)
          else (bt1, ptr)).2,
        if (if st = state.BT_OVERFLOW then bt1.split M ptr (scan ptr v ptr.count 0)
          else (bt1, ptr)).2.is_overflow M = true then state.BT_OVERFLOW else state.NORMAL) := by
  conv => lhs; unfold btree.insert_node
  simp only [hne, ne_eq, not_false_eq_true, if_true, hres]


/-- The step of the recursive insert at an intermediate node, after the
recursive call on the child in slot `pos` has returned. -/
theorem inner_core (M : Nat) (hM : 2 ≤ M) (h : Nat) (bt bt1 : btree) (ptr child1 : node)
    (pos : Nat) (k : Int) (st1 : state)
    (hT : Tree M bt.pm bt.header.count (h + 1) M ptr.page_id)
    (hptr : bt.pm.nodeAt ptr.page_id = some ptr) (hpos : pos ≤ ptr.count)
    (hnode1 : bt1.pm.nodeAt (ptr.children.getD pos 0) = some child1)
    (hst1 : st1 = state.BT_OVERFLOW ↔ M < child1.count)
    (hP1 : Post M bt bt1 h (ptr.children.getD pos 0) k) :
    (if st1 = state.BT_OVERFLOW then bt1.split M ptr pos else (bt1, ptr)).2.page_id
      = ptr.page_id ∧
    (if st1 = state.BT_OVERFLOW then bt1.split M ptr pos else (bt1, ptr)).1.pm.nodeAt ptr.page_id
      = some (if st1 = state.BT_OVERFLOW then bt1.split M ptr pos else (bt1, ptr)).2 ∧
    Post M bt (if st1 = state.BT_OVERFLOW then bt1.split M ptr pos else (bt1, ptr)).1 (h + 1)
      ptr.page_id k := by
  obtain ⟨hS, hN, hB⟩ := hT
  simp only [Sub, hptr, Option.some.injEq, exists_eq_left'] at hS
  obtain ⟨_, hsz, hcnt, hkids⟩ := hS
  have hlen : ptr.count + 1 ≤ ptr.children.length := by rw [hsz.2.2]; omega
  have hcm := kids_getD_mem ptr _ hpos hlen
  have hk := kids_split_at ptr _ hpos hlen
  obtain ⟨hc0, hSc⟩ := hkids _ hcm
  -- the pages and the leaf keys of the subtree before the call
  have hpg : pagesOf bt.pm (h + 1) ptr.page_id = ptr.page_id ::
      ((ptr.kids.take pos).flatMap (fun c => pagesOf bt.pm h c) ++
        (pagesOf bt.pm h (ptr.children.getD pos 0) ++
          (ptr.kids.drop (pos + 1)).flatMap (fun c => pagesOf bt.pm h c))) := by
    conv => lhs; simp only [pagesOf, hptr]; rw [hk]
    simp only [List.flatMap_append, List.flatMap_cons]
  have hlk : leafKeys bt.pm (h + 1) ptr.page_id =
      (ptr.kids.take pos).flatMap (fun c => leafKeys bt.pm h c) ++
        (leafKeys bt.pm h (ptr.children.getD pos 0) ++
          (ptr.kids.drop (pos + 1)).flatMap (fun c => leafKeys bt.pm h c)) := by
    conv => lhs; simp only [leafKeys, hptr]; rw [hk]
    simp only [List.flatMap_append, List.flatMap_cons]
  rw [hpg] at hN hB
  have hidB := hB _ (List.mem_cons_self _ _)
  have hN' := hN
  simp only [List.nodup_cons, List.nodup_append, List.mem_append, List.disjoint_left,
    List.mem_cons, not_or, List.mem_flatMap] at hN'
  obtain ⟨⟨n1, n2, n3⟩, n4, ⟨n5, n6, n7⟩, n8⟩ := hN'
  obtain ⟨q1, q2, q3, ⟨qS, qN, qB⟩, q5, q6, ⟨l1, l2, q7a, q7b⟩, q8⟩ := hP1
  -- the siblings of the child are untouched by the call
  have hsib : ∀ a, a ∈ ptr.kids.take pos ∨ a ∈ ptr.kids.drop (pos + 1) →
      ∀ p ∈ pagesOf bt.pm h a, (1 ≤ p ∧ p ≤ bt.header.count) ∧ p ≠ ptr.page_id ∧
        p ∉ pagesOf bt.pm h (ptr.children.getD pos 0) := by
    intro a ha p hp
    rcases ha with ha | ha
    · refine ⟨hB p ?_, ?_, (n8 ⟨a, ha, hp⟩).1⟩
      · simp only [List.mem_cons, List.mem_append, List.mem_flatMap]
        exact Or.inr (Or.inl ⟨a, ha, hp⟩)
      · intro e; subst e; exact n1 ⟨a, ha, hp⟩
    · refine ⟨hB p ?_, ?_, fun hx => n7 hx ⟨a, ha, hp⟩⟩
      · simp only [List.mem_cons, List.mem_append, List.mem_flatMap]
        exact Or.inr (Or.inr (Or.inr ⟨a, ha, hp⟩))
      · intro e; subst e; exact n3 ⟨a, ha, hp⟩
  have hfr1 : ∀ a, a ∈ ptr.kids.take pos ∨ a ∈ ptr.kids.drop (pos + 1) →
      pagesOf bt1.pm h a = pagesOf bt.pm h a ∧ leafKeys bt1.pm h a = leafKeys bt.pm h a ∧
        ∀ b, Sub M bt.pm h b a → Sub M bt1.pm h b a := fun a ha =>
    frame M bt.pm bt1.pm h a (fun p hp =>
      q5 p (hsib a ha p hp).2.2 (hsib a ha p hp).1.1 (hsib a ha p hp).1.2)
  have hptr1 : bt1.pm.nodeAt ptr.page_id = some ptr := by
    rw [nodeAt_congr _ _ _ (q5 _ n2 hidB.1 hidB.2)]; exact hptr
  have hN1 := nodup_mid _ _ _ _ _ bt.header.count hN (fun p hp => (hB p hp).2) qN q6
  have hB1 : ∀ p ∈ ptr.page_id ::
      ((ptr.kids.take pos).flatMap (fun c => pagesOf bt.pm h c) ++
        (pagesOf bt1.pm h (ptr.children.getD pos 0) ++
          (ptr.kids.drop (pos + 1)).flatMap (fun c => pagesOf bt.pm h c))),
      1 ≤ p ∧ p ≤ bt1.header.count := by
    intro p hp
    simp only [List.mem_cons, List.mem_append] at hp
    rcases hp with hp | hp | hp | hp
    · subst hp; exact ⟨hidB.1, by omega⟩
    · have := hB p (by simp only [List.mem_cons, List.mem_append]; exact Or.inr (Or.inl hp))
      exact ⟨this.1, by omega⟩
    · exact qB p hp
    · have := hB p (by simp only [List.mem_cons, List.mem_append]
                       exact Or.inr (Or.inr (Or.inr hp)))
      exact ⟨this.1, by omega⟩
  have hidc1 : ptr.page_id ∉ pagesOf bt1.pm h (ptr.children.getD pos 0) := by
    intro hx
    rcases q6 _ hx with h9 | h9
    · exact n2 h9
    · omega
  by_cases hov : st1 = state.BT_OVERFLOW
  · -- the child overflowed and is split
    obtain ⟨n, hn1, _, hn3, hn4⟩ := qS.node
    rw [hnode1, Option.some.injEq] at hn1
    subst hn1
    have hc1 : child1.count = M + 1 := by
      have := hst1.mp hov; omega
    have hrd1 := read_node_of_nodeAt M bt1 _ child1 hnode1
    obtain ⟨s1, s2, s3, s4, _⟩ := btree.split_snd_spec M bt1 ptr pos hsz hpos hcnt
      (by rw [hrd1]; exact hn3)
    obtain ⟨t1, t2, t3, t4, t5, t6⟩ := btree.split_store M bt1 ptr pos
      (by rw [hrd1]; exact hn3) hidB.1 (by omega)
    have t0 := btree.split_header M bt1 ptr pos
    rw [hrd1] at t2 t3 t6
    have hpt : ∀ p, pagesOf bt1.pm h p = p :: (pagesOf bt1.pm h p).tail := by
      intro p; cases h <;> simp [pagesOf]
    have hag : ∀ p ∈ (pagesOf bt1.pm h (ptr.children.getD pos 0)).tail,
        (bt1.split M ptr pos).1.pm p = bt1.pm p := by
      intro p hp
      have hp' := List.mem_of_mem_tail hp
      have hb := qB p hp'
      exact t5 p (by omega) (fun e => hidc1 (e ▸ hp')) (by omega) (by omega)
    obtain ⟨u1, u2, ⟨X, Y, u3, u4, u5⟩, u6⟩ := halves_tree M hM bt1.pm
      (bt1.split M ptr pos).1.pm h _ child1 _ _ hnode1 qS hc1 t2 t3 hag
    have hLR := halves_spec M child1 (bt1.header.count + 1) (bt1.header.count + 1 + 1) hn3
    have hLc : (halves M (node.new M (bt1.header.count + 1))
        (node.new M (bt1.header.count + 1 + 1)) child1).1.count ≤ M + 1 := by
      obtain ⟨n', e1, _, _, e4⟩ := u1.node
      rw [t2, Option.some.injEq] at e1
      rw [e1]; omega
    have hRc : (halves M (node.new M (bt1.header.count + 1))
        (node.new M (bt1.header.count + 1 + 1)) child1).2.1.count ≤ M + 1 := by
      obtain ⟨n', e1, _, _, e4⟩ := u2.node
      rw [t3, Option.some.injEq] at e1
      rw [e1]; omega
    have hfr2 : ∀ a, a ∈ ptr.kids.take pos ∨ a ∈ ptr.kids.drop (pos + 1) →
        pagesOf (bt1.split M ptr pos).1.pm h a = pagesOf bt.pm h a ∧
        leafKeys (bt1.split M ptr pos).1.pm h a = leafKeys bt.pm h a ∧
          ∀ b, Sub M bt.pm h b a → Sub M (bt1.split M ptr pos).1.pm h b a := by
      intro a ha
      obtain ⟨f1, f2, f3⟩ := hfr1 a ha
      obtain ⟨g1, g2, g3⟩ := frame M bt1.pm (bt1.split M ptr pos).1.pm h a (by
        intro p hp
        rw [f1] at hp
        obtain ⟨hb, hne, _⟩ := hsib a ha p hp
        exact t5 p (by omega) hne (by omega) (by omega))
      exact ⟨by rw [g1, f1], by rw [g2, f2], fun b hb => g3 b (f3 b hb)⟩
    have hXY : X ++ Y = (pagesOf bt1.pm h (ptr.children.getD pos 0)).tail := u5
    have hXYn : (X ++ Y).Nodup := by
      rw [hXY]
      have := qN; rw [hpt] at this
      exact this.of_cons
    have hXYb : ∀ p ∈ X ++ Y, p ∈ pagesOf bt1.pm h (ptr.children.getD pos 0) := by
      intro p hp; rw [hXY] at hp; exact List.mem_of_mem_tail hp
    have hpg2 : pagesOf (bt1.split M ptr pos).1.pm (h + 1) ptr.page_id = ptr.page_id ::
        ((ptr.kids.take pos).flatMap (fun c => pagesOf bt.pm h c) ++
          (((bt1.header.count + 1) :: (X ++ (bt1.header.count + 1 + 1) :: Y)) ++
            (ptr.kids.drop (pos + 1)).flatMap (fun c => pagesOf bt.pm h c))) := by
      conv => lhs; simp only [pagesOf, t1]; rw [s4]
      simp only [List.flatMap_append, List.flatMap_cons]
      rw [List.flatMap_congr (fun a ha => (hfr2 a (Or.inl ha)).1),
        List.flatMap_congr (fun a ha => (hfr2 a (Or.inr ha)).1), u3, u4]
      simp only [List.append_assoc, List.cons_append]
    have hlk2 : leafKeys (bt1.split M ptr pos).1.pm (h + 1) ptr.page_id =
        (ptr.kids.take pos).flatMap (fun c => leafKeys bt.pm h c) ++
          (leafKeys bt1.pm h (ptr.children.getD pos 0) ++
            (ptr.kids.drop (pos + 1)).flatMap (fun c => leafKeys bt.pm h c)) := by
      conv => lhs; simp only [leafKeys, t1]; rw [s4]
      simp only [List.flatMap_append, List.flatMap_cons]
      rw [List.flatMap_congr (fun a ha => (hfr2 a (Or.inl ha)).2.1),
        List.flatMap_congr (fun a ha => (hfr2 a (Or.inr ha)).2.1), ← u6]
      simp only [List.append_assoc]
    have hsub2 : ∀ p ∈ (bt1.header.count + 1) :: (X ++ (bt1.header.count + 1 + 1) :: Y),
        p ∈ pagesOf bt1.pm h (ptr.children.getD pos 0) ∨ bt1.header.count < p := by
      intro p hp
      simp only [List.mem_cons, List.mem_append] at hp
      rcases hp with hp | hp | hp | hp
      · right; omega
      · left; exact hXYb p (List.mem_append_left _ hp)
      · right; omega
      · left; exact hXYb p (List.mem_append_right _ hp)
    simp only [hov, if_true]
    refine ⟨s1, t1, by rw [t0]; exact q1, by rw [t0]; simp only; omega, fun _ => t4,
      ⟨?_, ?_, ?_⟩, ?_, ?_, ?_, t6 q8 (by rw [s2]; omega) hLc hRc⟩
    · simp only [Sub, t1, Option.some.injEq, exists_eq_left']
      refine ⟨s1, s3, by rw [s2]; omega, ?_⟩
      intro x hx
      rw [s4] at hx
      simp only [List.mem_append, List.mem_cons] at hx
      rcases hx with hx | hx | hx | hx
      · exact ⟨(hkids x (List.mem_of_mem_take hx)).1,
          (hfr2 x (Or.inl hx)).2.2 M (hkids x (List.mem_of_mem_take hx)).2⟩
      · subst hx; exact ⟨by omega, u1⟩
      · subst hx; exact ⟨by omega, u2⟩
      · exact ⟨(hkids x (List.mem_of_mem_drop hx)).1,
          (hfr2 x (Or.inr hx)).2.2 M (hkids x (List.mem_of_mem_drop hx)).2⟩
    · rw [hpg2]
      exact nodup_mid _ _ _ _ _ bt1.header.count hN1 (fun p hp => (hB1 p hp).2)
        (nodup_fresh X Y _ _ bt1.header.count hXYn (fun p hp => (qB p (hXYb p hp)).2)
          (by omega) (by omega) (by omega)) hsub2
    · rw [hpg2, t0]
      intro p hp
      simp only [List.mem_cons, List.mem_append] at hp
      rcases hp with hp | hp | (hp | hp | hp | hp) | hp
      · subst hp; exact ⟨hidB.1, by simp only; omega⟩
      · have := hB p (by simp only [List.mem_cons, List.mem_append]; exact Or.inr (Or.inl hp))
        exact ⟨this.1, by simp only; omega⟩
      · subst hp; simp only; omega
      · have := qB p (hXYb p (List.mem_append_left _ hp))
        exact ⟨this.1, by simp only; omega⟩
      · subst hp; simp only; omega
      · have := qB p (hXYb p (List.mem_append_right _ hp))
        exact ⟨this.1, by simp only; omega⟩
      · have := hB p (by simp only [List.mem_cons, List.mem_append]
                         exact Or.inr (Or.inr (Or.inr hp)))
        exact ⟨this.1, by simp only; omega⟩
    · intro p hp p1 p2
      rw [hpg] at hp
      simp only [List.mem_cons, List.mem_append, not_or] at hp
      rw [t5 p (by omega) hp.1 (by omega) (by omega)]
      exact q5 p hp.2.2.1 p1 p2
    · intro p hp
      rw [hpg2] at hp
      rw [hpg]
      simp only [List.mem_cons, List.mem_append] at hp ⊢
      rcases hp with hp | hp | (hp | hp | hp | hp) | hp
      · exact Or.inl (Or.inl hp)
      · exact Or.inl (Or.inr (Or.inl hp))
      · right; omega
      · rcases q6 p (hXYb p (List.mem_append_left _ hp)) with h9 | h9
        · exact Or.inl (Or.inr (Or.inr (Or.inl h9)))
        · exact Or.inr h9
      · right; omega
      · rcases q6 p (hXYb p (List.mem_append_right _ hp)) with h9 | h9
        · exact Or.inl (Or.inr (Or.inr (Or.inl h9)))
        · exact Or.inr h9
      · exact Or.inl (Or.inr (Or.inr (Or.inr hp)))
    · refine ⟨(ptr.kids.take pos).flatMap (fun c => leafKeys bt.pm h c) ++ l1,
        l2 ++ (ptr.kids.drop (pos + 1)).flatMap (fun c => leafKeys bt.pm h c), ?_, ?_⟩
      · rw [hlk, q7a]; simp only [List.append_assoc]
      · rw [hlk2, q7b]; simp only [List.append_assoc, List.cons_append]
  · -- the child did not overflow
    have hle : child1.count ≤ M := by
      have := mt hst1.mpr hov; omega
    have hpg1 : pagesOf bt1.pm (h + 1) ptr.page_id = ptr.page_id ::
        ((ptr.kids.take pos).flatMap (fun c => pagesOf bt.pm h c) ++
          (pagesOf bt1.pm h (ptr.children.getD pos 0) ++
            (ptr.kids.drop (pos + 1)).flatMap (fun c => pagesOf bt.pm h c))) := by
      conv => lhs; simp only [pagesOf, hptr1]; rw [hk]
      simp only [List.flatMap_append, List.flatMap_cons]
      rw [List.flatMap_congr (fun a ha => (hfr1 a (Or.inl ha)).1),
        List.flatMap_congr (fun a ha => (hfr1 a (Or.inr ha)).1)]
    have hlk1 : leafKeys bt1.pm (h + 1) ptr.page_id =
        (ptr.kids.take pos).flatMap (fun c => leafKeys bt.pm h c) ++
          (leafKeys bt1.pm h (ptr.children.getD pos 0) ++
            (ptr.kids.drop (pos + 1)).flatMap (fun c => leafKeys bt.pm h c)) := by
      conv => lhs; simp only [leafKeys, hptr1]; rw [hk]
      simp only [List.flatMap_append, List.flatMap_cons]
      rw [List.flatMap_congr (fun a ha => (hfr1 a (Or.inl ha)).2.1),
        List.flatMap_congr (fun a ha => (hfr1 a (Or.inr ha)).2.1)]
    simp only [hov, if_false]
    refine ⟨trivial, hptr1, q1, q2, q3, ⟨?_, ?_, ?_⟩, ?_, ?_, ?_, q8⟩
    · simp only [Sub, hptr1, Option.some.injEq, exists_eq_left']
      refine ⟨by assumption, hsz, by omega, ?_⟩
      intro x hx
      rw [hk] at hx
      simp only [List.mem_append, List.mem_cons] at hx
      rcases hx with hx | hx | hx
      · exact ⟨(hkids x (List.mem_of_mem_take hx)).1,
          (hfr1 x (Or.inl hx)).2.2 M (hkids x (List.mem_of_mem_take hx)).2⟩
      · subst hx; exact ⟨hc0, qS.mono child1 hnode1 hle⟩
      · exact ⟨(hkids x (List.mem_of_mem_drop hx)).1,
          (hfr1 x (Or.inr hx)).2.2 M (hkids x (List.mem_of_mem_drop hx)).2⟩
    · rw [hpg1]; exact hN1
    · rw [hpg1]; exact hB1
    · intro p hp p1 p2
      rw [hpg] at hp
      simp only [List.mem_cons, List.mem_append, not_or] at hp
      exact q5 p hp.2.2.1 p1 p2
    · intro p hp
      rw [hpg1] at hp
      rw [hpg]
      simp only [List.mem_cons, List.mem_append] at hp ⊢
      rcases hp with hp | hp | hp | hp
      · exact Or.inl (Or.inl hp)
      · exact Or.inl (Or.inr (Or.inl hp))
      · rcases q6 p hp with h9 | h9
        · exact Or.inl (Or.inr (Or.inr (Or.inl h9)))
        · exact Or.inr h9
      · exact Or.inl (Or.inr (Or.inr (Or.inr hp)))
    · refine ⟨(ptr.kids.take pos).flatMap (fun c => leafKeys bt.pm h c) ++ l1,
        l2 ++ (ptr.kids.drop (pos + 1)).flatMap (fun c => leafKeys bt.pm h c), ?_, ?_⟩
      · rw [hlk, q7a]; simp only [List.append_assoc]
      · rw [hlk1, q7b]; simp only [List.append_assoc, List.cons_append]


/-- The recursive insert on a well-formed subtree of height `h` returns when
given more than `h` units of fuel, and its effect is described by `Post`. -/
theorem insert_node_spec (M : Nat) (hM : 2 ≤ M) : ∀ (h fuel : Nat) (bt : btree) (ptr : node)
    (v k : Int), h < fuel →
    Tree M bt.pm bt.header.count h M ptr.page_id → bt.pm.nodeAt ptr.page_id = some ptr →
    AllLe (M + 1) bt.pm →
    ∃ bt1 ptr1 st, bt.insert_node M fuel ptr v k = some (bt1, ptr1, st) ∧
      ptr1.page_id = ptr.page_id ∧ bt1.pm.nodeAt ptr.page_id = some ptr1 ∧
      (st = state.BT_OVERFLOW ↔ M < ptr1.count) ∧ Post M bt bt1 h ptr.page_id k
  | 0, fuel, bt, ptr, v, k, hf, hT, hptr, hA => insert_node_leaf M fuel bt ptr v k hf hT hptr hA
  | h + 1, fuel, bt, ptr, v, k, hf, hT, hptr, hA => by
    obtain ⟨f, rfl⟩ : ∃ f, fuel = f + 1 := ⟨fuel - 1, by omega⟩
    have hT' := hT
    obtain ⟨hS, hN, hB⟩ := hT'
    simp only [Sub, hptr, Option.some.injEq, exists_eq_left'] at hS
    obtain ⟨_, hsz, hcnt, hkids⟩ := hS
    have hpos : scan ptr v ptr.count 0 ≤ ptr.count := scan_le ptr v _ 0 (Nat.zero_le _)
    have hlen : ptr.count + 1 ≤ ptr.children.length := by rw [hsz.2.2]; omega
    have hcm := kids_getD_mem ptr _ hpos hlen
    obtain ⟨hc0, hSc⟩ := hkids _ hcm
    obtain ⟨child, hchild, hcid, hcsz, hccnt⟩ := hSc.node
    have hrd := read_node_of_nodeAt M bt _ child hchild
    have hTc : Tree M bt.pm bt.header.count h M child.page_id := by
      rw [hcid]
      refine ⟨hSc, ?_, ?_⟩
      · have := hN
        simp only [pagesOf, hptr] at this
        rw [kids_split_at ptr _ hpos hlen] at this
        simp only [List.flatMap_append, List.flatMap_cons, List.nodup_cons,
          List.nodup_append] at this
        exact this.2.2.1.1
      · intro p hp
        exact hB p (pagesOf_kid bt.pm h _ ptr _ hptr hcm p hp)
    obtain ⟨bt1, child1, st1, hres, hpid1, hnode1, hst1, hP1⟩ :=
      insert_node_spec M hM h f bt child v k (by omega) hTc (by rw [hcid]; exact hchild) hA
    rw [hcid] at hnode1 hP1
    rw [← hrd] at hres
    obtain ⟨r1, r2, r3⟩ := inner_core M hM h bt bt1 ptr child1 _ k st1 hT hptr hpos hnode1 hst1 hP1
    exact ⟨_, _, _, btree.insert_node_step M f bt ptr v k bt1 child1 st1 hc0 hres, r1, r2,
      st_iff M _, r3⟩


/-! ## The root split and the top-level insert -/

theorem take_two_set (l : List Int) (u v : Int) (h : 2 ≤ l.length) :
    ((l.set 0 u).set 1 v).take 2 = [u, v] := by
  match l, h with
  | a :: b :: t, _ => simp

theorem take_one_set (l : List Int) (u : Int) (h : 1 ≤ l.length) :
    (l.set 0 u).take 1 = [u] := by
  match l, h with
  | a :: t, _ => simp

/-- What `split_root` leaves in the page store. -/
theorem btree.split_root_store (M : Nat) (bt : btree)
    (hC : (bt.read_node M bt.header.root_id).sized M)
    (hr : (bt.read_node M bt.header.root_id).page_id = bt.header.root_id)
    (h1 : 1 ≤ bt.header.root_id) (h2 : bt.header.root_id ≤ bt.header.count) :
    (∃ rt, (bt.split_root M).pm.nodeAt bt.header.root_id = some rt ∧
      rt.page_id = bt.header.root_id ∧ rt.sized M ∧ rt.count = 1 ∧
      rt.kids = [bt.header.count + 1, bt.header.count + 1 + 1] ∧
      rt.keyList = [(bt.read_node M bt.header.root_id).keys.getD (M / 2) 0]) ∧
    (bt.split_root M).pm.nodeAt (bt.header.count + 1) =
      some (halves M (node.new M (bt.header.count + 1)) (node.new M (bt.header.count + 1 + 1))
        (bt.read_node M bt.header.root_id)).1 ∧
    (bt.split_root M).pm.nodeAt (bt.header.count + 1 + 1) =
      some (halves M (node.new M (bt.header.count + 1)) (node.new M (bt.header.count + 1 + 1))
        (bt.read_node M bt.header.root_id)).2.1 ∧
    (bt.split_root M).pm 0 = some (Page.header (bt.split_root M).header) ∧
    (∀ p, p ≠ 0 → p ≠ bt.header.root_id → p ≠ bt.header.count + 1 →
      p ≠ bt.header.count + 1 + 1 → (bt.split_root M).pm p = bt.pm p) ∧
    (AllLe (M + 1) bt.pm →
      (halves M (node.new M (bt.header.count + 1)) (node.new M (bt.header.count + 1 + 1))
        (bt.read_node M bt.header.root_id)).1.count ≤ M + 1 →
      (halves M (node.new M (bt.header.count + 1)) (node.new M (bt.header.count + 1 + 1))
        (bt.read_node M bt.header.root_id)).2.1.count ≤ M + 1 →
      AllLe (M + 1) (bt.split_root M).pm) := by
  obtain ⟨a1, a2, _, _, a5, a6, a7, a8, _⟩ :=
    halves_spec M _ (bt.header.count + 1) (bt.header.count + 1 + 1) hC
  rw [btree.split_root_pm, btree.split_root_header, a1, a2, a6, hr]
  rw [nodeAt_save_ne _ _ bt.header.root_id _ (by omega),
    nodeAt_save_ne _ _ bt.header.root_id _ (by omega), nodeAt_save_node]
  refine ⟨⟨_, rfl, ?_, ?_, ?_, ?_, ?_⟩, ?_, ?_, ?_, ?_, ?_⟩
  · exact a6.trans hr
  · exact ⟨by simp only [List.length_set]; exact a5.1, a5.2.1,
      by simp only [List.length_set]; exact a5.2.2⟩
  · rfl
  · simp only [node.kids]
    exact take_two_set _ _ _ (by rw [a5.2.2]; omega)
  · simp only [node.keyList]
    rw [take_one_set _ _ (by rw [a5.1]; omega), a7]
  · rw [nodeAt_save_ne _ _ _ _ (by omega), nodeAt_save_node]
  · rw [nodeAt_save_node]
  · simp only [pagemanager.save]
    rw [if_neg (by omega), if_neg (by omega), if_neg (by omega), if_pos trivial]
  · intro p p0 p1 p2 p3
    simp only [pagemanager.save]
    rw [if_neg p3, if_neg p2, if_neg p1, if_neg p0, if_neg p0]
  · intro hA c2 c3
    exact ((((hA.save_header _ _).save_header _ _).save_node _ _ (by simp only; omega)).save_node
      _ _ c2).save_node _ _ c3


/-- A top-level `insert` on a well-formed tree of height `h` returns when given
more than `h` units of fuel; it keeps the tree well-formed and adds `key` once
to the keys held in the leaves; the height stays, or it grows by one and the
root then holds one key over two children with `M / 2` keys on the left. -/
theorem insert_spec_full (M : Nat) (hM : 2 ≤ M) (bt : btree) (h fuel : Nat) (v k : Int)
    (hI : Inv M bt h) (hf : h < fuel) :
    ∃ bt' h', bt.insert M fuel v k = some bt' ∧ h ≤ h' ∧ h' ≤ h + 1 ∧ Inv M bt' h' ∧
      (∃ l1 l2, leafKeys bt.pm h 1 = l1 ++ l2 ∧ leafKeys bt'.pm h' 1 = l1 ++ k :: l2) ∧
      (h' = h ∨ (h' = h + 1 ∧ ∃ rt l r L R, bt'.pm.nodeAt 1 = some rt ∧ rt.count = 1 ∧
        rt.kids = [l, r] ∧ bt'.pm.nodeAt l = some L ∧ bt'.pm.nodeAt r = some R ∧
        L.count = M / 2 ∧ R.count = if h = 0 then M + 1 - M / 2 else M - M / 2)) := by
  obtain ⟨i1, i2, i3, i4⟩ := hI
  obtain ⟨root, hroot, hrid, hrsz, hrcnt⟩ := i3.1.node
  have hrd : bt.read_node M bt.header.root_id = root := by
    rw [i1]; exact read_node_of_nodeAt M bt 1 root hroot
  obtain ⟨bt1, ptr1, st, hres, hp1, hn1, hst, hP⟩ := insert_node_spec M hM h fuel bt root v k hf
    (by rw [hrid]; exact i3) (by rw [hrid]; exact hroot) i4
  rw [hrid] at hn1 hP hp1
  obtain ⟨q1, q2, q3, ⟨qS, qN, qB⟩, q5, q6, ⟨l1, l2, q7a, q7b⟩, q8⟩ := hP
  have hstep : bt.insert M fuel v k =
      if st = state.BT_OVERFLOW then some (bt1.split_root M) else some bt1 := by
    unfold btree.insert
    simp only [hrd, hres]
  rw [hstep]
  obtain ⟨n, hn, _, hn3, hn4⟩ := qS.node
  rw [hn1, Option.some.injEq] at hn
  subst hn
  by_cases hov : st = state.BT_OVERFLOW
  · -- the root overflowed: the tree grows by one level
    have hc1 : ptr1.count = M + 1 := by
      have := hst.mp hov; omega
    have hr1 : bt1.header.root_id = 1 := q1.trans i1
    have hrd1 : bt1.read_node M bt1.header.root_id = ptr1 := by
      rw [hr1]; exact read_node_of_nodeAt M bt1 1 ptr1 hn1
    have hb1 := qB 1 (pagesOf_head _ _ _)
    obtain ⟨⟨rt, t1, t1a, t1b, t1c, t1d, _⟩, t2, t3, t4, t5, t6⟩ :=
      btree.split_root_store M bt1 (by rw [hrd1]; exact hn3) (by rw [hrd1, hr1]; exact hp1)
        (by rw [hr1]) (by rw [hr1]; exact hb1.2)
    have t0 := btree.split_root_header M bt1
    rw [hrd1] at t2 t3 t6
    rw [hr1] at t1 t1a t5
    have hpt : ∀ p, pagesOf bt1.pm h p = p :: (pagesOf bt1.pm h p).tail := by
      intro p; cases h <;> simp [pagesOf]
    have hN1 := qN
    rw [hpt] at hN1
    have hag : ∀ p ∈ (pagesOf bt1.pm h 1).tail, (bt1.split_root M).pm p = bt1.pm p := by
      intro p hp
      have hp' := List.mem_of_mem_tail hp
      have hb := qB p hp'
      exact t5 p (by omega) (fun e => (List.nodup_cons.mp hN1).1 (e ▸ hp)) (by omega) (by omega)
    obtain ⟨u1, u2, ⟨X, Y, u3, u4, u5⟩, u6⟩ := halves_tree M hM bt1.pm
      (bt1.split_root M).pm h 1 ptr1 _ _ hn1 qS hc1 t2 t3 hag
    have hLc : (halves M (node.new M (bt1.header.count + 1))
        (node.new M (bt1.header.count + 1 + 1)) ptr1).1.count ≤ M + 1 := by
      obtain ⟨n', e1, _, _, e4⟩ := u1.node
      rw [t2, Option.some.injEq] at e1
      rw [e1]; omega
    have hRc : (halves M (node.new M (bt1.header.count + 1))
        (node.new M (bt1.header.count + 1 + 1)) ptr1).2.1.count ≤ M + 1 := by
      obtain ⟨n', e1, _, _, e4⟩ := u2.node
      rw [t3, Option.some.injEq] at e1
      rw [e1]; omega
    have hXYb : ∀ p ∈ X ++ Y, p ∈ pagesOf bt1.pm h 1 := by
      intro p hp; rw [u5] at hp; exact List.mem_of_mem_tail hp
    have hpg2 : pagesOf (bt1.split_root M).pm (h + 1) 1 =
        1 :: ((bt1.header.count + 1) :: (X ++ (bt1.header.count + 1 + 1) :: Y)) := by
      simp only [pagesOf, t1, t1d, List.flatMap_cons, List.flatMap_nil, u3, u4,
        List.append_nil, List.cons_append]
    have hlk2 : leafKeys (bt1.split_root M).pm (h + 1) 1 = leafKeys bt1.pm h 1 := by
      simp only [leafKeys, t1, t1d, List.flatMap_cons, List.flatMap_nil, List.append_nil]
      exact u6
    simp only [hov, if_true]
    refine ⟨_, h + 1, rfl, by omega, le_refl _, ⟨by rw [t0]; exact hr1, t4, ⟨?_, ?_, ?_⟩,
      t6 q8 hLc hRc⟩, ⟨l1, l2, q7a, by rw [hlk2]; exact q7b⟩,
      Or.inr ⟨rfl, rt, _, _, _, _, t1, t1c, t1d, t2, t3, ?_, ?_⟩⟩
    rotate_left 3
    · exact (halves_spec M ptr1 _ _ hn3).2.2.2.2.2.2.2.2.1
    · obtain ⟨_, _, _, _, _, _, _, _, _, _, _, a12, a13⟩ := halves_spec M ptr1
        (bt1.header.count + 1) (bt1.header.count + 1 + 1) hn3
      have hz := kids_getD_mem ptr1 0 (Nat.zero_le _) (by rw [hn3.2.2, hc1])
      cases h with
      | zero =>
        simp only [Sub, hn1, Option.some.injEq, exists_eq_left'] at qS
        rw [if_pos rfl]
        exact (a12 (qS.2.2.2 _ hz)).1
      | succ h0 =>
        simp only [Sub, hn1, Option.some.injEq, exists_eq_left'] at qS
        rw [if_neg (by omega)]
        exact (a13 (qS.2.2.2 _ hz).1).1
    · simp only [Sub, t1, Option.some.injEq, exists_eq_left']
      refine ⟨t1a, t1b, by rw [t1c]; omega, ?_⟩
      intro x hx
      rw [t1d] at hx
      simp only [List.mem_cons, List.mem_singleton, List.not_mem_nil, or_false] at hx
      rcases hx with hx | hx
      · subst hx; exact ⟨by omega, u1⟩
      · subst hx; exact ⟨by omega, u2⟩
    · rw [hpg2]
      have h3 := nodup_fresh X Y (bt1.header.count + 1) (bt1.header.count + 1 + 1)
        bt1.header.count (by rw [u5]; exact hN1.of_cons) (fun p hp => (qB p (hXYb p hp)).2)
        (by omega) (by omega) (by omega)
      refine List.nodup_cons.mpr ⟨?_, h3⟩
      simp only [List.mem_cons, List.mem_append, not_or]
      have hx : (1 : Int) ∉ X ++ Y := by rw [u5]; exact (List.nodup_cons.mp hN1).1
      simp only [List.mem_append, not_or] at hx
      exact ⟨by omega, hx.1, by omega, hx.2⟩
    · rw [hpg2, t0]
      intro p hp
      simp only [List.mem_cons, List.mem_append] at hp
      rcases hp with hp | hp | hp | hp | hp
      · subst hp; simp only; omega
      · subst hp; simp only; omega
      · have := qB p (hXYb p (List.mem_append_left _ hp))
        exact ⟨this.1, by simp only; omega⟩
      · subst hp; simp only; omega
      · have := qB p (hXYb p (List.mem_append_right _ hp))
        exact ⟨this.1, by simp only; omega⟩
  · have hle : ptr1.count ≤ M := by
      have := mt hst.mpr hov; omega
    simp only [hov, if_false]
    exact ⟨_, h, rfl, le_refl _, by omega, ⟨q1.trans i1, q3 i2, ⟨qS.mono ptr1 hn1 hle, qN, qB⟩, q8⟩,
      ⟨l1, l2, q7a, q7b⟩, Or.inl rfl⟩

theorem insert_spec (M : Nat) (hM : 2 ≤ M) (bt : btree) (h fuel : Nat) (v k : Int)
    (hI : Inv M bt h) (hf : h < fuel) :
    ∃ bt' h', bt.insert M fuel v k = some bt' ∧ h ≤ h' ∧ h' ≤ h + 1 ∧ Inv M bt' h' ∧
      ∃ l1 l2, leafKeys bt.pm h 1 = l1 ++ l2 ∧ leafKeys bt'.pm h' 1 = l1 ++ k :: l2 := by
  obtain ⟨bt', h', e1, e2, e3, e4, e5, _⟩ := insert_spec_full M hM bt h fuel v k hI hf
  exact ⟨bt', h', e1, e2, e3, e4, e5⟩


/-! ## Sequences of inserts -/

theorem node.new_page_id (M : Nat) (id : Int) : (node.new M id).page_id = id := rfl

theorem Inv_fresh (M : Nat) : Inv M (btree.fresh M) 0 := by
  have hn : (btree.fresh M).pm.nodeAt 1 = some (node.new M 1) := by
    simp only [btree.fresh, btree.new, node.new_page_id]
    rw [nodeAt_save_ne _ _ _ _ (by decide), nodeAt_save_node]
  refine ⟨rfl, ?_, ⟨?_, ?_, ?_⟩, ?_⟩
  · simp [btree.fresh, btree.new, pagemanager.save]
  · simp only [Sub, hn, Option.some.injEq, exists_eq_left']
    refine ⟨rfl, node.new_sized M 1, Nat.zero_le _, ?_⟩
    intro c hc
    simp only [node.kids, node.new] at hc
    exact List.eq_of_mem_replicate (List.mem_of_mem_take hc)
  · simp [pagesOf]
  · intro p hp
    simp only [pagesOf, List.mem_singleton] at hp
    subst hp
    simp [btree.fresh, btree.new]
  · intro p n hp
    simp only [btree.fresh, btree.new, node.new_page_id] at hp
    rcases nodeAt_save_header _ 0 p _ with h1 | h1
    · rw [h1] at hp; exact absurd hp (by simp)
    · rw [h1] at hp
      by_cases h2 : p = 1
      · subst h2
        rw [nodeAt_save_node, Option.some.injEq] at hp
        subst hp
        simp [node.new]
      · rw [nodeAt_save_ne _ _ _ _ h2] at hp
        simp [pagemanager.nodeAt, pagemanager.empty] at hp

/-- Every sequence of inserts on a well-formed tree returns when the fuel covers
the height reached, keeps the tree well-formed, and the keys held in the leaves
afterwards are the keys held before together with the inserted keys. -/
theorem insert_all_spec (M : Nat) (hM : 2 ≤ M) (fuel : Nat) : ∀ (ops : List (Int × Int))
    (bt : btree) (h : Nat), Inv M bt h → h + ops.length ≤ fuel →
    ∃ bt' h', btree.insert_all M fuel bt ops = some bt' ∧ Inv M bt' h' ∧
      h' ≤ h + ops.length ∧
      (leafKeys bt'.pm h' 1).Perm (ops.map (fun op => op.2) ++ leafKeys bt.pm h 1)
  | [], bt, h, hI, _ => ⟨bt, h, rfl, hI, le_refl _, by simp⟩
  | op :: ops, bt, h, hI, hf => by
    simp only [List.length_cons] at hf
    obtain ⟨bt1, h1, e1, e2, e3, e4, l1, l2, e5, e6⟩ :=
      insert_spec M hM bt h fuel op.1 op.2 hI (by omega)
    obtain ⟨bt2, h2, g1, g2, g3, g4⟩ := insert_all_spec M hM fuel ops bt1 h1 e4 (by omega)
    refine ⟨bt2, h2, ?_, g2, by simp only [List.length_cons]; omega, ?_⟩
    · simp only [btree.insert_all, e1, g1]
    · refine g4.trans ?_
      rw [e5, e6]
      simp only [List.map_cons, List.cons_append]
      rw [← List.append_assoc, ← List.append_assoc]
      exact List.perm_middle


/-! ## Reachable pages -/

theorem reach_sub (M : Nat) (pm : pagemanager) (h b : Nat) (r : Int) (hs : Sub M pm h b r)
    (d : Nat) (p : Int) (hR : Reach pm r d p) :
    d ≤ h ∧ Sub M pm (h - d) (if d = 0 then b else M) p := by
  induction hR with
  | root => exact ⟨Nat.zero_le _, hs⟩
  | @child d p c n _ hn hc hc0 ih =>
    obtain ⟨ih1, ih2⟩ := ih
    cases hk : h - d with
    | zero =>
      rw [hk] at ih2
      simp only [Sub, hn, Option.some.injEq, exists_eq_left'] at ih2
      exact absurd (ih2.2.2.2 c hc) hc0
    | succ k =>
      rw [hk] at ih2
      simp only [Sub, hn, Option.some.injEq, exists_eq_left'] at ih2
      have e : h - (d + 1) = k := by omega
      rw [e, if_neg (by omega)]
      exact ⟨by omega, (ih2.2.2.2 c hc).2⟩

theorem reach_count_le (M : Nat) (pm : pagemanager) (h : Nat) (r : Int) (hs : Sub M pm h M r)
    (d : Nat) (p : Int) (n : node) (hR : Reach pm r d p) (hn : pm.nodeAt p = some n) :
    n.count ≤ M := by
  obtain ⟨_, h2⟩ := reach_sub M pm h M r hs d p hR
  obtain ⟨n', e1, _, _, e4⟩ := h2.node
  rw [hn, Option.some.injEq] at e1
  subst e1
  split at e4 <;> exact e4

theorem reach_leaf_depth (M : Nat) (pm : pagemanager) (h b : Nat) (r : Int)
    (hs : Sub M pm h b r) (hb : b ≤ M + 1)
    (d : Nat) (p : Int) (n : node) (hR : Reach pm r d p) (hn : pm.nodeAt p = some n)
    (hl : n.is_leaf) : d = h := by
  obtain ⟨h1, h2⟩ := reach_sub M pm h b r hs d p hR
  cases hk : h - d with
  | zero => omega
  | succ k =>
    rw [hk] at h2
    simp only [Sub, hn, Option.some.injEq, exists_eq_left'] at h2
    obtain ⟨_, hsz, hcnt, hkids⟩ := h2
    have hle : n.count ≤ M + 1 := by
      split at hcnt <;> omega
    exact absurd hl (hkids _ (kids_getD_mem n 0 (Nat.zero_le _) (by rw [hsz.2.2]; omega))).1

theorem Reach.prepend {pm : pagemanager} {r c : Int} {n : node} (hn : pm.nodeAt r = some n)
    (hc : c ∈ n.kids) (hc0 : c ≠ 0) {d : Nat} {p : Int} (hR : Reach pm c d p) :
    Reach pm r (d + 1) p := by
  induction hR with
  | root => exact Reach.child Reach.root hn hc hc0
  | child _ hn' hc' hc0' ih => exact Reach.child ih hn' hc' hc0'

theorem sub_leaf_exists (M : Nat) (pm : pagemanager) : ∀ (h b : Nat) (r : Int),
    Sub M pm h b r → b ≤ M + 1 → ∃ p n, Reach pm r h p ∧ pm.nodeAt p = some n ∧ n.is_leaf
  | 0, b, r, hs, hb => by
    obtain ⟨n, hn, _, hsz, hcnt, hkids⟩ := hs
    exact ⟨r, n, Reach.root, hn,
      hkids _ (kids_getD_mem n 0 (Nat.zero_le _) (by rw [hsz.2.2]; omega))⟩
  | h + 1, b, r, hs, hb => by
    obtain ⟨n, hn, _, hsz, hcnt, hkids⟩ := hs
    have hm := kids_getD_mem n 0 (Nat.zero_le _) (by rw [hsz.2.2]; omega)
    obtain ⟨p, m, h1, h2, h3⟩ := sub_leaf_exists M pm h M _ (hkids _ hm).2 (by omega)
    exact ⟨p, m, Reach.prepend hn hm (hkids _ hm).1 h1, h2, h3⟩

theorem Inv.leaf_exists {M : Nat} {bt : btree} {h : Nat} (hI : Inv M bt h) :
    ∃ d p, bt.LeafAt d p := by
  obtain ⟨i1, _, ⟨i3, _, _⟩, _⟩ := hI
  obtain ⟨p, n, h1, h2, h3⟩ := sub_leaf_exists M bt.pm h M 1 i3 (by omega)
  exact ⟨h, p, by rw [i1]; exact h1, n, h2, h3⟩

theorem Inv.balanced {M : Nat} {bt : btree} {h : Nat} (hI : Inv M bt h) : bt.Balanced := by
  intro d1 d2 p1 p2 ⟨r1, n1, e1, l1⟩ ⟨r2, n2, e2, l2⟩
  obtain ⟨i1, _, ⟨i3, _, _⟩, _⟩ := hI
  rw [i1] at r1 r2
  rw [reach_leaf_depth M bt.pm h M 1 i3 (by omega) d1 p1 n1 r1 e1 l1,
    reach_leaf_depth M bt.pm h M 1 i3 (by omega) d2 p2 n2 r2 e2 l2]


/-! ## The keys held in the leaves -/

theorem leaf_keys_eq (M : Nat) (pm : pagemanager) : ∀ (h b t : Nat) (id : Int),
    Sub M pm h b id → b ≤ M + 1 → h < t → leaf_keys pm t id = leafKeys pm h id
  | 0, b, t, id, hs, hb, ht => by
    obtain ⟨t', rfl⟩ : ∃ t', t = t' + 1 := ⟨t - 1, by omega⟩
    obtain ⟨n, hn, _, hsz, hcnt, hkids⟩ := hs
    have hl : n.children.getD 0 0 = 0 :=
      hkids _ (kids_getD_mem n 0 (Nat.zero_le _) (by rw [hsz.2.2]; omega))
    simp only [leaf_keys, leafKeys, hn, hl, if_true]
  | h + 1, b, t, id, hs, hb, ht => by
    obtain ⟨t', rfl⟩ : ∃ t', t = t' + 1 := ⟨t - 1, by omega⟩
    obtain ⟨n, hn, _, hsz, hcnt, hkids⟩ := hs
    have hl : n.children.getD 0 0 ≠ 0 :=
      (hkids _ (kids_getD_mem n 0 (Nat.zero_le _) (by rw [hsz.2.2]; omega))).1
    simp only [leaf_keys, leafKeys, hn, hl, if_false]
    exact List.flatMap_congr (fun c hc =>
      leaf_keys_eq M pm h M t' c (hkids c hc).2 (by omega) (by omega))

theorem Inv.leaf_keys_root {M : Nat} {bt : btree} {h : Nat} (hI : Inv M bt h) (t : Nat)
    (ht : h < t) : leaf_keys bt.pm t bt.header.root_id = leafKeys bt.pm h 1 := by
  obtain ⟨i1, _, ⟨i3, _, _⟩, _⟩ := hI
  rw [i1]
  exact utec.disk.leaf_keys_eq M bt.pm h M t 1 i3 (by omega) ht

theorem leafKeys_fresh (M : Nat) : leafKeys (btree.fresh M).pm 0 1 = [] := by
  have hn : (btree.fresh M).pm.nodeAt 1 = some (node.new M 1) := by
    simp only [btree.fresh, btree.new, node.new_page_id]
    rw [nodeAt_save_ne _ _ _ _ (by decide), nodeAt_save_node]
  simp [leafKeys, hn, node.keyList, node.new]


/-! ## The first inserts: a leaf root and its split -/

theorem keyList_length (n : node) (h : n.count ≤ n.keys.length) : n.keyList.length = n.count := by
  simp [node.keyList, h]

theorem btree.insert_all_append (M fuel : Nat) : ∀ (xs ys : List (Int × Int)) (bt : btree),
    btree.insert_all M fuel bt (xs ++ ys) =
      (btree.insert_all M fuel bt xs).bind (fun b => btree.insert_all M fuel b ys)
  | [], ys, bt => rfl
  | x :: xs, ys, bt => by
    simp only [List.cons_append, btree.insert_all]
    cases h : bt.insert M fuel x.1 x.2 with
    | none => rfl
    | some b => exact btree.insert_all_append M fuel xs ys b

/-- An insert into a tree whose root is a leaf: the root gains one key while it
has room, and a full root is split into a root with one key over a left leaf
with `M / 2` keys and a right leaf with the other `M + 1 - M / 2` keys. -/
theorem insert_leaf_root (M : Nat) (hM : 2 ≤ M) (bt : btree) (fuel : Nat) (v k : Int)
    (hI : Inv M bt 0) (hf : 0 < fuel) (n : node) (hn : bt.pm.nodeAt 1 = some n) :
    (n.count < M → ∃ bt' n', bt.insert M fuel v k = some bt' ∧ Inv M bt' 0 ∧
      bt'.pm.nodeAt 1 = some n' ∧ n'.count = n.count + 1) ∧
    (n.count = M → ∃ bt' rt l r L R, bt.insert M fuel v k = some bt' ∧ Inv M bt' 1 ∧
      bt'.pm.nodeAt 1 = some rt ∧ rt.count = 1 ∧ rt.kids = [l, r] ∧
      bt'.pm.nodeAt l = some L ∧ bt'.pm.nodeAt r = some R ∧
      L.count = M / 2 ∧ R.count = M + 1 - M / 2) := by
  have hdiv : M / 2 ≤ M := Nat.div_le_self M 2
  obtain ⟨bt', h', e1, e2, e3, e4, ⟨l1, l2, e5, e6⟩, e7⟩ :=
    insert_spec_full M hM bt 0 fuel v k hI hf
  have hsz : n.sized M ∧ n.count ≤ M := by
    obtain ⟨n0, a1, _, a3, a4⟩ := hI.2.2.1.1.node
    rw [hn, Option.some.injEq] at a1
    subst a1; exact ⟨a3, a4⟩
  have hlen : (l1 ++ l2).length = n.count := by
    rw [← e5]
    simp only [leafKeys, hn]
    exact keyList_length n (by rw [hsz.1.1]; omega)
  have hlen' : (leafKeys bt'.pm h' 1).length = n.count + 1 := by
    rw [e6]
    simp only [List.length_append, List.length_cons] at hlen ⊢
    omega
  rcases e7 with e7 | ⟨e7, rt, l, r, L, R, b1, b2, b3, b4, b5, b6, b7⟩
  · subst e7
    obtain ⟨n', a1, _, a3, a4⟩ := e4.2.2.1.1.node
    have hc' : n'.count = n.count + 1 := by
      simp only [leafKeys, a1] at hlen'
      rw [keyList_length n' (by rw [a3.1]; omega)] at hlen'
      exact hlen'
    exact ⟨fun _ => ⟨bt', n', e1, e4, a1, hc'⟩, fun hc => by omega⟩
  · subst e7
    rw [if_pos rfl] at b7
    have hS := e4.2.2.1.1
    simp only [Sub, b1, Option.some.injEq, exists_eq_left'] at hS
    obtain ⟨_, _, _, hk⟩ := hS
    have hL := (hk l (by rw [b3]; simp)).2
    have hR := (hk r (by rw [b3]; simp)).2
    obtain ⟨L', c1, _, c3, c4, _⟩ := hL
    obtain ⟨R', d1, _, d3, d4, _⟩ := hR
    rw [b4, Option.some.injEq] at c1
    rw [b5, Option.some.injEq] at d1
    subst c1 d1
    have hsum : n.count + 1 = M + 1 := by
      simp only [leafKeys, b1, b3, b4, b5, List.flatMap_cons, List.flatMap_nil,
        List.append_nil, List.length_append] at hlen'
      rw [keyList_length L (by rw [c3.1]; omega), keyList_length R (by rw [d3.1]; omega),
        b6, b7] at hlen'
      omega
    exact ⟨fun hc => by omega,
      fun _ => ⟨bt', rt, l, r, L, R, e1, e4, b1, b2, b3, b4, b5, b6, b7⟩⟩

theorem leaf_phase (M : Nat) (hM : 2 ≤ M) (fuel : Nat) (hf : 0 < fuel) :
    ∀ (ops : List (Int × Int)) (bt : btree) (n : node), Inv M bt 0 → bt.pm.nodeAt 1 = some n →
      n.count + ops.length ≤ M →
      ∃ bt' n', btree.insert_all M fuel bt ops = some bt' ∧ Inv M bt' 0 ∧
        bt'.pm.nodeAt 1 = some n' ∧ n'.count = n.count + ops.length
  | [], bt, n, hI, hn, _ => ⟨bt, n, rfl, hI, hn, rfl⟩
  | op :: ops, bt, n, hI, hn, hl => by
    simp only [List.length_cons] at hl
    obtain ⟨bt1, n1, e1, e2, e3, e4⟩ :=
      (insert_leaf_root M hM bt fuel op.1 op.2 hI hf n hn).1 (by omega)
    obtain ⟨bt2, n2, g1, g2, g3, g4⟩ := leaf_phase M hM fuel hf ops bt1 n1 e2 e3 (by omega)
    refine ⟨bt2, n2, ?_, g2, g3, by rw [g4, e4, List.length_cons]; omega⟩
    simp only [btree.insert_all, e1, g1]

/-- The first `M + 1` inserts into a fresh tree of order `M ≥ 2`, whatever the
keys and values: the root is split once and is left with one key over a left
leaf with `M / 2` keys and a right leaf with `M + 1 - M / 2` keys. -/
theorem first_root_split (M : Nat) (hM : 2 ≤ M) (fuel : Nat) (hf : 0 < fuel)
    (ops : List (Int × Int)) (hl : ops.length = M + 1) :
    ∃ bt rt l r L R, btree.insert_all M fuel (btree.fresh M) ops = some bt ∧
      bt.pm.nodeAt 1 = some rt ∧ rt.count = 1 ∧ rt.kids = [l, r] ∧
      bt.pm.nodeAt l = some L ∧ bt.pm.nodeAt r = some R ∧
      L.count = M / 2 ∧ R.count = M + 1 - M / 2 := by
  have hne : ops ≠ [] := by
    intro e; rw [e] at hl; simp at hl
  have hsplit := List.dropLast_append_getLast hne
  have hdl : ops.dropLast.length = M := by
    rw [List.length_dropLast, hl]; rfl
  have hn0 : (btree.fresh M).pm.nodeAt 1 = some (node.new M 1) := by
    simp only [btree.fresh, btree.new, node.new_page_id]
    rw [nodeAt_save_ne _ _ _ _ (by decide), nodeAt_save_node]
  obtain ⟨bt1, n1, e1, e2, e3, e4⟩ := leaf_phase M hM fuel hf ops.dropLast (btree.fresh M)
    (node.new M 1) (Inv_fresh M) hn0 (by rw [hdl]; simp [node.new])
  have hc1 : n1.count = M := by rw [e4, hdl]; simp [node.new]
  obtain ⟨bt2, rt, l, r, L, R, g1, _, g3, g4, g5, g6, g7, g8, g9⟩ :=
    (insert_leaf_root M hM bt1 fuel (ops.getLast hne).1 (ops.getLast hne).2 e2 hf n1 e3).2 hc1
  refine ⟨bt2, rt, l, r, L, R, ?_, g3, g4, g5, g6, g7, g8, g9⟩
  rw [← hsplit, btree.insert_all_append, e1]
  simp only [Option.bind_eq_bind, Option.some_bind, btree.insert_all, g1]


/-! ## The values moved by the copy loops -/

theorem copy_body_data (dst ptr : node) (i iter : Nat) (hl : ptr.children.getD 0 0 = 0) :
    (copy_body dst ptr i iter).1.data = dst.data.set i (ptr.data.getD iter 0) ∧
    (copy_body dst ptr i iter).2.data = ptr.data.set iter (dst.data.getD i 0) := by
  unfold copy_body
  simp only [if_pos hl, and_self]

theorem copy_loop_data (bound : Nat) : ∀ (f : Nat) (dst ptr : node) (i iter : Nat),
    iter + f ≤ bound → i + f ≤ dst.data.length → iter + f ≤ ptr.data.length →
    ptr.children.getD 0 0 = 0 →
    (copy_loop bound f dst ptr i iter).1.data.take (i + f) =
      dst.data.take i ++ (ptr.data.drop iter).take f ∧
    (copy_loop bound f dst ptr i iter).2.1.data.drop (iter + f) = ptr.data.drop (iter + f)
  | 0, dst, ptr, i, iter, _, _, _, _ => by simp [copy_loop]
  | f + 1, dst, ptr, i, iter, h, h1, h2, hl => by
    have hlt : iter < bound := by omega
    unfold copy_loop
    simp only [if_pos hlt]
    obtain ⟨_, _, _, _, a5, _, _, _, a9, a10⟩ := copy_body_fields dst ptr i iter
    obtain ⟨d1, d2⟩ := copy_body_data dst ptr i iter hl
    obtain ⟨b1, b2⟩ := copy_loop_data bound f (copy_body dst ptr i iter).1
      (copy_body dst ptr i iter).2 (i + 1) (iter + 1) (by omega) (by rw [a5]; omega)
      (by rw [a10]; omega) (by rw [a9]; exact hl)
    have e1 : i + (f + 1) = i + 1 + f := by omega
    have e2 : iter + (f + 1) = iter + 1 + f := by omega
    rw [e1, e2, b1, b2, d1, d2, take_set_self dst.data i _ (by omega),
      List.drop_set_of_lt _ _ (by omega), List.drop_set_of_lt _ _ (by omega)]
    refine ⟨?_, rfl⟩
    have h3 : ptr.data.drop iter = ptr.data.getD iter 0 :: ptr.data.drop (iter + 1) := by
      have hlt' : iter < ptr.data.length := by omega
      rw [List.drop_eq_getElem_cons hlt']
      simp [List.getD_eq_getElem?_getD, List.getElem?_eq_getElem hlt']
    rw [h3]
    simp

theorem fill_data (M bound : Nat) (C : node) (id : Int) (iter : Nat) (hs : C.sized M)
    (hb : bound ≤ M + 1) (hi : iter ≤ bound) (hl : C.children.getD 0 0 = 0) :
    (fill bound (node.new M id) C iter).1.dataList = (C.data.drop iter).take (bound - iter) ∧
    (fill bound (node.new M id) C iter).2.1.data.drop bound = C.data.drop bound := by
  obtain ⟨_, n2, _⟩ := node.new_sized M id
  obtain ⟨_, a2, _⟩ := copy_loop_fields bound (bound - iter) (node.new M id) C 0 iter (by omega)
  obtain ⟨b1, b2⟩ := copy_loop_data bound (bound - iter) (node.new M id) C 0 iter (by omega)
    (by rw [n2]; omega) (by rw [hs.2.1]; omega) hl
  have e : iter + (bound - iter) = bound := by omega
  rw [Nat.zero_add] at b1
  rw [e] at b2
  have hcnt : (node.new M id).count = 0 := rfl
  simp only [fill, node.dataList]
  rw [a2, hcnt, Nat.zero_add, b1, b2]
  simp

/-- The values of the two halves of an overflowed leaf: the left node receives
the first `M / 2` values, the right node the others. -/
theorem halves_data (M : Nat) (C : node) (idL idR : Int) (hs : C.sized M)
    (hl : C.children.getD 0 0 = 0) :
    (halves M (node.new M idL) (node.new M idR) C).1.dataList = C.data.take (M / 2) ∧
    (halves M (node.new M idL) (node.new M idR) C).2.1.dataList = C.data.drop (M / 2) := by
  have hdiv : M / 2 ≤ M := Nat.div_le_self M 2
  obtain ⟨_, _, _, _, _, _, _, _, a9, a10, a11⟩ :=
    fill_spec M (M / 2) C idL 0 hs (by omega) (by omega)
  obtain ⟨c1, c2⟩ := fill_data M (M / 2) C idL 0 hs (by omega) (by omega) hl
  obtain ⟨d1, _⟩ := fill_data M (M + 1) (fill (M / 2) (node.new M idL) C 0).2.1 idR (M / 2) a10
    (by omega) (by omega) (by rw [a9]; exact hl)
  simp only [halves]
  rw [a11, a9]
  simp only [hl, ne_eq, not_true, if_false]
  refine ⟨by rw [c1]; simp, ?_⟩
  rw [d1, c2]
  exact List.take_of_length_le (by rw [List.length_drop, hs.2.1])

theorem dataList_full (M : Nat) (C : node) (hs : C.sized M) (hc : C.count = M + 1) :
    C.dataList = C.data := by
  unfold node.dataList
  exact List.take_of_length_le (by rw [hs.2.1, hc])

/-- The entries of the two halves of an overflowed leaf, one after the other,
are the entries of the leaf. -/
theorem halves_entries (M : Nat) (C : node) (idL idR : Int) (hs : C.sized M)
    (hc : C.count = M + 1) (hl : C.children.getD 0 0 = 0) :
    (halves M (node.new M idL) (node.new M idR) C).1.entries ++
      (halves M (node.new M idL) (node.new M idR) C).2.1.entries = C.entries := by
  have hdiv : M / 2 ≤ M := Nat.div_le_self M 2
  obtain ⟨_, _, _, _, _, _, _, _, _, a10, _, a12, _⟩ := halves_spec M C idL idR hs
  obtain ⟨_, b2, _⟩ := a12 hl
  obtain ⟨d1, d2⟩ := halves_data M C idL idR hs hl
  simp only [node.entries]
  rw [a10, b2, d1, d2, keyList_full M C hs hc, dataList_full M C hs hc,
    ← List.zip_append (by simp [hs.1, hs.2.1]), List.take_append_drop, List.take_append_drop]


/-! ## The halves of an overflowed leaf and of an overflowed intermediate node -/

theorem drop_head_getD (l : List Int) (n : Nat) (h : n < l.length) :
    l.drop n = l.getD n 0 :: l.drop (n + 1) := by
  rw [List.drop_eq_getElem_cons h]
  simp [List.getD_eq_getElem?_getD, List.getElem?_eq_getElem h]

theorem halves_leaf_facts (M : Nat) (C : node) (idL idR : Int) (hs : C.sized M)
    (hc : C.count = M + 1) (hk : ∀ c ∈ C.kids, c = 0) :
    (halves M (node.new M idL) (node.new M idR) C).1.entries ++
      (halves M (node.new M idL) (node.new M idR) C).2.1.entries = C.entries ∧
    (halves M (node.new M idL) (node.new M idR) C).1.count +
      (halves M (node.new M idL) (node.new M idR) C).2.1.count = M + 1 ∧
    (halves M (node.new M idL) (node.new M idR) C).2.1.entries.head? =
      some (C.keys.getD (M / 2) 0, C.data.getD (M / 2) 0) ∧
    (halves M (node.new M idL) (node.new M idR) C).1.is_leaf ∧
    (halves M (node.new M idL) (node.new M idR) C).2.1.is_leaf ∧
    (∀ c ∈ (halves M (node.new M idL) (node.new M idR) C).1.kids, c = 0) ∧
    (∀ c ∈ (halves M (node.new M idL) (node.new M idR) C).2.1.kids, c = 0) := by
  have hdiv : M / 2 ≤ M := Nat.div_le_self M 2
  have hfull := kids_full M C hs hc
  have hl : C.children.getD 0 0 = 0 :=
    hk _ (kids_getD_mem C 0 (Nat.zero_le _) (by rw [hs.2.2, hc]))
  obtain ⟨_, _, a3, a4, _, _, _, _, a9, _, a11, a12, _⟩ := halves_spec M C idL idR hs
  obtain ⟨b1, b2, b3⟩ := a12 hl
  obtain ⟨_, d2⟩ := halves_data M C idL idR hs hl
  have hLk : ∀ c ∈ (halves M (node.new M idL) (node.new M idR) C).1.kids, c = 0 := by
    intro c hcm; rw [a11] at hcm
    exact hk c (by rw [hfull]; exact List.mem_of_mem_take hcm)
  have hRk : ∀ c ∈ (halves M (node.new M idL) (node.new M idR) C).2.1.kids, c = 0 := by
    intro c hcm; rw [b3] at hcm
    exact hk c (by rw [hfull]; exact List.mem_of_mem_drop hcm)
  refine ⟨halves_entries M C idL idR hs hc hl, by rw [a9, b1]; omega, ?_, ?_, ?_, hLk, hRk⟩
  · simp only [node.entries]
    rw [b2, d2, drop_head_getD C.keys (M / 2) (by rw [hs.1]; omega),
      drop_head_getD C.data (M / 2) (by rw [hs.2.1]; omega)]
    rfl
  · exact hLk _ (kids_getD_mem _ 0 (Nat.zero_le _) (by rw [a3.2.2, a9]; omega))
  · exact hRk _ (kids_getD_mem _ 0 (Nat.zero_le _) (by rw [a4.2.2, b1]; omega))

theorem halves_internal_facts (M : Nat) (C : node) (idL idR : Int) (hs : C.sized M)
    (hc : C.count = M + 1) (hi : C.children.getD 0 0 ≠ 0) :
    (halves M (node.new M idL) (node.new M idR) C).1.keyList ++ C.keys.getD (M / 2) 0 ::
      (halves M (node.new M idL) (node.new M idR) C).2.1.keyList = C.keyList ∧
    (halves M (node.new M idL) (node.new M idR) C).1.kids ++
      (halves M (node.new M idL) (node.new M idR) C).2.1.kids = C.kids ∧
    (halves M (node.new M idL) (node.new M idR) C).1.kids.length =
      (halves M (node.new M idL) (node.new M idR) C).1.count + 1 ∧
    (halves M (node.new M idL) (node.new M idR) C).2.1.kids.length =
      (halves M (node.new M idL) (node.new M idR) C).2.1.count + 1 ∧
    (halves M (node.new M idL) (node.new M idR) C).1.count +
      (halves M (node.new M idL) (node.new M idR) C).2.1.count = M := by
  have hdiv : M / 2 ≤ M := Nat.div_le_self M 2
  obtain ⟨_, _, a3, a4, _, _, _, _, a9, a10, a11, _, a13⟩ := halves_spec M C idL idR hs
  obtain ⟨b1, b2, b3⟩ := a13 hi
  refine ⟨?_, ?_, ?_, ?_, by rw [a9, b1]; omega⟩
  · rw [a10, b2, keyList_full M C hs hc, ← drop_head_getD C.keys (M / 2) (by rw [hs.1]; omega),
      List.take_append_drop]
  · rw [a11, b3, kids_full M C hs hc, List.take_append_drop]
  · exact kids_length _ (by rw [a3.2.2, a9]; omega)
  · exact kids_length _ (by rw [a4.2.2, b1]; omega)


theorem take_two_getD (l : List Int) (a b : Int) (h : l.take 2 = [a, b]) :
    l.getD 0 0 = a ∧ l.getD 1 0 = b := by
  match l, h with
  | x :: y :: t, h =>
    simp only [List.take_succ_cons, List.take_zero, List.cons.injEq, and_true] at h
    simp [h.1, h.2]

theorem take_one_getD (l : List Int) (a : Int) (h : l.take 1 = [a]) : l.getD 0 0 = a := by
  match l, h with
  | x :: t, h =>
    simp only [List.take_succ_cons, List.take_zero, List.cons.injEq, and_true] at h
    simp [h]

theorem btree.new_node_snd (M : Nat) (bt : btree) :
    (bt.new_node M).2.page_id = bt.header.count + 1 ∧
    ((bt.new_node M).1.new_node M).2.page_id = bt.header.count + 1 + 1 := ⟨rfl, rfl⟩


/-! ## Pages in use and page allocation -/

theorem reach_tree (M : Nat) (pm : pagemanager) (hc : Int) (h b : Nat) (r : Int)
    (hT : Tree M pm hc h b r) (d : Nat) (p : Int) (hR : Reach pm r d p) :
    d ≤ h ∧ Tree M pm hc (h - d) (if d = 0 then b else M) p := by
  induction hR with
  | root => exact ⟨Nat.zero_le _, hT⟩
  | @child d p c n _ hn hcm hc0 ih =>
    obtain ⟨ih1, ih2, ih3, ih4⟩ := ih
    cases hk : h - d with
    | zero =>
      rw [hk] at ih2
      simp only [Sub, hn, Option.some.injEq, exists_eq_left'] at ih2
      exact absurd (ih2.2.2.2 c hcm) hc0
    | succ k =>
      rw [hk] at ih2 ih3 ih4
      have ih2' := ih2
      simp only [Sub, hn, Option.some.injEq, exists_eq_left'] at ih2'
      have e : h - (d + 1) = k := by omega
      rw [e, if_neg (by omega)]
      refine ⟨by omega, (ih2'.2.2.2 c hcm).2, ?_, ?_⟩
      · simp only [pagesOf, hn, List.nodup_cons] at ih3
        exact (List.nodup_flatMap.mp ih3.2).1 c hcm
      · intro q hq
        exact ih4 q (pagesOf_kid pm k p n c hn hcm q hq)

theorem InRange_fresh (M : Nat) : InRange (btree.fresh M) := by
  intro p hp
  simp only [btree.fresh, btree.new, node.new_page_id, pagemanager.save, pagemanager.empty] at hp ⊢
  by_cases h0 : p = 0
  · subst h0; simp
  · by_cases h1 : p = 1
    · subst h1; simp
    · simp [h0, h1] at hp

theorem InRange.of_outside {bt bt1 : btree} (hU : InRange bt)
    (hle : bt.header.count ≤ bt1.header.count)
    (ho : ∀ p, (p < 0 ∨ bt1.header.count < p) → bt1.pm p = bt.pm p) : InRange bt1 := by
  intro p hp
  by_contra hcon
  have hout : p < 0 ∨ bt1.header.count < p := by omega
  rw [ho p hout] at hp
  have := hU p hp
  omega

/-- The recursive insert writes no page below 0 or beyond the page counter it
ends with. -/
theorem insert_node_outside (M : Nat) (hM : 2 ≤ M) : ∀ (h fuel : Nat) (bt : btree) (ptr : node)
    (v k : Int), h < fuel →
    Tree M bt.pm bt.header.count h M ptr.page_id → bt.pm.nodeAt ptr.page_id = some ptr →
    AllLe (M + 1) bt.pm →
    ∀ bt1 ptr1 st, bt.insert_node M fuel ptr v k = some (bt1, ptr1, st) →
    ∀ p, (p < 0 ∨ bt1.header.count < p) → bt1.pm p = bt.pm p
  | 0, fuel, bt, ptr, v, k, hf, hT, hptr, hA => by
    intro bt1 ptr1 st hres p hp
    obtain ⟨f, rfl⟩ : ∃ f, fuel = f + 1 := ⟨fuel - 1, by omega⟩
    obtain ⟨hS, hN, hB⟩ := hT
    simp only [Sub, hptr, Option.some.injEq, exists_eq_left'] at hS
    obtain ⟨_, hsz, hcnt, hkids⟩ := hS
    have hpos : scan ptr v ptr.count 0 ≤ ptr.count := scan_le ptr v _ 0 (Nat.zero_le _)
    have hlen : ptr.count + 1 ≤ ptr.children.length := by rw [hsz.2.2]; omega
    have hz : ptr.children.getD (scan ptr v ptr.count 0) 0 = 0 :=
      hkids _ (kids_getD_mem ptr _ hpos hlen)
    have hid := hB _ (pagesOf_head _ 0 _)
    unfold btree.insert_node at hres
    simp only [hz, ne_eq, not_true, if_false, Option.some.injEq, Prod.mk.injEq] at hres
    obtain ⟨e1, _, _⟩ := hres
    subst e1
    simp only [btree.write_node, node.insert_in_node_page_id, pagemanager.save] at hp ⊢
    rw [if_neg (by omega)]
  | h + 1, fuel, bt, ptr, v, k, hf, hT, hptr, hA => by
    intro bt1 ptr1 st hres p hp
    obtain ⟨f, rfl⟩ : ∃ f, fuel = f + 1 := ⟨fuel - 1, by omega⟩
    have hT' := hT
    obtain ⟨hS, hN, hB⟩ := hT'
    simp only [Sub, hptr, Option.some.injEq, exists_eq_left'] at hS
    obtain ⟨_, hsz, hcnt, hkids⟩ := hS
    have hpos : scan ptr v ptr.count 0 ≤ ptr.count := scan_le ptr v _ 0 (Nat.zero_le _)
    have hlen : ptr.count + 1 ≤ ptr.children.length := by rw [hsz.2.2]; omega
    have hcm := kids_getD_mem ptr _ hpos hlen
    obtain ⟨hc0, hSc⟩ := hkids _ hcm
    obtain ⟨child, hchild, hcid, hcsz, hccnt⟩ := hSc.node
    have hrd := read_node_of_nodeAt M bt _ child hchild
    have hid := hB _ (pagesOf_head _ _ _)
    have hTc : Tree M bt.pm bt.header.count h M child.page_id := by
      rw [hcid]
      have := (reach_tree M bt.pm bt.header.count (h + 1) M ptr.page_id hT 1 _
        (Reach.child Reach.root hptr hcm hc0)).2
      simpa using this
    obtain ⟨btc, childc, stc, hresc, _, hnodec, hstc, hPc⟩ :=
      insert_node_spec M hM h f bt child v k (by omega) hTc (by rw [hcid]; exact hchild) hA
    have hout := insert_node_outside M hM h f bt child v k (by omega) hTc
      (by rw [hcid]; exact hchild) hA btc childc stc hresc
    rw [hcid] at hnodec hPc
    rw [← hrd] at hresc
    rw [btree.insert_node_step M f bt ptr v k btc childc stc hc0 hresc] at hres
    simp only [Option.some.injEq, Prod.mk.injEq] at hres
    obtain ⟨e1, _, _⟩ := hres
    subst e1
    obtain ⟨_, q2, _, ⟨qS, _, _⟩, _⟩ := hPc
    by_cases hov : stc = state.BT_OVERFLOW
    · simp only [hov, if_true] at hp ⊢
      obtain ⟨n, hn1, _, hn3, _⟩ := qS.node
      rw [hnodec, Option.some.injEq] at hn1
      subst hn1
      have hrd1 := read_node_of_nodeAt M btc _ childc hnodec
      obtain ⟨_, _, _, _, t5, _⟩ := btree.split_store M btc ptr (scan ptr v ptr.count 0)
        (by rw [hrd1]; exact hn3) hid.1 (by omega)
      rw [btree.split_header] at hp
      simp only at hp
      rw [t5 p (by omega) (by omega) (by omega) (by omega)]
      exact hout p (by omega)
    · simp only [hov, if_false] at hp ⊢
      exact hout p hp


theorem InRange.new_node {M : Nat} {s : btree} (hU : InRange s) (hc : 0 ≤ s.header.count) :
    InRange (s.new_node M).1 := by
  intro p hp
  simp only [btree.new_node, pagemanager.save] at hp ⊢
  by_cases h0 : p = 0
  · subst h0; omega
  · rw [if_neg h0] at hp
    have := hU p hp
    omega

theorem AllocOK.of_inrange {M : Nat} {s : btree} (hr : s.header.root_id = 1)
    (hc : 1 ≤ s.header.count) (hU : InRange s) : AllocOK M s := by
  refine ⟨rfl, rfl, ?_, rfl, ?_, ?_, ?_, ?_, ?_⟩
  · simp [btree.new_node, pagemanager.save]
  · intro p hp
    have := hU p hp
    show p < s.header.count + 1
    omega
  · intro p hp
    show p < s.header.count + 1
    omega
  · show s.header.count + 1 ≠ 0
    omega
  · show s.header.count + 1 ≠ s.header.root_id
    omega
  · show s.pm (s.header.count + 1) = none
    by_contra hcon
    have := hU _ hcon
    omega

/-- A top-level insert keeps every record within the range of the page
counter. -/
theorem insert_inrange (M : Nat) (hM : 2 ≤ M) (bt : btree) (h fuel : Nat) (v k : Int)
    (hI : Inv M bt h) (hf : h < fuel) (hU : InRange bt) :
    ∀ bt', bt.insert M fuel v k = some bt' → InRange bt' := by
  intro bt' hins
  obtain ⟨i1, i2, i3, i4⟩ := hI
  obtain ⟨root, hroot, hrid, hrsz, hrcnt⟩ := i3.1.node
  have hrd : bt.read_node M bt.header.root_id = root := by
    rw [i1]; exact read_node_of_nodeAt M bt 1 root hroot
  obtain ⟨bt1, ptr1, st, hres, hp1, hn1, hst, hP⟩ := insert_node_spec M hM h fuel bt root v k hf
    (by rw [hrid]; exact i3) (by rw [hrid]; exact hroot) i4
  have hout := insert_node_outside M hM h fuel bt root v k hf
    (by rw [hrid]; exact i3) (by rw [hrid]; exact hroot) i4 bt1 ptr1 st hres
  rw [hrid] at hn1 hP hp1
  obtain ⟨q1, q2, _, ⟨qS, _, qB⟩, _⟩ := hP
  have hU1 : InRange bt1 := hU.of_outside q2 hout
  have hstep : bt.insert M fuel v k =
      if st = state.BT_OVERFLOW then some (bt1.split_root M) else some bt1 := by
    unfold btree.insert
    simp only [hrd, hres]
  rw [hstep] at hins
  by_cases hov : st = state.BT_OVERFLOW
  · simp only [hov, if_true, Option.some.injEq] at hins
    subst hins
    obtain ⟨n, hn, _, hn3, _⟩ := qS.node
    rw [hn1, Option.some.injEq] at hn
    subst hn
    have hr1 : bt1.header.root_id = 1 := q1.trans i1
    have hrd1 : bt1.read_node M bt1.header.root_id = ptr1 := by
      rw [hr1]; exact read_node_of_nodeAt M bt1 1 ptr1 hn1
    have hb1 := qB 1 (pagesOf_head _ _ _)
    obtain ⟨_, _, _, _, t5, _⟩ :=
      btree.split_root_store M bt1 (by rw [hrd1]; exact hn3) (by rw [hrd1, hr1]; exact hp1)
        (by rw [hr1]) (by rw [hr1]; exact hb1.2)
    intro p hp
    rw [btree.split_root_header]
    simp only
    by_cases hin : 0 ≤ p ∧ p ≤ bt1.header.count + 1 + 1
    · exact hin
    · rw [t5 p (by omega) (by omega) (by omega) (by omega)] at hp
      have := hU1 p hp
      omega
  · simp only [hov, if_false, Option.some.injEq] at hins
    subst hins
    exact hU1

/-- Every sequence of inserts on a fresh tree returns and leaves a well-formed
tree all of whose records lie within the range of the page counter. -/
theorem insert_all_inrange (M : Nat) (hM : 2 ≤ M) (fuel : Nat) : ∀ (ops : List (Int × Int))
    (bt : btree) (h : Nat), Inv M bt h → InRange bt → h + ops.length ≤ fuel →
    ∃ bt' h', btree.insert_all M fuel bt ops = some bt' ∧ Inv M bt' h' ∧
      h' ≤ h + ops.length ∧ InRange bt'
  | [], bt, h, hI, hU, _ => ⟨bt, h, rfl, hI, le_refl _, hU⟩
  | op :: ops, bt, h, hI, hU, hf => by
    simp only [List.length_cons] at hf
    obtain ⟨bt1, h1, e1, _, e3, e4, _⟩ := insert_spec M hM bt h fuel op.1 op.2 hI (by omega)
    have hU1 := insert_inrange M hM bt h fuel op.1 op.2 hI (by omega) hU bt1 e1
    obtain ⟨bt2, h2, g1, g2, g3, g4⟩ :=
      insert_all_inrange M hM fuel ops bt1 h1 e4 hU1 (by omega)
    refine ⟨bt2, h2, ?_, g2, by simp only [List.length_cons]; omega, g4⟩
    simp only [btree.insert_all, e1, g1]


/-- A top-level insert never lowers the page counter. -/
theorem insert_count_mono (M : Nat) (hM : 2 ≤ M) (bt : btree) (h fuel : Nat) (v k : Int)
    (hI : Inv M bt h) (hf : h < fuel) :
    ∀ bt', bt.insert M fuel v k = some bt' → bt.header.count ≤ bt'.header.count := by
  intro bt' hins
  obtain ⟨i1, i2, i3, i4⟩ := hI
  obtain ⟨root, hroot, hrid, hrsz, hrcnt⟩ := i3.1.node
  have hrd : bt.read_node M bt.header.root_id = root := by
    rw [i1]; exact read_node_of_nodeAt M bt 1 root hroot
  obtain ⟨bt1, ptr1, st, hres, hp1, hn1, hst, hP⟩ := insert_node_spec M hM h fuel bt root v k hf
    (by rw [hrid]; exact i3) (by rw [hrid]; exact hroot) i4
  obtain ⟨q1, q2, _⟩ := hP
  have hstep : bt.insert M fuel v k =
      if st = state.BT_OVERFLOW then some (bt1.split_root M) else some bt1 := by
    unfold btree.insert
    simp only [hrd, hres]
  rw [hstep] at hins
  by_cases hov : st = state.BT_OVERFLOW
  · simp only [hov, if_true, Option.some.injEq] at hins
    subst hins
    rw [btree.split_root_header]
    simp only
    omega
  · simp only [hov, if_false, Option.some.injEq] at hins
    subst hins
    exact q2

/-- A sequence of inserts never lowers the page counter. -/
theorem insert_all_count_mono (M : Nat) (hM : 2 ≤ M) (fuel : Nat) : ∀ (ops : List (Int × Int))
    (bt : btree) (h : Nat), Inv M bt h → h + ops.length ≤ fuel →
    ∀ bt', btree.insert_all M fuel bt ops = some bt' → bt.header.count ≤ bt'.header.count
  | [], bt, h, _, _ => by
    intro bt' e
    simp only [btree.insert_all, Option.some.injEq] at e
    subst e
    exact le_refl _
  | op :: ops, bt, h, hI, hf => by
    intro bt' e
    simp only [List.length_cons] at hf
    obtain ⟨bt1, h1, e1, _, e3, e4, _⟩ := insert_spec M hM bt h fuel op.1 op.2 hI (by omega)
    have m1 := insert_count_mono M hM bt h fuel op.1 op.2 hI (by omega) bt1 e1
    simp only [btree.insert_all, e1] at e
    have m2 := insert_all_count_mono M hM fuel ops bt1 h1 e4 (by omega) bt' e
    omega

/-- The state returned by `insert(node&, value, key)` run at a node of a
well-formed tree, and the state after one more allocation, both allocate a
fresh page next. -/
theorem insert_node_alloc (M : Nat) (hM : 2 ≤ M) (bt : btree) (h fuel : Nat) (hI : Inv M bt h)
    (hU : InRange bt) (hf : h < fuel) (v k : Int) (d : Nat) (ptr : node)
    (hR : Reach bt.pm bt.header.root_id d ptr.page_id)
    (hptr : bt.pm.nodeAt ptr.page_id = some ptr) :
    ∃ bt1 ptr1 st, bt.insert_node M fuel ptr v k = some (bt1, ptr1, st) ∧
      bt.header.count ≤ bt1.header.count ∧ AllocOK M bt1 ∧ AllocOK M (bt1.new_node M).1 := by
  obtain ⟨i1, i2, i3, i4⟩ := hI
  rw [i1] at hR
  obtain ⟨hd, hT⟩ := reach_tree M bt.pm bt.header.count h M 1 i3 d ptr.page_id hR
  have hT' : Tree M bt.pm bt.header.count (h - d) M ptr.page_id := by
    by_cases h0 : d = 0
    · simpa [h0] using hT
    · simpa [h0] using hT
  obtain ⟨bt1, ptr1, st, hres, _, _, _, hP⟩ :=
    insert_node_spec M hM (h - d) fuel bt ptr v k (by omega) hT' hptr i4
  have hout := insert_node_outside M hM (h - d) fuel bt ptr v k (by omega) hT' hptr i4
    bt1 ptr1 st hres
  obtain ⟨q1, q2, _⟩ := hP
  have hU1 : InRange bt1 := hU.of_outside q2 hout
  have hc : 1 ≤ bt.header.count := by
    have := i3.2.2 1 (pagesOf_head _ _ _)
    omega
  have hr1 : bt1.header.root_id = 1 := q1.trans i1
  refine ⟨bt1, ptr1, st, hres, q2, AllocOK.of_inrange hr1 (by omega) hU1, ?_⟩
  refine AllocOK.of_inrange hr1 ?_ (hU1.new_node (by omega))
  show 1 ≤ bt1.header.count + 1
  omega


/-- In a well-formed subtree the populated child slots of a reachable node are
all the sentinel or all different from it. -/
theorem reach_uniform (M : Nat) (pm : pagemanager) (h : Nat) (r : Int) (hs : Sub M pm h M r)
    (d : Nat) (p : Int) (n : node) (hR : Reach pm r d p) (hn : pm.nodeAt p = some n) :
    (∀ i, i ≤ n.count → n.children.getD i 0 = 0) ∨
    (∀ i, i ≤ n.count → n.children.getD i 0 ≠ 0) := by
  obtain ⟨_, h2⟩ := reach_sub M pm h M r hs d p hR
  have hb : (if d = 0 then M else M) = M := by split <;> rfl
  rw [hb] at h2
  cases hk : h - d with
  | zero =>
    rw [hk] at h2
    obtain ⟨n', e1, _, hsz, hcnt, hkids⟩ := h2
    rw [hn, Option.some.injEq] at e1
    subst e1
    exact Or.inl (fun i hi => hkids _ (kids_getD_mem n i hi (by rw [hsz.2.2]; omega)))
  | succ k =>
    rw [hk] at h2
    obtain ⟨n', e1, _, hsz, hcnt, hkids⟩ := h2
    rw [hn, Option.some.injEq] at e1
    subst e1
    exact Or.inr (fun i hi => (hkids _ (kids_getD_mem n i hi (by rw [hsz.2.2]; omega))).1)


/-! ## Paths through child slots -/

theorem kids_getElem (n : node) (i : Nat) (hi : i ≤ n.count)
    (hl : i < n.kids.length) : n.kids[i] = n.children.getD i 0 := by
  rw [← kids_getD n i hi]
  simp only [List.getD_eq_getElem?_getD, List.getElem?_eq_getElem hl, Option.getD_some]

theorem kids_disjoint_lt (pm : pagemanager) (h : Nat) (n : node)
    (hsz : n.count + 1 ≤ n.children.length)
    (hN : (n.kids.flatMap (fun c => pagesOf pm h c)).Nodup) (i j : Nat)
    (hj : j ≤ n.count) (hij : i < j) (p : Int)
    (h1 : p ∈ pagesOf pm h (n.children.getD i 0))
    (h2 : p ∈ pagesOf pm h (n.children.getD j 0)) : False := by
  have hp := (List.nodup_flatMap.mp hN).2
  rw [List.pairwise_iff_getElem] at hp
  have hl := kids_length n hsz
  have hd := hp i j (by omega) (by omega) hij
  simp only [Function.onFun] at hd
  rw [kids_getElem n i (by omega) (by omega), kids_getElem n j hj (by omega)] at hd
  exact hd h1 h2

theorem kids_disjoint (pm : pagemanager) (h : Nat) (n : node)
    (hsz : n.count + 1 ≤ n.children.length)
    (hN : (n.kids.flatMap (fun c => pagesOf pm h c)).Nodup) (i j : Nat)
    (hi : i ≤ n.count) (hj : j ≤ n.count) (hij : i ≠ j) (p : Int)
    (h1 : p ∈ pagesOf pm h (n.children.getD i 0))
    (h2 : p ∈ pagesOf pm h (n.children.getD j 0)) : False := by
  rcases Nat.lt_or_gt_of_ne hij with hlt | hlt
  · exact kids_disjoint_lt pm h n hsz hN i j hj hlt p h1 h2
  · exact kids_disjoint_lt pm h n hsz hN j i hi hlt p h2 h1

theorem follow_cons (pm : pagemanager) (r : Int) (n : node) (hn : pm.nodeAt r = some n)
    (i : Nat) (slots : List Nat) (p : Int) (hF : follow pm r (i :: slots) = some p) :
    i ≤ n.count ∧ n.children.getD i 0 ≠ 0 ∧ follow pm (n.children.getD i 0) slots = some p := by
  simp only [follow, hn] at hF
  by_cases hc : i ≤ n.count ∧ n.children.getD i 0 ≠ 0
  · rw [if_pos hc] at hF
    exact ⟨hc.1, hc.2, hF⟩
  · rw [if_neg hc] at hF
    exact absurd hF (by simp)

/-- A path from the root of a well-formed subtree of height `h` has at most `h`
steps and ends at the root of a well-formed subtree that lies among the pages
of the whole. -/
theorem follow_sub (M : Nat) (pm : pagemanager) : ∀ (h b : Nat) (r : Int) (s : List Nat)
    (p : Int), Sub M pm h b r → b ≤ M + 1 → follow pm r s = some p →
    s.length ≤ h ∧ Sub M pm (h - s.length) (if s = [] then b else M) p ∧ p ∈ pagesOf pm h r
  | h, b, r, [], p, hS, _, hF => by
    simp only [follow, Option.some.injEq] at hF
    subst hF
    exact ⟨Nat.zero_le _, hS, pagesOf_head _ _ _⟩
  | 0, b, r, i :: s, p, hS, hb, hF => by
    obtain ⟨n, hn, _, hsz, hcnt, hkids⟩ := hS
    obtain ⟨f1, f2, _⟩ := follow_cons pm r n hn i s p hF
    exact absurd (hkids _ (kids_getD_mem n i f1 (by rw [hsz.2.2]; omega))) f2
  | h + 1, b, r, i :: s, p, hS, hb, hF => by
    obtain ⟨n, hn, _, hsz, hcnt, hkids⟩ := hS
    obtain ⟨f1, f2, f3⟩ := follow_cons pm r n hn i s p hF
    have hmem := kids_getD_mem n i f1 (by rw [hsz.2.2]; omega)
    obtain ⟨g1, g2, g3⟩ := follow_sub M pm h M _ s p (hkids _ hmem).2 (by omega) f3
    refine ⟨by simp only [List.length_cons]; omega, ?_, pagesOf_kid pm h r n _ hn hmem p g3⟩
    have e : h + 1 - (i :: s).length = h - s.length := by simp only [List.length_cons]; omega
    rw [e, if_neg (by simp)]
    by_cases hs : s = []
    · rw [if_pos hs] at g2; exact g2
    · rw [if_neg hs] at g2; exact g2

/-- In a well-formed tree two paths from the root that end at the same page
are the same path. -/
theorem follow_unique (M : Nat) (pm : pagemanager) (hc : Int) : ∀ (h b : Nat) (r : Int),
    Tree M pm hc h b r → b ≤ M + 1 → ∀ (s1 s2 : List Nat) (p : Int),
    follow pm r s1 = some p → follow pm r s2 = some p → s1 = s2
  | _, _, _, _, _, [], [], _, _, _ => rfl
  | 0, b, r, hT, hb, i :: s, _, p, h1, _ => by
    obtain ⟨n, hn, _, hsz, hcnt, hkids⟩ := hT.1
    obtain ⟨f1, f2, _⟩ := follow_cons pm r n hn i s p h1
    exact absurd (hkids _ (kids_getD_mem n i f1 (by rw [hsz.2.2]; omega))) f2
  | 0, b, r, hT, hb, [], i :: s, p, _, h2 => by
    obtain ⟨n, hn, _, hsz, hcnt, hkids⟩ := hT.1
    obtain ⟨f1, f2, _⟩ := follow_cons pm r n hn i s p h2
    exact absurd (hkids _ (kids_getD_mem n i f1 (by rw [hsz.2.2]; omega))) f2
  | h + 1, b, r, hT, hb, [], i :: s, p, h1, h2 => by
    exfalso
    obtain ⟨hS, hN, hB⟩ := hT
    obtain ⟨n, hn, _, hsz, hcnt, hkids⟩ := hS
    simp only [follow, Option.some.injEq] at h1
    subst h1
    obtain ⟨f1, f2, f3⟩ := follow_cons pm r n hn i s r h2
    have hmem := kids_getD_mem n i f1 (by rw [hsz.2.2]; omega)
    obtain ⟨_, _, g3⟩ := follow_sub M pm h M _ s r (hkids _ hmem).2 (by omega) f3
    simp only [pagesOf, hn, List.nodup_cons, List.mem_flatMap, not_exists, not_and] at hN
    exact hN.1 _ hmem g3
  | h + 1, b, r, hT, hb, i :: s, [], p, h1, h2 => by
    exfalso
    obtain ⟨hS, hN, hB⟩ := hT
    obtain ⟨n, hn, _, hsz, hcnt, hkids⟩ := hS
    simp only [follow, Option.some.injEq] at h2
    subst h2
    obtain ⟨f1, f2, f3⟩ := follow_cons pm r n hn i s r h1
    have hmem := kids_getD_mem n i f1 (by rw [hsz.2.2]; omega)
    obtain ⟨_, _, g3⟩ := follow_sub M pm h M _ s r (hkids _ hmem).2 (by omega) f3
    simp only [pagesOf, hn, List.nodup_cons, List.mem_flatMap, not_exists, not_and] at hN
    exact hN.1 _ hmem g3
  | h + 1, b, r, hT, hb, i :: s, j :: t, p, h1, h2 => by
    obtain ⟨hS, hN, hB⟩ := hT
    obtain ⟨n, hn, _, hsz, hcnt, hkids⟩ := hS
    obtain ⟨f1, f2, f3⟩ := follow_cons pm r n hn i s p h1
    obtain ⟨g1, g2, g3⟩ := follow_cons pm r n hn j t p h2
    have hmi := kids_getD_mem n i f1 (by rw [hsz.2.2]; omega)
    have hmj := kids_getD_mem n j g1 (by rw [hsz.2.2]; omega)
    obtain ⟨_, _, a3⟩ := follow_sub M pm h M _ s p (hkids _ hmi).2 (by omega) f3
    obtain ⟨_, _, b3⟩ := follow_sub M pm h M _ t p (hkids _ hmj).2 (by omega) g3
    simp only [pagesOf, hn, List.nodup_cons] at hN
    have hij : i = j := by
      by_contra hne
      exact kids_disjoint pm h n (by rw [hsz.2.2]; omega) hN.2 i j f1 g1 hne p a3 b3
    subst hij
    have hTc : Tree M pm hc h M (n.children.getD i 0) :=
      ⟨(hkids _ hmi).2, (List.nodup_flatMap.mp hN.2).1 _ hmi,
        fun q hq => hB q (pagesOf_kid pm h r n _ hn hmi q hq)⟩
    rw [follow_unique M pm hc h M _ hTc (by omega) s t p f3 g3]

theorem follow_append (pm : pagemanager) : ∀ (s t : List Nat) (r p : Int),
    follow pm r s = some p → follow pm r (s ++ t) = follow pm p t
  | [], t, r, p, h => by
    simp only [follow, Option.some.injEq] at h
    subst h
    rfl
  | i :: s, t, r, p, h => by
    cases hn : pm.nodeAt r with
    | none => simp [follow, hn] at h
    | some n =>
      obtain ⟨f1, f2, f3⟩ := follow_cons pm r n hn i s p h
      simp only [List.cons_append, follow, hn, if_pos (And.intro f1 f2)]
      exact follow_append pm s t _ p f3

/-- The recursive insert run at the root of a well-formed subtree of height
`h` returns exactly when its recursion bound exceeds `h`. -/
theorem insert_node_none (M : Nat) : ∀ (h fuel : Nat) (bt : btree) (ptr : node) (v k : Int),
    fuel ≤ h → Sub M bt.pm h M ptr.page_id → bt.pm.nodeAt ptr.page_id = some ptr →
    bt.insert_node M fuel ptr v k = none
  | _, 0, _, _, _, _, _, _, _ => rfl
  | 0, f + 1, _, _, _, _, hf, _, _ => by omega
  | h + 1, f + 1, bt, ptr, v, k, hf, hS, hptr => by
    simp only [Sub, hptr, Option.some.injEq, exists_eq_left'] at hS
    obtain ⟨_, hsz, hcnt, hkids⟩ := hS
    have hpos : scan ptr v ptr.count 0 ≤ ptr.count := scan_le ptr v _ 0 (Nat.zero_le _)
    have hmem := kids_getD_mem ptr _ hpos (by rw [hsz.2.2]; omega)
    obtain ⟨c0, cS⟩ := hkids _ hmem
    obtain ⟨c, hcn, hcid, _⟩ := cS.node
    have hrd := read_node_of_nodeAt M bt _ c hcn
    have ih := insert_node_none M h f bt c v k (by omega) (by rw [hcid]; exact cS)
      (by rw [hcid]; exact hcn)
    unfold btree.insert_node
    simp only [ne_eq, c0, not_false_eq_true, if_true, hrd, ih]


/-! ## The in-order walk: list lemmas -/

theorem sufWalk_nil_left (f : Int → List Item) (cs : List Int) : sufWalk f [] cs = [] := by
  simp [sufWalk]

theorem sufWalk_nil_right (f : Int → List Item) (ks : List Int) : sufWalk f ks [] = [] := by
  simp [sufWalk]

theorem sufWalk_cons (f : Int → List Item) (k c : Int) (ks cs : List Int) :
    sufWalk f (k :: ks) (c :: cs) = Item.sep k :: (f c ++ sufWalk f ks cs) := by
  simp [sufWalk]

theorem preWalk_nil (f : Int → List Item) (ks : List Int) : preWalk f [] ks = [] := by
  simp [preWalk]

theorem preWalk_cons (f : Int → List Item) (k c : Int) (ks cs : List Int) :
    preWalk f (c :: cs) (k :: ks) = f c ++ Item.sep k :: preWalk f cs ks := by
  simp [preWalk]

theorem walk_cons (f : Int → List Item) (c : Int) (cs ks : List Int) :
    walk f (c :: cs) ks = f c ++ sufWalk f ks cs := rfl

theorem walk_cons_cons (f : Int → List Item) (c c1 k : Int) (cs ks : List Int) :
    walk f (c :: c1 :: cs) (k :: ks) = f c ++ Item.sep k :: walk f (c1 :: cs) ks := by
  rw [walk_cons, sufWalk_cons, walk_cons]

/-- The walk of a node cut at the child slot `c`. -/
theorem walk_split (f : Int → List Item) (c : Int) (cs2 ks2 : List Int) :
    ∀ (cs1 ks1 : List Int), cs1.length = ks1.length →
    walk f (cs1 ++ c :: cs2) (ks1 ++ ks2) = preWalk f cs1 ks1 ++ (f c ++ sufWalk f ks2 cs2)
  | [], [], _ => by simp [preWalk_nil, walk_cons]
  | [], _ :: _, h => by simp at h
  | _ :: _, [], h => by simp at h
  | a :: cs1, k :: ks1, h => by
    have ih := walk_split f c cs2 ks2 cs1 ks1 (by simpa using h)
    have e : cs1 ++ c :: cs2 = (cs1 ++ c :: cs2).head (by simp) :: (cs1 ++ c :: cs2).tail :=
      (List.head_cons_tail _ _).symm
    have step : walk f (a :: (cs1 ++ c :: cs2)) (k :: (ks1 ++ ks2)) =
        f a ++ Item.sep k :: walk f (cs1 ++ c :: cs2) (ks1 ++ ks2) := by
      rw [e, walk_cons_cons]
    rw [List.cons_append, List.cons_append, step, ih, preWalk_cons]
    simp only [List.append_assoc, List.cons_append]

/-- The walk of a node whose keys and child slots are cut around the key `s`. -/
theorem walk_halves (f : Int → List Item) (s : Int) (cs2 ks2 : List Int) (h2 : cs2 ≠ []) :
    ∀ (cs1 ks1 : List Int), cs1.length = ks1.length + 1 →
    walk f (cs1 ++ cs2) (ks1 ++ s :: ks2) = walk f cs1 ks1 ++ Item.sep s :: walk f cs2 ks2
  | [], _, h => by simp at h
  | [c], [], _ => by
    obtain ⟨r, rest, rfl⟩ := List.exists_cons_of_ne_nil h2
    simp only [List.singleton_append, List.nil_append, walk_cons, sufWalk_cons,
      sufWalk_nil_left, List.append_nil]
  | [c], _ :: _, h => by simp at h
  | c :: c1 :: cs1, [], h => by simp at h
  | c :: c1 :: cs1, k :: ks1, h => by
    have ih := walk_halves f s cs2 ks2 h2 (c1 :: cs1) ks1 (by simpa using h)
    simp only [List.cons_append] at ih ⊢
    rw [walk_cons_cons, ih, walk_cons_cons]
    simp only [List.append_assoc, List.cons_append]

theorem sufWalk_congr (f g : Int → List Item) (ks cs : List Int)
    (h : ∀ c ∈ cs, f c = g c) : sufWalk f ks cs = sufWalk g ks cs := by
  unfold sufWalk
  apply List.flatMap_congr
  intro kc hkc
  rw [h kc.2 (List.of_mem_zip hkc).2]

theorem preWalk_congr (f g : Int → List Item) (cs ks : List Int)
    (h : ∀ c ∈ cs, f c = g c) : preWalk f cs ks = preWalk g cs ks := by
  unfold preWalk
  apply List.flatMap_congr
  intro ck hck
  rw [h ck.1 (List.of_mem_zip hck).1]

theorem walk_congr (f g : Int → List Item) (cs ks : List Int)
    (h : ∀ c ∈ cs, f c = g c) : walk f cs ks = walk g cs ks := by
  cases cs with
  | nil => rfl
  | cons c cs =>
    rw [walk_cons, walk_cons, h c (List.mem_cons_self _ _),
      sufWalk_congr f g ks cs (fun a ha => h a (List.mem_cons_of_mem _ ha))]

/-- Every item of a walk is an item of the walk of a child or one of the
keys. -/
theorem mem_sufWalk (f : Int → List Item) (x : Item) : ∀ (ks cs : List Int),
    x ∈ sufWalk f ks cs → (∃ c ∈ cs, x ∈ f c) ∨ ∃ k ∈ ks, x = Item.sep k
  | [], cs, h => by simp [sufWalk_nil_left] at h
  | _ :: _, [], h => by simp [sufWalk_nil_right] at h
  | k :: ks, c :: cs, h => by
    rw [sufWalk_cons] at h
    simp only [List.mem_cons, List.mem_append] at h
    rcases h with h | h | h
    · exact Or.inr ⟨k, List.mem_cons_self _ _, h⟩
    · exact Or.inl ⟨c, List.mem_cons_self _ _, h⟩
    · rcases mem_sufWalk f x ks cs h with ⟨a, ha, hx⟩ | ⟨a, ha, hx⟩
      · exact Or.inl ⟨a, List.mem_cons_of_mem _ ha, hx⟩
      · exact Or.inr ⟨a, List.mem_cons_of_mem _ ha, hx⟩

theorem mem_walk (f : Int → List Item) (x : Item) (cs ks : List Int) (h : x ∈ walk f cs ks) :
    (∃ c ∈ cs, x ∈ f c) ∨ ∃ k ∈ ks, x = Item.sep k := by
  cases cs with
  | nil => simp [walk] at h
  | cons c cs =>
    rw [walk_cons, List.mem_append] at h
    rcases h with h | h
    · exact Or.inl ⟨c, List.mem_cons_self _ _, h⟩
    · rcases mem_sufWalk f x ks cs h with ⟨a, ha, hx⟩ | hk
      · exact Or.inl ⟨a, List.mem_cons_of_mem _ ha, hx⟩
      · exact Or.inr hk


/-! ## The position scan and the insertion into a leaf -/

/-- The position found by the scan: the keys before it are below `value`, the
key at it, if any, is not. -/
theorem scan_spec (ptr : node) (v : Int) : ∀ (f pos : Nat), ptr.count ≤ pos + f →
    (∀ j, j < pos → ptr.keys.getD j 0 < v) →
    (∀ j, j < scan ptr v f pos → ptr.keys.getD j 0 < v) ∧
    (scan ptr v f pos < ptr.count → v ≤ ptr.keys.getD (scan ptr v f pos) 0)
  | 0, pos, hf, hlt => by
    simp only [scan]
    exact ⟨hlt, fun h => by omega⟩
  | f + 1, pos, hf, hlt => by
    unfold scan
    by_cases hc : pos < ptr.count ∧ ptr.keys.getD pos 0 < v
    · rw [if_pos hc]
      refine scan_spec ptr v f (pos + 1) (by omega) ?_
      intro j hj
      by_cases hjp : j < pos
      · exact hlt j hjp
      · have e : j = pos := by omega
        rw [e]; exact hc.2
    · rw [if_neg hc]
      refine ⟨hlt, fun h => ?_⟩
      have : ¬ ptr.keys.getD pos 0 < v := fun h2 => hc ⟨h, h2⟩
      omega

theorem mem_take_getD (l : List Int) (n : Nat) (x : Int) (h : x ∈ l.take n) :
    ∃ j, j < n ∧ j < l.length ∧ l.getD j 0 = x := by
  obtain ⟨i, hi, e⟩ := List.mem_take_iff_getElem.mp h
  have h1 : i < n := by omega
  have h2 : i < l.length := by omega
  refine ⟨i, h1, h2, ?_⟩
  simp only [List.getD_eq_getElem?_getD, List.getElem?_eq_getElem h2, Option.getD_some]
  exact e

theorem node.insert_in_node_data (n : node) (pos : Nat) (v k : Int) (hp : pos ≤ n.count) :
    (n.insert_in_node pos v k true).data = (shiftList pos n.count n.data).set pos v := by
  have hm : min pos n.count = pos := by omega
  simp only [node.insert_in_node, node.shift_eq, hm, if_true]

/-- The populated values of a leaf after `insert_in_node`: `value` is inserted
at `pos`. -/
theorem node.insert_in_node_dataList (M : Nat) (n : node) (pos : Nat) (v k : Int)
    (hs : n.sized M) (hp : pos ≤ n.count) (hc : n.count ≤ M) :
    (n.insert_in_node pos v k true).dataList =
      n.dataList.take pos ++ v :: n.dataList.drop pos := by
  obtain ⟨_, h2, _⟩ := hs
  simp only [node.dataList, node.insert_in_node_count, node.insert_in_node_data n pos v k hp]
  rw [shiftList_set_take n.data pos n.count v hp (by omega), List.take_take]
  have hm : min pos n.count = pos := by omega
  rw [hm]

theorem dataList_length (M : Nat) (n : node) (hs : n.sized M) (hc : n.count ≤ M + 1) :
    n.dataList.length = n.count := by
  simp only [node.dataList, List.length_take, hs.2.1]
  omega

theorem take_zip_eq (a b : List Int) (n : Nat) :
    (a.zip b).take n = (a.take n).zip (b.take n) := by
  induction a generalizing b n with
  | nil => simp
  | cons x a ih =>
    cases b with
    | nil => simp
    | cons y b =>
      cases n with
      | zero => simp
      | succ n => simp [ih]

theorem drop_zip_eq (a b : List Int) (n : Nat) :
    (a.zip b).drop n = (a.drop n).zip (b.drop n) := by
  induction a generalizing b n with
  | nil => simp
  | cons x a ih =>
    cases b with
    | nil => simp
    | cons y b =>
      cases n with
      | zero => simp
      | succ n => simp [ih]

/-- The entries of a leaf after `insert_in_node`: `(key, value)` is inserted at
`pos`. -/
theorem node.insert_in_node_entries (M : Nat) (n : node) (pos : Nat) (v k : Int)
    (hs : n.sized M) (hp : pos ≤ n.count) (hc : n.count ≤ M) :
    (n.insert_in_node pos v k true).entries =
      n.entries.take pos ++ (k, v) :: n.entries.drop pos := by
  have hk := keyList_length n (by rw [hs.1]; omega)
  have hd := dataList_length M n hs (by omega)
  simp only [node.entries]
  rw [node.insert_in_node_keyList M n pos v k true hs hp hc,
    node.insert_in_node_dataList M n pos v k hs hp hc,
    List.zip_append (by simp only [List.length_take, hk, hd]), take_zip_eq, drop_zip_eq]
  rfl

theorem entries_length (M : Nat) (n : node) (hs : n.sized M) (hc : n.count ≤ M + 1) :
    n.entries.length = n.count := by
  simp only [node.entries, List.length_zip, keyList_length n (by rw [hs.1]; omega),
    dataList_length M n hs hc, min_self]

theorem entries_fst (M : Nat) (n : node) (hs : n.sized M) (hc : n.count ≤ M + 1) :
    n.entries.map Prod.fst = n.keyList := by
  simp only [node.entries]
  exact List.map_fst_zip _ _ (by
    rw [keyList_length n (by rw [hs.1]; omega), dataList_length M n hs hc])

/-! ## Ordered walks -/

theorem Ordered.head_le {x : Item} {l : List Item} (h : Ordered (x :: l)) :
    ∀ b ∈ x :: l, x.rank ≤ b.rank := by
  intro b hb
  rcases List.mem_cons.mp hb with e | e
  · rw [e]
  · exact le_of_lt ((List.pairwise_cons.mp h).1 b e)

theorem Ordered.left {l1 l2 : List Item} (h : Ordered (l1 ++ l2)) : Ordered l1 :=
  (List.pairwise_append.mp h).1

theorem Ordered.right {l1 l2 : List Item} (h : Ordered (l1 ++ l2)) : Ordered l2 :=
  (List.pairwise_append.mp h).2.1

/-- An entry put between the items below its value and the items not below it
keeps the walk ordered when its key is new. -/
theorem Ordered.insert_entry {l1 l2 : List Item} {k : Int} (h : Ordered (l1 ++ l2))
    (hc : SepClosed (l1 ++ l2)) (hk : ∀ v, Item.entry k v ∉ l1 ++ l2)
    (h1 : ∀ a ∈ l1, a.rank < 2 * k) (h2 : ∀ b ∈ l2, 2 * k ≤ b.rank) (v : Int) :
    Ordered (l1 ++ Item.entry k v :: l2) := by
  obtain ⟨p1, p2, p3⟩ := List.pairwise_append.mp h
  unfold Ordered
  rw [List.pairwise_append, List.pairwise_cons]
  have hgt : ∀ b ∈ l2, 2 * k + 1 < b.rank := by
    intro b hb
    have hb2 := h2 b hb
    cases b with
    | entry k1 v1 =>
      simp only [Item.rank] at hb2 ⊢
      have hne : k1 ≠ k := by
        intro e; subst e
        exact hk v1 (List.mem_append_right _ hb)
      omega
    | sep k1 =>
      simp only [Item.rank] at hb2 ⊢
      have hne : k1 ≠ k := by
        intro e; subst e
        obtain ⟨v1, hv1⟩ := hc k1 (List.mem_append_right _ hb)
        exact hk v1 hv1
      omega
  refine ⟨p1, ⟨hgt, p2⟩, ?_⟩
  intro a ha b hb
  rcases List.mem_cons.mp hb with e | e
  · rw [e]
    have := h1 a ha
    show a.rank < 2 * k + 1
    omega
  · exact p3 a ha b e

/-- The key of the right leaf put between two neighbouring entries keeps the
walk ordered. -/
theorem Ordered.insert_sep {m1 m2 : List Item} {s0 v0 s sv : Int}
    (h : Ordered (m1 ++ Item.entry s0 v0 :: Item.entry s sv :: m2)) :
    Ordered (m1 ++ Item.entry s0 v0 :: Item.sep s :: Item.entry s sv :: m2) := by
  unfold Ordered at h ⊢
  rw [List.pairwise_append, List.pairwise_cons, List.pairwise_cons] at h
  obtain ⟨p1, ⟨p2, p3, p4⟩, p5⟩ := h
  have hlt : s0 < s := by
    have := p2 _ (List.mem_cons_self _ _)
    simp only [Item.rank] at this
    omega
  rw [List.pairwise_append, List.pairwise_cons, List.pairwise_cons, List.pairwise_cons]
  refine ⟨p1, ⟨?_, ?_, p3, p4⟩, ?_⟩
  · intro b hb
    rcases List.mem_cons.mp hb with e | e
    · rw [e]; simp only [Item.rank]; omega
    · exact p2 b e
  · intro b hb
    rcases List.mem_cons.mp hb with e | e
    · rw [e]; simp only [Item.rank]; omega
    · have := p3 b e
      simp only [Item.rank] at this ⊢
      omega
  · intro a ha b hb
    rcases List.mem_cons.mp hb with e | e
    · rw [e]; exact p5 a ha _ (List.mem_cons_self _ _)
    · rcases List.mem_cons.mp e with e | e
      · rw [e]
        have := p5 a ha _ (List.mem_cons_self _ _)
        simp only [Item.rank] at this ⊢
        omega
      · exact p5 a ha b (List.mem_cons_of_mem _ e)


/-! ## The in-order walk and the page store -/

/-- The in-order walk of a subtree only depends on the pages of the subtree. -/
theorem frame_inorder (pm pm1 : pagemanager) : ∀ (h : Nat) (id : Int),
    (∀ p ∈ pagesOf pm h id, pm1 p = pm p) → inorder pm1 h id = inorder pm h id
  | 0, id, hag => by
    have e := nodeAt_congr pm pm1 id (hag id (pagesOf_head pm 0 id))
    simp only [inorder, e]
  | h + 1, id, hag => by
    have e := nodeAt_congr pm pm1 id (hag id (pagesOf_head pm (h + 1) id))
    simp only [inorder, e]
    cases hn : pm.nodeAt id with
    | none => rfl
    | some n =>
      simp only
      apply walk_congr
      intro c hc
      exact frame_inorder pm pm1 h c (fun p hp => hag p (pagesOf_kid pm h id n c hn hc p hp))

theorem keyList_getD (n : node) (j : Nat) (hj : j < n.count) :
    n.keyList.getD j 0 = n.keys.getD j 0 := by
  simp only [node.keyList, List.getD_eq_getElem?_getD, List.getElem?_take]
  rw [if_pos hj]

/-- The walks of the two halves of an overflowed leaf. -/
theorem halves_inorder_leaf (M : Nat) (hM : 2 ≤ M) (pm1 pm2 : pagemanager) (c : Int)
    (C : node) (idL idR : Int)
    (hC : pm1.nodeAt c = some C) (hs : Sub M pm1 0 (M + 1) c) (hcnt : C.count = M + 1)
    (hL : pm2.nodeAt idL = some (halves M (node.new M idL) (node.new M idR) C).1)
    (hR : pm2.nodeAt idR = some (halves M (node.new M idL) (node.new M idR) C).2.1) :
    ∃ m1 s0 v0 sv m2, inorder pm2 0 idL = m1 ++ [Item.entry s0 v0] ∧
      inorder pm2 0 idR = Item.entry (C.keys.getD (M / 2) 0) sv :: m2 ∧
      inorder pm1 0 c = m1 ++ Item.entry s0 v0 :: Item.entry (C.keys.getD (M / 2) 0) sv :: m2 := by
  have hdiv : M / 2 ≤ M := Nat.div_le_self M 2
  have hdiv1 : 1 ≤ M / 2 := by omega
  simp only [Sub, hC, Option.some.injEq, exists_eq_left'] at hs
  obtain ⟨_, hsz, _, hkids⟩ := hs
  obtain ⟨_, _, a3, _, _, _, _, _, a9, _⟩ := halves_spec M C idL idR hsz
  obtain ⟨e1, _, e3, _⟩ := halves_leaf_facts M C idL idR hsz hcnt hkids
  have hlen := entries_length M _ a3 (by rw [a9]; omega)
  rw [a9] at hlen
  rcases List.eq_nil_or_concat (halves M (node.new M idL) (node.new M idR) C).1.entries with
    hnil | ⟨xs, x, hx⟩
  · rw [hnil] at hlen; simp at hlen; omega
  · rw [List.concat_eq_append] at hx
    cases hR2 : (halves M (node.new M idL) (node.new M idR) C).2.1.entries with
    | nil => rw [hR2] at e3; simp at e3
    | cons y ys =>
      rw [hR2, List.head?_cons, Option.some.injEq] at e3
      refine ⟨xs.map (fun e => Item.entry e.1 e.2), x.1, x.2, C.data.getD (M / 2) 0,
        ys.map (fun e => Item.entry e.1 e.2), ?_, ?_, ?_⟩
      · simp only [inorder, hL, hx, List.map_append, List.map_cons, List.map_nil]
      · simp only [inorder, hR, hR2, List.map_cons, e3]
      · simp only [inorder, hC, ← e1, hx, hR2, List.map_append, List.map_cons, List.map_nil, e3,
          List.append_assoc, List.singleton_append]

/-- The walks of the two halves of an overflowed intermediate node. -/
theorem halves_inorder_inner (M : Nat) (hM : 2 ≤ M) (pm1 pm2 : pagemanager) (h : Nat) (c : Int)
    (C : node) (idL idR : Int)
    (hC : pm1.nodeAt c = some C) (hs : Sub M pm1 (h + 1) (M + 1) c) (hcnt : C.count = M + 1)
    (hL : pm2.nodeAt idL = some (halves M (node.new M idL) (node.new M idR) C).1)
    (hR : pm2.nodeAt idR = some (halves M (node.new M idL) (node.new M idR) C).2.1)
    (hag : ∀ p ∈ (pagesOf pm1 (h + 1) c).tail, pm2 p = pm1 p) :
    inorder pm2 (h + 1) idL ++ Item.sep (C.keys.getD (M / 2) 0) :: inorder pm2 (h + 1) idR =
      inorder pm1 (h + 1) c := by
  simp only [Sub, hC, Option.some.injEq, exists_eq_left'] at hs
  obtain ⟨_, hsz, _, hkids⟩ := hs
  have hint : C.children.getD 0 0 ≠ 0 :=
    (hkids _ (kids_getD_mem C 0 (by omega) (by rw [hsz.2.2, hcnt]))).1
  obtain ⟨_, _, a3, a4, _, _, _, _, a9, _⟩ := halves_spec M C idL idR hsz
  obtain ⟨e1, e2, e3, e4, e5⟩ := halves_internal_facts M C idL idR hsz hcnt hint
  have hfr : ∀ g ∈ C.kids, inorder pm2 h g = inorder pm1 h g := by
    intro g hg
    apply frame_inorder pm1 pm2 h g
    intro p hp
    apply hag
    simp only [pagesOf, hC, List.tail_cons, List.mem_flatMap]
    exact ⟨g, hg, hp⟩
  have hdiv : M / 2 ≤ M := Nat.div_le_self M 2
  have hkl := keyList_length (halves M (node.new M idL) (node.new M idR) C).1
    (by rw [a3.1, a9]; omega)
  have hR0 : (halves M (node.new M idL) (node.new M idR) C).2.1.kids ≠ [] := by
    intro hnil; rw [hnil] at e4; simp at e4
  simp only [inorder, hL, hR, hC]
  rw [walk_congr _ (fun g => inorder pm1 h g) _ _ (fun g hg => hfr g (by
      rw [← e2]; exact List.mem_append_left _ hg)),
    walk_congr (fun g => inorder pm2 h g) (fun g => inorder pm1 h g)
      (halves M (node.new M idL) (node.new M idR) C).2.1.kids _ (fun g hg => hfr g (by
      rw [← e2]; exact List.mem_append_right _ hg)),
    ← walk_halves _ _ _ _ hR0 _ _ (by rw [e3, hkl]), e1, e2]


/-! ## The in-order walk after an insert into a leaf -/

theorem insert_node_leaf_eq (M f : Nat) (bt : btree) (ptr : node) (v k : Int)
    (hz : ptr.children.getD (scan ptr v ptr.count 0) 0 = 0) :
    bt.insert_node M (f + 1) ptr v k =
      some (bt.write_node ptr.page_id (ptr.insert_in_node (scan ptr v ptr.count 0) v k true),
        ptr.insert_in_node (scan ptr v ptr.count 0) v k true,
        if (ptr.insert_in_node (scan ptr v ptr.count 0) v k true).is_overflow M = true
          then state.BT_OVERFLOW else state.NORMAL) := by
  conv => lhs; unfold btree.insert_node
  simp only [hz, ne_eq, not_true, if_false, decide_True, node.insert_in_node_page_id]

theorem order_leaf (M : Nat) (fuel : Nat) (bt : btree) (ptr : node) (v k : Int)
    (hf : 0 < fuel) (hT : Tree M bt.pm bt.header.count 0 M ptr.page_id)
    (hptr : bt.pm.nodeAt ptr.page_id = some ptr)
    (hO : Ordered (inorder bt.pm 0 ptr.page_id))
    (bt1 : btree) (ptr1 : node) (st : state)
    (hres : bt.insert_node M fuel ptr v k = some (bt1, ptr1, st)) :
    PostWalk bt bt1 0 ptr.page_id v k := by
  obtain ⟨f, rfl⟩ : ∃ f, fuel = f + 1 := ⟨fuel - 1, by omega⟩
  obtain ⟨hS, _, _⟩ := hT
  simp only [Sub, hptr, Option.some.injEq, exists_eq_left'] at hS
  obtain ⟨_, hsz, hcnt, hkids⟩ := hS
  have hpos : scan ptr v ptr.count 0 ≤ ptr.count := scan_le ptr v _ 0 (Nat.zero_le _)
  have hlen : ptr.count + 1 ≤ ptr.children.length := by rw [hsz.2.2]; omega
  have hz : ptr.children.getD (scan ptr v ptr.count 0) 0 = 0 :=
    hkids _ (kids_getD_mem ptr _ hpos hlen)
  obtain ⟨sc1, sc2⟩ := scan_spec ptr v ptr.count 0 (by omega) (fun j hj => by omega)
  rw [insert_node_leaf_eq M f bt ptr v k hz, Option.some.injEq, Prod.mk.injEq] at hres
  obtain ⟨hbt1, _⟩ := hres
  subst hbt1
  have hwalk0 : inorder bt.pm 0 ptr.page_id = ptr.entries.map (fun e => Item.entry e.1 e.2) := by
    simp only [inorder, hptr]
  have hsplit : ptr.entries = ptr.entries.take (scan ptr v ptr.count 0) ++
      ptr.entries.drop (scan ptr v ptr.count 0) := (List.take_append_drop _ _).symm
  refine ⟨(ptr.entries.take (scan ptr v ptr.count 0)).map (fun e => Item.entry e.1 e.2),
    (ptr.entries.drop (scan ptr v ptr.count 0)).map (fun e => Item.entry e.1 e.2), ?_, ?_, ?_,
    Or.inl ?_⟩
  · rw [hwalk0, ← List.map_append, List.take_append_drop]
  · intro a ha
    obtain ⟨e, he, rfl⟩ := List.mem_map.mp ha
    simp only [node.entries, take_zip_eq] at he
    obtain ⟨j, hj1, hj2, hj3⟩ := mem_take_getD _ _ _ (List.of_mem_zip he).1
    have hjc : j < ptr.count := by omega
    rw [keyList_getD ptr j hjc] at hj3
    have := sc1 j hj1
    simp only [Item.rank]
    omega
  · intro b hb
    cases hE : ptr.entries.drop (scan ptr v ptr.count 0) with
    | nil => rw [hE] at hb; simp at hb
    | cons e rest =>
      have hel := entries_length M ptr hsz (by omega)
      have hlt : scan ptr v ptr.count 0 < ptr.count := by
        by_contra hcon
        have : ptr.entries.drop (scan ptr v ptr.count 0) = [] :=
          List.drop_eq_nil_of_le (by omega)
        rw [this] at hE
        exact absurd hE (by simp)
      have hfst : e.1 = ptr.keys.getD (scan ptr v ptr.count 0) 0 := by
        have h1 : (ptr.entries.drop (scan ptr v ptr.count 0)).map Prod.fst =
            ptr.keyList.drop (scan ptr v ptr.count 0) := by
          rw [List.map_drop, entries_fst M ptr hsz (by omega)]
        rw [hE, drop_head_getD ptr.keyList _ (by
          rw [keyList_length ptr (by rw [hsz.1]; omega)]; exact hlt),
          keyList_getD ptr _ hlt] at h1
        simp only [List.map_cons, List.cons.injEq] at h1
        exact h1.1
      have hO2 : Ordered ((ptr.entries.drop (scan ptr v ptr.count 0)).map
          (fun e => Item.entry e.1 e.2)) := by
        rw [hwalk0, hsplit, List.map_append] at hO
        exact hO.right
      rw [hE, List.map_cons] at hO2 hb
      have h3 : 2 * e.1 + 1 ≤ b.rank := hO2.head_le b hb
      have h4 := sc2 hlt
      rw [hfst] at h3
      omega
  · simp only [inorder, btree.write_node, nodeAt_save_node]
    rw [node.insert_in_node_entries M ptr _ v k hsz hpos hcnt]
    simp only [List.map_append, List.map_cons]


/-! ## The walk of a node around one child slot -/

/-- The walk of a node cut at the child slot `pos`. -/
theorem walk_at (f : Int → List Item) (n : node) (pos : Nat) (hpos : pos ≤ n.count)
    (hlen : n.count + 1 ≤ n.children.length) (hkl : n.count ≤ n.keys.length) :
    walk f n.kids n.keyList =
      preWalk f (n.kids.take pos) (n.keyList.take pos) ++
        (f (n.children.getD pos 0) ++ sufWalk f (n.keyList.drop pos) (n.kids.drop (pos + 1))) := by
  have h1 := walk_split f (n.children.getD pos 0) (n.kids.drop (pos + 1)) (n.keyList.drop pos)
    (n.kids.take pos) (n.keyList.take pos) (by
      rw [List.length_take, List.length_take, kids_length n hlen, keyList_length n hkl]
      omega)
  rw [← kids_split_at n pos hpos hlen, List.take_append_drop] at h1
  exact h1

/-- The walk of a parent after `split` replaced the child slot `pos` by the two
halves and put the key `s` between them. -/
theorem walk_at_split (f : Int → List Item) (cs1 ks1 cs2 ks2 : List Int) (l r s : Int)
    (hlen : cs1.length = ks1.length) :
    walk f (cs1 ++ l :: r :: cs2) (ks1 ++ s :: ks2) =
      preWalk f cs1 ks1 ++ (f l ++ Item.sep s :: (f r ++ sufWalk f ks2 cs2)) := by
  rw [walk_split f l (r :: cs2) (s :: ks2) cs1 ks1 hlen, sufWalk_cons]

/-- The items of the walk before the child slot found by the scan stand below
`value`. -/
theorem pre_bound (f : Int → List Item) (v : Int) : ∀ (cs ks : List Int),
    Ordered (preWalk f cs ks) → (∀ k ∈ ks, k < v) → ∀ a ∈ preWalk f cs ks, a.rank < 2 * v
  | [], _, _, _, a, ha => by simp [preWalk_nil] at ha
  | _ :: _, [], _, _, a, ha => by simp [preWalk] at ha
  | c :: cs, k :: ks, hO, hk, a, ha => by
    rw [preWalk_cons] at hO ha
    have hkv := hk k (List.mem_cons_self _ _)
    rcases List.mem_append.mp ha with h1 | h1
    · have h3 : a.rank < 2 * k :=
        (List.pairwise_append.mp hO).2.2 a h1 (Item.sep k) (List.mem_cons_self _ _)
      omega
    · rcases List.mem_cons.mp h1 with h2 | h2
      · rw [h2]; simp only [Item.rank]; omega
      · exact pre_bound f v cs ks (List.pairwise_cons.mp hO.right).2
          (fun x hx => hk x (List.mem_cons_of_mem _ hx)) a h2

/-- The items of the walk after the child slot found by the scan do not stand
below `value`. -/
theorem suf_bound (f : Int → List Item) (v : Int) (ks cs : List Int)
    (hO : Ordered (sufWalk f ks cs)) (hk : ∀ k0, ks.head? = some k0 → v ≤ k0) :
    ∀ b ∈ sufWalk f ks cs, 2 * v ≤ b.rank := by
  intro b hb
  cases ks with
  | nil => simp [sufWalk_nil_left] at hb
  | cons k ks =>
    cases cs with
    | nil => simp [sufWalk_nil_right] at hb
    | cons c cs =>
      rw [sufWalk_cons] at hO hb
      have h1 : 2 * k ≤ b.rank := hO.head_le b hb
      have h2 := hk k rfl
      omega

theorem Grown.context {h : Nat} {x y : List Item} (hg : Grown h x y) (p q : List Item) :
    Grown (h + 1) (p ++ (x ++ q)) (p ++ (y ++ q)) := by
  rcases hg with e | ⟨_, m1, s0, v0, s, sv, m2, e1, e2⟩
  · exact Or.inl (by rw [e])
  · refine Or.inr ⟨Nat.succ_pos _, p ++ m1, s0, v0, s, sv, m2 ++ q, ?_, ?_⟩
    · rw [e1]; simp only [List.append_assoc, List.cons_append]
    · rw [e2]; simp only [List.append_assoc, List.cons_append]

theorem Grown.zero {x y : List Item} (hg : Grown 0 x y) : y = x := by
  rcases hg with e | ⟨h0, _⟩
  · exact e
  · exact absurd h0 (Nat.lt_irrefl 0)


/-! ## The in-order walk after an insert below an intermediate node -/

/-- The step of the recursive insert at an intermediate node, after the
recursive call on the child in slot `pos` has returned: what it does to the
in-order walk. -/
theorem order_inner (M : Nat) (hM : 2 ≤ M) (h : Nat) (bt bt1 : btree) (ptr child1 : node)
    (pos : Nat) (v k : Int) (st1 : state)
    (hT : Tree M bt.pm bt.header.count (h + 1) M ptr.page_id)
    (hptr : bt.pm.nodeAt ptr.page_id = some ptr) (hpos : pos ≤ ptr.count)
    (hsc1 : ∀ j, j < pos → ptr.keys.getD j 0 < v)
    (hsc2 : pos < ptr.count → v ≤ ptr.keys.getD pos 0)
    (hnode1 : bt1.pm.nodeAt (ptr.children.getD pos 0) = some child1)
    (hst1 : st1 = state.BT_OVERFLOW ↔ M < child1.count)
    (hP1 : Post M bt bt1 h (ptr.children.getD pos 0) k)
    (hO : Ordered (inorder bt.pm (h + 1) ptr.page_id))
    (hW1 : PostWalk bt bt1 h (ptr.children.getD pos 0) v k) :
    PostWalk bt (if st1 = state.BT_OVERFLOW then bt1.split M ptr pos else (bt1, ptr)).1 (h + 1)
      ptr.page_id v k := by
  obtain ⟨hS, hN, hB⟩ := hT
  simp only [Sub, hptr, Option.some.injEq, exists_eq_left'] at hS
  obtain ⟨_, hsz, hcnt, hkids⟩ := hS
  have hlen : ptr.count + 1 ≤ ptr.children.length := by rw [hsz.2.2]; omega
  have hkl : ptr.count ≤ ptr.keys.length := by rw [hsz.1]; omega
  have hcm := kids_getD_mem ptr _ hpos hlen
  have hk := kids_split_at ptr _ hpos hlen
  obtain ⟨hc0, hSc⟩ := hkids _ hcm
  have hpg : pagesOf bt.pm (h + 1) ptr.page_id = ptr.page_id ::
      ((ptr.kids.take pos).flatMap (fun c => pagesOf bt.pm h c) ++
        (pagesOf bt.pm h (ptr.children.getD pos 0) ++
          (ptr.kids.drop (pos + 1)).flatMap (fun c => pagesOf bt.pm h c))) := by
    conv => lhs; simp only [pagesOf, hptr]; rw [hk]
    simp only [List.flatMap_append, List.flatMap_cons]
  rw [hpg] at hN hB
  have hidB := hB _ (List.mem_cons_self _ _)
  have hN1 := hN
  simp only [List.nodup_cons, List.nodup_append, List.mem_append, List.disjoint_left,
    List.mem_cons, not_or, List.mem_flatMap] at hN1
  obtain ⟨⟨n1, n2, n3⟩, n4, ⟨n5, n6, n7⟩, n8⟩ := hN1
  obtain ⟨q1, q2, q3, ⟨qS, qN, qB⟩, q5, q6, _, q8⟩ := hP1
  -- the siblings of the child are untouched by the call
  have hsib : ∀ a, a ∈ ptr.kids.take pos ∨ a ∈ ptr.kids.drop (pos + 1) →
      ∀ p ∈ pagesOf bt.pm h a, (1 ≤ p ∧ p ≤ bt.header.count) ∧ p ≠ ptr.page_id ∧
        p ∉ pagesOf bt.pm h (ptr.children.getD pos 0) := by
    intro a ha p hp
    rcases ha with ha | ha
    · refine ⟨hB p ?_, ?_, (n8 ⟨a, ha, hp⟩).1⟩
      · simp only [List.mem_cons, List.mem_append, List.mem_flatMap]
        exact Or.inr (Or.inl ⟨a, ha, hp⟩)
      · intro e; subst e; exact n1 ⟨a, ha, hp⟩
    · refine ⟨hB p ?_, ?_, fun hx => n7 hx ⟨a, ha, hp⟩⟩
      · simp only [List.mem_cons, List.mem_append, List.mem_flatMap]
        exact Or.inr (Or.inr (Or.inr ⟨a, ha, hp⟩))
      · intro e; subst e; exact n3 ⟨a, ha, hp⟩
  have hfr1 : ∀ a, a ∈ ptr.kids.take pos ∨ a ∈ ptr.kids.drop (pos + 1) →
      inorder bt1.pm h a = inorder bt.pm h a := fun a ha =>
    frame_inorder bt.pm bt1.pm h a (fun p hp =>
      q5 p (hsib a ha p hp).2.2 (hsib a ha p hp).1.1 (hsib a ha p hp).1.2)
  have hptr1 : bt1.pm.nodeAt ptr.page_id = some ptr := by
    rw [nodeAt_congr _ _ _ (q5 _ n2 hidB.1 hidB.2)]; exact hptr
  have hidc1 : ptr.page_id ∉ pagesOf bt1.pm h (ptr.children.getD pos 0) := by
    intro hx
    rcases q6 _ hx with h9 | h9
    · exact n2 h9
    · omega
  -- the walk before the call
  have hw0 : inorder bt.pm (h + 1) ptr.page_id =
      preWalk (fun c => inorder bt.pm h c) (ptr.kids.take pos) (ptr.keyList.take pos) ++
        (inorder bt.pm h (ptr.children.getD pos 0) ++
          sufWalk (fun c => inorder bt.pm h c) (ptr.keyList.drop pos)
            (ptr.kids.drop (pos + 1))) := by
    simp only [inorder, hptr]
    exact walk_at _ ptr pos hpos hlen hkl
  rw [hw0] at hO
  obtain ⟨l1, l2, w1, w2, w3, w4⟩ := hW1
  have hpre : ∀ a ∈ preWalk (fun c => inorder bt.pm h c) (ptr.kids.take pos)
      (ptr.keyList.take pos), a.rank < 2 * v := by
    apply pre_bound _ v _ _ hO.left
    intro x hx
    obtain ⟨j, hj1, hj2, hj3⟩ := mem_take_getD _ _ _ hx
    rw [keyList_length ptr hkl] at hj2
    rw [keyList_getD ptr j hj2] at hj3
    rw [← hj3]; exact hsc1 j hj1
  have hsuf : ∀ b ∈ sufWalk (fun c => inorder bt.pm h c) (ptr.keyList.drop pos)
      (ptr.kids.drop (pos + 1)), 2 * v ≤ b.rank := by
    apply suf_bound _ v _ _ hO.right.right
    intro k0 hk0
    by_cases hlt : pos < ptr.count
    · rw [drop_head_getD ptr.keyList pos (by rw [keyList_length ptr hkl]; exact hlt),
        keyList_getD ptr pos hlt, List.head?_cons, Option.some.injEq] at hk0
      rw [← hk0]; exact hsc2 hlt
    · rw [List.drop_eq_nil_of_le (by rw [keyList_length ptr hkl]; omega)] at hk0
      simp at hk0
  refine ⟨preWalk (fun c => inorder bt.pm h c) (ptr.kids.take pos) (ptr.keyList.take pos) ++ l1,
    l2 ++ sufWalk (fun c => inorder bt.pm h c) (ptr.keyList.drop pos) (ptr.kids.drop (pos + 1)),
    ?_, ?_, ?_, ?_⟩
  · rw [hw0, w1]; simp only [List.append_assoc]
  · intro a ha
    rcases List.mem_append.mp ha with h1 | h1
    · exact hpre a h1
    · exact w2 a h1
  · intro b hb
    rcases List.mem_append.mp hb with h1 | h1
    · exact w3 b h1
    · exact hsuf b h1
  · have hshape : ∀ (y : List Item),
        Grown (h + 1) (preWalk (fun c => inorder bt.pm h c) (ptr.kids.take pos)
            (ptr.keyList.take pos) ++ ((l1 ++ Item.entry k v :: l2) ++
          sufWalk (fun c => inorder bt.pm h c) (ptr.keyList.drop pos)
            (ptr.kids.drop (pos + 1)))) y →
        Grown (h + 1) ((preWalk (fun c => inorder bt.pm h c) (ptr.kids.take pos)
            (ptr.keyList.take pos) ++ l1) ++ Item.entry k v :: (l2 ++
          sufWalk (fun c => inorder bt.pm h c) (ptr.keyList.drop pos)
            (ptr.kids.drop (pos + 1)))) y := by
      intro y hy
      simpa only [List.append_assoc, List.cons_append] using hy
    apply hshape
    by_cases hov : st1 = state.BT_OVERFLOW
    · -- the child overflowed and is split
      obtain ⟨n, hn1, _, hn3, hn4⟩ := qS.node
      rw [hnode1, Option.some.injEq] at hn1
      subst hn1
      have hc1 : child1.count = M + 1 := by
        have := hst1.mp hov; omega
      have hrd1 := read_node_of_nodeAt M bt1 _ child1 hnode1
      obtain ⟨s1, s2, s3, s4, s5⟩ := btree.split_snd_spec M bt1 ptr pos hsz hpos hcnt
        (by rw [hrd1]; exact hn3)
      obtain ⟨t1, t2, t3, t4, t5, t6⟩ := btree.split_store M bt1 ptr pos
        (by rw [hrd1]; exact hn3) hidB.1 (by omega)
      rw [hrd1] at t2 t3 s5
      have hag : ∀ p ∈ (pagesOf bt1.pm h (ptr.children.getD pos 0)).tail,
          (bt1.split M ptr pos).1.pm p = bt1.pm p := by
        intro p hp
        have hp1 := List.mem_of_mem_tail hp
        have hb := qB p hp1
        exact t5 p (by omega) (fun e => hidc1 (e ▸ hp1)) (by omega) (by omega)
      have hfr2 : ∀ a, a ∈ ptr.kids.take pos ∨ a ∈ ptr.kids.drop (pos + 1) →
          inorder (bt1.split M ptr pos).1.pm h a = inorder bt.pm h a := by
        intro a ha
        rw [← hfr1 a ha]
        apply frame_inorder bt1.pm (bt1.split M ptr pos).1.pm h a
        intro p hp
        have hp0 : p ∈ pagesOf bt.pm h a := by
          have e := (frame M bt.pm bt1.pm h a (fun p hp =>
            q5 p (hsib a ha p hp).2.2 (hsib a ha p hp).1.1 (hsib a ha p hp).1.2)).1
          rw [e] at hp; exact hp
        obtain ⟨hb, hne, _⟩ := hsib a ha p hp0
        exact t5 p (by omega) hne (by omega) (by omega)
      have hw2 : inorder (bt1.split M ptr pos).1.pm (h + 1) ptr.page_id =
          preWalk (fun c => inorder bt.pm h c) (ptr.kids.take pos) (ptr.keyList.take pos) ++
            (inorder (bt1.split M ptr pos).1.pm h (bt1.header.count + 1) ++
              Item.sep (child1.keys.getD (M / 2) 0) ::
              (inorder (bt1.split M ptr pos).1.pm h (bt1.header.count + 1 + 1) ++
                sufWalk (fun c => inorder bt.pm h c) (ptr.keyList.drop pos)
                  (ptr.kids.drop (pos + 1)))) := by
        simp only [inorder, t1]
        rw [s4, s5, walk_at_split _ _ _ _ _ _ _ _ (by
          rw [List.length_take, List.length_take, kids_length ptr hlen, keyList_length ptr hkl]
          omega),
          preWalk_congr _ (fun c => inorder bt.pm h c) _ _
            (fun a ha => hfr2 a (Or.inl ha)),
          sufWalk_congr _ (fun c => inorder bt.pm h c) _ _
            (fun a ha => hfr2 a (Or.inr ha))]
      simp only [hov, if_true]
      rw [hw2]
      cases h with
      | zero =>
        obtain ⟨m1, s0, v0, sv, m2, g1, g2, g3⟩ := halves_inorder_leaf M hM bt1.pm
          (bt1.split M ptr pos).1.pm _ child1 _ _ hnode1 qS hc1 t2 t3
        have hx := w4.zero
        rw [g3] at hx
        rw [g1, g2, ← hx]
        refine Or.inr ⟨Nat.succ_pos _, preWalk (fun c => inorder bt.pm 0 c) (ptr.kids.take pos)
          (ptr.keyList.take pos) ++ m1, s0, v0, child1.keys.getD (M / 2) 0, sv,
          m2 ++ sufWalk (fun c => inorder bt.pm 0 c) (ptr.keyList.drop pos)
            (ptr.kids.drop (pos + 1)), ?_, ?_⟩
        · simp only [List.append_assoc, List.cons_append]
        · simp only [List.append_assoc, List.cons_append, List.singleton_append, List.nil_append]
      | succ h =>
        have g := halves_inorder_inner M hM bt1.pm (bt1.split M ptr pos).1.pm h _ child1 _ _
          hnode1 qS hc1 t2 t3 hag
        have e : inorder (bt1.split M ptr pos).1.pm (h + 1) (bt1.header.count + 1) ++
            Item.sep (child1.keys.getD (M / 2) 0) ::
            (inorder (bt1.split M ptr pos).1.pm (h + 1) (bt1.header.count + 1 + 1) ++
              sufWalk (fun c => inorder bt.pm (h + 1) c) (ptr.keyList.drop pos)
                (ptr.kids.drop (pos + 1))) =
            inorder bt1.pm (h + 1) (ptr.children.getD pos 0) ++
              sufWalk (fun c => inorder bt.pm (h + 1) c) (ptr.keyList.drop pos)
                (ptr.kids.drop (pos + 1)) := by
          rw [← g]; simp only [List.append_assoc, List.cons_append]
        rw [e]
        exact w4.context _ _
    · -- the child did not overflow
      have hw1 : inorder bt1.pm (h + 1) ptr.page_id =
          preWalk (fun c => inorder bt.pm h c) (ptr.kids.take pos) (ptr.keyList.take pos) ++
            (inorder bt1.pm h (ptr.children.getD pos 0) ++
              sufWalk (fun c => inorder bt.pm h c) (ptr.keyList.drop pos)
                (ptr.kids.drop (pos + 1))) := by
        simp only [inorder, hptr1]
        rw [walk_at _ ptr pos hpos hlen hkl,
          preWalk_congr _ (fun c => inorder bt.pm h c) _ _
            (fun a ha => hfr1 a (Or.inl ha)),
          sufWalk_congr _ (fun c => inorder bt.pm h c) _ _
            (fun a ha => hfr1 a (Or.inr ha))]
      simp only [hov, if_false]
      rw [hw1]
      exact w4.context _ _


/-- The recursive insert on a well-formed subtree whose in-order walk is
ordered puts the new entry at the place found by comparing `value` with the
keys. -/
theorem insert_node_order (M : Nat) (hM : 2 ≤ M) : ∀ (h fuel : Nat) (bt : btree) (ptr : node)
    (v k : Int), h < fuel →
    Tree M bt.pm bt.header.count h M ptr.page_id → bt.pm.nodeAt ptr.page_id = some ptr →
    AllLe (M + 1) bt.pm → Ordered (inorder bt.pm h ptr.page_id) →
    ∀ bt1 ptr1 st, bt.insert_node M fuel ptr v k = some (bt1, ptr1, st) →
      PostWalk bt bt1 h ptr.page_id v k
  | 0, fuel, bt, ptr, v, k, hf, hT, hptr, _, hO => order_leaf M fuel bt ptr v k hf hT hptr hO
  | h + 1, fuel, bt, ptr, v, k, hf, hT, hptr, hA, hO => by
    intro bt2 ptr2 st2 hres2
    obtain ⟨f, rfl⟩ : ∃ f, fuel = f + 1 := ⟨fuel - 1, by omega⟩
    have hT1 := hT
    obtain ⟨hS, hN, hB⟩ := hT1
    simp only [Sub, hptr, Option.some.injEq, exists_eq_left'] at hS
    obtain ⟨_, hsz, hcnt, hkids⟩ := hS
    have hpos : scan ptr v ptr.count 0 ≤ ptr.count := scan_le ptr v _ 0 (Nat.zero_le _)
    have hlen : ptr.count + 1 ≤ ptr.children.length := by rw [hsz.2.2]; omega
    have hkl : ptr.count ≤ ptr.keys.length := by rw [hsz.1]; omega
    have hcm := kids_getD_mem ptr _ hpos hlen
    obtain ⟨hc0, hSc⟩ := hkids _ hcm
    obtain ⟨child, hchild, hcid, hcsz, hccnt⟩ := hSc.node
    have hrd := read_node_of_nodeAt M bt _ child hchild
    have hTc : Tree M bt.pm bt.header.count h M child.page_id := by
      rw [hcid]
      refine ⟨hSc, ?_, ?_⟩
      · have := hN
        simp only [pagesOf, hptr] at this
        rw [kids_split_at ptr _ hpos hlen] at this
        simp only [List.flatMap_append, List.flatMap_cons, List.nodup_cons,
          List.nodup_append] at this
        exact this.2.2.1.1
      · intro p hp
        exact hB p (pagesOf_kid bt.pm h _ ptr _ hptr hcm p hp)
    obtain ⟨sc1, sc2⟩ := scan_spec ptr v ptr.count 0 (by omega) (fun j hj => by omega)
    have hOc : Ordered (inorder bt.pm h child.page_id) := by
      rw [hcid]
      have hw0 : inorder bt.pm (h + 1) ptr.page_id =
          walk (fun c => inorder bt.pm h c) ptr.kids ptr.keyList := by
        simp only [inorder, hptr]
      rw [hw0, walk_at _ ptr _ hpos hlen hkl] at hO
      exact hO.right.left
    obtain ⟨bt1, child1, st1, hres, hpid1, hnode1, hst1, hP1⟩ :=
      insert_node_spec M hM h f bt child v k (by omega) hTc (by rw [hcid]; exact hchild) hA
    have hW1 := insert_node_order M hM h f bt child v k (by omega) hTc
      (by rw [hcid]; exact hchild) hA hOc bt1 child1 st1 hres
    rw [hcid] at hnode1 hP1 hW1
    rw [← hrd] at hres
    have hstep := btree.insert_node_step M f bt ptr v k bt1 child1 st1 hc0 hres
    rw [hstep, Option.some.injEq, Prod.mk.injEq] at hres2
    rw [← hres2.1]
    exact order_inner M hM h bt bt1 ptr child1 _ v k st1 hT hptr hpos sc1 sc2 hnode1 hst1 hP1
      hO hW1

/-- The height of a well-formed subtree is determined by the store. -/
theorem Sub.height_unique (M : Nat) (pm : pagemanager) : ∀ (h h1 b b1 : Nat) (id : Int),
    Sub M pm h b id → Sub M pm h1 b1 id → b ≤ M + 1 → h = h1
  | 0, 0, _, _, _, _, _, _ => rfl
  | 0, h1 + 1, b, b1, id, hs, hs1, hb => by
    exfalso
    obtain ⟨n, hn, _, hsz, hcnt, hkids⟩ := hs
    obtain ⟨n1, hn1, _, _, _, hkids1⟩ := hs1
    rw [hn, Option.some.injEq] at hn1
    subst hn1
    have hm := kids_getD_mem n 0 (Nat.zero_le _) (by rw [hsz.2.2]; omega)
    exact (hkids1 _ hm).1 (hkids _ hm)
  | h + 1, 0, b, b1, id, hs, hs1, hb => by
    exfalso
    obtain ⟨n, hn, _, hsz, hcnt, hkids⟩ := hs
    obtain ⟨n1, hn1, _, _, _, hkids1⟩ := hs1
    rw [hn, Option.some.injEq] at hn1
    subst hn1
    have hm := kids_getD_mem n 0 (Nat.zero_le _) (by rw [hsz.2.2]; omega)
    exact (hkids _ hm).1 (hkids1 _ hm)
  | h + 1, h1 + 1, b, b1, id, hs, hs1, hb => by
    obtain ⟨n, hn, _, hsz, hcnt, hkids⟩ := hs
    obtain ⟨n1, hn1, _, _, _, hkids1⟩ := hs1
    rw [hn, Option.some.injEq] at hn1
    subst hn1
    have hm := kids_getD_mem n 0 (Nat.zero_le _) (by rw [hsz.2.2]; omega)
    rw [Sub.height_unique M pm h h1 M M _ (hkids _ hm).2 (hkids1 _ hm).2 (by omega)]


/-! ## The in-order walk after a top-level insert -/

theorem Grown.one {h : Nat} {x y : List Item} (hg : Grown h x y) : Grown 1 x y := by
  rcases hg with e | ⟨_, r⟩
  · exact Or.inl e
  · exact Or.inr ⟨Nat.one_pos, r⟩

/-- A top-level insert on a well-formed tree whose in-order walk is ordered
puts the new entry at the place found by comparing `value` with the keys; a
split of a leaf adds the first key of the right leaf before that entry. -/
theorem insert_order (M : Nat) (hM : 2 ≤ M) (bt : btree) (h fuel : Nat) (v k : Int)
    (hI : Inv M bt h) (hf : h < fuel) (hO : Ordered (inorder bt.pm h 1)) :
    ∀ bt2 h2, bt.insert M fuel v k = some bt2 → Inv M bt2 h2 →
      ∃ l1 l2, inorder bt.pm h 1 = l1 ++ l2 ∧
        (∀ a ∈ l1, a.rank < 2 * v) ∧ (∀ b ∈ l2, 2 * v ≤ b.rank) ∧
        Grown 1 (l1 ++ Item.entry k v :: l2) (inorder bt2.pm h2 1) := by
  intro bt2 h2 hins hI2
  obtain ⟨i1, i2, i3, i4⟩ := hI
  obtain ⟨root, hroot, hrid, hrsz, hrcnt⟩ := i3.1.node
  have hrd : bt.read_node M bt.header.root_id = root := by
    rw [i1]; exact read_node_of_nodeAt M bt 1 root hroot
  obtain ⟨bt1, ptr1, st, hres, hp1, hn1, hst, hP⟩ := insert_node_spec M hM h fuel bt root v k hf
    (by rw [hrid]; exact i3) (by rw [hrid]; exact hroot) i4
  have hW := insert_node_order M hM h fuel bt root v k hf
    (by rw [hrid]; exact i3) (by rw [hrid]; exact hroot) i4 (by rw [hrid]; exact hO)
    bt1 ptr1 st hres
  rw [hrid] at hn1 hP hp1 hW
  obtain ⟨q1, q2, q3, ⟨qS, qN, qB⟩, q5, q6, _, q8⟩ := hP
  obtain ⟨l1, l2, w1, w2, w3, w4⟩ := hW
  have hstep : bt.insert M fuel v k =
      if st = state.BT_OVERFLOW then some (bt1.split_root M) else some bt1 := by
    unfold btree.insert
    simp only [hrd, hres]
  rw [hstep] at hins
  obtain ⟨n, hn, _, hn3, hn4⟩ := qS.node
  rw [hn1, Option.some.injEq] at hn
  subst hn
  refine ⟨l1, l2, w1, w2, w3, ?_⟩
  obtain ⟨_, _, ⟨j3, _, _⟩, _⟩ := hI2
  by_cases hov : st = state.BT_OVERFLOW
  · simp only [hov, if_true, Option.some.injEq] at hins
    subst hins
    have hc1 : ptr1.count = M + 1 := by
      have := hst.mp hov; omega
    have hr1 : bt1.header.root_id = 1 := q1.trans i1
    have hrd1 : bt1.read_node M bt1.header.root_id = ptr1 := by
      rw [hr1]; exact read_node_of_nodeAt M bt1 1 ptr1 hn1
    have hb1 := qB 1 (pagesOf_head _ _ _)
    obtain ⟨⟨rt, t1, t1a, t1b, t1c, t1d, t1e⟩, t2, t3, t4, t5, t6⟩ :=
      btree.split_root_store M bt1 (by rw [hrd1]; exact hn3) (by rw [hrd1, hr1]; exact hp1)
        (by rw [hr1]) (by rw [hr1]; exact hb1.2)
    rw [hrd1] at t2 t3 t1e
    rw [hr1] at t1 t1a t5
    have hpt : ∀ p, pagesOf bt1.pm h p = p :: (pagesOf bt1.pm h p).tail := by
      intro p; cases h <;> simp [pagesOf]
    have hN1 := qN
    rw [hpt] at hN1
    have hag : ∀ p ∈ (pagesOf bt1.pm h 1).tail, (bt1.split_root M).pm p = bt1.pm p := by
      intro p hp
      have hp1 := List.mem_of_mem_tail hp
      have hb := qB p hp1
      exact t5 p (by omega) (fun e => (List.nodup_cons.mp hN1).1 (e ▸ hp)) (by omega) (by omega)
    obtain ⟨u1, _, _, _⟩ := halves_tree M hM bt1.pm
      (bt1.split_root M).pm h 1 ptr1 _ _ hn1 qS hc1 t2 t3 hag
    have hmemL : bt1.header.count + 1 ∈ rt.kids := by rw [t1d]; exact List.mem_cons_self _ _
    have hh2 : h2 = h + 1 := by
      cases h2 with
      | zero =>
        exfalso
        simp only [Sub, t1, Option.some.injEq, exists_eq_left'] at j3
        have := j3.2.2.2 _ hmemL
        omega
      | succ j =>
        simp only [Sub, t1, Option.some.injEq, exists_eq_left'] at j3
        have := Sub.height_unique M _ j h M M _ (j3.2.2.2 _ hmemL).2 u1 (by omega)
        omega
    subst hh2
    have hw2 : inorder (bt1.split_root M).pm (h + 1) 1 =
        inorder (bt1.split_root M).pm h (bt1.header.count + 1) ++
          Item.sep (ptr1.keys.getD (M / 2) 0) ::
            inorder (bt1.split_root M).pm h (bt1.header.count + 1 + 1) := by
      simp only [inorder, t1, t1d, t1e, walk_cons, sufWalk_cons, sufWalk_nil_left,
        List.append_nil]
    rw [hw2]
    cases h with
    | zero =>
      obtain ⟨m1, s0, v0, sv, m2, g1, g2, g3⟩ := halves_inorder_leaf M hM bt1.pm
        (bt1.split_root M).pm _ ptr1 _ _ hn1 qS hc1 t2 t3
      have hx := w4.zero
      rw [g3] at hx
      rw [g1, g2, ← hx]
      refine Or.inr ⟨Nat.one_pos, m1, s0, v0, ptr1.keys.getD (M / 2) 0, sv, m2, rfl, ?_⟩
      simp only [List.append_assoc, List.singleton_append]
    | succ h =>
      rw [halves_inorder_inner M hM bt1.pm (bt1.split_root M).pm h _ ptr1 _ _ hn1 qS hc1 t2 t3
        hag]
      exact w4.one
  · simp only [hov, if_false, Option.some.injEq] at hins
    subst hins
    have hh2 : h2 = h := Sub.height_unique M _ h2 h M (M + 1) 1 j3 qS (by omega)
    subst hh2
    exact w4.one


/-! ## Ordered walks along a sequence of inserts -/

theorem mem_entriesOf (l : List Item) (k v : Int) :
    (k, v) ∈ entriesOf l ↔ Item.entry k v ∈ l := by
  unfold entriesOf
  rw [List.mem_filterMap]
  constructor
  · rintro ⟨a, ha, e⟩
    cases a with
    | entry k1 v1 =>
      simp only [Item.toEntry, Option.some.injEq, Prod.mk.injEq] at e
      rw [← e.1, ← e.2]; exact ha
    | sep k1 => simp [Item.toEntry] at e
  · intro h
    exact ⟨_, h, rfl⟩

theorem entriesOf_append (l1 l2 : List Item) :
    entriesOf (l1 ++ l2) = entriesOf l1 ++ entriesOf l2 := by
  unfold entriesOf
  exact List.filterMap_append _ _ _

theorem entriesOf_entry (k v : Int) (l : List Item) :
    entriesOf (Item.entry k v :: l) = (k, v) :: entriesOf l := by
  simp [entriesOf, Item.toEntry]

theorem entriesOf_sep (k : Int) (l : List Item) :
    entriesOf (Item.sep k :: l) = entriesOf l := by
  simp [entriesOf, Item.toEntry]

theorem Grown.entries_eq {h : Nat} {x y : List Item} (hg : Grown h x y) :
    entriesOf y = entriesOf x := by
  rcases hg with e | ⟨_, m1, s0, v0, s, sv, m2, e1, e2⟩
  · rw [e]
  · rw [e1, e2]
    simp only [entriesOf_append, entriesOf_entry, entriesOf_sep]

theorem Grown.ordered {h : Nat} {x y : List Item} (hg : Grown h x y) (hx : Ordered x) :
    Ordered y := by
  rcases hg with e | ⟨_, m1, s0, v0, s, sv, m2, e1, e2⟩
  · rw [e]; exact hx
  · rw [e2]; rw [e1] at hx; exact hx.insert_sep

theorem Grown.sepClosed {h : Nat} {x y : List Item} (hg : Grown h x y) (hx : SepClosed x) :
    SepClosed y := by
  rcases hg with e | ⟨_, m1, s0, v0, s, sv, m2, e1, e2⟩
  · rw [e]; exact hx
  · intro t ht
    rw [e2] at ht ⊢
    simp only [List.mem_append, List.mem_cons, Item.sep.injEq, reduceCtorEq, false_or] at ht
    have hin : ∀ w, Item.entry t w ∈ x →
        Item.entry t w ∈ m1 ++ Item.entry s0 v0 :: Item.sep s :: Item.entry s sv :: m2 := by
      intro w hw
      rw [e1] at hw
      simp only [List.mem_append, List.mem_cons] at hw ⊢
      rcases hw with hw | hw | hw | hw
      · exact Or.inl hw
      · exact Or.inr (Or.inl hw)
      · exact Or.inr (Or.inr (Or.inr (Or.inl hw)))
      · exact Or.inr (Or.inr (Or.inr (Or.inr hw)))
    rcases ht with ht | ht | ht
    · obtain ⟨w, hw⟩ := hx t (by rw [e1]; exact List.mem_append_left _ ht)
      exact ⟨w, hin w hw⟩
    · rw [ht]
      exact ⟨sv, by simp⟩
    · obtain ⟨w, hw⟩ := hx t (by
        rw [e1]
        exact List.mem_append_right _ (List.mem_cons_of_mem _ (List.mem_cons_of_mem _ ht)))
      exact ⟨w, hin w hw⟩

theorem SepClosed.add_entry {l1 l2 : List Item} (hc : SepClosed (l1 ++ l2)) (k v : Int) :
    SepClosed (l1 ++ Item.entry k v :: l2) := by
  intro t ht
  simp only [List.mem_append, List.mem_cons, reduceCtorEq, false_or] at ht
  obtain ⟨w, hw⟩ := hc t (by
    rcases ht with ht | ht
    · exact List.mem_append_left _ ht
    · exact List.mem_append_right _ ht)
  refine ⟨w, ?_⟩
  rcases List.mem_append.mp hw with h1 | h1
  · exact List.mem_append_left _ h1
  · exact List.mem_append_right _ (List.mem_cons_of_mem _ h1)

theorem inorder_fresh (M : Nat) : inorder (btree.fresh M).pm 0 1 = [] := by
  simp [inorder, btree.fresh, btree.new, node.new_page_id, pagemanager.nodeAt,
    pagemanager.save, node.new, node.entries, node.keyList, node.dataList]

/-- Every sequence of inserts with pairwise distinct keys, each with a value
equal to its key, keeps the in-order walk ordered; the leaf entries met by the
walk are the inserted pairs. -/
theorem insert_all_order (M : Nat) (hM : 2 ≤ M) (fuel : Nat) : ∀ (ops : List (Int × Int))
    (bt : btree) (h : Nat), Inv M bt h →
    Ordered (inorder bt.pm h 1) → SepClosed (inorder bt.pm h 1) →
    (∀ op ∈ ops, op.1 = op.2) → (ops.map (fun op => op.2)).Nodup →
    (∀ op ∈ ops, ∀ e ∈ entriesOf (inorder bt.pm h 1), e.1 ≠ op.2) →
    h + ops.length ≤ fuel →
    ∃ bt1 h1, btree.insert_all M fuel bt ops = some bt1 ∧ Inv M bt1 h1 ∧
      h1 ≤ h + ops.length ∧
      Ordered (inorder bt1.pm h1 1) ∧ SepClosed (inorder bt1.pm h1 1) ∧
      (entriesOf (inorder bt1.pm h1 1)).Perm
        (ops.map (fun op => (op.2, op.1)) ++ entriesOf (inorder bt.pm h 1))
  | [], bt, h, hI, hO, hC, _, _, _, _ => ⟨bt, h, rfl, hI, le_refl _, hO, hC, by simp⟩
  | op :: ops, bt, h, hI, hO, hC, hvk, hnd, hfr, hf => by
    simp only [List.length_cons] at hf
    obtain ⟨bt1, h1, e1, _, e3, e4, _⟩ := insert_spec M hM bt h fuel op.1 op.2 hI (by omega)
    obtain ⟨l1, l2, w1, w2, w3, w4⟩ :=
      insert_order M hM bt h fuel op.1 op.2 hI (by omega) hO bt1 h1 e1 e4
    have hv : op.1 = op.2 := hvk op (List.mem_cons_self _ _)
    rw [hv] at w2 w3 w4
    rw [w1] at hO hC hfr
    have hnew : ∀ w, Item.entry op.2 w ∉ l1 ++ l2 := by
      intro w hw
      exact hfr op (List.mem_cons_self _ _) (op.2, w) ((mem_entriesOf _ _ _).mpr hw) rfl
    have hOX := hO.insert_entry hC hnew w2 w3 op.2
    have hO1 := w4.ordered hOX
    have hC1 := w4.sepClosed (hC.add_entry op.2 op.2)
    have hE1 : entriesOf (inorder bt1.pm h1 1) =
        entriesOf l1 ++ (op.2, op.2) :: entriesOf l2 := by
      rw [w4.entries_eq, entriesOf_append, entriesOf_entry]
    simp only [List.map_cons, List.nodup_cons, List.mem_map, not_exists, not_and] at hnd
    have hfr1 : ∀ o ∈ ops, ∀ e ∈ entriesOf (inorder bt1.pm h1 1), e.1 ≠ o.2 := by
      intro o ho e he
      rw [hE1] at he
      simp only [List.mem_append, List.mem_cons] at he
      rcases he with he | he | he
      · exact hfr o (List.mem_cons_of_mem _ ho) e (by
          rw [entriesOf_append]; exact List.mem_append_left _ he)
      · rw [he]
        intro heq
        exact hnd.1 o ho heq.symm
      · exact hfr o (List.mem_cons_of_mem _ ho) e (by
          rw [entriesOf_append]; exact List.mem_append_right _ he)
    obtain ⟨bt2, h2, g1, g2, g3, g4, g5, g6⟩ := insert_all_order M hM fuel ops bt1 h1 e4 hO1 hC1
      (fun o ho => hvk o (List.mem_cons_of_mem _ ho)) hnd.2 hfr1 (by omega)
    refine ⟨bt2, h2, ?_, g2, by simp only [List.length_cons]; omega, g4, g5, ?_⟩
    · simp only [btree.insert_all, e1, g1]
    · rw [hE1] at g6
      rw [w1, entriesOf_append, List.map_cons, hv]
      exact g6.trans ((List.Perm.append_left _ List.perm_middle).trans List.perm_middle)


/-! ## Reading the order off the in-order walk -/

theorem Item.rank_key (a : Item) : 2 * a.key ≤ a.rank ∧ a.rank ≤ 2 * a.key + 1 := by
  cases a with
  | entry k v => simp only [Item.key, Item.rank]; omega
  | sep k => simp only [Item.key, Item.rank]; omega

theorem sufWalk_child_sublist (f : Int → List Item) (c : Int) : ∀ (ks cs : List Int),
    c ∈ cs → cs.length ≤ ks.length → (f c).Sublist (sufWalk f ks cs)
  | _, [], hc, _ => by simp at hc
  | [], _ :: _, _, hl => by simp at hl
  | k :: ks, a :: cs, hc, hl => by
    rw [sufWalk_cons]
    rcases List.mem_cons.mp hc with e | e
    · rw [e]
      exact (List.sublist_append_left _ _).cons _
    · exact (List.sublist_append_of_sublist_right
        (sufWalk_child_sublist f c ks cs e (by simpa using hl))).cons _

theorem walk_child_sublist (f : Int → List Item) (c : Int) (cs ks : List Int) (hc : c ∈ cs)
    (hl : cs.length ≤ ks.length + 1) : (f c).Sublist (walk f cs ks) := by
  cases cs with
  | nil => simp at hc
  | cons a cs =>
    rw [walk_cons]
    rcases List.mem_cons.mp hc with e | e
    · rw [e]; exact List.sublist_append_left _ _
    · exact List.sublist_append_of_sublist_right
        (sufWalk_child_sublist f c ks cs e (by simpa using hl))

theorem mem_sufWalk_sep (f : Int → List Item) (k : Int) : ∀ (ks cs : List Int),
    k ∈ ks → ks.length ≤ cs.length → Item.sep k ∈ sufWalk f ks cs
  | [], _, hk, _ => by simp at hk
  | _ :: _, [], _, hl => by simp at hl
  | a :: ks, c :: cs, hk, hl => by
    rw [sufWalk_cons]
    rcases List.mem_cons.mp hk with e | e
    · rw [e]; exact List.mem_cons_self _ _
    · exact List.mem_cons_of_mem _ (List.mem_append_right _
        (mem_sufWalk_sep f k ks cs e (by simpa using hl)))

theorem mem_walk_sep (f : Int → List Item) (k : Int) (cs ks : List Int) (hk : k ∈ ks)
    (hl : ks.length + 1 ≤ cs.length) : Item.sep k ∈ walk f cs ks := by
  cases cs with
  | nil => simp at hl
  | cons a cs =>
    rw [walk_cons]
    exact List.mem_append_right _ (mem_sufWalk_sep f k ks cs hk (by simpa using hl))

theorem mem_preWalk_sep (f : Int → List Item) (k : Int) : ∀ (cs ks : List Int),
    k ∈ ks → ks.length ≤ cs.length → Item.sep k ∈ preWalk f cs ks
  | _, [], hk, _ => by simp at hk
  | [], _ :: _, _, hl => by simp at hl
  | c :: cs, a :: ks, hk, hl => by
    rw [preWalk_cons]
    rcases List.mem_cons.mp hk with e | e
    · rw [e]; exact List.mem_append_right _ (List.mem_cons_self _ _)
    · exact List.mem_append_right _ (List.mem_cons_of_mem _
        (mem_preWalk_sep f k cs ks e (by simpa using hl)))

theorem entriesOf_map_entry (es : List (Int × Int)) :
    entriesOf (es.map (fun e => Item.entry e.1 e.2)) = es := by
  induction es with
  | nil => rfl
  | cons e es ih => rw [List.map_cons, entriesOf_entry, ih]

theorem entriesOf_sufWalk (f : Int → List Item) : ∀ (ks cs : List Int),
    cs.length ≤ ks.length →
    entriesOf (sufWalk f ks cs) = cs.flatMap (fun c => entriesOf (f c))
  | _, [], _ => by simp [sufWalk_nil_right, entriesOf]
  | [], _ :: _, hl => by simp at hl
  | k :: ks, c :: cs, hl => by
    rw [sufWalk_cons, entriesOf_sep, entriesOf_append,
      entriesOf_sufWalk f ks cs (by simpa using hl), List.flatMap_cons]

theorem entriesOf_walk (f : Int → List Item) (cs ks : List Int)
    (hl : cs.length ≤ ks.length + 1) :
    entriesOf (walk f cs ks) = cs.flatMap (fun c => entriesOf (f c)) := by
  cases cs with
  | nil => simp [walk, entriesOf]
  | cons c cs =>
    rw [walk_cons, entriesOf_append, entriesOf_sufWalk f ks cs (by simpa using hl),
      List.flatMap_cons]

/-- The traversal `leaf_entries` yields the leaf entries of the in-order
walk. -/
theorem leaf_entries_eq (M : Nat) (pm : pagemanager) : ∀ (h b t : Nat) (id : Int),
    Sub M pm h b id → b ≤ M + 1 → h < t → leaf_entries pm t id = entriesOf (inorder pm h id)
  | 0, b, t, id, hs, hb, ht => by
    obtain ⟨t1, rfl⟩ : ∃ t1, t = t1 + 1 := ⟨t - 1, by omega⟩
    obtain ⟨n, hn, _, hsz, hcnt, hkids⟩ := hs
    have hl : n.children.getD 0 0 = 0 :=
      hkids _ (kids_getD_mem n 0 (Nat.zero_le _) (by rw [hsz.2.2]; omega))
    simp only [leaf_entries, inorder, hn, hl, if_true, entriesOf_map_entry]
  | h + 1, b, t, id, hs, hb, ht => by
    obtain ⟨t1, rfl⟩ : ∃ t1, t = t1 + 1 := ⟨t - 1, by omega⟩
    obtain ⟨n, hn, _, hsz, hcnt, hkids⟩ := hs
    have hl : n.children.getD 0 0 ≠ 0 :=
      (hkids _ (kids_getD_mem n 0 (Nat.zero_le _) (by rw [hsz.2.2]; omega))).1
    simp only [leaf_entries, inorder, hn, hl, if_false]
    rw [entriesOf_walk _ _ _ (by
      rw [kids_length n (by rw [hsz.2.2]; omega), keyList_length n (by rw [hsz.1]; omega)])]
    apply List.flatMap_congr
    intro c hc
    exact leaf_entries_eq M pm h M t1 c (hkids c hc).2 (by omega) (by omega)

/-- The leaf entries of an ordered walk ascend strictly by key. -/
theorem Ordered.entries_sorted {l : List Item} (h : Ordered l) :
    (entriesOf l).Pairwise (fun a b => a.1 < b.1) := by
  unfold entriesOf
  apply List.Pairwise.filterMap Item.toEntry _ h
  intro a a1 hr b hb b1 hb1
  cases a with
  | sep k => simp [Item.toEntry] at hb
  | entry k v =>
    cases a1 with
    | sep k1 => simp [Item.toEntry] at hb1
    | entry k1 v1 =>
      simp only [Item.toEntry, Option.mem_def, Option.some.injEq] at hb hb1
      simp only [Item.rank] at hr
      rw [← hb, ← hb1]
      show k < k1
      omega

/-- Every key found by the traversal `subtree_keys` is the key of an item of
the in-order walk. -/
theorem subtree_keys_walk (M : Nat) (pm : pagemanager) : ∀ (h b t : Nat) (id : Int),
    Sub M pm h b id → b ≤ M + 1 → h < t →
    ∀ x ∈ subtree_keys pm t id, ∃ a ∈ inorder pm h id, a.key = x
  | 0, b, t, id, hs, hb, ht => by
    obtain ⟨t1, rfl⟩ : ∃ t1, t = t1 + 1 := ⟨t - 1, by omega⟩
    obtain ⟨n, hn, _, hsz, hcnt, hkids⟩ := hs
    have hl : n.children.getD 0 0 = 0 :=
      hkids _ (kids_getD_mem n 0 (Nat.zero_le _) (by rw [hsz.2.2]; omega))
    intro x hx
    simp only [subtree_keys, hn, hl, if_true] at hx
    rw [← entries_fst M n hsz (by omega)] at hx
    obtain ⟨e, he, rfl⟩ := List.mem_map.mp hx
    refine ⟨Item.entry e.1 e.2, ?_, rfl⟩
    simp only [inorder, hn]
    exact List.mem_map.mpr ⟨e, he, rfl⟩
  | h + 1, b, t, id, hs, hb, ht => by
    obtain ⟨t1, rfl⟩ : ∃ t1, t = t1 + 1 := ⟨t - 1, by omega⟩
    obtain ⟨n, hn, _, hsz, hcnt, hkids⟩ := hs
    have hl : n.children.getD 0 0 ≠ 0 :=
      (hkids _ (kids_getD_mem n 0 (Nat.zero_le _) (by rw [hsz.2.2]; omega))).1
    have hkl := kids_length n (by rw [hsz.2.2]; omega)
    have hyl := keyList_length n (by rw [hsz.1]; omega)
    intro x hx
    simp only [subtree_keys, hn, hl, if_false, List.mem_append, List.mem_flatMap] at hx
    simp only [inorder, hn]
    rcases hx with hx | ⟨c, hc, hx⟩
    · exact ⟨Item.sep x, mem_walk_sep _ x _ _ hx (by rw [hkl, hyl]), rfl⟩
    · obtain ⟨a, ha, hax⟩ :=
        subtree_keys_walk M pm h M t1 c (hkids c hc).2 (by omega) (by omega) x hx
      exact ⟨a, (walk_child_sublist (fun c => inorder pm h c) c _ _ hc
        (by rw [hkl, hyl])).subset ha, hax⟩

/-- The in-order walk of the subtree under a reachable page is ordered when
the walk of the whole tree is. -/
theorem reach_ordered (M : Nat) (pm : pagemanager) (h b : Nat) (r : Int)
    (hs : Sub M pm h b r) (hb : b ≤ M + 1) (hO : Ordered (inorder pm h r))
    (d : Nat) (p : Int) (hR : Reach pm r d p) : Ordered (inorder pm (h - d) p) := by
  induction hR with
  | root => exact hO
  | @child d p c n hR1 hn hcm hc0 ih =>
    obtain ⟨hd, hsp⟩ := reach_sub M pm h b r hs d p hR1
    cases hk : h - d with
    | zero =>
      rw [hk] at hsp
      simp only [Sub, hn, Option.some.injEq, exists_eq_left'] at hsp
      exact absurd (hsp.2.2.2 c hcm) hc0
    | succ j =>
      rw [hk] at hsp ih
      simp only [Sub, hn, Option.some.injEq, exists_eq_left'] at hsp
      obtain ⟨_, hsz, hcnt, _⟩ := hsp
      have hcb : n.count ≤ M + 1 := by split at hcnt <;> omega
      have e : h - (d + 1) = j := by omega
      rw [e]
      simp only [inorder, hn] at ih
      exact List.Pairwise.sublist (walk_child_sublist (fun c => inorder pm j c) c _ _ hcm (by
        rw [kids_length n (by rw [hsz.2.2]; omega), keyList_length n (by rw [hsz.1]; omega)]))
        ih

/-- In an ordered walk the items under the child slot `i` of a node stand
after the key `keys[i-1]` and before the key `keys[i]`. -/
theorem child_bounds (M : Nat) (pm : pagemanager) (j : Nat) (p : Int) (n : node)
    (hn : pm.nodeAt p = some n) (hsz : n.sized M) (hcnt : n.count ≤ M + 1)
    (hO : Ordered (inorder pm (j + 1) p)) (i : Nat) (hi : i ≤ n.count) (a : Item)
    (ha : a ∈ inorder pm j (n.children.getD i 0)) :
    (0 < i → 2 * n.keys.getD (i - 1) 0 < a.rank) ∧
    (i < n.count → a.rank < 2 * n.keys.getD i 0) := by
  have hlen : n.count + 1 ≤ n.children.length := by rw [hsz.2.2]; omega
  have hkl : n.count ≤ n.keys.length := by rw [hsz.1]; omega
  have hyl := keyList_length n hkl
  have hcl := kids_length n hlen
  simp only [inorder, hn] at hO
  rw [walk_at _ n i hi hlen hkl] at hO
  obtain ⟨_, p2, p3⟩ := List.pairwise_append.mp hO
  constructor
  · intro h0
    have hmem : n.keys.getD (i - 1) 0 ∈ n.keyList.take i := by
      rw [← keyList_getD n (i - 1) (by omega)]
      rw [List.mem_take_iff_getElem]
      refine ⟨i - 1, by rw [hyl]; omega, ?_⟩
      simp only [List.getD_eq_getElem?_getD]
      rw [List.getElem?_eq_getElem (by rw [hyl]; omega), Option.getD_some]
    have hsep := mem_preWalk_sep (fun c => inorder pm j c) _ (n.kids.take i) (n.keyList.take i)
      hmem (by rw [List.length_take, List.length_take, hyl, hcl]; omega)
    exact p3 _ hsep a (List.mem_append_left _ ha)
  · intro hlt
    have hdk : n.keyList.drop i = n.keys.getD i 0 :: n.keyList.drop (i + 1) := by
      rw [drop_head_getD n.keyList i (by rw [hyl]; exact hlt), keyList_getD n i hlt]
    cases hdc : n.kids.drop (i + 1) with
    | nil =>
      have := congrArg List.length hdc
      rw [List.length_drop, hcl] at this
      simp at this
      omega
    | cons c cs =>
      rw [hdk, hdc, sufWalk_cons] at p2
      exact (List.pairwise_append.mp p2).2.2 a ha _ (List.mem_cons_self _ _)


/-! ## Walks in which every separator key is followed by its leaf entry -/

theorem Adj.drop_left : ∀ (p : List Item) {y : List Item}, Adj (p ++ y) → Adj y
  | [], _, h => h
  | Item.entry _ _ :: p, _, h => Adj.drop_left p (by simpa [Adj] using h)
  | Item.sep _ :: p, _, h => Adj.drop_left p (by
      simp only [List.cons_append, Adj] at h
      exact h.2)

theorem Adj.take_left : ∀ (x : List Item) {q : List Item}, Adj (x ++ q) →
    (∀ k v, q.head? ≠ some (Item.entry k v)) → Adj x
  | [], _, _, _ => trivial
  | Item.entry _ _ :: x, q, h, hq => by
    simp only [List.cons_append, Adj] at h ⊢
    exact Adj.take_left x h hq
  | Item.sep s :: x, q, h, hq => by
    simp only [List.cons_append, Adj] at h ⊢
    refine ⟨?_, Adj.take_left x h.2 hq⟩
    obtain ⟨v, hv⟩ := h.1
    cases x with
    | nil => exact absurd hv (hq s v)
    | cons y x => exact ⟨v, hv⟩

theorem Adj.after_sep {p : List Item} {s : Int} {rest : List Item}
    (h : Adj (p ++ Item.sep s :: rest)) : ∃ v, rest.head? = some (Item.entry s v) := by
  have := Adj.drop_left p h
  simp only [Adj] at this
  exact this.1

/-- An entry put anywhere but directly after a separator key keeps the walk
well-formed. -/
theorem Adj.put_entry : ∀ (l1 : List Item) {l2 : List Item} (k v : Int),
    Adj (l1 ++ l2) → (∀ a, l1.getLast? = some a → ∃ k1 v1, a = Item.entry k1 v1) →
    Adj (l1 ++ Item.entry k v :: l2)
  | [], _, _, _, h, _ => by simpa [Adj] using h
  | Item.entry _ _ :: l1, l2, k, v, h, hl => by
    simp only [List.cons_append, Adj] at h ⊢
    refine Adj.put_entry l1 k v h ?_
    intro a ha
    cases l1 with
    | nil => simp at ha
    | cons y l1 => exact hl a (by rw [List.getLast?_cons_cons]; exact ha)
  | Item.sep s :: l1, l2, k, v, h, hl => by
    simp only [List.cons_append, Adj] at h ⊢
    cases l1 with
    | nil =>
      obtain ⟨k1, v1, e⟩ := hl (Item.sep s) rfl
      exact absurd e (by simp)
    | cons y l1 =>
      refine ⟨h.1, Adj.put_entry (y :: l1) k v h.2 ?_⟩
      intro a ha
      exact hl a (by rw [List.getLast?_cons_cons]; exact ha)

/-- The key of the right leaf put in front of its entry keeps the walk
well-formed. -/
theorem Adj.put_sep : ∀ (m1 : List Item) {m2 : List Item} (s0 v0 s sv : Int),
    Adj (m1 ++ Item.entry s0 v0 :: Item.entry s sv :: m2) →
    Adj (m1 ++ Item.entry s0 v0 :: Item.sep s :: Item.entry s sv :: m2)
  | [], _, _, _, _, _, h => by
    simp only [List.nil_append, Adj] at h ⊢
    exact ⟨⟨_, rfl⟩, h⟩
  | Item.entry _ _ :: m1, _, s0, v0, s, sv, h => by
    simp only [List.cons_append, Adj] at h ⊢
    exact Adj.put_sep m1 s0 v0 s sv h
  | Item.sep t :: m1, m2, s0, v0, s, sv, h => by
    simp only [List.cons_append, Adj] at h ⊢
    refine ⟨?_, Adj.put_sep m1 s0 v0 s sv h.2⟩
    obtain ⟨v, hv⟩ := h.1
    cases m1 with
    | nil => exact ⟨v, hv⟩
    | cons y m1 => exact ⟨v, hv⟩

theorem Grown.adj {h : Nat} {x y : List Item} (hg : Grown h x y) (hx : Adj x) : Adj y := by
  rcases hg with e | ⟨_, m1, s0, v0, s, sv, m2, e1, e2⟩
  · rw [e]; exact hx
  · rw [e2]; rw [e1] at hx; exact Adj.put_sep m1 s0 v0 s sv hx

theorem sepsOf_entry (k v : Int) (l : List Item) : sepsOf (Item.entry k v :: l) = sepsOf l := by
  simp [sepsOf, Item.toSep]

theorem sepsOf_sep (k : Int) (l : List Item) : sepsOf (Item.sep k :: l) = k :: sepsOf l := by
  simp [sepsOf, Item.toSep]

theorem sepsOf_append (l1 l2 : List Item) : sepsOf (l1 ++ l2) = sepsOf l1 ++ sepsOf l2 := by
  unfold sepsOf
  exact List.filterMap_append _ _ _

theorem mem_sepsOf (l : List Item) (s : Int) : s ∈ sepsOf l ↔ Item.sep s ∈ l := by
  unfold sepsOf
  rw [List.mem_filterMap]
  constructor
  · rintro ⟨a, ha, e⟩
    cases a with
    | entry k1 v1 => simp [Item.toSep] at e
    | sep k1 =>
      simp only [Item.toSep, Option.some.injEq] at e
      rw [← e]; exact ha
  · intro h
    exact ⟨_, h, rfl⟩

/-- Every separator key of a well-formed walk is the key of a leaf entry of
the walk. -/
theorem Adj.sep_is_entry : ∀ (l : List Item), Adj l → ∀ s, Item.sep s ∈ l →
    s ∈ (entriesOf l).map Prod.fst
  | [], _, s, hs => by simp at hs
  | Item.entry k v :: l, h, s, hs => by
    simp only [Adj] at h
    rw [entriesOf_entry, List.map_cons]
    rcases List.mem_cons.mp hs with e | e
    · exact absurd e (by simp)
    · exact List.mem_cons_of_mem _ (Adj.sep_is_entry l h s e)
  | Item.sep t :: l, h, s, hs => by
    simp only [Adj] at h
    rw [entriesOf_sep]
    rcases List.mem_cons.mp hs with e | e
    · obtain ⟨v, hv⟩ := h.1
      cases l with
      | nil => simp at hv
      | cons y l =>
        simp only [List.head?_cons, Option.some.injEq] at hv
        rw [hv, entriesOf_entry, List.map_cons]
        simp only [Item.sep.injEq] at e
        rw [e]; exact List.mem_cons_self _ _
    · exact Adj.sep_is_entry l h.2 s e

/-- In a well-formed walk whose leaf keys are pairwise distinct the separator
keys are pairwise distinct. -/
theorem Adj.seps_nodup : ∀ (l : List Item), Adj l → ((entriesOf l).map Prod.fst).Nodup →
    (sepsOf l).Nodup
  | [], _, _ => by simp [sepsOf]
  | Item.entry k v :: l, h, hn => by
    simp only [Adj] at h
    rw [entriesOf_entry, List.map_cons, List.nodup_cons] at hn
    rw [sepsOf_entry]
    exact Adj.seps_nodup l h hn.2
  | Item.sep t :: l, h, hn => by
    simp only [Adj] at h
    rw [entriesOf_sep] at hn
    rw [sepsOf_sep, List.nodup_cons]
    refine ⟨?_, Adj.seps_nodup l h.2 hn⟩
    intro hmem
    obtain ⟨v, hv⟩ := h.1
    cases l with
    | nil => simp at hv
    | cons y l =>
      simp only [List.head?_cons, Option.some.injEq] at hv
      rw [hv] at hmem hn h
      rw [sepsOf_entry] at hmem
      rw [entriesOf_entry, List.map_cons, List.nodup_cons] at hn
      simp only [Adj] at h
      exact hn.1 (Adj.sep_is_entry l h.2 t ((mem_sepsOf l t).mp hmem))


/-! ## The shape of the walk after an insert, whatever the values are -/

/-- The step of the recursive insert at an intermediate node, after the
recursive call on the child in slot `pos` has returned: the walk of the node is
the walk before the call with the new entry put into the walk of that child,
and with the key of the right half when a leaf was split. -/
theorem grown_inner (M : Nat) (hM : 2 ≤ M) (h : Nat) (bt bt1 : btree) (ptr child1 : node)
    (pos : Nat) (k : Int) (st1 : state)
    (hT : Tree M bt.pm bt.header.count (h + 1) M ptr.page_id)
    (hptr : bt.pm.nodeAt ptr.page_id = some ptr) (hpos : pos ≤ ptr.count)
    (hnode1 : bt1.pm.nodeAt (ptr.children.getD pos 0) = some child1)
    (hst1 : st1 = state.BT_OVERFLOW ↔ M < child1.count)
    (hP1 : Post M bt bt1 h (ptr.children.getD pos 0) k)
    (l1 l2 : List Item) (e : Item)
    (w4 : Grown h (l1 ++ e :: l2) (inorder bt1.pm h (ptr.children.getD pos 0))) :
    inorder bt.pm (h + 1) ptr.page_id =
      preWalk (fun c => inorder bt.pm h c) (ptr.kids.take pos) (ptr.keyList.take pos) ++
        (inorder bt.pm h (ptr.children.getD pos 0) ++
          sufWalk (fun c => inorder bt.pm h c) (ptr.keyList.drop pos)
            (ptr.kids.drop (pos + 1))) ∧
    Grown (h + 1)
      ((preWalk (fun c => inorder bt.pm h c) (ptr.kids.take pos) (ptr.keyList.take pos) ++ l1) ++
        e :: (l2 ++ sufWalk (fun c => inorder bt.pm h c) (ptr.keyList.drop pos)
          (ptr.kids.drop (pos + 1))))
      (inorder (if st1 = state.BT_OVERFLOW then bt1.split M ptr pos else (bt1, ptr)).1.pm (h + 1)
        ptr.page_id) := by
  obtain ⟨hS, hN, hB⟩ := hT
  simp only [Sub, hptr, Option.some.injEq, exists_eq_left'] at hS
  obtain ⟨_, hsz, hcnt, hkids⟩ := hS
  have hlen : ptr.count + 1 ≤ ptr.children.length := by rw [hsz.2.2]; omega
  have hkl : ptr.count ≤ ptr.keys.length := by rw [hsz.1]; omega
  have hcm := kids_getD_mem ptr _ hpos hlen
  have hk := kids_split_at ptr _ hpos hlen
  obtain ⟨hc0, hSc⟩ := hkids _ hcm
  have hpg : pagesOf bt.pm (h + 1) ptr.page_id = ptr.page_id ::
      ((ptr.kids.take pos).flatMap (fun c => pagesOf bt.pm h c) ++
        (pagesOf bt.pm h (ptr.children.getD pos 0) ++
          (ptr.kids.drop (pos + 1)).flatMap (fun c => pagesOf bt.pm h c))) := by
    conv => lhs; simp only [pagesOf, hptr]; rw [hk]
    simp only [List.flatMap_append, List.flatMap_cons]
  rw [hpg] at hN hB
  have hidB := hB _ (List.mem_cons_self _ _)
  have hN1 := hN
  simp only [List.nodup_cons, List.nodup_append, List.mem_append, List.disjoint_left,
    List.mem_cons, not_or, List.mem_flatMap] at hN1
  obtain ⟨⟨n1, n2, n3⟩, n4, ⟨n5, n6, n7⟩, n8⟩ := hN1
  obtain ⟨q1, q2, q3, ⟨qS, qN, qB⟩, q5, q6, _, q8⟩ := hP1
  have hsib : ∀ a, a ∈ ptr.kids.take pos ∨ a ∈ ptr.kids.drop (pos + 1) →
      ∀ p ∈ pagesOf bt.pm h a, (1 ≤ p ∧ p ≤ bt.header.count) ∧ p ≠ ptr.page_id ∧
        p ∉ pagesOf bt.pm h (ptr.children.getD pos 0) := by
    intro a ha p hp
    rcases ha with ha | ha
    · refine ⟨hB p ?_, ?_, (n8 ⟨a, ha, hp⟩).1⟩
      · simp only [List.mem_cons, List.mem_append, List.mem_flatMap]
        exact Or.inr (Or.inl ⟨a, ha, hp⟩)
      · intro e; subst e; exact n1 ⟨a, ha, hp⟩
    · refine ⟨hB p ?_, ?_, fun hx => n7 hx ⟨a, ha, hp⟩⟩
      · simp only [List.mem_cons, List.mem_append, List.mem_flatMap]
        exact Or.inr (Or.inr (Or.inr ⟨a, ha, hp⟩))
      · intro e; subst e; exact n3 ⟨a, ha, hp⟩
  have hfr1 : ∀ a, a ∈ ptr.kids.take pos ∨ a ∈ ptr.kids.drop (pos + 1) →
      inorder bt1.pm h a = inorder bt.pm h a := fun a ha =>
    frame_inorder bt.pm bt1.pm h a (fun p hp =>
      q5 p (hsib a ha p hp).2.2 (hsib a ha p hp).1.1 (hsib a ha p hp).1.2)
  have hptr1 : bt1.pm.nodeAt ptr.page_id = some ptr := by
    rw [nodeAt_congr _ _ _ (q5 _ n2 hidB.1 hidB.2)]; exact hptr
  have hidc1 : ptr.page_id ∉ pagesOf bt1.pm h (ptr.children.getD pos 0) := by
    intro hx
    rcases q6 _ hx with h9 | h9
    · exact n2 h9
    · omega
  have hw0 : inorder bt.pm (h + 1) ptr.page_id =
      preWalk (fun c => inorder bt.pm h c) (ptr.kids.take pos) (ptr.keyList.take pos) ++
        (inorder bt.pm h (ptr.children.getD pos 0) ++
          sufWalk (fun c => inorder bt.pm h c) (ptr.keyList.drop pos)
            (ptr.kids.drop (pos + 1))) := by
    simp only [inorder, hptr]
    exact walk_at _ ptr pos hpos hlen hkl
  refine ⟨hw0, ?_⟩
  have hshape : ∀ (y : List Item),
      Grown (h + 1) (preWalk (fun c => inorder bt.pm h c) (ptr.kids.take pos)
          (ptr.keyList.take pos) ++ ((l1 ++ e :: l2) ++
        sufWalk (fun c => inorder bt.pm h c) (ptr.keyList.drop pos)
          (ptr.kids.drop (pos + 1)))) y →
      Grown (h + 1) ((preWalk (fun c => inorder bt.pm h c) (ptr.kids.take pos)
          (ptr.keyList.take pos) ++ l1) ++ e :: (l2 ++
        sufWalk (fun c => inorder bt.pm h c) (ptr.keyList.drop pos)
          (ptr.kids.drop (pos + 1)))) y := by
    intro y hy
    simpa only [List.append_assoc, List.cons_append] using hy
  apply hshape
  by_cases hov : st1 = state.BT_OVERFLOW
  · obtain ⟨n, hn1, _, hn3, hn4⟩ := qS.node
    rw [hnode1, Option.some.injEq] at hn1
    subst hn1
    have hc1 : child1.count = M + 1 := by
      have := hst1.mp hov; omega
    have hrd1 := read_node_of_nodeAt M bt1 _ child1 hnode1
    obtain ⟨s1, s2, s3, s4, s5⟩ := btree.split_snd_spec M bt1 ptr pos hsz hpos hcnt
      (by rw [hrd1]; exact hn3)
    obtain ⟨t1, t2, t3, t4, t5, t6⟩ := btree.split_store M bt1 ptr pos
      (by rw [hrd1]; exact hn3) hidB.1 (by omega)
    rw [hrd1] at t2 t3 s5
    have hag : ∀ p ∈ (pagesOf bt1.pm h (ptr.children.getD pos 0)).tail,
        (bt1.split M ptr pos).1.pm p = bt1.pm p := by
      intro p hp
      have hp1 := List.mem_of_mem_tail hp
      have hb := qB p hp1
      exact t5 p (by omega) (fun e => hidc1 (e ▸ hp1)) (by omega) (by omega)
    have hfr2 : ∀ a, a ∈ ptr.kids.take pos ∨ a ∈ ptr.kids.drop (pos + 1) →
        inorder (bt1.split M ptr pos).1.pm h a = inorder bt.pm h a := by
      intro a ha
      rw [← hfr1 a ha]
      apply frame_inorder bt1.pm (bt1.split M ptr pos).1.pm h a
      intro p hp
      have hp0 : p ∈ pagesOf bt.pm h a := by
        have e := (frame M bt.pm bt1.pm h a (fun p hp =>
          q5 p (hsib a ha p hp).2.2 (hsib a ha p hp).1.1 (hsib a ha p hp).1.2)).1
        rw [e] at hp; exact hp
      obtain ⟨hb, hne, _⟩ := hsib a ha p hp0
      exact t5 p (by omega) hne (by omega) (by omega)
    have hw2 : inorder (bt1.split M ptr pos).1.pm (h + 1) ptr.page_id =
        preWalk (fun c => inorder bt.pm h c) (ptr.kids.take pos) (ptr.keyList.take pos) ++
          (inorder (bt1.split M ptr pos).1.pm h (bt1.header.count + 1) ++
            Item.sep (child1.keys.getD (M / 2) 0) ::
            (inorder (bt1.split M ptr pos).1.pm h (bt1.header.count + 1 + 1) ++
              sufWalk (fun c => inorder bt.pm h c) (ptr.keyList.drop pos)
                (ptr.kids.drop (pos + 1)))) := by
      simp only [inorder, t1]
      rw [s4, s5, walk_at_split _ _ _ _ _ _ _ _ (by
        rw [List.length_take, List.length_take, kids_length ptr hlen, keyList_length ptr hkl]
        omega),
        preWalk_congr _ (fun c => inorder bt.pm h c) _ _
          (fun a ha => hfr2 a (Or.inl ha)),
        sufWalk_congr _ (fun c => inorder bt.pm h c) _ _
          (fun a ha => hfr2 a (Or.inr ha))]
    simp only [hov, if_true]
    rw [hw2]
    cases h with
    | zero =>
      obtain ⟨m1, s0, v0, sv, m2, g1, g2, g3⟩ := halves_inorder_leaf M hM bt1.pm
        (bt1.split M ptr pos).1.pm _ child1 _ _ hnode1 qS hc1 t2 t3
      have hx := w4.zero
      rw [g3] at hx
      rw [g1, g2, ← hx]
      refine Or.inr ⟨Nat.succ_pos _, preWalk (fun c => inorder bt.pm 0 c) (ptr.kids.take pos)
        (ptr.keyList.take pos) ++ m1, s0, v0, child1.keys.getD (M / 2) 0, sv,
        m2 ++ sufWalk (fun c => inorder bt.pm 0 c) (ptr.keyList.drop pos)
          (ptr.kids.drop (pos + 1)), ?_, ?_⟩
      · simp only [List.append_assoc, List.cons_append]
      · simp only [List.append_assoc, List.cons_append, List.singleton_append, List.nil_append]
    | succ h =>
      have g := halves_inorder_inner M hM bt1.pm (bt1.split M ptr pos).1.pm h _ child1 _ _
        hnode1 qS hc1 t2 t3 hag
      have e1 : inorder (bt1.split M ptr pos).1.pm (h + 1) (bt1.header.count + 1) ++
          Item.sep (child1.keys.getD (M / 2) 0) ::
          (inorder (bt1.split M ptr pos).1.pm (h + 1) (bt1.header.count + 1 + 1) ++
            sufWalk (fun c => inorder bt.pm (h + 1) c) (ptr.keyList.drop pos)
              (ptr.kids.drop (pos + 1))) =
          inorder bt1.pm (h + 1) (ptr.children.getD pos 0) ++
            sufWalk (fun c => inorder bt.pm (h + 1) c) (ptr.keyList.drop pos)
              (ptr.kids.drop (pos + 1)) := by
        rw [← g]; simp only [List.append_assoc, List.cons_append]
      rw [e1]
      exact w4.context _ _
  · have hw1 : inorder bt1.pm (h + 1) ptr.page_id =
        preWalk (fun c => inorder bt.pm h c) (ptr.kids.take pos) (ptr.keyList.take pos) ++
          (inorder bt1.pm h (ptr.children.getD pos 0) ++
            sufWalk (fun c => inorder bt.pm h c) (ptr.keyList.drop pos)
              (ptr.kids.drop (pos + 1))) := by
      simp only [inorder, hptr1]
      rw [walk_at _ ptr pos hpos hlen hkl,
        preWalk_congr _ (fun c => inorder bt.pm h c) _ _
          (fun a ha => hfr1 a (Or.inl ha)),
        sufWalk_congr _ (fun c => inorder bt.pm h c) _ _
          (fun a ha => hfr1 a (Or.inr ha))]
    simp only [hov, if_false]
    rw [hw1]
    exact w4.context _ _


theorem scan_ge_start (ptr : node) (v : Int) : ∀ (f pos : Nat), pos ≤ scan ptr v f pos
  | 0, pos => le_refl _
  | f + 1, pos => by
    unfold scan
    split
    · exact le_trans (Nat.le_succ pos) (scan_ge_start ptr v f (pos + 1))
    · exact le_refl _

/-- The scan passes a first key that is below `value`. -/
theorem scan_pos (ptr : node) (v : Int) (hc : 0 < ptr.count) (h0 : ptr.keys.getD 0 0 < v) :
    1 ≤ scan ptr v ptr.count 0 := by
  obtain ⟨c, hcc⟩ : ∃ c, ptr.count = c + 1 := ⟨ptr.count - 1, by omega⟩
  have e : scan ptr v (c + 1) 0 = scan ptr v c (0 + 1) := by
    conv => lhs; unfold scan
    rw [if_pos ⟨hc, h0⟩]
  rw [hcc, e]
  exact scan_ge_start ptr v c 1

/-- The walk before a child slot is empty or ends with one of the keys. -/
theorem preWalk_end (f : Int → List Item) : ∀ (cs ks : List Int),
    preWalk f cs ks = [] ∨ ∃ p s, preWalk f cs ks = p ++ [Item.sep s] ∧ s ∈ ks
  | [], _ => Or.inl (preWalk_nil f _)
  | _ :: _, [] => Or.inl (by simp [preWalk])
  | c :: cs, k :: ks => by
    right
    rw [preWalk_cons]
    rcases preWalk_end f cs ks with e | ⟨p, s, e, hs⟩
    · exact ⟨f c, k, by rw [e], List.mem_cons_self _ _⟩
    · refine ⟨f c ++ Item.sep k :: p, s, ?_, List.mem_cons_of_mem _ hs⟩
      rw [e]; simp only [List.append_assoc, List.cons_append]

/-- The walk after a child slot does not start with a leaf entry. -/
theorem sufWalk_head (f : Int → List Item) (ks cs : List Int) (k v : Int) :
    (sufWalk f ks cs).head? ≠ some (Item.entry k v) := by
  cases ks with
  | nil => simp [sufWalk_nil_left]
  | cons a ks =>
    cases cs with
    | nil => simp [sufWalk_nil_right]
    | cons c cs => simp [sufWalk_cons]

theorem head?_append_of_ne_nil {x : List Item} (q : List Item) (hx : x ≠ []) :
    (x ++ q).head? = x.head? := by
  cases x with
  | nil => exact absurd rfl hx
  | cons a x => rfl

theorem getLast?_append_of_ne_nil (p : List Item) {x : List Item} (hx : x ≠ []) :
    (p ++ x).getLast? = x.getLast? := by
  obtain ⟨y, a, rfl⟩ : ∃ y a, x = y ++ [a] := by
    rcases List.eq_nil_or_concat x with e | ⟨y, a, e⟩
    · exact absurd e hx
    · exact ⟨y, a, by rw [e, List.concat_eq_append]⟩
  rw [← List.append_assoc, List.getLast?_append, List.getLast?_append]
  simp

/-- The shape of the walk after an insert into a leaf. -/
theorem shape_leaf (M : Nat) (fuel : Nat) (bt : btree) (ptr : node) (v k : Int)
    (hf : 0 < fuel) (hT : Tree M bt.pm bt.header.count 0 M ptr.page_id)
    (hptr : bt.pm.nodeAt ptr.page_id = some ptr)
    (bt1 : btree) (ptr1 : node) (st : state)
    (hres : bt.insert_node M fuel ptr v k = some (bt1, ptr1, st)) :
    PostShape bt bt1 0 ptr.page_id v k := by
  obtain ⟨f, rfl⟩ : ∃ f, fuel = f + 1 := ⟨fuel - 1, by omega⟩
  obtain ⟨hS, _, _⟩ := hT
  simp only [Sub, hptr, Option.some.injEq, exists_eq_left'] at hS
  obtain ⟨_, hsz, hcnt, hkids⟩ := hS
  have hpos : scan ptr v ptr.count 0 ≤ ptr.count := scan_le ptr v _ 0 (Nat.zero_le _)
  have hlen : ptr.count + 1 ≤ ptr.children.length := by rw [hsz.2.2]; omega
  have hz : ptr.children.getD (scan ptr v ptr.count 0) 0 = 0 :=
    hkids _ (kids_getD_mem ptr _ hpos hlen)
  rw [insert_node_leaf_eq M f bt ptr v k hz, Option.some.injEq, Prod.mk.injEq] at hres
  obtain ⟨hbt1, _⟩ := hres
  subst hbt1
  have hwalk0 : inorder bt.pm 0 ptr.page_id = ptr.entries.map (fun e => Item.entry e.1 e.2) := by
    simp only [inorder, hptr]
  have hel := entries_length M ptr hsz (by omega)
  refine ⟨(ptr.entries.take (scan ptr v ptr.count 0)).map (fun e => Item.entry e.1 e.2),
    (ptr.entries.drop (scan ptr v ptr.count 0)).map (fun e => Item.entry e.1 e.2), ?_,
    Or.inl ?_, ?_, ?_⟩
  · rw [hwalk0, ← List.map_append, List.take_append_drop]
  · simp only [inorder, btree.write_node, nodeAt_save_node]
    rw [node.insert_in_node_entries M ptr _ v k hsz hpos hcnt]
    simp only [List.map_append, List.map_cons]
  · intro a ha
    obtain ⟨ys, hys⟩ := List.getLast?_eq_some_iff.mp ha
    have hmem : a ∈ (ptr.entries.take (scan ptr v ptr.count 0)).map
        (fun e => Item.entry e.1 e.2) := by
      rw [hys]; exact List.mem_append_right _ (List.mem_singleton_self _)
    obtain ⟨e, _, he⟩ := List.mem_map.mp hmem
    exact ⟨e.1, e.2, he.symm⟩
  · intro s w hh hsv
    rw [hwalk0] at hh
    cases hE : ptr.entries with
    | nil => rw [hE] at hh; simp at hh
    | cons e rest =>
      rw [hE, List.map_cons, List.head?_cons, Option.some.injEq, Item.entry.injEq] at hh
      have hc : 0 < ptr.count := by
        have h9 := hel
        rw [hE, List.length_cons] at h9
        omega
      have hk0 : ptr.keys.getD 0 0 = s := by
        have h1 := entries_fst M ptr hsz (by omega)
        rw [hE, List.map_cons] at h1
        rw [← keyList_getD ptr 0 hc, ← h1]
        simp only [List.getD_cons_zero]
        exact hh.1
      have hp := scan_pos ptr v hc (by rw [hk0]; exact hsv)
      intro hnil
      have hl := congrArg List.length hnil
      rw [List.length_map, List.length_take] at hl
      simp only [List.length_cons, List.length_nil] at hl
      omega

/-- The shape of the walk after the step of the recursive insert at an
intermediate node whose walk is well-formed. -/
theorem shape_inner (M : Nat) (hM : 2 ≤ M) (h : Nat) (bt bt1 : btree) (ptr child1 : node)
    (pos : Nat) (v k : Int) (st1 : state)
    (hT : Tree M bt.pm bt.header.count (h + 1) M ptr.page_id)
    (hptr : bt.pm.nodeAt ptr.page_id = some ptr) (hpos : pos ≤ ptr.count)
    (hsc1 : ∀ j, j < pos → ptr.keys.getD j 0 < v)
    (hnode1 : bt1.pm.nodeAt (ptr.children.getD pos 0) = some child1)
    (hst1 : st1 = state.BT_OVERFLOW ↔ M < child1.count)
    (hP1 : Post M bt bt1 h (ptr.children.getD pos 0) k)
    (hA : Adj (inorder bt.pm (h + 1) ptr.page_id))
    (hW1 : PostShape bt bt1 h (ptr.children.getD pos 0) v k) :
    PostShape bt (if st1 = state.BT_OVERFLOW then bt1.split M ptr pos else (bt1, ptr)).1 (h + 1)
      ptr.page_id v k := by
  obtain ⟨l1, l2, w1, w4, w5, w6⟩ := hW1
  obtain ⟨hw0, hg⟩ := grown_inner M hM h bt bt1 ptr child1 pos k st1 hT hptr hpos hnode1 hst1 hP1
    l1 l2 (Item.entry k v) w4
  have hkl : ptr.count ≤ ptr.keys.length := by
    obtain ⟨n, hn, _, hsz, hcnt⟩ := hT.1.node
    rw [hptr, Option.some.injEq] at hn
    subst hn
    rw [hsz.1]; omega
  rw [hw0] at hA
  -- a key that ends the walk before the child is below `value` and is followed
  -- by its entry, the first item of the walk of the child
  have hkey : ∀ p s, preWalk (fun c => inorder bt.pm h c) (ptr.kids.take pos)
      (ptr.keyList.take pos) = p ++ [Item.sep s] → s ∈ ptr.keyList.take pos → l1 ≠ [] := by
    intro p s e hs
    obtain ⟨j, hj1, hj2, hj3⟩ := mem_take_getD _ _ _ hs
    rw [keyList_length ptr hkl] at hj2
    rw [keyList_getD ptr j hj2] at hj3
    have hsv : s < v := by rw [← hj3]; exact hsc1 j hj1
    rw [e, List.append_assoc, List.singleton_append] at hA
    obtain ⟨w, hw⟩ := hA.after_sep
    cases hfc : inorder bt.pm h (ptr.children.getD pos 0) with
    | nil =>
      rw [hfc, List.nil_append] at hw
      exact absurd hw (sufWalk_head _ _ _ _ _)
    | cons a rest =>
      rw [hfc, List.cons_append, List.head?_cons, Option.some.injEq] at hw
      exact w6 s w (by rw [hfc, hw]; rfl) hsv
  refine ⟨_, _, ?_, hg, ?_, ?_⟩
  · rw [hw0, w1]; simp only [List.append_assoc]
  · intro a ha
    by_cases hl1 : l1 = []
    · exfalso
      rcases preWalk_end (fun c => inorder bt.pm h c) (ptr.kids.take pos)
        (ptr.keyList.take pos) with e | ⟨p, s, e, hs⟩
      · rw [hl1, e] at ha; simp at ha
      · exact hkey p s e hs hl1
    · rw [getLast?_append_of_ne_nil _ hl1] at ha
      exact w5 a ha
  · intro s w hh hsv
    by_cases hl1 : l1 = []
    · rcases preWalk_end (fun c => inorder bt.pm h c) (ptr.kids.take pos)
        (ptr.keyList.take pos) with e | ⟨p, s1, e, hs⟩
      · exfalso
        rw [hw0, e, List.nil_append] at hh
        cases hfc : inorder bt.pm h (ptr.children.getD pos 0) with
        | nil =>
          rw [hfc, List.nil_append] at hh
          exact absurd hh (sufWalk_head _ _ _ _ _)
        | cons a rest =>
          rw [hfc, List.cons_append, List.head?_cons, Option.some.injEq] at hh
          exact w6 s w (by rw [hfc, hh]; rfl) hsv hl1
      · exact absurd hl1 (hkey p s1 e hs)
    · intro hnil
      exact hl1 (List.append_eq_nil.mp hnil).2

/-- The recursive insert on a well-formed subtree with a well-formed walk puts
the new entry into the walk, never directly after a separator key. -/
theorem insert_node_shape (M : Nat) (hM : 2 ≤ M) : ∀ (h fuel : Nat) (bt : btree) (ptr : node)
    (v k : Int), h < fuel →
    Tree M bt.pm bt.header.count h M ptr.page_id → bt.pm.nodeAt ptr.page_id = some ptr →
    AllLe (M + 1) bt.pm → Adj (inorder bt.pm h ptr.page_id) →
    ∀ bt1 ptr1 st, bt.insert_node M fuel ptr v k = some (bt1, ptr1, st) →
      PostShape bt bt1 h ptr.page_id v k
  | 0, fuel, bt, ptr, v, k, hf, hT, hptr, _, _ => shape_leaf M fuel bt ptr v k hf hT hptr
  | h + 1, fuel, bt, ptr, v, k, hf, hT, hptr, hA, hO => by
    intro bt2 ptr2 st2 hres2
    obtain ⟨f, rfl⟩ : ∃ f, fuel = f + 1 := ⟨fuel - 1, by omega⟩
    have hT1 := hT
    obtain ⟨hS, hN, hB⟩ := hT1
    simp only [Sub, hptr, Option.some.injEq, exists_eq_left'] at hS
    obtain ⟨_, hsz, hcnt, hkids⟩ := hS
    have hpos : scan ptr v ptr.count 0 ≤ ptr.count := scan_le ptr v _ 0 (Nat.zero_le _)
    have hlen : ptr.count + 1 ≤ ptr.children.length := by rw [hsz.2.2]; omega
    have hkl : ptr.count ≤ ptr.keys.length := by rw [hsz.1]; omega
    have hcm := kids_getD_mem ptr _ hpos hlen
    obtain ⟨hc0, hSc⟩ := hkids _ hcm
    obtain ⟨child, hchild, hcid, hcsz, hccnt⟩ := hSc.node
    have hrd := read_node_of_nodeAt M bt _ child hchild
    have hTc : Tree M bt.pm bt.header.count h M child.page_id := by
      rw [hcid]
      refine ⟨hSc, ?_, ?_⟩
      · have := hN
        simp only [pagesOf, hptr] at this
        rw [kids_split_at ptr _ hpos hlen] at this
        simp only [List.flatMap_append, List.flatMap_cons, List.nodup_cons,
          List.nodup_append] at this
        exact this.2.2.1.1
      · intro p hp
        exact hB p (pagesOf_kid bt.pm h _ ptr _ hptr hcm p hp)
    obtain ⟨sc1, _⟩ := scan_spec ptr v ptr.count 0 (by omega) (fun j hj => by omega)
    have hOc : Adj (inorder bt.pm h child.page_id) := by
      rw [hcid]
      have hw0 : inorder bt.pm (h + 1) ptr.page_id =
          walk (fun c => inorder bt.pm h c) ptr.kids ptr.keyList := by
        simp only [inorder, hptr]
      rw [hw0, walk_at _ ptr _ hpos hlen hkl] at hO
      exact Adj.take_left _ (Adj.drop_left _ hO) (fun k v => sufWalk_head _ _ _ k v)
    obtain ⟨bt1, child1, st1, hres, hpid1, hnode1, hst1, hP1⟩ :=
      insert_node_spec M hM h f bt child v k (by omega) hTc (by rw [hcid]; exact hchild) hA
    have hW1 := insert_node_shape M hM h f bt child v k (by omega) hTc
      (by rw [hcid]; exact hchild) hA hOc bt1 child1 st1 hres
    rw [hcid] at hnode1 hP1 hW1
    rw [← hrd] at hres
    have hstep := btree.insert_node_step M f bt ptr v k bt1 child1 st1 hc0 hres
    rw [hstep, Option.some.injEq, Prod.mk.injEq] at hres2
    rw [← hres2.1]
    exact shape_inner M hM h bt bt1 ptr child1 _ v k st1 hT hptr hpos sc1 hnode1 hst1 hP1
      hO hW1


/-! ## Well-formed walks along a sequence of inserts -/

/-- A top-level insert on a well-formed tree with a well-formed walk puts the
new entry into the walk, never directly after a separator key; a split of a
leaf adds the first key of the right leaf before that entry. -/
theorem insert_shape (M : Nat) (hM : 2 ≤ M) (bt : btree) (h fuel : Nat) (v k : Int)
    (hI : Inv M bt h) (hf : h < fuel) (hA : Adj (inorder bt.pm h 1)) :
    ∀ bt2 h2, bt.insert M fuel v k = some bt2 → Inv M bt2 h2 →
      ∃ l1 l2, inorder bt.pm h 1 = l1 ++ l2 ∧
        (∀ a, l1.getLast? = some a → ∃ k1 v1, a = Item.entry k1 v1) ∧
        Grown 1 (l1 ++ Item.entry k v :: l2) (inorder bt2.pm h2 1) := by
  intro bt2 h2 hins hI2
  obtain ⟨i1, i2, i3, i4⟩ := hI
  obtain ⟨root, hroot, hrid, hrsz, hrcnt⟩ := i3.1.node
  have hrd : bt.read_node M bt.header.root_id = root := by
    rw [i1]; exact read_node_of_nodeAt M bt 1 root hroot
  obtain ⟨bt1, ptr1, st, hres, hp1, hn1, hst, hP⟩ := insert_node_spec M hM h fuel bt root v k hf
    (by rw [hrid]; exact i3) (by rw [hrid]; exact hroot) i4
  have hW := insert_node_shape M hM h fuel bt root v k hf
    (by rw [hrid]; exact i3) (by rw [hrid]; exact hroot) i4 (by rw [hrid]; exact hA)
    bt1 ptr1 st hres
  rw [hrid] at hn1 hP hp1 hW
  obtain ⟨q1, q2, q3, ⟨qS, qN, qB⟩, q5, q6, _, q8⟩ := hP
  obtain ⟨l1, l2, w1, w4, w5, _⟩ := hW
  have hstep : bt.insert M fuel v k =
      if st = state.BT_OVERFLOW then some (bt1.split_root M) else some bt1 := by
    unfold btree.insert
    simp only [hrd, hres]
  rw [hstep] at hins
  obtain ⟨n, hn, _, hn3, hn4⟩ := qS.node
  rw [hn1, Option.some.injEq] at hn
  subst hn
  refine ⟨l1, l2, w1, w5, ?_⟩
  obtain ⟨_, _, ⟨j3, _, _⟩, _⟩ := hI2
  by_cases hov : st = state.BT_OVERFLOW
  · simp only [hov, if_true, Option.some.injEq] at hins
    subst hins
    have hc1 : ptr1.count = M + 1 := by
      have := hst.mp hov; omega
    have hr1 : bt1.header.root_id = 1 := q1.trans i1
    have hrd1 : bt1.read_node M bt1.header.root_id = ptr1 := by
      rw [hr1]; exact read_node_of_nodeAt M bt1 1 ptr1 hn1
    have hb1 := qB 1 (pagesOf_head _ _ _)
    obtain ⟨⟨rt, t1, t1a, t1b, t1c, t1d, t1e⟩, t2, t3, t4, t5, t6⟩ :=
      btree.split_root_store M bt1 (by rw [hrd1]; exact hn3) (by rw [hrd1, hr1]; exact hp1)
        (by rw [hr1]) (by rw [hr1]; exact hb1.2)
    rw [hrd1] at t2 t3 t1e
    rw [hr1] at t1 t1a t5
    have hpt : ∀ p, pagesOf bt1.pm h p = p :: (pagesOf bt1.pm h p).tail := by
      intro p; cases h <;> simp [pagesOf]
    have hN1 := qN
    rw [hpt] at hN1
    have hag : ∀ p ∈ (pagesOf bt1.pm h 1).tail, (bt1.split_root M).pm p = bt1.pm p := by
      intro p hp
      have hp1 := List.mem_of_mem_tail hp
      have hb := qB p hp1
      exact t5 p (by omega) (fun e => (List.nodup_cons.mp hN1).1 (e ▸ hp)) (by omega) (by omega)
    obtain ⟨u1, _, _, _⟩ := halves_tree M hM bt1.pm
      (bt1.split_root M).pm h 1 ptr1 _ _ hn1 qS hc1 t2 t3 hag
    have hmemL : bt1.header.count + 1 ∈ rt.kids := by rw [t1d]; exact List.mem_cons_self _ _
    have hh2 : h2 = h + 1 := by
      cases h2 with
      | zero =>
        exfalso
        simp only [Sub, t1, Option.some.injEq, exists_eq_left'] at j3
        have := j3.2.2.2 _ hmemL
        omega
      | succ j =>
        simp only [Sub, t1, Option.some.injEq, exists_eq_left'] at j3
        have := Sub.height_unique M _ j h M M _ (j3.2.2.2 _ hmemL).2 u1 (by omega)
        omega
    subst hh2
    have hw2 : inorder (bt1.split_root M).pm (h + 1) 1 =
        inorder (bt1.split_root M).pm h (bt1.header.count + 1) ++
          Item.sep (ptr1.keys.getD (M / 2) 0) ::
            inorder (bt1.split_root M).pm h (bt1.header.count + 1 + 1) := by
      simp only [inorder, t1, t1d, t1e, walk_cons, sufWalk_cons, sufWalk_nil_left,
        List.append_nil]
    rw [hw2]
    cases h with
    | zero =>
      obtain ⟨m1, s0, v0, sv, m2, g1, g2, g3⟩ := halves_inorder_leaf M hM bt1.pm
        (bt1.split_root M).pm _ ptr1 _ _ hn1 qS hc1 t2 t3
      have hx := w4.zero
      rw [g3] at hx
      rw [g1, g2, ← hx]
      refine Or.inr ⟨Nat.one_pos, m1, s0, v0, ptr1.keys.getD (M / 2) 0, sv, m2, rfl, ?_⟩
      simp only [List.append_assoc, List.singleton_append]
    | succ h =>
      rw [halves_inorder_inner M hM bt1.pm (bt1.split_root M).pm h _ ptr1 _ _ hn1 qS hc1 t2 t3
        hag]
      exact w4.one
  · simp only [hov, if_false, Option.some.injEq] at hins
    subst hins
    have hh2 : h2 = h := Sub.height_unique M _ h2 h M (M + 1) 1 j3 qS (by omega)
    subst hh2
    exact w4.one

/-- Every sequence of inserts keeps the in-order walk well-formed, whatever the
keys and values are; the leaf entries met by the walk are the inserted
pairs. -/
theorem insert_all_shape (M : Nat) (hM : 2 ≤ M) (fuel : Nat) : ∀ (ops : List (Int × Int))
    (bt : btree) (h : Nat), Inv M bt h → Adj (inorder bt.pm h 1) → h + ops.length ≤ fuel →
    ∃ bt1 h1, btree.insert_all M fuel bt ops = some bt1 ∧ Inv M bt1 h1 ∧
      h1 ≤ h + ops.length ∧ Adj (inorder bt1.pm h1 1) ∧
      (entriesOf (inorder bt1.pm h1 1)).Perm
        (ops.map (fun op => (op.2, op.1)) ++ entriesOf (inorder bt.pm h 1))
  | [], bt, h, hI, hA, _ => ⟨bt, h, rfl, hI, le_refl _, hA, by simp⟩
  | op :: ops, bt, h, hI, hA, hf => by
    simp only [List.length_cons] at hf
    obtain ⟨bt1, h1, e1, _, e3, e4, _⟩ := insert_spec M hM bt h fuel op.1 op.2 hI (by omega)
    obtain ⟨l1, l2, w1, w5, w4⟩ :=
      insert_shape M hM bt h fuel op.1 op.2 hI (by omega) hA bt1 h1 e1 e4
    rw [w1] at hA
    have hA1 := w4.adj (Adj.put_entry l1 op.2 op.1 hA w5)
    have hE1 : entriesOf (inorder bt1.pm h1 1) =
        entriesOf l1 ++ (op.2, op.1) :: entriesOf l2 := by
      rw [w4.entries_eq, entriesOf_append, entriesOf_entry]
    obtain ⟨bt2, h2, g1, g2, g3, g4, g6⟩ :=
      insert_all_shape M hM fuel ops bt1 h1 e4 hA1 (by omega)
    refine ⟨bt2, h2, ?_, g2, by simp only [List.length_cons]; omega, g4, ?_⟩
    · simp only [btree.insert_all, e1, g1]
    · rw [hE1] at g6
      rw [w1, entriesOf_append, List.map_cons]
      exact g6.trans ((List.Perm.append_left _ List.perm_middle).trans List.perm_middle)

/-! ## The traversals of leaf keys and separator keys -/

theorem sepsOf_map_entry (es : List (Int × Int)) :
    sepsOf (es.map (fun e => Item.entry e.1 e.2)) = [] := by
  induction es with
  | nil => rfl
  | cons e es ih => rw [List.map_cons, sepsOf_entry, ih]

theorem sepsOf_sufWalk (f : Int → List Item) : ∀ (ks cs : List Int), ks.length = cs.length →
    (sepsOf (sufWalk f ks cs)).Perm (ks ++ cs.flatMap (fun c => sepsOf (f c)))
  | [], [], _ => by simp [sufWalk_nil_left, sepsOf]
  | [], _ :: _, h => by simp at h
  | _ :: _, [], h => by simp at h
  | k :: ks, c :: cs, h => by
    rw [sufWalk_cons, sepsOf_sep, sepsOf_append, List.flatMap_cons, List.cons_append]
    refine List.Perm.cons k ?_
    exact (List.Perm.append_left _ (sepsOf_sufWalk f ks cs (by simpa using h))).trans
      (List.perm_append_comm_assoc _ _ _)

theorem sepsOf_walk (f : Int → List Item) (cs ks : List Int) (h : cs.length = ks.length + 1) :
    (sepsOf (walk f cs ks)).Perm (ks ++ cs.flatMap (fun c => sepsOf (f c))) := by
  cases cs with
  | nil => simp at h
  | cons c cs =>
    rw [walk_cons, sepsOf_append, List.flatMap_cons]
    exact (List.Perm.append_left _ (sepsOf_sufWalk f ks cs (by simpa using h.symm))).trans
      (List.perm_append_comm_assoc _ _ _)

/-- The traversal `sep_keys` yields the separator keys of the in-order walk, in
another order. -/
theorem sep_keys_perm (M : Nat) (pm : pagemanager) : ∀ (h b t : Nat) (id : Int),
    Sub M pm h b id → b ≤ M + 1 → h < t → (sep_keys pm t id).Perm (sepsOf (inorder pm h id))
  | 0, b, t, id, hs, hb, ht => by
    obtain ⟨t1, rfl⟩ : ∃ t1, t = t1 + 1 := ⟨t - 1, by omega⟩
    obtain ⟨n, hn, _, hsz, hcnt, hkids⟩ := hs
    have hl : n.children.getD 0 0 = 0 :=
      hkids _ (kids_getD_mem n 0 (Nat.zero_le _) (by rw [hsz.2.2]; omega))
    simp only [sep_keys, inorder, hn, hl, if_true, sepsOf_map_entry]
    exact List.Perm.refl _
  | h + 1, b, t, id, hs, hb, ht => by
    obtain ⟨t1, rfl⟩ : ∃ t1, t = t1 + 1 := ⟨t - 1, by omega⟩
    obtain ⟨n, hn, _, hsz, hcnt, hkids⟩ := hs
    have hl : n.children.getD 0 0 ≠ 0 :=
      (hkids _ (kids_getD_mem n 0 (Nat.zero_le _) (by rw [hsz.2.2]; omega))).1
    simp only [sep_keys, inorder, hn, hl, if_false]
    refine List.Perm.trans ?_ (sepsOf_walk _ _ _ (by
      rw [kids_length n (by rw [hsz.2.2]; omega),
        keyList_length n (by rw [hsz.1]; omega)])).symm
    refine List.Perm.append_left _ (List.Perm.flatMap_left _ ?_)
    intro c hc
    exact sep_keys_perm M pm h M t1 c (hkids c hc).2 (by omega) (by omega)

/-- The traversal `leaf_keys` yields the keys of the leaf entries of the
in-order walk. -/
theorem leaf_keys_walk (M : Nat) (pm : pagemanager) : ∀ (h b t : Nat) (id : Int),
    Sub M pm h b id → b ≤ M + 1 → h < t →
    leaf_keys pm t id = (entriesOf (inorder pm h id)).map Prod.fst
  | 0, b, t, id, hs, hb, ht => by
    obtain ⟨t1, rfl⟩ : ∃ t1, t = t1 + 1 := ⟨t - 1, by omega⟩
    obtain ⟨n, hn, _, hsz, hcnt, hkids⟩ := hs
    have hl : n.children.getD 0 0 = 0 :=
      hkids _ (kids_getD_mem n 0 (Nat.zero_le _) (by rw [hsz.2.2]; omega))
    simp only [leaf_keys, inorder, hn, hl, if_true, entriesOf_map_entry]
    exact (entries_fst M n hsz (by omega)).symm
  | h + 1, b, t, id, hs, hb, ht => by
    obtain ⟨t1, rfl⟩ : ∃ t1, t = t1 + 1 := ⟨t - 1, by omega⟩
    obtain ⟨n, hn, _, hsz, hcnt, hkids⟩ := hs
    have hl : n.children.getD 0 0 ≠ 0 :=
      (hkids _ (kids_getD_mem n 0 (Nat.zero_le _) (by rw [hsz.2.2]; omega))).1
    simp only [leaf_keys, inorder, hn, hl, if_false]
    rw [entriesOf_walk _ _ _ (by
      rw [kids_length n (by rw [hsz.2.2]; omega), keyList_length n (by rw [hsz.1]; omega)]),
      List.map_flatMap]
    apply List.flatMap_congr
    intro c hc
    exact leaf_keys_walk M pm h M t1 c (hkids c hc).2 (by omega) (by omega)


/-! ## The engine only depends on the pages up to its page counter -/

theorem save_agree (pm1 pm2 : pagemanager) (id : Int) (x : Page) (p : Int)
    (h : pm1 p = pm2 p ∨ p = id) : (pm1.save id x) p = (pm2.save id x) p := by
  simp only [pagemanager.save]
  by_cases hp : p = id
  · rw [if_pos hp, if_pos hp]
  · rw [if_neg hp, if_neg hp]
    rcases h with h | h
    · exact h
    · exact absurd h hp

theorem read_node_congr (M : Nat) (bt btf : btree) (c : Int) (h : btf.pm c = bt.pm c) :
    btf.read_node M c = bt.read_node M c := by
  simp only [btree.read_node, pagemanager.recover, h]

theorem SameUpTo.read_node {bt btf : btree} (hs : SameUpTo bt btf) (M : Nat) (c : Int)
    (h0 : 0 ≤ c) (h1 : c ≤ bt.header.count) : btf.read_node M c = bt.read_node M c :=
  read_node_congr M bt btf c (hs.2 c h0 h1)

theorem SameUpTo.write_node {bt btf : btree} (hs : SameUpTo bt btf) (id : Int) (n : node) :
    SameUpTo (bt.write_node id n) (btf.write_node id n) := by
  refine ⟨hs.1, ?_⟩
  intro p h0 h1
  exact save_agree _ _ _ _ _ (Or.inl (hs.2 p h0 h1))

/-- The parent returned by `split` only depends on the header and on the child
that is split. -/
theorem btree.split_snd_congr (M : Nat) (bt btf : btree) (parent : node) (pos : Nat)
    (hh : btf.header = bt.header)
    (hr : btf.read_node M (parent.children.getD pos 0) =
      bt.read_node M (parent.children.getD pos 0)) :
    (btf.split M parent pos).2 = (bt.split M parent pos).2 := by
  simp only [btree.split, btree.new_node, hh, hr]

/-- The engines returned by `split` agree up to the new page counter when the
engines agreed up to the old one. -/
theorem SameUpTo.split {M : Nat} {bt btf : btree} (hs : SameUpTo bt btf) (parent : node)
    (pos : Nat)
    (hC : (bt.read_node M (parent.children.getD pos 0)).sized M)
    (h0 : 0 ≤ parent.children.getD pos 0)
    (h1 : parent.children.getD pos 0 ≤ bt.header.count) :
    (btf.split M parent pos).2 = (bt.split M parent pos).2 ∧
    SameUpTo (bt.split M parent pos).1 (btf.split M parent pos).1 := by
  have hr := hs.read_node M _ h0 h1
  have h2 := btree.split_snd_congr M bt btf parent pos hs.1 hr
  obtain ⟨a1, a2, _⟩ := halves_spec M _ (bt.header.count + 1) (bt.header.count + 1 + 1) hC
  refine ⟨h2, ?_, ?_⟩
  · rw [btree.split_header, btree.split_header, hs.1]
  · intro p hp0 hp1
    rw [btree.split_header] at hp1
    simp only at hp1
    rw [btree.split_pm, btree.split_pm, h2, hr, hs.1, a1, a2]
    by_cases e2 : p = bt.header.count + 1 + 1
    · exact save_agree _ _ _ _ _ (Or.inr e2)
    · refine save_agree _ _ _ _ _ (Or.inl ?_)
      by_cases e1 : p = bt.header.count + 1
      · exact save_agree _ _ _ _ _ (Or.inr e1)
      · refine save_agree _ _ _ _ _ (Or.inl ?_)
        refine save_agree _ _ _ _ _ (Or.inl ?_)
        refine save_agree _ _ _ _ _ (Or.inl ?_)
        refine save_agree _ _ _ _ _ (Or.inl ?_)
        exact hs.2 p hp0 (by omega)


/-- The engines returned by `split_root` agree up to the new page counter when
the engines agreed up to the old one. -/
theorem SameUpTo.split_root {M : Nat} {bt btf : btree} (hs : SameUpTo bt btf)
    (hC : (bt.read_node M bt.header.root_id).sized M)
    (h0 : 0 ≤ bt.header.root_id) (h1 : bt.header.root_id ≤ bt.header.count) :
    SameUpTo (bt.split_root M) (btf.split_root M) := by
  have hr : btf.read_node M btf.header.root_id = bt.read_node M bt.header.root_id := by
    rw [hs.1]; exact hs.read_node M _ h0 h1
  obtain ⟨a1, a2, _⟩ := halves_spec M _ (bt.header.count + 1) (bt.header.count + 1 + 1) hC
  refine ⟨?_, ?_⟩
  · rw [btree.split_root_header, btree.split_root_header, hs.1]
  · intro p hp0 hp1
    rw [btree.split_root_header] at hp1
    simp only at hp1
    rw [btree.split_root_pm, btree.split_root_pm, hr, hs.1, a1, a2]
    by_cases e2 : p = bt.header.count + 1 + 1
    · exact save_agree _ _ _ _ _ (Or.inr e2)
    · refine save_agree _ _ _ _ _ (Or.inl ?_)
      by_cases e1 : p = bt.header.count + 1
      · exact save_agree _ _ _ _ _ (Or.inr e1)
      · refine save_agree _ _ _ _ _ (Or.inl ?_)
        refine save_agree _ _ _ _ _ (Or.inl ?_)
        refine save_agree _ _ _ _ _ (Or.inl ?_)
        refine save_agree _ _ _ _ _ (Or.inl ?_)
        exact hs.2 p hp0 (by omega)

/-- The recursive insert run on two engines that agree up to the page counter
returns the same node and state and leaves engines that agree up to the new
page counter. -/
theorem insert_node_sim (M : Nat) (hM : 2 ≤ M) : ∀ (h fuel : Nat) (bt btf : btree) (ptr : node)
    (v k : Int), h < fuel → SameUpTo bt btf →
    Tree M btf.pm btf.header.count h M ptr.page_id → btf.pm.nodeAt ptr.page_id = some ptr →
    AllLe (M + 1) btf.pm →
    ∃ bt1 btf1 ptr1 st, bt.insert_node M fuel ptr v k = some (bt1, ptr1, st) ∧
      btf.insert_node M fuel ptr v k = some (btf1, ptr1, st) ∧ SameUpTo bt1 btf1
  | 0, fuel, bt, btf, ptr, v, k, hf, hs, hT, hptr, _ => by
    obtain ⟨f, rfl⟩ : ∃ f, fuel = f + 1 := ⟨fuel - 1, by omega⟩
    obtain ⟨hS, _, _⟩ := hT
    simp only [Sub, hptr, Option.some.injEq, exists_eq_left'] at hS
    obtain ⟨_, hsz, hcnt, hkids⟩ := hS
    have hpos : scan ptr v ptr.count 0 ≤ ptr.count := scan_le ptr v _ 0 (Nat.zero_le _)
    have hz : ptr.children.getD (scan ptr v ptr.count 0) 0 = 0 :=
      hkids _ (kids_getD_mem ptr _ hpos (by rw [hsz.2.2]; omega))
    exact ⟨_, _, _, _, insert_node_leaf_eq M f bt ptr v k hz,
      insert_node_leaf_eq M f btf ptr v k hz, hs.write_node _ _⟩
  | h + 1, fuel, bt, btf, ptr, v, k, hf, hs, hT, hptr, hA => by
    obtain ⟨f, rfl⟩ : ∃ f, fuel = f + 1 := ⟨fuel - 1, by omega⟩
    have hT1 := hT
    obtain ⟨hS, hN, hB⟩ := hT1
    simp only [Sub, hptr, Option.some.injEq, exists_eq_left'] at hS
    obtain ⟨_, hsz, hcnt, hkids⟩ := hS
    have hpos : scan ptr v ptr.count 0 ≤ ptr.count := scan_le ptr v _ 0 (Nat.zero_le _)
    have hlen : ptr.count + 1 ≤ ptr.children.length := by rw [hsz.2.2]; omega
    have hcm := kids_getD_mem ptr _ hpos hlen
    obtain ⟨hc0, hSc⟩ := hkids _ hcm
    obtain ⟨child, hchild, hcid, hcsz, hccnt⟩ := hSc.node
    have hrd := read_node_of_nodeAt M btf _ child hchild
    have hcB := hB _ (pagesOf_kid btf.pm h _ ptr _ hptr hcm _ (pagesOf_head _ _ _))
    rw [hs.1] at hcB
    have hrdb : bt.read_node M (ptr.children.getD (scan ptr v ptr.count 0) 0) = child := by
      rw [← hs.read_node M _ (by omega) hcB.2]; exact hrd
    have hTc : Tree M btf.pm btf.header.count h M child.page_id := by
      rw [hcid]
      refine ⟨hSc, ?_, ?_⟩
      · have := hN
        simp only [pagesOf, hptr] at this
        rw [kids_split_at ptr _ hpos hlen] at this
        simp only [List.flatMap_append, List.flatMap_cons, List.nodup_cons,
          List.nodup_append] at this
        exact this.2.2.1.1
      · intro p hp
        exact hB p (pagesOf_kid btf.pm h _ ptr _ hptr hcm p hp)
    obtain ⟨bt1, btf1, child1, st1, r1, r2, r3⟩ :=
      insert_node_sim M hM h f bt btf child v k (by omega) hs hTc (by rw [hcid]; exact hchild) hA
    obtain ⟨btf2, child2, st2, hres, _, hnode1, _, hP1⟩ :=
      insert_node_spec M hM h f btf child v k (by omega) hTc (by rw [hcid]; exact hchild) hA
    rw [r2, Option.some.injEq, Prod.mk.injEq, Prod.mk.injEq] at hres
    obtain ⟨e1, e2, e3⟩ := hres
    subst e1 e2 e3
    rw [hcid] at hnode1 hP1
    obtain ⟨_, q2, _, ⟨qS, _, _⟩, _⟩ := hP1
    obtain ⟨n, hn, _, hn3, _⟩ := qS.node
    rw [hnode1, Option.some.injEq] at hn
    subst hn
    have hrd1 := read_node_of_nodeAt M btf1 _ child1 hnode1
    have hq2 : bt.header.count ≤ bt1.header.count := by
      rw [← hs.1, ← r3.1]; exact q2
    have hrd1b : bt1.read_node M (ptr.children.getD (scan ptr v ptr.count 0) 0) = child1 := by
      rw [← r3.read_node M _ (by omega) (by omega)]; exact hrd1
    rw [← hrdb] at r1
    rw [← hrd] at r2
    have s1 := btree.insert_node_step M f bt ptr v k bt1 child1 st1 hc0 r1
    have s2 := btree.insert_node_step M f btf ptr v k btf1 child1 st1 hc0 r2
    by_cases hov : st1 = state.BT_OVERFLOW
    · obtain ⟨g1, g2⟩ := r3.split (M := M) ptr (scan ptr v ptr.count 0)
        (by rw [hrd1b]; exact hn3) (by omega) (by omega)
      simp only [hov, if_true] at s1 s2
      rw [g1] at s2
      exact ⟨_, _, _, _, s1, s2, g2⟩
    · simp only [hov, if_false] at s1 s2
      exact ⟨_, _, _, _, s1, s2, r3⟩

/-- A top-level insert run on two engines that agree up to the page counter
leaves engines that agree up to the new page counter. -/
theorem insert_sim (M : Nat) (hM : 2 ≤ M) (bt btf : btree) (h fuel : Nat) (v k : Int)
    (hs : SameUpTo bt btf) (hI : Inv M btf h) (hf : h < fuel) :
    ∃ bt1 btf1, bt.insert M fuel v k = some bt1 ∧ btf.insert M fuel v k = some btf1 ∧
      SameUpTo bt1 btf1 := by
  obtain ⟨i1, i2, i3, i4⟩ := hI
  obtain ⟨root, hroot, hrid, hrsz, hrcnt⟩ := i3.1.node
  have hb1 := i3.2.2 1 (pagesOf_head _ _ _)
  have hrd : btf.read_node M btf.header.root_id = root := by
    rw [i1]; exact read_node_of_nodeAt M btf 1 root hroot
  have hrdb : bt.read_node M bt.header.root_id = root := by
    rw [← hs.1, ← hs.read_node M _ (by rw [i1]; omega) (by rw [← hs.1, i1]; exact hb1.2)]
    exact hrd
  obtain ⟨bt1, btf1, ptr1, st, r1, r2, r3⟩ := insert_node_sim M hM h fuel bt btf root v k hf hs
    (by rw [hrid]; exact i3) (by rw [hrid]; exact hroot) i4
  obtain ⟨btf2, ptr2, st2, hres, hp1, hn1, _, hP⟩ := insert_node_spec M hM h fuel btf root v k hf
    (by rw [hrid]; exact i3) (by rw [hrid]; exact hroot) i4
  rw [r2, Option.some.injEq, Prod.mk.injEq, Prod.mk.injEq] at hres
  obtain ⟨e1, e2, e3⟩ := hres
  subst e1 e2 e3
  rw [hrid] at hn1 hP hp1
  obtain ⟨q1, q2, _, ⟨qS, _, qB⟩, _⟩ := hP
  obtain ⟨n, hn, _, hn3, _⟩ := qS.node
  rw [hn1, Option.some.injEq] at hn
  subst hn
  have hstep1 : bt.insert M fuel v k =
      if st = state.BT_OVERFLOW then some (bt1.split_root M) else some bt1 := by
    unfold btree.insert
    simp only [hrdb, r1]
  have hstep2 : btf.insert M fuel v k =
      if st = state.BT_OVERFLOW then some (btf1.split_root M) else some btf1 := by
    unfold btree.insert
    simp only [hrd, r2]
  rw [hstep1, hstep2]
  have hr1 : btf1.header.root_id = 1 := q1.trans i1
  have hc1 := (qB 1 (pagesOf_head _ _ _)).2
  rw [r3.1] at hr1 hc1
  have hrd1 : bt1.read_node M bt1.header.root_id = ptr1 := by
    rw [hr1, ← r3.read_node M 1 (by omega) hc1]
    exact read_node_of_nodeAt M btf1 1 ptr1 hn1
  by_cases hov : st = state.BT_OVERFLOW
  · simp only [hov, if_true]
    exact ⟨_, _, rfl, rfl, r3.split_root (by rw [hrd1]; exact hn3) (by rw [hr1]; omega)
      (by rw [hr1]; exact hc1)⟩
  · simp only [hov, if_false]
    exact ⟨_, _, rfl, rfl, r3⟩

/-- A sequence of inserts run on two engines that agree up to the page counter
leaves engines that agree up to the new page counter. -/
theorem insert_all_sim (M : Nat) (hM : 2 ≤ M) (fuel : Nat) : ∀ (ops : List (Int × Int))
    (bt btf : btree) (h : Nat), SameUpTo bt btf → Inv M btf h → h + ops.length ≤ fuel →
    ∃ bt1 btf1, btree.insert_all M fuel bt ops = some bt1 ∧
      btree.insert_all M fuel btf ops = some btf1 ∧ SameUpTo bt1 btf1
  | [], bt, btf, _, hs, _, _ => ⟨bt, btf, rfl, rfl, hs⟩
  | op :: ops, bt, btf, h, hs, hI, hf => by
    simp only [List.length_cons] at hf
    obtain ⟨bt1, btf1, r1, r2, r3⟩ := insert_sim M hM bt btf h fuel op.1 op.2 hs hI (by omega)
    obtain ⟨btf2, h1, e1, _, e3, e4, _⟩ := insert_spec M hM btf h fuel op.1 op.2 hI (by omega)
    rw [r2, Option.some.injEq] at e1
    subst e1
    obtain ⟨bt2, btf2, g1, g2, g3⟩ := insert_all_sim M hM fuel ops bt1 btf1 h1 r3 e4 (by omega)
    exact ⟨bt2, btf2, by simp only [btree.insert_all, r1, g1],
      by simp only [btree.insert_all, r2, g2], g3⟩

/-- An engine constructed over any store agrees up to its page counter with
the engine constructed over the empty store. -/
theorem SameUpTo.new (M : Nat) (pm0 : pagemanager) :
    SameUpTo (btree.new M pm0) (btree.fresh M) := by
  refine ⟨rfl, ?_⟩
  intro p h0 h1
  have hc : (btree.new M pm0).header.count = 1 := rfl
  rw [hc] at h1
  simp only [btree.fresh, btree.new, node.new_page_id]
  by_cases e0 : p = 0
  · exact save_agree _ _ _ _ _ (Or.inr e0)
  · refine save_agree _ _ _ _ _ (Or.inl ?_)
    exact save_agree _ _ _ _ _ (Or.inr (by omega))

/-- The pages reachable in an engine are reachable in every engine that agrees
with it up to the page counter and holds a well-formed tree. -/
theorem SameUpTo.reach {M : Nat} {bt btf : btree} (hs : SameUpTo bt btf) (h : Nat) (r : Int)
    (hT : Tree M btf.pm btf.header.count h M r) (d : Nat) (p : Int) (hR : Reach bt.pm r d p) :
    Reach btf.pm r d p ∧ btf.pm.nodeAt p = bt.pm.nodeAt p := by
  have hin : ∀ q, Reach btf.pm r d q → btf.pm.nodeAt q = bt.pm.nodeAt q := by
    intro q hq
    obtain ⟨_, hTq⟩ := reach_tree M btf.pm btf.header.count h M r hT d q hq
    have hb := hTq.2.2 q (pagesOf_head _ _ _)
    rw [hs.1] at hb
    exact nodeAt_congr _ _ _ (hs.2 q (by omega) hb.2)
  induction hR with
  | root => exact ⟨Reach.root, hin _ Reach.root⟩
  | @child d p c n hR1 hn hcm hc0 ih =>
    have hin1 : ∀ q, Reach btf.pm r d q → btf.pm.nodeAt q = bt.pm.nodeAt q := by
      intro q hq
      obtain ⟨_, hTq⟩ := reach_tree M btf.pm btf.header.count h M r hT d q hq
      have hb := hTq.2.2 q (pagesOf_head _ _ _)
      rw [hs.1] at hb
      exact nodeAt_congr _ _ _ (hs.2 q (by omega) hb.2)
    obtain ⟨i1, i2⟩ := ih hin1
    have hR2 : Reach btf.pm r (d + 1) c := Reach.child i1 (by rw [i2]; exact hn) hcm hc0
    exact ⟨hR2, hin _ hR2⟩


/-! ## Page allocation over an empty store and over any store -/

/-- Over the empty store: for every sequence of inserts the state reached, the
states in which the recursive insert has returned from a reachable node, and
those states after one allocation, all allocate a page under which nothing is
stored; the page counter never went down on the way. -/
theorem alloc_fresh_store (M : Nat) (hM : 2 ≤ M) (ops : List (Int × Int))
    (fuel : Nat) (hf : ops.length < fuel) :
    ∃ bt, btree.insert_all M fuel (btree.fresh M) ops = some bt ∧ AllocOK M bt ∧
      (∀ ops1 ops2, ops = ops1 ++ ops2 →
        ∃ bt0, btree.insert_all M fuel (btree.fresh M) ops1 = some bt0 ∧
          bt0.header.count ≤ bt.header.count) ∧
      ∀ (v k : Int) (d : Nat) (ptr : node), Reach bt.pm bt.header.root_id d ptr.page_id →
        bt.pm.nodeAt ptr.page_id = some ptr →
        ∃ bt1 ptr1 st, bt.insert_node M fuel ptr v k = some (bt1, ptr1, st) ∧
          bt.header.count ≤ bt1.header.count ∧ AllocOK M bt1 ∧
          AllocOK M (bt1.new_node M).1 := by
  obtain ⟨bt, h, e1, hI, e3, hU⟩ :=
    insert_all_inrange M hM fuel ops (btree.fresh M) 0 (Inv_fresh M) (InRange_fresh M) (by omega)
  have hc : 1 ≤ bt.header.count := by
    have := hI.2.2.1.2.2 1 (pagesOf_head _ _ _)
    omega
  refine ⟨bt, e1, AllocOK.of_inrange hI.1 hc hU, ?_, ?_⟩
  · intro ops1 ops2 ho
    subst ho
    simp only [List.length_append] at hf
    obtain ⟨bt0, h0, g1, g2, g3, _⟩ :=
      insert_all_spec M hM fuel ops1 (btree.fresh M) 0 (Inv_fresh M) (by omega)
    refine ⟨bt0, g1, ?_⟩
    rw [btree.insert_all_append, g1] at e1
    exact insert_all_count_mono M hM fuel ops2 bt0 h0 g2 (by omega) bt e1
  · intro v k d ptr hR hptr
    exact insert_node_alloc M hM bt h fuel hI hU (by omega) v k d ptr hR hptr

theorem AllocNext.of_header {M : Nat} {s : btree} (hr : s.header.root_id = 1)
    (hc : 1 ≤ s.header.count) : AllocNext M s := by
  refine ⟨rfl, rfl, ?_, rfl, ?_, ?_, ?_⟩
  · simp [btree.new_node, pagemanager.save]
  · intro p hp
    show p < s.header.count + 1
    omega
  · show s.header.count + 1 ≠ 0
    omega
  · show s.header.count + 1 ≠ s.header.root_id
    omega


/-! ## Lookup (C1) -/

/-- C1 (as stated, refuted): with order 3, after `insert(value = 10, key = 10)` on
a fresh tree, `find(10)` reports `false`: the inserted key is not reported as
present. -/
theorem find_misses_inserted_key :
    ∃ bt, btree.insert_all 3 1 (btree.fresh 3) [(10, 10)] = some bt ∧ bt.find 10 = false :=
  ⟨_, rfl, rfl⟩

/-- C1 (amended): for every order `M ≥ 2` and every sequence of inserts on a
freshly constructed tree, the calls return and afterwards `find` reports
`false` for every argument, the inserted keys and values included; it yields
no value. -/
theorem find_always_false (M : Nat) (hM : 2 ≤ M) (ops : List (Int × Int)) (fuel : Nat)
    (hf : ops.length ≤ fuel) :
    ∃ bt, btree.insert_all M fuel (btree.fresh M) ops = some bt ∧
      (∀ op ∈ ops, bt.find op.2 = false ∧ bt.find op.1 = false) ∧ ∀ x, bt.find x = false := by
  obtain ⟨bt, h, e1, _⟩ :=
    insert_all_spec M hM fuel ops (btree.fresh M) 0 (Inv_fresh M) (by omega)
  exact ⟨bt, e1, fun _ _ => ⟨rfl, rfl⟩, fun _ => rfl⟩

/-- Witness of `find_always_false`: order 3, the keys 10 to 40. -/
theorem find_always_false_witness :
    2 ≤ 3 ∧ [((10 : Int), (10 : Int)), (20, 20), (30, 30), (40, 40)].length ≤ 4 ∧
    ∃ bt, btree.insert_all 3 4 (btree.fresh 3) [(10, 10), (20, 20), (30, 30), (40, 40)]
        = some bt ∧
      (∀ op ∈ [((10 : Int), (10 : Int)), (20, 20), (30, 30), (40, 40)],
        bt.find op.2 = false ∧ bt.find op.1 = false) ∧ ∀ x, bt.find x = false :=
  ⟨by decide, by decide, find_always_false 3 (by decide) _ 4 (by decide)⟩

/-! ## Construction over an existing store (C3) -/

/-- C3 (as stated, refuted): with order 3, constructing a tree over the store
left by the inserts of 10, 20, 30, 40 (each with a value equal to its key)
replaces the stored root, which held the key 20 over the pages 2 and 3, by an
empty node, and the stored metadata counter 3 by 1. -/
theorem new_overwrites_stored_root :
    ∃ bt r, btree.insert_all 3 4 (btree.fresh 3)
        [(10, 10), (20, 20), (30, 30), (40, 40)] = some bt ∧
      bt.pm.nodeAt 1 = some r ∧ r.keyList = [20] ∧ r.kids = [2, 3] ∧
      bt.pm 0 = some (Page.header { root_id := 1, count := 3 }) ∧
      (btree.new 3 bt.pm).pm.nodeAt 1 = some (node.new 3 1) ∧
      (btree.new 3 bt.pm).pm 0 = some (Page.header { root_id := 1, count := 1 }) ∧
      (btree.new 3 bt.pm).pm.nodeAt 1 ≠ bt.pm.nodeAt 1 ∧
      (btree.new 3 bt.pm).pm 0 ≠ bt.pm 0 :=
  ⟨_, _, rfl, rfl, rfl, rfl, rfl, rfl, rfl, by decide, by decide⟩

/-- C3 (amended): the constructor never reads the page store.  Over any store,
also one that already holds a tree, it sets the header to root id 1 and
counter 1, saves it under page 0, saves an empty root (count 0, all keys and
children 0) under page 1, and leaves every other page as it was. -/
theorem new_resets_root_and_header (M : Nat) (pm : pagemanager) :
    (btree.new M pm).header = { root_id := 1, count := 1 } ∧
    (btree.new M pm).pm 0 = some (Page.header { root_id := 1, count := 1 }) ∧
    (btree.new M pm).pm.nodeAt 1 = some (node.new M 1) ∧
    ∀ p, p ≠ 0 → p ≠ 1 → (btree.new M pm).pm p = pm p := by
  refine ⟨rfl, rfl, ?_, ?_⟩
  · simp only [btree.new, node.new_page_id]
    rw [nodeAt_save_ne _ _ _ _ (by decide), nodeAt_save_node]
  · intro p h0 h1
    simp only [btree.new, node.new_page_id, pagemanager.save, if_neg h0, if_neg h1]

/-! ## Balance and node capacity (C4, C5, C6) -/

/-- C4: for every order `M ≥ 2` and every sequence of `insert(value, key)`
calls on a freshly constructed tree, the calls return (given fuel for the
recursion that covers the number of calls) and afterwards all leaves
reachable from the root lie at the same depth (and there is such a leaf).
Every prefix of a sequence is a sequence, so this holds after each call. -/
theorem insert_all_balanced (M : Nat) (hM : 2 ≤ M) (ops : List (Int × Int)) (fuel : Nat)
    (hf : ops.length ≤ fuel) :
    ∃ bt, btree.insert_all M fuel (btree.fresh M) ops = some bt ∧ bt.Balanced ∧
      ∃ d p, bt.LeafAt d p := by
  obtain ⟨bt, h, e1, e2, _, _⟩ :=
    insert_all_spec M hM fuel ops (btree.fresh M) 0 (Inv_fresh M) (by omega)
  exact ⟨bt, e1, e2.balanced, e2.leaf_exists⟩

/-- Witness of `insert_all_balanced`: order 3, the keys 10 to 50. -/
theorem insert_all_balanced_witness :
    2 ≤ 3 ∧ [((10 : Int), (10 : Int)), (20, 20), (30, 30), (40, 40), (50, 50)].length ≤ 5 ∧
    ∃ bt, btree.insert_all 3 5 (btree.fresh 3)
      [(10, 10), (20, 20), (30, 30), (40, 40), (50, 50)] = some bt ∧ bt.Balanced ∧
      ∃ d p, bt.LeafAt d p :=
  ⟨by decide, by decide, insert_all_balanced 3 (by decide) _ 5 (by decide)⟩

/-- C5: for every order `M ≥ 2` and every sequence of `insert(value, key)`
calls on a freshly constructed tree, the calls return and afterwards every
node reachable from the root holds at most `M` keys.  Inside a further call,
when the recursive `insert(node&, value, key)` has returned and the root split
is still to come, every reachable node holds at most `M + 1` keys and only the
root can hold more than `M`. -/
theorem insert_all_count_le (M : Nat) (hM : 2 ≤ M) (ops : List (Int × Int)) (fuel : Nat)
    (hf : ops.length ≤ fuel) :
    ∃ bt, btree.insert_all M fuel (btree.fresh M) ops = some bt ∧
      (∀ d p n, Reach bt.pm bt.header.root_id d p → bt.pm.nodeAt p = some n → n.count ≤ M) ∧
      ∀ v k, ∃ bt1 ptr st,
        bt.insert_node M (fuel + 1) (bt.read_node M bt.header.root_id) v k = some (bt1, ptr, st) ∧
        ∀ d p n, Reach bt1.pm bt1.header.root_id d p → bt1.pm.nodeAt p = some n →
          n.count ≤ M + 1 ∧ (0 < d → n.count ≤ M) := by
  obtain ⟨bt, h, e1, hI, e3, _⟩ :=
    insert_all_spec M hM fuel ops (btree.fresh M) 0 (Inv_fresh M) (by omega)
  obtain ⟨i1, _, i3, i4⟩ := hI
  refine ⟨bt, e1, ?_, ?_⟩
  · intro d p n hR hn
    rw [i1] at hR
    exact reach_count_le M bt.pm h 1 i3.1 d p n hR hn
  · intro v k
    obtain ⟨root, hroot, hrid, _, _⟩ := i3.1.node
    have hrd : bt.read_node M bt.header.root_id = root := by
      rw [i1]; exact read_node_of_nodeAt M bt 1 root hroot
    obtain ⟨bt1, ptr1, st, hres, _, _, _, hP⟩ := insert_node_spec M hM h (fuel + 1) bt root v k
      (by omega) (by rw [hrid]; exact i3) (by rw [hrid]; exact hroot) i4
    rw [hrid] at hP
    obtain ⟨q1, _, _, ⟨qS, _, _⟩, _⟩ := hP
    refine ⟨bt1, ptr1, st, by rw [hrd]; exact hres, ?_⟩
    intro d p n hR hn
    rw [q1, i1] at hR
    obtain ⟨_, h2⟩ := reach_sub M bt1.pm h (M + 1) 1 qS d p hR
    obtain ⟨n', a1, _, _, a4⟩ := h2.node
    rw [hn, Option.some.injEq] at a1
    subst a1
    by_cases hd : d = 0
    · rw [if_pos hd] at a4
      exact ⟨a4, fun h0 => by omega⟩
    · rw [if_neg hd] at a4
      exact ⟨by omega, fun _ => a4⟩

/-- Witness of `insert_all_count_le`: order 3, the keys 10 to 50. -/
theorem insert_all_count_le_witness :
    2 ≤ 3 ∧ [((10 : Int), (10 : Int)), (20, 20), (30, 30), (40, 40), (50, 50)].length ≤ 5 ∧
    ∃ bt, btree.insert_all 3 5 (btree.fresh 3)
      [(10, 10), (20, 20), (30, 30), (40, 40), (50, 50)] = some bt ∧
      (∀ d p n, Reach bt.pm bt.header.root_id d p → bt.pm.nodeAt p = some n → n.count ≤ 3) ∧
      ∀ v k, ∃ bt1 ptr st,
        bt.insert_node 3 (5 + 1) (bt.read_node 3 bt.header.root_id) v k = some (bt1, ptr, st) ∧
        ∀ d p n, Reach bt1.pm bt1.header.root_id d p → bt1.pm.nodeAt p = some n →
          n.count ≤ 3 + 1 ∧ (0 < d → n.count ≤ 3) :=
  ⟨by decide, by decide, insert_all_count_le 3 (by decide) _ 5 (by decide)⟩

/-- C6 (as stated, refuted): with order 3, after the inserts of 10, 20, 30, 40,
50 (each with a value equal to its key) the raw page 3, abandoned by the split
of the right leaf, still holds a record with 4 keys. -/
theorem abandoned_page_keeps_overflow :
    ∃ bt n, btree.insert_all 3 5 (btree.fresh 3)
        [(10, 10), (20, 20), (30, 30), (40, 40), (50, 50)] = some bt ∧
      bt.pm.nodeAt 3 = some n ∧ n.count = 4 ∧ n.keyList = [20, 30, 40, 50] ∧
      ¬ n.count ≤ 3 :=
  ⟨_, _, rfl, rfl, rfl, rfl, by decide⟩

/-- C6 (amended): for every order `M ≥ 2` and every sequence of inserts on a
freshly constructed tree, afterwards every node record stored under a page id
`≥ 1` holds at most `M + 1` keys, and every record that is still reachable from
the root holds at most `M` keys. -/
theorem stored_pages_count_le (M : Nat) (hM : 2 ≤ M) (ops : List (Int × Int)) (fuel : Nat)
    (hf : ops.length ≤ fuel) :
    ∃ bt, btree.insert_all M fuel (btree.fresh M) ops = some bt ∧
      (∀ p n, 1 ≤ p → bt.pm.nodeAt p = some n → n.count ≤ M + 1) ∧
      ∀ d p n, Reach bt.pm bt.header.root_id d p → bt.pm.nodeAt p = some n → n.count ≤ M := by
  obtain ⟨bt, h, e1, ⟨i1, _, ⟨i3, _, _⟩, i4⟩, _, _⟩ :=
    insert_all_spec M hM fuel ops (btree.fresh M) 0 (Inv_fresh M) (by omega)
  refine ⟨bt, e1, fun p n _ hn => i4 p n hn, ?_⟩
  intro d p n hR hn
  rw [i1] at hR
  exact reach_count_le M bt.pm h 1 i3 d p n hR hn

/-- Witness of `stored_pages_count_le`: order 3, the keys 10 to 50. -/
theorem stored_pages_count_le_witness :
    2 ≤ 3 ∧ [((10 : Int), (10 : Int)), (20, 20), (30, 30), (40, 40), (50, 50)].length ≤ 5 ∧
    ∃ bt, btree.insert_all 3 5 (btree.fresh 3)
      [(10, 10), (20, 20), (30, 30), (40, 40), (50, 50)] = some bt ∧
      (∀ p n, 1 ≤ p → bt.pm.nodeAt p = some n → n.count ≤ 3 + 1) ∧
      ∀ d p n, Reach bt.pm bt.header.root_id d p → bt.pm.nodeAt p = some n → n.count ≤ 3 :=
  ⟨by decide, by decide, stored_pages_count_le 3 (by decide) _ 5 (by decide)⟩


/-! ## Duplicate keys (C2) -/

/-- C2 (as stated, refuted): with order 3, on the tree built by
`insert(value = 10, key = 10)` a second `insert(value = 10, key = 10)` returns
normally and changes the root page: it now holds the key 10 twice. -/
theorem duplicate_insert_changes_root :
    ∃ bt bt' n n', btree.insert_all 3 1 (btree.fresh 3) [(10, 10)] = some bt ∧
      bt.insert 3 1 10 10 = some bt' ∧
      bt.pm.nodeAt bt.header.root_id = some n ∧ bt'.pm.nodeAt bt'.header.root_id = some n' ∧
      n.keyList = [10] ∧ n'.keyList = [10, 10] ∧ n' ≠ n :=
  ⟨_, _, _, _, rfl, rfl, rfl, rfl, rfl, rfl, by decide⟩

/-- C2 (amended): for every order `M ≥ 2`, every tree built by insert calls and
every key already inserted, a further insert of that key is not rejected: the
call returns normally and the leaves reachable from the root hold one more
entry with that key than before (at least two afterwards), so the stored tree
changes. -/
theorem duplicate_insert_accepted (M : Nat) (hM : 2 ≤ M) (ops : List (Int × Int))
    (fuel : Nat) (hf : ops.length < fuel) (v k : Int)
    (hk : k ∈ ops.map (fun op => op.2)) :
    ∃ bt bt', btree.insert_all M fuel (btree.fresh M) ops = some bt ∧
      bt.insert M fuel v k = some bt' ∧
      ∀ t, ops.length + 1 < t →
        1 ≤ (leaf_keys bt.pm t bt.header.root_id).count k ∧
        (leaf_keys bt'.pm t bt'.header.root_id).count k =
          (leaf_keys bt.pm t bt.header.root_id).count k + 1 := by
  obtain ⟨bt, h, e1, e2, e3, e4⟩ :=
    insert_all_spec M hM fuel ops (btree.fresh M) 0 (Inv_fresh M) (by omega)
  obtain ⟨bt', h', g1, g2, g3, g4, l1, l2, g5, g6⟩ :=
    insert_spec M hM bt h fuel v k e2 (by omega)
  refine ⟨bt, bt', e1, g1, ?_⟩
  intro t ht
  rw [e2.leaf_keys_root t (by omega), g4.leaf_keys_root t (by omega), g5, g6]
  constructor
  · rw [← g5, e4.count_eq, leafKeys_fresh, List.append_nil]
    exact List.count_pos_iff.mpr hk
  · simp [List.count_append]
    omega

/-- Witness of `duplicate_insert_accepted`: order 3, the key 10 inserted
twice. -/
theorem duplicate_insert_accepted_witness :
    2 ≤ 3 ∧ [((10 : Int), (10 : Int))].length < 2 ∧
    (10 : Int) ∈ [((10 : Int), (10 : Int))].map (fun op => op.2) ∧
    ∃ bt bt', btree.insert_all 3 2 (btree.fresh 3) [(10, 10)] = some bt ∧
      bt.insert 3 2 10 10 = some bt' ∧
      ∀ t, [((10 : Int), (10 : Int))].length + 1 < t →
        1 ≤ (leaf_keys bt.pm t bt.header.root_id).count 10 ∧
        (leaf_keys bt'.pm t bt'.header.root_id).count 10 =
          (leaf_keys bt.pm t bt.header.root_id).count 10 + 1 :=
  ⟨by decide, by decide, by decide,
    duplicate_insert_accepted 3 (by decide) [(10, 10)] 2 (by decide) 10 10 (by decide)⟩

/-! ## Order of the keys in a node (C8, C9) -/

/-- C8 (failing input): with order 3, `insert(value = 1, key = 10)` followed by
`insert(value = 50, key = 5)` on a fresh tree leaves the root with the
populated keys `10, 5`, which are not ascending: the scan compares the stored
key 10 with the value 50 and places the key 5 after it. -/
theorem keys_not_ascending_for_unrelated_values :
    ∃ bt n, btree.insert_all 3 2 (btree.fresh 3) [(1, 10), (50, 5)] = some bt ∧
      bt.pm.nodeAt bt.header.root_id = some n ∧ n.keyList = [10, 5] :=
  ⟨_, _, rfl, rfl, rfl⟩

/-- C9 (failing input): with order 3 and the values 1, 2, 3, 4 attached to the
keys 10, 20, 30, 40, inserting in ascending key order gives the root key 30
over the leaves `40` and `30, 20, 10`, while inserting in descending key order
gives the root key 20 over the leaves `10` and `20, 30, 40`. -/
theorem insertion_order_changes_tree :
    ∃ bt bt' r l g r' l' g',
      btree.insert_all 3 4 (btree.fresh 3) [(1, 10), (2, 20), (3, 30), (4, 40)] = some bt ∧
      btree.insert_all 3 4 (btree.fresh 3) [(4, 40), (3, 30), (2, 20), (1, 10)] = some bt' ∧
      bt.pm.nodeAt bt.header.root_id = some r ∧ r.kids = [2, 3] ∧
      bt.pm.nodeAt 2 = some l ∧ bt.pm.nodeAt 3 = some g ∧
      bt'.pm.nodeAt bt'.header.root_id = some r' ∧ r'.kids = [2, 3] ∧
      bt'.pm.nodeAt 2 = some l' ∧ bt'.pm.nodeAt 3 = some g' ∧
      r.keyList = [30] ∧ l.keyList = [40] ∧ g.keyList = [30, 20, 10] ∧
      r'.keyList = [20] ∧ l'.keyList = [10] ∧ g'.keyList = [20, 30, 40] :=
  ⟨_, _, _, _, _, _, _, _, rfl, rfl, rfl, rfl, rfl, rfl, rfl, rfl, rfl, rfl, rfl, rfl, rfl, rfl,
    rfl, rfl⟩

/-! ## Duplicate keys across nodes (C10) -/

/-- C10 (as stated, refuted): with order 3, after the inserts of 10, 20, 30, 40
(each with a value equal to its key) the key 20 occupies two populated slots
of reachable nodes: slot 0 of the root (page 1) and slot 0 of its right child
(page 3). -/
theorem separator_repeats_leaf_key :
    ∃ bt r n, btree.insert_all 3 4 (btree.fresh 3)
        [(10, 10), (20, 20), (30, 30), (40, 40)] = some bt ∧
      bt.pm.nodeAt 1 = some r ∧ bt.pm.nodeAt 3 = some n ∧
      Reach bt.pm bt.header.root_id 0 1 ∧ Reach bt.pm bt.header.root_id 1 3 ∧
      r.keyList = [20] ∧ n.keyList = [20, 30, 40] :=
  ⟨_, _, _, rfl, rfl, rfl, Reach.root,
    Reach.child (p := 1) (c := 3) Reach.root rfl (by decide) (by decide), rfl, rfl⟩


/-! ## The split point (C7) -/

/-- C7 (as stated, refuted): with order 3, after the inserts of 10, 20, 30, 40
(each with a value equal to its key) the root holds the key 20, its left child
the single key 10 and its right child the three keys 20, 30, 40: the left
node received 1 entry, not `(3 + 1) / 2 = 2`, and the children do not hold 2
keys each. -/
theorem split_of_four_keys_is_one_three :
    ∃ bt rt L R, btree.insert_all 3 4 (btree.fresh 3)
        [(10, 10), (20, 20), (30, 30), (40, 40)] = some bt ∧
      bt.pm.nodeAt bt.header.root_id = some rt ∧ rt.kids = [2, 3] ∧
      bt.pm.nodeAt 2 = some L ∧ bt.pm.nodeAt 3 = some R ∧
      rt.keyList = [20] ∧ L.keyList = [10] ∧ R.keyList = [20, 30, 40] ∧
      L.count ≠ (3 + 1) / 2 ∧ ¬ (L.count = 2 ∧ R.count = 2) :=
  ⟨_, _, _, _, rfl, rfl, rfl, rfl, rfl, rfl, rfl, rfl, by decide, by decide⟩

/-- C7 (amended): for every order `M`, `split` and `split_root` partition the
keys of the overflowed node `C` at the index `M / 2`: the fresh left node
receives exactly the `M / 2` keys before that index and the promoted key is
`C.keys[M / 2]` (inserted at `pos` in the parent by `split`, the only key of
the root after `split_root`), the two fresh pages taking the child slots.  In
particular, with order 3, inserting the keys 10, 20, 30, 40 in this order, with
any values, into a fresh tree leaves a root with exactly 1 key whose left child
holds 1 key and whose right child holds 3 keys. -/
theorem split_partitions_at_half (M : Nat) (bt : btree) (parent : node) (pos : Nat)
    (hs : parent.sized M) (hp : pos ≤ parent.count) (hc : parent.count ≤ M)
    (hC : (bt.read_node M (parent.children.getD pos 0)).sized M)
    (h1 : 1 ≤ parent.page_id) (h2 : parent.page_id ≤ bt.header.count)
    (hR : (bt.read_node M bt.header.root_id).sized M)
    (hr : (bt.read_node M bt.header.root_id).page_id = bt.header.root_id)
    (h3 : 1 ≤ bt.header.root_id) (h4 : bt.header.root_id ≤ bt.header.count) :
    (∃ L, (bt.split M parent pos).1.pm.nodeAt (bt.header.count + 1) = some L ∧
      L.count = M / 2 ∧
      L.keyList = (bt.read_node M (parent.children.getD pos 0)).keys.take (M / 2) ∧
      (bt.split M parent pos).2.keyList = parent.keyList.take pos ++
        (bt.read_node M (parent.children.getD pos 0)).keys.getD (M / 2) 0 ::
        parent.keyList.drop pos ∧
      (bt.split M parent pos).2.kids = parent.kids.take pos ++
        (bt.header.count + 1) :: (bt.header.count + 1 + 1) :: parent.kids.drop (pos + 1)) ∧
    (∃ rt L, (bt.split_root M).pm.nodeAt bt.header.root_id = some rt ∧
      (bt.split_root M).pm.nodeAt (bt.header.count + 1) = some L ∧
      L.count = M / 2 ∧
      L.keyList = (bt.read_node M bt.header.root_id).keys.take (M / 2) ∧
      rt.keyList = [(bt.read_node M bt.header.root_id).keys.getD (M / 2) 0] ∧
      rt.kids = [bt.header.count + 1, bt.header.count + 1 + 1]) ∧
    ∀ a b c d : Int, ∃ t rt l r L R,
      btree.insert_all 3 4 (btree.fresh 3) [(a, 10), (b, 20), (c, 30), (d, 40)] = some t ∧
      t.pm.nodeAt 1 = some rt ∧ rt.count = 1 ∧ rt.kids = [l, r] ∧
      t.pm.nodeAt l = some L ∧ t.pm.nodeAt r = some R ∧ L.count = 1 ∧ R.count = 3 := by
  refine ⟨?_, ?_, ?_⟩
  · obtain ⟨_, _, _, s4, s5⟩ := btree.split_snd_spec M bt parent pos hs hp hc hC
    obtain ⟨_, t2, _⟩ := btree.split_store M bt parent pos hC h1 h2
    obtain ⟨_, _, _, _, _, _, _, _, a9, a10, _⟩ :=
      halves_spec M _ (bt.header.count + 1) (bt.header.count + 1 + 1) hC
    exact ⟨_, t2, a9, a10, s5, s4⟩
  · obtain ⟨⟨rt, t1, _, _, _, t1d, t1e⟩, t2, _⟩ := btree.split_root_store M bt hR hr h3 h4
    obtain ⟨_, _, _, _, _, _, _, _, a9, a10, _⟩ :=
      halves_spec M _ (bt.header.count + 1) (bt.header.count + 1 + 1) hR
    exact ⟨rt, _, t1, t2, a9, a10, t1e, t1d⟩
  · intro a b c d
    exact first_root_split 3 (by decide) 4 (by decide) [(a, 10), (b, 20), (c, 30), (d, 40)] rfl

/-- Witness of `split_partitions_at_half`: order 3, the state `example_overflow`
with the parent `example_parent` and the child slot 1. -/
theorem split_partitions_at_half_witness :
    example_parent.sized 3 ∧ 1 ≤ example_parent.count ∧ example_parent.count ≤ 3 ∧
    (example_overflow.read_node 3 (example_parent.children.getD 1 0)).sized 3 ∧
    1 ≤ example_parent.page_id ∧ example_parent.page_id ≤ example_overflow.header.count ∧
    (example_overflow.read_node 3 example_overflow.header.root_id).sized 3 ∧
    (example_overflow.read_node 3 example_overflow.header.root_id).page_id =
      example_overflow.header.root_id ∧
    1 ≤ example_overflow.header.root_id ∧
    example_overflow.header.root_id ≤ example_overflow.header.count ∧
    ((∃ L, (example_overflow.split 3 example_parent 1).1.pm.nodeAt
        (example_overflow.header.count + 1) = some L ∧
      L.count = 3 / 2 ∧
      L.keyList = (example_overflow.read_node 3
        (example_parent.children.getD 1 0)).keys.take (3 / 2) ∧
      (example_overflow.split 3 example_parent 1).2.keyList = example_parent.keyList.take 1 ++
        (example_overflow.read_node 3 (example_parent.children.getD 1 0)).keys.getD (3 / 2) 0 ::
        example_parent.keyList.drop 1 ∧
      (example_overflow.split 3 example_parent 1).2.kids = example_parent.kids.take 1 ++
        (example_overflow.header.count + 1) :: (example_overflow.header.count + 1 + 1) ::
          example_parent.kids.drop (1 + 1)) ∧
    (∃ rt L, (example_overflow.split_root 3).pm.nodeAt example_overflow.header.root_id
        = some rt ∧
      (example_overflow.split_root 3).pm.nodeAt (example_overflow.header.count + 1) = some L ∧
      L.count = 3 / 2 ∧
      L.keyList = (example_overflow.read_node 3 example_overflow.header.root_id).keys.take
        (3 / 2) ∧
      rt.keyList =
        [(example_overflow.read_node 3 example_overflow.header.root_id).keys.getD (3 / 2) 0] ∧
      rt.kids = [example_overflow.header.count + 1, example_overflow.header.count + 1 + 1]) ∧
    ∀ a b c d : Int, ∃ t rt l r L R,
      btree.insert_all 3 4 (btree.fresh 3) [(a, 10), (b, 20), (c, 30), (d, 40)] = some t ∧
      t.pm.nodeAt 1 = some rt ∧ rt.count = 1 ∧ rt.kids = [l, r] ∧
      t.pm.nodeAt l = some L ∧ t.pm.nodeAt r = some R ∧ L.count = 1 ∧ R.count = 3) :=
  ⟨⟨rfl, rfl, rfl⟩, by decide, by decide, ⟨rfl, rfl, rfl⟩, by decide, by decide,
    ⟨rfl, rfl, rfl⟩, rfl, by decide, by decide,
    split_partitions_at_half 3 example_overflow example_parent 1 ⟨rfl, rfl, rfl⟩ (by decide)
      (by decide) ⟨rfl, rfl, rfl⟩ (by decide) (by decide) ⟨rfl, rfl, rfl⟩ rfl (by decide)
      (by decide)⟩


/-! ## The root split (C11) -/

/-- C11: when the root stored under the root id is a well-formed record (in
particular when it holds `M + 1` entries), `split_root` leaves the root id of
the metadata unchanged and overwrites the page under that id with a node whose
count is 1, whose `children[0]` and `children[1]` are the page ids of two
distinct nodes `L` and `R` allocated by the two `new_node` calls (ids beyond
the old counter), both written to the store under their ids, and whose
`keys[0]` is the old root's key that follows the keys copied into `L`. -/
theorem split_root_overwrites_root_page (M : Nat) (bt : btree)
    (hR : (bt.read_node M bt.header.root_id).sized M)
    (hr : (bt.read_node M bt.header.root_id).page_id = bt.header.root_id)
    (h3 : 1 ≤ bt.header.root_id) (h4 : bt.header.root_id ≤ bt.header.count) :
    (bt.split_root M).header.root_id = bt.header.root_id ∧
    ∃ rt L R, (bt.split_root M).pm.nodeAt bt.header.root_id = some rt ∧
      rt.page_id = bt.header.root_id ∧ rt.count = 1 ∧
      rt.children.getD 0 0 = L.page_id ∧ rt.children.getD 1 0 = R.page_id ∧
      L.page_id ≠ R.page_id ∧
      L.page_id = (bt.new_node M).2.page_id ∧
      R.page_id = ((bt.new_node M).1.new_node M).2.page_id ∧
      bt.header.count < L.page_id ∧ bt.header.count < R.page_id ∧
      (bt.split_root M).pm.nodeAt L.page_id = some L ∧
      (bt.split_root M).pm.nodeAt R.page_id = some R ∧
      L.keyList = (bt.read_node M bt.header.root_id).keys.take L.count ∧
      rt.keys.getD 0 0 = (bt.read_node M bt.header.root_id).keys.getD L.count 0 := by
  obtain ⟨⟨rt, t1, t1a, _, t1c, t1d, t1e⟩, t2, t3, _⟩ := btree.split_root_store M bt hR hr h3 h4
  obtain ⟨a1, a2, _, _, _, _, _, _, a9, a10, _⟩ :=
    halves_spec M _ (bt.header.count + 1) (bt.header.count + 1 + 1) hR
  simp only [node.kids, node.keyList, t1c] at t1d t1e
  obtain ⟨k1, k2⟩ := take_two_getD _ _ _ t1d
  have k3 := take_one_getD _ _ t1e
  refine ⟨rfl, rt, _, _, t1, t1a, t1c, by rw [a1]; exact k1, by rw [a2]; exact k2,
    by rw [a1, a2]; omega, a1, a2, by rw [a1]; omega, by rw [a2]; omega,
    by rw [a1]; exact t2, by rw [a2]; exact t3, by rw [a9]; exact a10, by rw [a9]; exact k3⟩

/-- Witness of `split_root_overwrites_root_page`: order 3, the engine inside
`insert(40, 40)` with the leaf root holding 10, 20, 30, 40. -/
theorem split_root_overwrites_root_page_witness :
    (example_leaf_root.read_node 3 example_leaf_root.header.root_id).sized 3 ∧
    (example_leaf_root.read_node 3 example_leaf_root.header.root_id).page_id =
      example_leaf_root.header.root_id ∧
    1 ≤ example_leaf_root.header.root_id ∧
    example_leaf_root.header.root_id ≤ example_leaf_root.header.count ∧
    (example_leaf_root.split_root 3).header.root_id = example_leaf_root.header.root_id ∧
    ∃ rt L R, (example_leaf_root.split_root 3).pm.nodeAt example_leaf_root.header.root_id
        = some rt ∧
      rt.page_id = example_leaf_root.header.root_id ∧ rt.count = 1 ∧
      rt.children.getD 0 0 = L.page_id ∧ rt.children.getD 1 0 = R.page_id ∧
      L.page_id ≠ R.page_id ∧
      L.page_id = (example_leaf_root.new_node 3).2.page_id ∧
      R.page_id = ((example_leaf_root.new_node 3).1.new_node 3).2.page_id ∧
      example_leaf_root.header.count < L.page_id ∧ example_leaf_root.header.count < R.page_id ∧
      (example_leaf_root.split_root 3).pm.nodeAt L.page_id = some L ∧
      (example_leaf_root.split_root 3).pm.nodeAt R.page_id = some R ∧
      L.keyList = (example_leaf_root.read_node 3 example_leaf_root.header.root_id).keys.take
        L.count ∧
      rt.keys.getD 0 0 =
        (example_leaf_root.read_node 3 example_leaf_root.header.root_id).keys.getD L.count 0 :=
  ⟨⟨rfl, rfl, rfl⟩, rfl, by decide, by decide,
    split_root_overwrites_root_page 3 example_leaf_root ⟨rfl, rfl, rfl⟩ rfl (by decide)
      (by decide)⟩


/-! ## What a split keeps (C12, C13) -/

/-- C12: for every order `M`, when the overflowed node `C` (the child in slot
`pos` for `split`, the root for `split_root`) is a leaf with `M + 1` entries
whose child slots all hold the sentinel, the two fresh nodes `L` and `R` are
leaves, the entries of `L` followed by the entries of `R` are the entries of
`C` in their order, `L.count + R.count = M + 1`, and the first entry of `R` is
the promoted key `C.keys[M / 2]` with its value `C.data[M / 2]`. -/
theorem leaf_split_keeps_entries (M : Nat) (bt : btree) (parent : node) (pos : Nat)
    (hs : parent.sized M) (hp : pos ≤ parent.count) (hc : parent.count ≤ M)
    (h1 : 1 ≤ parent.page_id) (h2 : parent.page_id ≤ bt.header.count)
    (hC : (bt.read_node M (parent.children.getD pos 0)).sized M)
    (hCc : (bt.read_node M (parent.children.getD pos 0)).count = M + 1)
    (hCk : ∀ c ∈ (bt.read_node M (parent.children.getD pos 0)).kids, c = 0)
    (bt2 : btree)
    (hR : (bt2.read_node M bt2.header.root_id).sized M)
    (hr : (bt2.read_node M bt2.header.root_id).page_id = bt2.header.root_id)
    (h3 : 1 ≤ bt2.header.root_id) (h4 : bt2.header.root_id ≤ bt2.header.count)
    (hRc : (bt2.read_node M bt2.header.root_id).count = M + 1)
    (hRk : ∀ c ∈ (bt2.read_node M bt2.header.root_id).kids, c = 0) :
    (∃ L R, (bt.split M parent pos).1.pm.nodeAt (bt.header.count + 1) = some L ∧
      (bt.split M parent pos).1.pm.nodeAt (bt.header.count + 1 + 1) = some R ∧
      (bt.split M parent pos).2.kids = parent.kids.take pos ++
        (bt.header.count + 1) :: (bt.header.count + 1 + 1) :: parent.kids.drop (pos + 1) ∧
      (bt.split M parent pos).2.keyList = parent.keyList.take pos ++
        (bt.read_node M (parent.children.getD pos 0)).keys.getD (M / 2) 0 ::
        parent.keyList.drop pos ∧
      L.is_leaf ∧ R.is_leaf ∧
      L.entries ++ R.entries = (bt.read_node M (parent.children.getD pos 0)).entries ∧
      L.count + R.count = M + 1 ∧
      R.entries.head? = some ((bt.read_node M (parent.children.getD pos 0)).keys.getD (M / 2) 0,
        (bt.read_node M (parent.children.getD pos 0)).data.getD (M / 2) 0)) ∧
    (∃ rt L R, (bt2.split_root M).pm.nodeAt bt2.header.root_id = some rt ∧
      (bt2.split_root M).pm.nodeAt (bt2.header.count + 1) = some L ∧
      (bt2.split_root M).pm.nodeAt (bt2.header.count + 1 + 1) = some R ∧
      rt.kids = [bt2.header.count + 1, bt2.header.count + 1 + 1] ∧
      rt.keyList = [(bt2.read_node M bt2.header.root_id).keys.getD (M / 2) 0] ∧
      L.is_leaf ∧ R.is_leaf ∧
      L.entries ++ R.entries = (bt2.read_node M bt2.header.root_id).entries ∧
      L.count + R.count = M + 1 ∧
      R.entries.head? = some ((bt2.read_node M bt2.header.root_id).keys.getD (M / 2) 0,
        (bt2.read_node M bt2.header.root_id).data.getD (M / 2) 0)) := by
  constructor
  · obtain ⟨_, _, _, s4, s5⟩ := btree.split_snd_spec M bt parent pos hs hp hc hC
    obtain ⟨_, t2, t3, _⟩ := btree.split_store M bt parent pos hC h1 h2
    obtain ⟨f1, f2, f3, f4, f5, _, _⟩ := halves_leaf_facts M _ (bt.header.count + 1)
      (bt.header.count + 1 + 1) hC hCc hCk
    exact ⟨_, _, t2, t3, s4, s5, f4, f5, f1, f2, f3⟩
  · obtain ⟨⟨rt, t1, _, _, _, t1d, t1e⟩, t2, t3, _⟩ := btree.split_root_store M bt2 hR hr h3 h4
    obtain ⟨f1, f2, f3, f4, f5, _, _⟩ := halves_leaf_facts M _ (bt2.header.count + 1)
      (bt2.header.count + 1 + 1) hR hRc hRk
    exact ⟨rt, _, _, t1, t2, t3, t1d, t1e, f4, f5, f1, f2, f3⟩

/-- Witness of `leaf_split_keeps_entries`: order 3, `split` on the state
`example_overflow` (leaf page 3 with 20, 30, 40, 50 under the root) and
`split_root` on the state `example_leaf_root`. -/
theorem leaf_split_keeps_entries_witness :
    ∃ L R L2 R2, (example_overflow.split 3 example_parent 1).1.pm.nodeAt 4 = some L ∧
      (example_overflow.split 3 example_parent 1).1.pm.nodeAt 5 = some R ∧
      L.entries = [(20, 20)] ∧ R.entries = [(30, 30), (40, 40), (50, 50)] ∧
      (example_overflow.read_node 3 3).entries = [(20, 20), (30, 30), (40, 40), (50, 50)] ∧
      (example_leaf_root.split_root 3).pm.nodeAt 2 = some L2 ∧
      (example_leaf_root.split_root 3).pm.nodeAt 3 = some R2 ∧
      L2.entries = [(10, 10)] ∧ R2.entries = [(20, 20), (30, 30), (40, 40)] ∧
      ((∃ L R, (example_overflow.split 3 example_parent 1).1.pm.nodeAt
          (example_overflow.header.count + 1) = some L ∧
        (example_overflow.split 3 example_parent 1).1.pm.nodeAt
          (example_overflow.header.count + 1 + 1) = some R ∧
        (example_overflow.split 3 example_parent 1).2.kids = example_parent.kids.take 1 ++
          (example_overflow.header.count + 1) :: (example_overflow.header.count + 1 + 1) ::
            example_parent.kids.drop (1 + 1) ∧
        (example_overflow.split 3 example_parent 1).2.keyList = example_parent.keyList.take 1 ++
          (example_overflow.read_node 3 (example_parent.children.getD 1 0)).keys.getD (3 / 2) 0 ::
          example_parent.keyList.drop 1 ∧
        L.is_leaf ∧ R.is_leaf ∧
        L.entries ++ R.entries =
          (example_overflow.read_node 3 (example_parent.children.getD 1 0)).entries ∧
        L.count + R.count = 3 + 1 ∧
        R.entries.head? =
          some ((example_overflow.read_node 3 (example_parent.children.getD 1 0)).keys.getD
              (3 / 2) 0,
            (example_overflow.read_node 3 (example_parent.children.getD 1 0)).data.getD
              (3 / 2) 0)) ∧
      (∃ rt L R, (example_leaf_root.split_root 3).pm.nodeAt example_leaf_root.header.root_id
          = some rt ∧
        (example_leaf_root.split_root 3).pm.nodeAt (example_leaf_root.header.count + 1)
          = some L ∧
        (example_leaf_root.split_root 3).pm.nodeAt (example_leaf_root.header.count + 1 + 1)
          = some R ∧
        rt.kids = [example_leaf_root.header.count + 1, example_leaf_root.header.count + 1 + 1] ∧
        rt.keyList =
          [(example_leaf_root.read_node 3 example_leaf_root.header.root_id).keys.getD (3 / 2) 0] ∧
        L.is_leaf ∧ R.is_leaf ∧
        L.entries ++ R.entries =
          (example_leaf_root.read_node 3 example_leaf_root.header.root_id).entries ∧
        L.count + R.count = 3 + 1 ∧
        R.entries.head? =
          some ((example_leaf_root.read_node 3 example_leaf_root.header.root_id).keys.getD
              (3 / 2) 0,
            (example_leaf_root.read_node 3 example_leaf_root.header.root_id).data.getD
              (3 / 2) 0))) :=
  ⟨_, _, _, _, rfl, rfl, rfl, rfl, rfl, rfl, rfl, rfl, rfl,
    leaf_split_keeps_entries 3 example_overflow example_parent 1 ⟨rfl, rfl, rfl⟩ (by decide)
      (by decide) (by decide) (by decide) ⟨rfl, rfl, rfl⟩ rfl (by decide)
      example_leaf_root ⟨rfl, rfl, rfl⟩ rfl (by decide) (by decide) rfl (by decide)⟩

/-- C13: for every order `M`, when the overflowed node `C` (the child in slot
`pos` for `split`, the root for `split_root`) is an intermediate node with
`M + 1` keys and `M + 2` children, the keys of `L`, then the promoted key
`C.keys[M / 2]`, then the keys of `R` are the keys of `C` in order, and the
`L.count + 1` children of `L` followed by the `R.count + 1` children of `R` are
the children of `C` in order. -/
theorem inner_split_keeps_keys_and_children (M : Nat) (bt : btree) (parent : node) (pos : Nat)
    (hs : parent.sized M) (hp : pos ≤ parent.count) (hc : parent.count ≤ M)
    (h1 : 1 ≤ parent.page_id) (h2 : parent.page_id ≤ bt.header.count)
    (hC : (bt.read_node M (parent.children.getD pos 0)).sized M)
    (hCc : (bt.read_node M (parent.children.getD pos 0)).count = M + 1)
    (hCi : ¬ (bt.read_node M (parent.children.getD pos 0)).is_leaf)
    (bt2 : btree)
    (hR : (bt2.read_node M bt2.header.root_id).sized M)
    (hr : (bt2.read_node M bt2.header.root_id).page_id = bt2.header.root_id)
    (h3 : 1 ≤ bt2.header.root_id) (h4 : bt2.header.root_id ≤ bt2.header.count)
    (hRc : (bt2.read_node M bt2.header.root_id).count = M + 1)
    (hRi : ¬ (bt2.read_node M bt2.header.root_id).is_leaf) :
    (∃ L R, (bt.split M parent pos).1.pm.nodeAt (bt.header.count + 1) = some L ∧
      (bt.split M parent pos).1.pm.nodeAt (bt.header.count + 1 + 1) = some R ∧
      (bt.split M parent pos).2.kids = parent.kids.take pos ++
        (bt.header.count + 1) :: (bt.header.count + 1 + 1) :: parent.kids.drop (pos + 1) ∧
      (bt.split M parent pos).2.keyList = parent.keyList.take pos ++
        (bt.read_node M (parent.children.getD pos 0)).keys.getD (M / 2) 0 ::
        parent.keyList.drop pos ∧
      L.keyList ++ (bt.read_node M (parent.children.getD pos 0)).keys.getD (M / 2) 0 ::
        R.keyList = (bt.read_node M (parent.children.getD pos 0)).keyList ∧
      L.kids ++ R.kids = (bt.read_node M (parent.children.getD pos 0)).kids ∧
      L.kids.length = L.count + 1 ∧ R.kids.length = R.count + 1 ∧
      L.count + R.count = M) ∧
    (∃ rt L R, (bt2.split_root M).pm.nodeAt bt2.header.root_id = some rt ∧
      (bt2.split_root M).pm.nodeAt (bt2.header.count + 1) = some L ∧
      (bt2.split_root M).pm.nodeAt (bt2.header.count + 1 + 1) = some R ∧
      rt.kids = [bt2.header.count + 1, bt2.header.count + 1 + 1] ∧
      rt.keyList = [(bt2.read_node M bt2.header.root_id).keys.getD (M / 2) 0] ∧
      L.keyList ++ (bt2.read_node M bt2.header.root_id).keys.getD (M / 2) 0 :: R.keyList =
        (bt2.read_node M bt2.header.root_id).keyList ∧
      L.kids ++ R.kids = (bt2.read_node M bt2.header.root_id).kids ∧
      L.kids.length = L.count + 1 ∧ R.kids.length = R.count + 1 ∧
      L.count + R.count = M) := by
  constructor
  · obtain ⟨_, _, _, s4, s5⟩ := btree.split_snd_spec M bt parent pos hs hp hc hC
    obtain ⟨_, t2, t3, _⟩ := btree.split_store M bt parent pos hC h1 h2
    obtain ⟨f1, f2, f3, f4, f5⟩ := halves_internal_facts M _ (bt.header.count + 1)
      (bt.header.count + 1 + 1) hC hCc hCi
    exact ⟨_, _, t2, t3, s4, s5, f1, f2, f3, f4, f5⟩
  · obtain ⟨⟨rt, t1, _, _, _, t1d, t1e⟩, t2, t3, _⟩ := btree.split_root_store M bt2 hR hr h3 h4
    obtain ⟨f1, f2, f3, f4, f5⟩ := halves_internal_facts M _ (bt2.header.count + 1)
      (bt2.header.count + 1 + 1) hR hRc hRi
    exact ⟨rt, _, _, t1, t2, t3, t1d, t1e, f1, f2, f3, f4, f5⟩


/-- Witness of `inner_split_keeps_keys_and_children`: order 3, `split` on the
state `example_inner_child` (page 11 with the keys 40, 50, 60, 70 in slot 1 of
the root) and `split_root` on the state `example_inner_root` (root with the
keys 20, 30, 40, 50). -/
theorem inner_split_keeps_keys_and_children_witness :
    ∃ L R L2 R2,
      (example_inner_child.split 3 (example_inner_child.read_node 3 1) 1).1.pm.nodeAt 16
        = some L ∧
      (example_inner_child.split 3 (example_inner_child.read_node 3 1) 1).1.pm.nodeAt 17
        = some R ∧
      (example_inner_child.read_node 3 11).keyList = [40, 50, 60, 70] ∧
      (example_inner_child.read_node 3 11).kids = [6, 8, 12, 14, 15] ∧
      L.keyList = [40] ∧ R.keyList = [60, 70] ∧ L.kids = [6, 8] ∧ R.kids = [12, 14, 15] ∧
      (example_inner_child.split 3 (example_inner_child.read_node 3 1) 1).2.keyList = [30, 50] ∧
      (example_inner_child.split 3 (example_inner_child.read_node 3 1) 1).2.kids
        = [10, 16, 17] ∧
      (example_inner_root.split_root 3).pm.nodeAt 10 = some L2 ∧
      (example_inner_root.split_root 3).pm.nodeAt 11 = some R2 ∧
      (example_inner_root.read_node 3 1).keyList = [20, 30, 40, 50] ∧
      (example_inner_root.read_node 3 1).kids = [2, 4, 6, 8, 9] ∧
      L2.keyList = [20] ∧ R2.keyList = [40, 50] ∧ L2.kids = [2, 4] ∧ R2.kids = [6, 8, 9] ∧
      ((∃ L R, (example_inner_child.split 3 (example_inner_child.read_node 3 1) 1).1.pm.nodeAt
          (example_inner_child.header.count + 1) = some L ∧
        (example_inner_child.split 3 (example_inner_child.read_node 3 1) 1).1.pm.nodeAt
          (example_inner_child.header.count + 1 + 1) = some R ∧
        (example_inner_child.split 3 (example_inner_child.read_node 3 1) 1).2.kids =
          (example_inner_child.read_node 3 1).kids.take 1 ++
          (example_inner_child.header.count + 1) :: (example_inner_child.header.count + 1 + 1) ::
            (example_inner_child.read_node 3 1).kids.drop (1 + 1) ∧
        (example_inner_child.split 3 (example_inner_child.read_node 3 1) 1).2.keyList =
          (example_inner_child.read_node 3 1).keyList.take 1 ++
          (example_inner_child.read_node 3
            ((example_inner_child.read_node 3 1).children.getD 1 0)).keys.getD (3 / 2) 0 ::
          (example_inner_child.read_node 3 1).keyList.drop 1 ∧
        L.keyList ++ (example_inner_child.read_node 3
            ((example_inner_child.read_node 3 1).children.getD 1 0)).keys.getD (3 / 2) 0 ::
          R.keyList = (example_inner_child.read_node 3
            ((example_inner_child.read_node 3 1).children.getD 1 0)).keyList ∧
        L.kids ++ R.kids = (example_inner_child.read_node 3
            ((example_inner_child.read_node 3 1).children.getD 1 0)).kids ∧
        L.kids.length = L.count + 1 ∧ R.kids.length = R.count + 1 ∧
        L.count + R.count = 3) ∧
      (∃ rt L R, (example_inner_root.split_root 3).pm.nodeAt example_inner_root.header.root_id
          = some rt ∧
        (example_inner_root.split_root 3).pm.nodeAt (example_inner_root.header.count + 1)
          = some L ∧
        (example_inner_root.split_root 3).pm.nodeAt (example_inner_root.header.count + 1 + 1)
          = some R ∧
        rt.kids = [example_inner_root.header.count + 1, example_inner_root.header.count + 1 + 1] ∧
        rt.keyList =
          [(example_inner_root.read_node 3 example_inner_root.header.root_id).keys.getD
            (3 / 2) 0] ∧
        L.keyList ++ (example_inner_root.read_node 3
            example_inner_root.header.root_id).keys.getD (3 / 2) 0 :: R.keyList =
          (example_inner_root.read_node 3 example_inner_root.header.root_id).keyList ∧
        L.kids ++ R.kids = (example_inner_root.read_node 3
          example_inner_root.header.root_id).kids ∧
        L.kids.length = L.count + 1 ∧ R.kids.length = R.count + 1 ∧
        L.count + R.count = 3)) :=
  ⟨_, _, _, _, rfl, rfl, rfl, rfl, rfl, rfl, rfl, rfl, rfl, rfl, rfl, rfl, rfl, rfl, rfl, rfl,
    rfl, rfl,
    inner_split_keeps_keys_and_children 3 example_inner_child
      (example_inner_child.read_node 3 1) 1 ⟨rfl, rfl, rfl⟩ (by decide) (by decide) (by decide)
      (by decide) ⟨rfl, rfl, rfl⟩ rfl (by unfold node.is_leaf; decide)
      example_inner_root ⟨rfl, rfl, rfl⟩ rfl (by decide) (by decide) rfl
      (by unfold node.is_leaf; decide)⟩

/-! ## The parent after a split (C14) -/

/-- C14: for every parent `P` with count `c ≤ M` and every child slot
`pos ≤ c` whose child is a well-formed record (in particular one holding
`M + 1` entries), `split(P, pos)` leaves `P` with count `c + 1`, with the keys
`keys[0..pos)`, the promoted key `C.keys[M / 2]`, `keys[pos..c)`, and with the
children `children[0..pos)`, `L.page_id`, `R.page_id`, `children[pos+1..c]`;
`P`, `L` and `R` are written to the page store under their own page ids. -/
theorem split_updates_parent (M : Nat) (bt : btree) (parent : node) (pos : Nat)
    (hs : parent.sized M) (hp : pos ≤ parent.count) (hc : parent.count ≤ M)
    (h1 : 1 ≤ parent.page_id) (h2 : parent.page_id ≤ bt.header.count)
    (hC : (bt.read_node M (parent.children.getD pos 0)).sized M) :
    (bt.split M parent pos).2.page_id = parent.page_id ∧
    (bt.split M parent pos).2.count = parent.count + 1 ∧
    (bt.split M parent pos).2.keyList = parent.keyList.take pos ++
      (bt.read_node M (parent.children.getD pos 0)).keys.getD (M / 2) 0 ::
      parent.keyList.drop pos ∧
    ∃ L R, (bt.split M parent pos).2.kids =
        parent.kids.take pos ++ L.page_id :: R.page_id :: parent.kids.drop (pos + 1) ∧
      (bt.split M parent pos).1.pm.nodeAt (bt.split M parent pos).2.page_id =
        some (bt.split M parent pos).2 ∧
      (bt.split M parent pos).1.pm.nodeAt L.page_id = some L ∧
      (bt.split M parent pos).1.pm.nodeAt R.page_id = some R ∧
      L.page_id = (bt.new_node M).2.page_id ∧
      R.page_id = ((bt.new_node M).1.new_node M).2.page_id ∧
      L.keyList = (bt.read_node M (parent.children.getD pos 0)).keys.take L.count ∧
      (bt.read_node M (parent.children.getD pos 0)).keys.getD (M / 2) 0 =
        (bt.read_node M (parent.children.getD pos 0)).keys.getD L.count 0 := by
  obtain ⟨s1, s2, _, s4, s5⟩ := btree.split_snd_spec M bt parent pos hs hp hc hC
  obtain ⟨t1, t2, t3, _⟩ := btree.split_store M bt parent pos hC h1 h2
  obtain ⟨a1, a2, _, _, _, _, _, _, a9, a10, _⟩ :=
    halves_spec M _ (bt.header.count + 1) (bt.header.count + 1 + 1) hC
  refine ⟨s1, s2, s5, _, _, by rw [a1, a2]; exact s4, by rw [s1]; exact t1,
    by rw [a1]; exact t2, by rw [a2]; exact t3, a1, a2, by rw [a9]; exact a10, by rw [a9]⟩

/-- Witness of `split_updates_parent`: order 3, the state `example_overflow`
with the parent `example_parent` and the child slot 1. -/
theorem split_updates_parent_witness :
    example_parent.sized 3 ∧ 1 ≤ example_parent.count ∧ example_parent.count ≤ 3 ∧
    1 ≤ example_parent.page_id ∧ example_parent.page_id ≤ example_overflow.header.count ∧
    (example_overflow.read_node 3 (example_parent.children.getD 1 0)).sized 3 ∧
    (example_overflow.split 3 example_parent 1).2.keyList = [20, 30] ∧
    (example_overflow.split 3 example_parent 1).2.kids = [2, 4, 5] ∧
    ((example_overflow.split 3 example_parent 1).2.page_id = example_parent.page_id ∧
    (example_overflow.split 3 example_parent 1).2.count = example_parent.count + 1 ∧
    (example_overflow.split 3 example_parent 1).2.keyList = example_parent.keyList.take 1 ++
      (example_overflow.read_node 3 (example_parent.children.getD 1 0)).keys.getD (3 / 2) 0 ::
      example_parent.keyList.drop 1 ∧
    ∃ L R, (example_overflow.split 3 example_parent 1).2.kids =
        example_parent.kids.take 1 ++ L.page_id :: R.page_id ::
          example_parent.kids.drop (1 + 1) ∧
      (example_overflow.split 3 example_parent 1).1.pm.nodeAt
        (example_overflow.split 3 example_parent 1).2.page_id =
        some (example_overflow.split 3 example_parent 1).2 ∧
      (example_overflow.split 3 example_parent 1).1.pm.nodeAt L.page_id = some L ∧
      (example_overflow.split 3 example_parent 1).1.pm.nodeAt R.page_id = some R ∧
      L.page_id = (example_overflow.new_node 3).2.page_id ∧
      R.page_id = ((example_overflow.new_node 3).1.new_node 3).2.page_id ∧
      L.keyList = (example_overflow.read_node 3
        (example_parent.children.getD 1 0)).keys.take L.count ∧
      (example_overflow.read_node 3 (example_parent.children.getD 1 0)).keys.getD (3 / 2) 0 =
        (example_overflow.read_node 3 (example_parent.children.getD 1 0)).keys.getD
          L.count 0) :=
  ⟨⟨rfl, rfl, rfl⟩, by decide, by decide, by decide, by decide, ⟨rfl, rfl, rfl⟩, rfl, rfl,
    split_updates_parent 3 example_overflow example_parent 1 ⟨rfl, rfl, rfl⟩ (by decide)
      (by decide) (by decide) (by decide) ⟨rfl, rfl, rfl⟩⟩


/-! ## The leaf test of the descent (C17) -/

/-- C17: for every order `M ≥ 2` and every sequence of `insert(value, key)`
calls on a freshly constructed tree, the calls return and afterwards each node
reachable from the root has `children[i] = 0` for all `i ≤ count` or
`children[i] ≠ 0` for all `i ≤ count`; the position `pos` computed by the scan
of the recursive insert is at most `count`, and the test `children[pos] == 0`
performed there holds exactly when `children[0] == 0`. -/
theorem leaf_test_agrees (M : Nat) (hM : 2 ≤ M) (ops : List (Int × Int)) (fuel : Nat)
    (hf : ops.length ≤ fuel) :
    ∃ bt, btree.insert_all M fuel (btree.fresh M) ops = some bt ∧
      ∀ d p n, Reach bt.pm bt.header.root_id d p → bt.pm.nodeAt p = some n →
        ((∀ i, i ≤ n.count → n.children.getD i 0 = 0) ∨
          (∀ i, i ≤ n.count → n.children.getD i 0 ≠ 0)) ∧
        ∀ value : Int, scan n value n.count 0 ≤ n.count ∧
          (n.children.getD (scan n value n.count 0) 0 = 0 ↔ n.is_leaf) := by
  obtain ⟨bt, h, e1, hI, _, _⟩ :=
    insert_all_spec M hM fuel ops (btree.fresh M) 0 (Inv_fresh M) (by omega)
  obtain ⟨i1, _, i3, _⟩ := hI
  refine ⟨bt, e1, ?_⟩
  intro d p n hR hn
  rw [i1] at hR
  have hu := reach_uniform M bt.pm h 1 i3.1 d p n hR hn
  refine ⟨hu, ?_⟩
  intro value
  have hpos : scan n value n.count 0 ≤ n.count := scan_le n value _ 0 (Nat.zero_le _)
  refine ⟨hpos, ?_⟩
  unfold node.is_leaf
  rcases hu with hu | hu
  · exact ⟨fun _ => hu 0 (Nat.zero_le _), fun _ => hu _ hpos⟩
  · exact ⟨fun e => absurd e (hu _ hpos), fun e => absurd e (hu 0 (Nat.zero_le _))⟩

/-- Witness of `leaf_test_agrees`: order 3, the keys 10 to 50. -/
theorem leaf_test_agrees_witness :
    2 ≤ 3 ∧ [((10 : Int), (10 : Int)), (20, 20), (30, 30), (40, 40), (50, 50)].length ≤ 5 ∧
    ∃ bt, btree.insert_all 3 5 (btree.fresh 3)
        [(10, 10), (20, 20), (30, 30), (40, 40), (50, 50)] = some bt ∧
      ∀ d p n, Reach bt.pm bt.header.root_id d p → bt.pm.nodeAt p = some n →
        ((∀ i, i ≤ n.count → n.children.getD i 0 = 0) ∨
          (∀ i, i ≤ n.count → n.children.getD i 0 ≠ 0)) ∧
        ∀ value : Int, scan n value n.count 0 ≤ n.count ∧
          (n.children.getD (scan n value n.count 0) 0 = 0 ↔ n.is_leaf) :=
  ⟨by decide, by decide, leaf_test_agrees 3 (by decide) _ 5 (by decide)⟩


/-! ## The stored pages form a tree (C18) -/

/-- C18: for every order `M ≥ 2` and every sequence of `insert(value, key)`
calls on a freshly constructed tree, the calls return and afterwards, with `h`
the height of the tree: two paths of populated child slots from the root that
end at the same page are the same path; no path of at least one step leads
from a reachable page back to that page; every path from the root has at most
`h` steps and ends at a stored node, which is a leaf exactly when the path has
`h` steps; and the recursive `insert(node&, value, key)` started at the root
returns exactly when its recursion bound exceeds `h`, that is after `h`
descents. -/
theorem reachable_pages_form_tree (M : Nat) (hM : 2 ≤ M) (ops : List (Int × Int))
    (fuel : Nat) (hf : ops.length ≤ fuel) :
    ∃ bt h, btree.insert_all M fuel (btree.fresh M) ops = some bt ∧
      (∀ s1 s2 p, follow bt.pm bt.header.root_id s1 = some p →
        follow bt.pm bt.header.root_id s2 = some p → s1 = s2) ∧
      (∀ s p t, follow bt.pm bt.header.root_id s = some p → follow bt.pm p t = some p →
        t = []) ∧
      (∀ s p, follow bt.pm bt.header.root_id s = some p →
        s.length ≤ h ∧ ∃ n, bt.pm.nodeAt p = some n ∧ (n.is_leaf ↔ s.length = h)) ∧
      ∀ (v k : Int) (f : Nat),
        (bt.insert_node M f (bt.read_node M bt.header.root_id) v k).isSome = true ↔ h < f := by
  obtain ⟨bt, h, e1, hI, _, _⟩ :=
    insert_all_spec M hM fuel ops (btree.fresh M) 0 (Inv_fresh M) (by omega)
  obtain ⟨i1, _, i3, i4⟩ := hI
  have hu := follow_unique M bt.pm bt.header.count h M 1 i3 (by omega)
  refine ⟨bt, h, e1, ?_, ?_, ?_, ?_⟩
  · intro s1 s2 p h1 h2
    rw [i1] at h1 h2
    exact hu s1 s2 p h1 h2
  · intro s p t h1 h2
    rw [i1] at h1
    have h3 : follow bt.pm 1 (s ++ t) = some p := by
      rw [follow_append bt.pm s t 1 p h1]; exact h2
    have e := hu (s ++ t) s p h3 h1
    exact List.append_right_eq_self.mp e
  · intro s p hF
    rw [i1] at hF
    obtain ⟨g1, g2, _⟩ := follow_sub M bt.pm h M 1 s p i3.1 (by omega) hF
    refine ⟨g1, ?_⟩
    cases hk : h - s.length with
    | zero =>
      rw [hk] at g2
      obtain ⟨n, hn, _, hsz, hcnt, hkids⟩ := g2
      have hc : n.count ≤ M := by split at hcnt <;> omega
      refine ⟨n, hn, ?_⟩
      have hl : n.is_leaf :=
        hkids _ (kids_getD_mem n 0 (Nat.zero_le _) (by rw [hsz.2.2]; omega))
      exact ⟨fun _ => by omega, fun _ => hl⟩
    | succ j =>
      rw [hk] at g2
      obtain ⟨n, hn, _, hsz, hcnt, hkids⟩ := g2
      have hc : n.count ≤ M := by split at hcnt <;> omega
      refine ⟨n, hn, ?_⟩
      have hl : ¬ n.is_leaf :=
        (hkids _ (kids_getD_mem n 0 (Nat.zero_le _) (by rw [hsz.2.2]; omega))).1
      exact ⟨fun e => absurd e hl, fun e => by omega⟩
  · intro v k f
    obtain ⟨root, hroot, hrid, _, _⟩ := i3.1.node
    have hrd : bt.read_node M bt.header.root_id = root := by
      rw [i1]; exact read_node_of_nodeAt M bt 1 root hroot
    rw [hrd]
    by_cases hlt : h < f
    · obtain ⟨bt1, ptr1, st, hres, _⟩ := insert_node_spec M hM h f bt root v k hlt
        (by rw [hrid]; exact i3) (by rw [hrid]; exact hroot) i4
      rw [hres]
      exact ⟨fun _ => hlt, fun _ => rfl⟩
    · rw [insert_node_none M h f bt root v k (by omega) (by rw [hrid]; exact i3.1)
        (by rw [hrid]; exact hroot)]
      exact ⟨fun e => by simp at e, fun e => absurd e hlt⟩

/-- Witness of `reachable_pages_form_tree`: order 3, the keys 10 to 50. -/
theorem reachable_pages_form_tree_witness :
    2 ≤ 3 ∧ [((10 : Int), (10 : Int)), (20, 20), (30, 30), (40, 40), (50, 50)].length ≤ 5 ∧
    ∃ bt h, btree.insert_all 3 5 (btree.fresh 3)
        [(10, 10), (20, 20), (30, 30), (40, 40), (50, 50)] = some bt ∧
      (∀ s1 s2 p, follow bt.pm bt.header.root_id s1 = some p →
        follow bt.pm bt.header.root_id s2 = some p → s1 = s2) ∧
      (∀ s p t, follow bt.pm bt.header.root_id s = some p → follow bt.pm p t = some p →
        t = []) ∧
      (∀ s p, follow bt.pm bt.header.root_id s = some p →
        s.length ≤ h ∧ ∃ n, bt.pm.nodeAt p = some n ∧ (n.is_leaf ↔ s.length = h)) ∧
      ∀ (v k : Int) (f : Nat),
        (bt.insert_node 3 f (bt.read_node 3 bt.header.root_id) v k).isSome = true ↔ h < f :=
  ⟨by decide, by decide, reachable_pages_form_tree 3 (by decide) _ 5 (by decide)⟩


/-! ## Keys in ascending order (C16) -/

/-- C16: for every order `M ≥ 2` and every sequence of `insert(value, key)`
calls on a freshly constructed tree in which the keys are pairwise distinct
and each value equals its key, the calls return and afterwards the
`(key, value)` entries of the leaves reachable from the root, read from left
to right, are the inserted pairs (a permutation of them) in strictly ascending
order of the keys; and for every reachable intermediate node and every child
slot `i ≤ count`, each key held in the subtree under `children[i]` is
`≥ keys[i-1]` (when `i > 0`) and `< keys[i]` (when `i < count`). -/
theorem distinct_keys_stay_sorted (M : Nat) (hM : 2 ≤ M) (ops : List (Int × Int)) (fuel : Nat)
    (hf : ops.length ≤ fuel) (hvk : ∀ op ∈ ops, op.1 = op.2)
    (hnd : (ops.map (fun op => op.2)).Nodup) :
    ∃ bt, btree.insert_all M fuel (btree.fresh M) ops = some bt ∧
      (leaf_entries bt.pm (fuel + 1) bt.header.root_id).Perm
        (ops.map (fun op => (op.2, op.1))) ∧
      (leaf_entries bt.pm (fuel + 1) bt.header.root_id).Pairwise (fun a b => a.1 < b.1) ∧
      ∀ d p n i x, Reach bt.pm bt.header.root_id d p → bt.pm.nodeAt p = some n →
        ¬ n.is_leaf → i ≤ n.count →
        x ∈ subtree_keys bt.pm (fuel + 1) (n.children.getD i 0) →
        (0 < i → n.keys.getD (i - 1) 0 ≤ x) ∧ (i < n.count → x < n.keys.getD i 0) := by
  obtain ⟨bt, h, e1, hI, e3, hO, _, hP⟩ :=
    insert_all_order M hM fuel ops (btree.fresh M) 0 (Inv_fresh M)
      (by rw [inorder_fresh]; exact List.Pairwise.nil)
      (by rw [inorder_fresh]; intro s hs; simp at hs) hvk hnd
      (by rw [inorder_fresh]; intro op _ e he; simp [entriesOf] at he) (by omega)
  obtain ⟨i1, _, i3, _⟩ := hI
  have hle := leaf_entries_eq M bt.pm h M (fuel + 1) 1 i3.1 (by omega) (by omega)
  rw [inorder_fresh] at hP
  refine ⟨bt, e1, ?_, ?_, ?_⟩
  · rw [i1, hle]
    simpa [entriesOf] using hP
  · rw [i1, hle]
    exact hO.entries_sorted
  · intro d p n i x hR hn hnl hi hx
    rw [i1] at hR
    obtain ⟨hd, hsp⟩ := reach_sub M bt.pm h M 1 i3.1 d p hR
    have hOp := reach_ordered M bt.pm h M 1 i3.1 (by omega) hO d p hR
    cases hk : h - d with
    | zero =>
      exfalso
      rw [hk] at hsp
      simp only [Sub, hn, Option.some.injEq, exists_eq_left'] at hsp
      obtain ⟨_, hsz, hcnt, hkids⟩ := hsp
      have hcb : n.count ≤ M := by split at hcnt <;> omega
      exact hnl (hkids _ (kids_getD_mem n 0 (Nat.zero_le _) (by rw [hsz.2.2]; omega)))
    | succ j =>
      rw [hk] at hsp hOp
      simp only [Sub, hn, Option.some.injEq, exists_eq_left'] at hsp
      obtain ⟨_, hsz, hcnt, hkids⟩ := hsp
      have hcb : n.count ≤ M := by split at hcnt <;> omega
      have hmem := kids_getD_mem n i hi (by rw [hsz.2.2]; omega)
      obtain ⟨a, ha, hax⟩ := subtree_keys_walk M bt.pm j M (fuel + 1) _ (hkids _ hmem).2
        (by omega) (by omega) x hx
      obtain ⟨b1, b2⟩ := child_bounds M bt.pm j p n hn hsz (by omega) hOp i hi a ha
      obtain ⟨r1, r2⟩ := a.rank_key
      rw [hax] at r1 r2
      exact ⟨fun h0 => by have := b1 h0; omega, fun h0 => by have := b2 h0; omega⟩

/-- Witness of `distinct_keys_stay_sorted`: order 3, the keys 30, 10, 50, 20,
40. -/
theorem distinct_keys_stay_sorted_witness :
    2 ≤ 3 ∧ [((30 : Int), (30 : Int)), (10, 10), (50, 50), (20, 20), (40, 40)].length ≤ 5 ∧
    (∀ op ∈ [((30 : Int), (30 : Int)), (10, 10), (50, 50), (20, 20), (40, 40)], op.1 = op.2) ∧
    ([((30 : Int), (30 : Int)), (10, 10), (50, 50), (20, 20), (40, 40)].map
      (fun op => op.2)).Nodup ∧
    ∃ bt, btree.insert_all 3 5 (btree.fresh 3)
        [(30, 30), (10, 10), (50, 50), (20, 20), (40, 40)] = some bt ∧
      (leaf_entries bt.pm (5 + 1) bt.header.root_id).Perm
        ([((30 : Int), (30 : Int)), (10, 10), (50, 50), (20, 20), (40, 40)].map
          (fun op => (op.2, op.1))) ∧
      (leaf_entries bt.pm (5 + 1) bt.header.root_id).Pairwise (fun a b => a.1 < b.1) ∧
      ∀ d p n i x, Reach bt.pm bt.header.root_id d p → bt.pm.nodeAt p = some n →
        ¬ n.is_leaf → i ≤ n.count →
        x ∈ subtree_keys bt.pm (5 + 1) (n.children.getD i 0) →
        (0 < i → n.keys.getD (i - 1) 0 ≤ x) ∧ (i < n.count → x < n.keys.getD i 0) :=
  ⟨by decide, by decide, by decide, by decide,
    distinct_keys_stay_sorted 3 (by decide) _ 5 (by decide) (by decide) (by decide)⟩


/-! ## Keys in leaf slots and separator slots (C10, amended) -/

/-- C10 (amended): for every order `M ≥ 2` and every sequence of inserts with
pairwise distinct keys on a freshly constructed tree, whatever the values
are, the calls return and afterwards, among the nodes reachable from the root:
the keys held in the leaves are the inserted keys, each in exactly one leaf
slot; no key occupies more than one key slot of the intermediate nodes; and
every key of an intermediate node is also held in a leaf.  So a key occupies
at most two populated key slots, one in a leaf and at most one in an
intermediate node. -/
theorem key_slots_one_leaf_one_separator (M : Nat) (hM : 2 ≤ M) (ops : List (Int × Int))
    (fuel : Nat) (hf : ops.length ≤ fuel) (hd : (ops.map (fun op => op.2)).Nodup) :
    ∃ bt, btree.insert_all M fuel (btree.fresh M) ops = some bt ∧
      ∀ t, ops.length < t →
        (leaf_keys bt.pm t bt.header.root_id).Perm (ops.map (fun op => op.2)) ∧
        (leaf_keys bt.pm t bt.header.root_id).Nodup ∧
        (sep_keys bt.pm t bt.header.root_id).Nodup ∧
        (∀ s ∈ sep_keys bt.pm t bt.header.root_id, s ∈ leaf_keys bt.pm t bt.header.root_id) ∧
        ∀ k, (leaf_keys bt.pm t bt.header.root_id ++
          sep_keys bt.pm t bt.header.root_id).count k ≤ 2 := by
  obtain ⟨bt, h, e1, hI, e3, hA, hP⟩ :=
    insert_all_shape M hM fuel ops (btree.fresh M) 0 (Inv_fresh M)
      (by rw [inorder_fresh]; trivial) (by omega)
  obtain ⟨i1, _, i3, _⟩ := hI
  rw [inorder_fresh] at hP
  refine ⟨bt, e1, ?_⟩
  intro t ht
  have hlk := leaf_keys_walk M bt.pm h M t 1 i3.1 (by omega) (by omega)
  have hsk := sep_keys_perm M bt.pm h M t 1 i3.1 (by omega) (by omega)
  have hperm : ((entriesOf (inorder bt.pm h 1)).map Prod.fst).Perm
      (ops.map (fun op => op.2)) := by
    have := hP.map Prod.fst
    simpa [entriesOf, Function.comp_def] using this
  have hnd : ((entriesOf (inorder bt.pm h 1)).map Prod.fst).Nodup := hperm.nodup_iff.mpr hd
  have hsn : (sep_keys bt.pm t 1).Nodup := hsk.nodup_iff.mpr (Adj.seps_nodup _ hA hnd)
  rw [i1, hlk]
  refine ⟨hperm, hnd, hsn, ?_, ?_⟩
  · intro s hs
    exact Adj.sep_is_entry _ hA s ((mem_sepsOf _ s).mp (hsk.mem_iff.mp hs))
  · intro k
    rw [List.count_append]
    have c1 := List.nodup_iff_count_le_one.mp hnd k
    have c2 := List.nodup_iff_count_le_one.mp hsn k
    omega

/-- Witness of `key_slots_one_leaf_one_separator`: order 3, the keys 10 to 50
with the values 5, 1, 9, 3, 7. -/
theorem key_slots_one_leaf_one_separator_witness :
    2 ≤ 3 ∧ [((5 : Int), (10 : Int)), (1, 20), (9, 30), (3, 40), (7, 50)].length ≤ 5 ∧
    ([((5 : Int), (10 : Int)), (1, 20), (9, 30), (3, 40), (7, 50)].map (fun op => op.2)).Nodup ∧
    ∃ bt, btree.insert_all 3 5 (btree.fresh 3)
        [(5, 10), (1, 20), (9, 30), (3, 40), (7, 50)] = some bt ∧
      ∀ t, [((5 : Int), (10 : Int)), (1, 20), (9, 30), (3, 40), (7, 50)].length < t →
        (leaf_keys bt.pm t bt.header.root_id).Perm
          ([((5 : Int), (10 : Int)), (1, 20), (9, 30), (3, 40), (7, 50)].map (fun op => op.2)) ∧
        (leaf_keys bt.pm t bt.header.root_id).Nodup ∧
        (sep_keys bt.pm t bt.header.root_id).Nodup ∧
        (∀ s ∈ sep_keys bt.pm t bt.header.root_id, s ∈ leaf_keys bt.pm t bt.header.root_id) ∧
        ∀ k, (leaf_keys bt.pm t bt.header.root_id ++
          sep_keys bt.pm t bt.header.root_id).count k ≤ 2 :=
  ⟨by decide, by decide, by decide,
    key_slots_one_leaf_one_separator 3 (by decide) _ 5 (by decide) (by decide)⟩


/-! ## Page allocation (C15) -/

/-- C15 (as stated, refuted): the constructor run over a store that is in use
(the store left by the inserts of 10, 20, 30, 40 with order 3) resets the page
counter to 1; in the state reached from that construction by the call
`insert(50, 50)` the next `new_node` returns the page id 2, although the store
holds a record under page 2 (the leaf with the key 10) and the id 2 was handed
out before, by the `new_node` call that created that leaf.  So the id handed
out is an id in use and is not greater than every id handed out before. -/
theorem new_node_reuses_stored_page :
    example_reopened.header.count = 1 ∧
    btree.insert_all 3 1 example_reopened [(50, 50)] = some example_reopened_after ∧
    (example_reopened_after.new_node 3).2.page_id = 2 ∧
    (∃ n, example_reopened_after.pm 2 = some (Page.node n) ∧ n.keyList = [10]) ∧
    example_reopened_after.pm (example_reopened_after.new_node 3).2.page_id ≠ none ∧
    (example_leaf_root.new_node 3).2.page_id = 2 ∧
    ¬ AllocOK 3 example_reopened_after := by
  have e : example_reopened_after.pm (example_reopened_after.new_node 3).2.page_id =
      some (Page.node
        { page_id := 2, count := 1, keys := [10, 0, 0, 0], data := [10, 0, 0, 0],
          children := [0, 0, 0, 0, 0] }) := rfl
  refine ⟨rfl, rfl, rfl, ⟨_, rfl, rfl⟩, ?_, rfl, ?_⟩
  · rw [e]; exact Option.some_ne_none _
  · intro h
    have h9 := h.2.2.2.2.2.2.2.2
    rw [e] at h9
    exact Option.some_ne_none _ h9

/-- C15 (amended): the constructor sets the page counter to 1 whatever the
store holds.  For every order `M ≥ 2`, every store the constructor is run
over and every sequence of `insert(value, key)` calls after that construction,
the calls return, the page counter never went down on the way (the state after
any prefix of the calls has a counter at most the final one), and `new_node`
run in the state reached raises the counter by exactly one, keeps the root id,
leaves the new metadata stored at page 0 and returns a node whose page id is
the new counter: greater than every value the counter had since the
construction, so greater than every id handed out since then, not 0 and not
the root id.  The same holds in the states in which `split` and `split_root`
allocate inside a further call: the state in which the recursive
`insert(node&, value, key)` has returned from any reachable node, and that
state after one allocation.  When the store was empty at the construction,
the id handed out in each of these states is moreover greater than the id of
every stored record, and nothing is stored under it. -/
theorem new_node_allocates_next_page (M : Nat) (hM : 2 ≤ M) (pm0 : pagemanager)
    (ops : List (Int × Int)) (fuel : Nat) (hf : ops.length < fuel) :
    (btree.new M pm0).header.count = 1 ∧
    ∃ bt, btree.insert_all M fuel (btree.new M pm0) ops = some bt ∧ AllocNext M bt ∧
      (∀ ops1 ops2, ops = ops1 ++ ops2 →
        ∃ bt0, btree.insert_all M fuel (btree.new M pm0) ops1 = some bt0 ∧
          bt0.header.count ≤ bt.header.count) ∧
      (∀ (v k : Int) (d : Nat) (ptr : node), Reach bt.pm bt.header.root_id d ptr.page_id →
        bt.pm.nodeAt ptr.page_id = some ptr →
        ∃ bt1 ptr1 st, bt.insert_node M fuel ptr v k = some (bt1, ptr1, st) ∧
          bt.header.count ≤ bt1.header.count ∧ AllocNext M bt1 ∧
          AllocNext M (bt1.new_node M).1) ∧
      ((∀ p, pm0 p = none) → AllocOK M bt ∧
        ∀ (v k : Int) (d : Nat) (ptr : node), Reach bt.pm bt.header.root_id d ptr.page_id →
          bt.pm.nodeAt ptr.page_id = some ptr →
          ∃ bt1 ptr1 st, bt.insert_node M fuel ptr v k = some (bt1, ptr1, st) ∧
            AllocOK M bt1 ∧ AllocOK M (bt1.new_node M).1) := by
  obtain ⟨btf, h, f1, hI, f3, _⟩ :=
    insert_all_spec M hM fuel ops (btree.fresh M) 0 (Inv_fresh M) (by omega)
  obtain ⟨bt, btf1, e1, e2, hs⟩ := insert_all_sim M hM fuel ops (btree.new M pm0)
    (btree.fresh M) 0 (SameUpTo.new M pm0) (Inv_fresh M) (by omega)
  rw [f1, Option.some.injEq] at e2
  subst e2
  obtain ⟨i1, i2, i3, i4⟩ := hI
  have hc : 1 ≤ btf.header.count := (i3.2.2 1 (pagesOf_head _ _ _)).2
  have hr : bt.header.root_id = 1 := by rw [← hs.1]; exact i1
  refine ⟨rfl, bt, e1, AllocNext.of_header hr (by rw [← hs.1]; exact hc), ?_, ?_, ?_⟩
  · intro ops1 ops2 ho
    subst ho
    simp only [List.length_append] at hf
    obtain ⟨bf0, h0, g1, g2, g3, _⟩ :=
      insert_all_spec M hM fuel ops1 (btree.fresh M) 0 (Inv_fresh M) (by omega)
    obtain ⟨bt0, bf1, k1, k2, ks⟩ := insert_all_sim M hM fuel ops1 (btree.new M pm0)
      (btree.fresh M) 0 (SameUpTo.new M pm0) (Inv_fresh M) (by omega)
    rw [g1, Option.some.injEq] at k2
    subst k2
    refine ⟨bt0, k1, ?_⟩
    rw [btree.insert_all_append, g1] at f1
    have := insert_all_count_mono M hM fuel ops2 bf0 h0 g2 (by omega) btf f1
    rw [← hs.1, ← ks.1]
    exact this
  · intro v k d ptr hR hptr
    rw [hr] at hR
    obtain ⟨hRf, hnf⟩ := hs.reach h 1 i3 d ptr.page_id hR
    rw [hptr] at hnf
    obtain ⟨hd, hT⟩ := reach_tree M btf.pm btf.header.count h M 1 i3 d ptr.page_id hRf
    have hT1 : Tree M btf.pm btf.header.count (h - d) M ptr.page_id := by
      by_cases h0 : d = 0
      · simpa [h0] using hT
      · simpa [h0] using hT
    obtain ⟨bt1, bf1, ptr1, st, r1, r2, r3⟩ :=
      insert_node_sim M hM (h - d) fuel bt btf ptr v k (by omega) hs hT1 hnf i4
    obtain ⟨bf2, ptr2, st2, hres, _, _, _, hP⟩ :=
      insert_node_spec M hM (h - d) fuel btf ptr v k (by omega) hT1 hnf i4
    rw [r2, Option.some.injEq, Prod.mk.injEq, Prod.mk.injEq] at hres
    obtain ⟨e2, _, _⟩ := hres
    subst e2
    obtain ⟨q1, q2, _⟩ := hP
    have hr1 : bt1.header.root_id = 1 := by rw [← r3.1]; exact q1.trans i1
    have hc1 : bt.header.count ≤ bt1.header.count := by rw [← r3.1, ← hs.1]; exact q2
    have hcb : 1 ≤ bt.header.count := by rw [← hs.1]; exact hc
    refine ⟨bt1, ptr1, st, r1, hc1, AllocNext.of_header hr1 (by omega), ?_⟩
    refine AllocNext.of_header hr1 ?_
    show 1 ≤ bt1.header.count + 1
    omega
  · intro hempty
    have hpm : pm0 = pagemanager.empty := funext hempty
    subst hpm
    obtain ⟨bt2, a1, a2, _, a4⟩ := alloc_fresh_store M hM ops fuel hf
    have a1b : btree.insert_all M fuel (btree.new M pagemanager.empty) ops = some bt2 := a1
    rw [e1, Option.some.injEq] at a1b
    subst a1b
    refine ⟨a2, ?_⟩
    intro v k d ptr hR hptr
    obtain ⟨bt1, ptr1, st, b1, _, b3, b4⟩ := a4 v k d ptr hR hptr
    exact ⟨bt1, ptr1, st, b1, b3, b4⟩

/-- Witness of `new_node_allocates_next_page`: order 3, the constructor run
over the store left by the inserts of 10, 20, 30, 40, then the inserts of the
keys 10 to 50. -/
theorem new_node_allocates_next_page_witness :
    2 ≤ 3 ∧ [((10 : Int), (10 : Int)), (20, 20), (30, 30), (40, 40), (50, 50)].length < 6 ∧
    (btree.new 3 (btree.run 3 4 [(10, 10), (20, 20), (30, 30), (40, 40)]).pm).header.count = 1 ∧
    ∃ bt, btree.insert_all 3 6
        (btree.new 3 (btree.run 3 4 [(10, 10), (20, 20), (30, 30), (40, 40)]).pm)
        [(10, 10), (20, 20), (30, 30), (40, 40), (50, 50)] = some bt ∧ AllocNext 3 bt ∧
      (∀ ops1 ops2, [((10 : Int), (10 : Int)), (20, 20), (30, 30), (40, 40), (50, 50)]
          = ops1 ++ ops2 →
        ∃ bt0, btree.insert_all 3 6
            (btree.new 3 (btree.run 3 4 [(10, 10), (20, 20), (30, 30), (40, 40)]).pm) ops1
            = some bt0 ∧
          bt0.header.count ≤ bt.header.count) ∧
      (∀ (v k : Int) (d : Nat) (ptr : node), Reach bt.pm bt.header.root_id d ptr.page_id →
        bt.pm.nodeAt ptr.page_id = some ptr →
        ∃ bt1 ptr1 st, bt.insert_node 3 6 ptr v k = some (bt1, ptr1, st) ∧
          bt.header.count ≤ bt1.header.count ∧ AllocNext 3 bt1 ∧
          AllocNext 3 (bt1.new_node 3).1) ∧
      ((∀ p, (btree.run 3 4 [(10, 10), (20, 20), (30, 30), (40, 40)]).pm p = none) →
        AllocOK 3 bt ∧
        ∀ (v k : Int) (d : Nat) (ptr : node), Reach bt.pm bt.header.root_id d ptr.page_id →
          bt.pm.nodeAt ptr.page_id = some ptr →
          ∃ bt1 ptr1 st, bt.insert_node 3 6 ptr v k = some (bt1, ptr1, st) ∧
            AllocOK 3 bt1 ∧ AllocOK 3 (bt1.new_node 3).1) :=
  ⟨by decide, by decide, new_node_allocates_next_page 3 (by decide) _ _ 6 (by decide)⟩

end utec.disk
